import Mathlib

/-!
# Scene dependency graph: build, cycle detection, finalize, tag flushing

A shallow embedding of `depsgraph_build.cpp` and `depsgraph_tag.cpp`.

Pointers are handles: a node pointer is an index into `Depsgraph.nodes`, a
relation pointer an index into `Depsgraph.relations`, a datablock pointer an
index into `Main.ids`, a scene pointer an index into `Main.scene`.  A null
pointer is `none`.  Every node class of the C++ hierarchy is stored in one
record type `DepsNode` that carries the fields of all the subclasses; the
`type` tag says which of them are meaningful.
Diagnostic output to stdout is not part of the state; messages written to
stderr by the builders are kept in the result of the builder call.
-/

namespace DEG

/-! ## Data model -/

/-- Modelled from the spec: the node type tags of `depsgraph_types.h`, a header
that is not part of the sources at hand.  The constructors are the tags the
two translation units mention, plus the root and ID tags of the spec's node
model. -/
inductive eDepsNode_Type
  | DEPSNODE_TYPE_UNDEFINED
  | DEPSNODE_TYPE_ROOT
  | DEPSNODE_TYPE_TIMESOURCE
  | DEPSNODE_TYPE_ID_REF
  | DEPSNODE_TYPE_PARAMETERS
  | DEPSNODE_TYPE_PROXY
  | DEPSNODE_TYPE_ANIMATION
  | DEPSNODE_TYPE_TRANSFORM
  | DEPSNODE_TYPE_GEOMETRY
  | DEPSNODE_TYPE_SEQUENCER
  | DEPSNODE_TYPE_EVAL_POSE
  | DEPSNODE_TYPE_BONE
  | DEPSNODE_TYPE_EVAL_PARTICLES
  | DEPSNODE_TYPE_SHADING
  | DEPSNODE_TYPE_OPERATION
  deriving DecidableEq, Repr, Inhabited

open eDepsNode_Type

/-- A directed relation `from_ -> to_` (the C++ fields `from` and `to`), with
its type code, diagnostic name and flag bitset. -/
structure DepsRelation where
  from_ : Nat := 0
  to_ : Nat := 0
  type : Nat := 0
  name : String := ""
  flag : Nat := 0
  deriving DecidableEq, Repr, Inhabited

/-- One graph node.  `name`, `type`, `inlinks`, `outlinks`, `done` are the
fields of the base class; `id`, `components`, `eval_flags`, `layers` those of
an ID node; `operations` and `owner` those of a component node; `owner`,
`evaluate` (the callback, kept as a code), `optype`, `opcode`,
`num_links_pending`, `scheduled`, `flag` those of an operation node.  Maps are association lists in insertion order. -/
structure DepsNode where
  name : String := ""
  type : eDepsNode_Type := DEPSNODE_TYPE_UNDEFINED
  inlinks : List Nat := []
  outlinks : List Nat := []
  done : Nat := 0
  owner : Nat := 0
  id : Nat := 0
  components : List ((eDepsNode_Type × String) × Nat) := []
  eval_flags : Nat := 0
  layers : Nat := 0
  operations : List ((Nat × String) × Nat) := []
  evaluate : Nat := 0
  optype : Nat := 0
  opcode : Nat := 0
  num_links_pending : Int := 0
  scheduled : Bool := false
  flag : Nat := 0
  deriving DecidableEq, Repr, Inhabited

/-- The graph: the node and relation stores, the map from datablock to ID node,
the flat list of operation nodes, the entry tags, the visible layers and the
stale-relations flag. -/
structure Depsgraph where
  nodes : List DepsNode := []
  relations : List DepsRelation := []
  root_node : Option Nat := none
  id_hash : List (Nat × Nat) := []
  operations : List Nat := []
  entry_tags : List Nat := []
  layers : Nat := 0
  need_update : Bool := false
  deriving DecidableEq, Repr, Inhabited

/-- A datablock: its name (the first two characters are the type code), its
flag bits, and, for an object, the legacy `recalc` bits and the `data`
pointer. -/
structure ID where
  name : String := ""
  flag : Nat := 0
  recalc : Nat := 0
  data : Option Nat := none
  deriving DecidableEq, Repr, Inhabited

/-- A scene: its datablock (`scene->id`, a handle like every datablock), its
graph (null when `none`) and the layers it has been updated for. -/
structure Scene where
  id : Nat := 0
  depsgraph : Option Depsgraph := none
  lay_updated : Nat := 0
  deriving DecidableEq, Repr, Inhabited

/-- A window of the window manager, as far as the graph code looks at it: the
scene of its screen (`win->screen->scene`, a scene handle) and the layers the
external `BKE_screen_visible_layers` reports for that screen and scene. -/
structure wmWindow where
  scene : Nat := 0
  visible_layers : Nat := 0
  deriving DecidableEq, Repr, Inhabited

/-- The part of the main database the graph code touches: the datablocks, the
per-type update table `id_tag_update` (256 entries), the sequence of
datablocks handed to the editors' update callback, the scenes, and the windows
of the first window manager (`none` when `bmain->wm.first` is null). -/
structure Main where
  ids : List ID := []
  id_tag_update : List Nat := []
  editors_id_update : List Nat := []
  scene : List Scene := []
  wm : Option (List wmWindow) := none
  deriving DecidableEq, Repr, Inhabited

/-- Dereference a node pointer. -/
def Depsgraph.node (g : Depsgraph) (n : Nat) : DepsNode := g.nodes.getD n default

/-- Dereference a relation pointer. -/
def Depsgraph.rel (g : Depsgraph) (r : Nat) : DepsRelation := g.relations.getD r default

/-- Write through a node pointer. -/
def Depsgraph.modifyNode (g : Depsgraph) (n : Nat) (f : DepsNode → DepsNode) : Depsgraph :=
  { g with nodes := g.nodes.modify f n }

/-- Write through a relation pointer. -/
def Depsgraph.modifyRel (g : Depsgraph) (r : Nat) (f : DepsRelation → DepsRelation) : Depsgraph :=
  { g with relations := g.relations.modify f r }

/-- Dereference a datablock pointer. -/
def Main.getID (bmain : Main) (i : Nat) : ID := bmain.ids.getD i default

/-- Write through a datablock pointer. -/
def Main.modifyID (bmain : Main) (i : Nat) (f : ID → ID) : Main :=
  { bmain with ids := bmain.ids.modify f i }

/-- Dereference a scene pointer. -/
def Main.getScene (bmain : Main) (s : Nat) : Scene := bmain.scene.getD s default

/-- Write through a scene pointer. -/
def Main.modifyScene (bmain : Main) (s : Nat) (f : Scene → Scene) : Main :=
  { bmain with scene := bmain.scene.modify f s }

/-! ## Constants declared outside the sources at hand

The flag constants are named by the spec without their values; each is taken
as a single bit, distinct from the other bits of the same bitset.  The type
codes are the two characters of the datablock type read as a little-endian
short. -/

/-- Modelled from the spec: the `CYCLIC` bit of a relation's flag bitset. -/
def DEPSREL_FLAG_CYCLIC : Nat := 1

/-- Modelled from the spec: the `DIRECTLY_MODIFIED` bit of an operation's flag. -/
def DEPSOP_FLAG_DIRECTLY_MODIFIED : Nat := 1

/-- Modelled from the spec: the `NEEDS_UPDATE` bit of an operation's flag. -/
def DEPSOP_FLAG_NEEDS_UPDATE : Nat := 2

/-- Modelled from the spec: the transient re-tag marker bit of a datablock's flag. -/
def LIB_DOIT : Nat := 1024

/-- Modelled from the spec: datablock flag bit, the datablock is tagged for recalculation. -/
def LIB_ID_RECALC : Nat := 4096

/-- Modelled from the spec: datablock flag bit, the datablock's data is tagged for recalculation. -/
def LIB_ID_RECALC_DATA : Nat := 8192

/-- Modelled from the spec: both recalculation bits of a datablock's flag. -/
def LIB_ID_RECALC_ALL : Nat := LIB_ID_RECALC ||| LIB_ID_RECALC_DATA

/-- Modelled from the spec: legacy object recalculation kind, object transform. -/
def OB_RECALC_OB : Nat := 1

/-- Modelled from the spec: legacy object recalculation kind, object data. -/
def OB_RECALC_DATA : Nat := 2

/-- Modelled from the spec: legacy object recalculation kind, time. -/
def OB_RECALC_TIME : Nat := 4

/-- Modelled from the spec: all legacy object recalculation kinds. -/
def OB_RECALC_ALL : Nat := OB_RECALC_OB ||| OB_RECALC_DATA ||| OB_RECALC_TIME

/-- Modelled from the spec: the type code of object datablocks, the two
characters `OB` read as a little-endian short. -/
def ID_OB : Nat := 79 + 256 * 66

/-- The macro `GS`: the type code held in the first two characters of a
datablock name. -/
def GS (name : String) : Nat :=
  match name.data with
  | c0 :: c1 :: _ => c0.toNat + 256 * c1.toNat
  | [c0] => c0.toNat
  | [] => 0

/-- The owning ID node of an operation node: `node->owner->owner`. -/
def Depsgraph.id_node_of (g : Depsgraph) (node : Nat) : Nat :=
  (g.node (g.node node).owner).owner

/-! ## Cycle detection (`deg_graph_detect_cycles`) -/

/-- Not visited at all during traversal. -/
def NODE_NOT_VISITED : Nat := 0

/-- Visited during traversal and not in the current stack. -/
def NODE_VISITED : Nat := 1

/-- Visited during traversal and in the current stack. -/
def NODE_IN_STACK : Nat := 2

/-- An entry of the traversal stack.  `from_` is the position, counted from the
bottom of the stack, of the entry this one was reached from. -/
structure StackEntry where
  node : Nat
  from_ : Option Nat
  via_relation : Option Nat
  deriving DecidableEq, Repr, Inhabited

/-- The test `has_inlinks` of the first loop: some inbound relation comes from
an operation node. -/
def has_operation_inlinks (g : Depsgraph) (node : Nat) : Bool :=
  (g.node node).inlinks.any fun r => decide ((g.node (g.rel r).from_).type = DEPSNODE_TYPE_OPERATION)

/-- First loop of `deg_graph_detect_cycles`, over the remaining operations: an
operation without inbound operation relation is pushed and marked
`NODE_IN_STACK`, every other one is marked `NODE_NOT_VISITED`.  The head of
the stack list is the top of the stack. -/
def detect_cycles_init : List Nat → Depsgraph → List StackEntry → Depsgraph × List StackEntry
  | [], g, stack => (g, stack)
  | node :: rest, g, stack =>
    if has_operation_inlinks g node = false then
      detect_cycles_init rest (g.modifyNode node fun n => { n with done := NODE_IN_STACK })
        ({ node := node, from_ := none, via_relation := none } :: stack)
    else
      detect_cycles_init rest (g.modifyNode node fun n => { n with done := NODE_NOT_VISITED }) stack

/-- The scan of the outlinks of the node on top of the stack, from relation
`rels` on.  A relation into a node that is in the stack gets the `CYCLIC` bit;
at the first relation into a node not yet visited the scan stops (`break`)
with that node marked `NODE_IN_STACK`, and the result names the node and the
relation; `none` means all children were traversed. -/
def detect_cycles_scan : List Nat → Depsgraph → Depsgraph × Option (Nat × Nat)
  | [], g => (g, none)
  | r :: rels, g =>
    let to_ := (g.rel r).to_
    if (g.node to_).type = DEPSNODE_TYPE_OPERATION then
      if (g.node to_).done = NODE_IN_STACK then
        detect_cycles_scan rels (g.modifyRel r fun rel => { rel with flag := rel.flag ||| DEPSREL_FLAG_CYCLIC })
      else if (g.node to_).done = NODE_NOT_VISITED then
        (g.modifyNode to_ fun n => { n with done := NODE_IN_STACK }, some (to_, r))
      else
        detect_cycles_scan rels g
    else
      detect_cycles_scan rels g

/-- The traversal loop of `deg_graph_detect_cycles`, at most `fuel` iterations. -/
def detect_cycles_loop : Nat → Depsgraph → List StackEntry → Depsgraph × List StackEntry
  | 0, g, stack => (g, stack)
  | _ + 1, g, [] => (g, [])
  | fuel + 1, g, entry :: stack =>
    match detect_cycles_scan (g.node entry.node).outlinks g with
    | (g', some (to_, rel)) =>
      detect_cycles_loop fuel g'
        ({ node := to_, from_ := some stack.length, via_relation := some rel } :: entry :: stack)
    | (g', none) =>
      detect_cycles_loop fuel (g'.modifyNode entry.node fun n => { n with done := NODE_VISITED }) stack

/-- A number of iterations after which the traversal stack is empty: every
iteration pushes a node that was not visited or pops an entry. -/
def detect_cycles_fuel (g : Depsgraph) : Nat :=
  g.operations.length + 2 * g.nodes.length

/-- The state in which `deg_graph_detect_cycles` leaves the graph, with what is
left of the traversal stack. -/
def detect_cycles_run (g : Depsgraph) : Depsgraph × List StackEntry :=
  let s := detect_cycles_init g.operations g []
  detect_cycles_loop (detect_cycles_fuel g) s.1 s.2

/-- The function `deg_graph_detect_cycles`. -/
def deg_graph_detect_cycles (g : Depsgraph) : Depsgraph :=
  (detect_cycles_run g).1

/-! ## Tagging helpers declared outside the sources at hand -/

/-- The C expression `x & ~m` on unsigned values: the bits of `m` cleared. -/
def clear_bits (x m : Nat) : Nat := x ^^^ (x &&& m)

/-- Modelled from the spec: `OperationDepsNode::tag_update`, which is not part
of the sources at hand.  The operation is marked `DIRECTLY_MODIFIED` and
becomes an entry tag (the entry tags are a set). -/
def OperationDepsNode.tag_update (g : Depsgraph) (op_node : Nat) : Depsgraph :=
  let g1 := g.modifyNode op_node fun n => { n with flag := n.flag ||| DEPSOP_FLAG_DIRECTLY_MODIFIED }
  { g1 with entry_tags := if op_node ∈ g1.entry_tags then g1.entry_tags else g1.entry_tags ++ [op_node] }

/-- Modelled from the spec: `ComponentDepsNode::tag_update`, which is not part
of the sources at hand: every operation of the component is tagged. -/
def ComponentDepsNode.tag_update (g : Depsgraph) (comp_node : Nat) : Depsgraph :=
  ((g.node comp_node).operations.map Prod.snd).foldl OperationDepsNode.tag_update g

/-- Modelled from the spec: `IDDepsNode::tag_update(graph, do_time)`, which is
not part of the sources at hand: every component of the ID node is tagged.
The spec does not say what the time flag changes, so it has no effect here. -/
def IDDepsNode.tag_update (g : Depsgraph) (id_node : Nat) (_do_time : Bool) : Depsgraph :=
  ((g.node id_node).components.map Prod.snd).foldl ComponentDepsNode.tag_update g

/-! ## Finalize (`deg_graph_build_finalize`) -/

/-- What the finalize loop does with the node on top of the stack: `expand`
scans its outlinks, decrementing the pending counters of the targets and
pushing the ready ones; `finalize` pops it and runs the layer and re-tag
step. -/
inductive FinalizeEvent
  | expand (node : Nat)
  | finalize (node : Nat)
  deriving DecidableEq, Repr, Inhabited

/-- The state of `deg_graph_build_finalize`: the datablocks, the graph, the
ready stack (head is the top), the events so far in order, and whether the
assertion `to->num_links_pending > 0` has failed. -/
structure FinalizeState where
  bmain : Main
  graph : Depsgraph
  stack : List Nat
  trace : List FinalizeEvent
  assert_failed : Bool
  deriving DecidableEq, Repr, Inhabited

/-- The condition under which the first loop counts an inbound relation: its
source is an operation node and its `CYCLIC` bit is unset. -/
def counts_as_pending (g : Depsgraph) (r : Nat) : Bool :=
  decide ((g.node (g.rel r).from_).type = DEPSNODE_TYPE_OPERATION ∧
    (g.rel r).flag &&& DEPSREL_FLAG_CYCLIC = 0)

/-- First loop of `deg_graph_build_finalize`, over the remaining operations:
`done` is reset, `num_links_pending` becomes the number of inbound relations
that count, the node is pushed when that number is zero, and the owning
datablock gets `LIB_DOIT`. -/
def finalize_init : List Nat → Main → Depsgraph → List Nat → Main × Depsgraph × List Nat
  | [], bmain, g, stack => (bmain, g, stack)
  | node :: rest, bmain, g, stack =>
    let pending : Int := ((g.node node).inlinks.countP (counts_as_pending g) : Nat)
    let g1 := g.modifyNode node fun n => { n with done := 0, num_links_pending := pending }
    let stack1 := if (g1.node node).num_links_pending = 0 then node :: stack else stack
    let id := (g1.node (g1.id_node_of node)).id
    finalize_init rest (bmain.modifyID id fun i => { i with flag := i.flag ||| LIB_DOIT }) g1 stack1

/-- The relation has `CYCLIC` unset. -/
def cyclic_unset (g : Depsgraph) (r : Nat) : Bool :=
  decide ((g.rel r).flag &&& DEPSREL_FLAG_CYCLIC = 0)

/-- The statement `--to->num_links_pending`. -/
def DepsNode.decrement_pending (n : DepsNode) : DepsNode :=
  { n with num_links_pending := n.num_links_pending - 1 }

/-- The scan of the outlinks of a node visited for the first time, from `rels`
on: the pending counter of the target operation of a relation without `CYCLIC`
is decremented (the assertion is that it was positive), and a target whose
counter is zero is pushed. -/
def finalize_expand : List Nat → Depsgraph → List Nat → Bool → Depsgraph × List Nat × Bool
  | [], g, stack, af => (g, stack, af)
  | r :: rels, g, stack, af =>
    let to_ := (g.rel r).to_
    if (g.node to_).type = DEPSNODE_TYPE_OPERATION then
      let af1 := af || (cyclic_unset g r && decide ((g.node to_).num_links_pending ≤ 0))
      let g1 := if cyclic_unset g r then g.modifyNode to_ DepsNode.decrement_pending else g
      let stack1 := if (g1.node to_).num_links_pending = 0 then to_ :: stack else stack
      finalize_expand rels g1 stack1 af1
    else
      finalize_expand rels g stack af

/-- The layer loop of the pop branch, from `rels` on: the layers of the owning
ID node of every target operation are ORed into `id_node`. -/
def finalize_layers : List Nat → Depsgraph → Nat → Depsgraph
  | [], g, _ => g
  | r :: rels, g, id_node =>
    let to_ := (g.rel r).to_
    if (g.node to_).type = DEPSNODE_TYPE_OPERATION then
      let id_to := g.id_node_of to_
      finalize_layers rels
        (g.modifyNode id_node fun n => { n with layers := n.layers ||| (g.node id_to).layers }) id_node
    else
      finalize_layers rels g id_node

/-- The re-tag step of the pop branch: a datablock that carries a recalc bit
and `LIB_DOIT` has its ID node tagged for update, with the time flag when it
is an object with `OB_RECALC_TIME`, and loses `LIB_DOIT`. -/
def finalize_retag (bmain : Main) (g : Depsgraph) (id_node : Nat) : Main × Depsgraph :=
  let id := (g.node id_node).id
  let idb := bmain.getID id
  if idb.flag &&& LIB_ID_RECALC_ALL ≠ 0 ∧ idb.flag &&& LIB_DOIT ≠ 0 then
    let do_time : Bool := decide (GS idb.name = ID_OB ∧ idb.recalc &&& OB_RECALC_TIME ≠ 0)
    (bmain.modifyID id fun i => { i with flag := clear_bits i.flag LIB_DOIT },
      IDDepsNode.tag_update g id_node do_time)
  else
    (bmain, g)

/-- One iteration of the `while (!stack.empty())` loop on a non-empty stack
`node :: rest`. -/
def finalize_step (s : FinalizeState) (node : Nat) (rest : List Nat) : FinalizeState :=
  if (s.graph.node node).done = 0 ∧ (s.graph.node node).outlinks.length ≠ 0 then
    let e := finalize_expand (s.graph.node node).outlinks s.graph (node :: rest) s.assert_failed
    { s with
      graph := e.1.modifyNode node fun n => { n with done := 1 }
      stack := e.2.1
      trace := s.trace ++ [FinalizeEvent.expand node]
      assert_failed := e.2.2 }
  else
    let id_node := s.graph.id_node_of node
    let g1 := finalize_layers (s.graph.node node).outlinks s.graph id_node
    let t := finalize_retag s.bmain g1 id_node
    { s with
      bmain := t.1
      graph := t.2
      stack := rest
      trace := s.trace ++ [FinalizeEvent.finalize node] }

/-- The `while (!stack.empty())` loop, at most `fuel` iterations. -/
def finalize_loop : Nat → FinalizeState → FinalizeState
  | 0, s => s
  | fuel + 1, s =>
    match s.stack with
    | [] => s
    | node :: rest => finalize_loop fuel (finalize_step s node rest)

/-- The state with which the `while` loop of `deg_graph_build_finalize` starts. -/
def finalize_start (bmain : Main) (g : Depsgraph) : FinalizeState :=
  let i := finalize_init g.operations bmain g []
  { bmain := i.1, graph := i.2.1, stack := i.2.2, trace := [], assert_failed := false }

/-- A number of iterations after which the ready stack is empty: a node is
expanded at most once and then pushes at most one entry per outlink, and
every other iteration pops an entry. -/
def finalize_fuel (g : Depsgraph) : Nat :=
  g.operations.length + (g.nodes.map fun n => 1 + n.outlinks.length).sum

/-- The state in which `deg_graph_build_finalize` stops. -/
def finalize_run (bmain : Main) (g : Depsgraph) : FinalizeState :=
  finalize_loop (finalize_fuel g) (finalize_start bmain g)

/-- The function `deg_graph_build_finalize`: the datablocks and the graph when
the loop has emptied the stack. -/
def deg_graph_build_finalize (bmain : Main) (g : Depsgraph) : Option (Main × Depsgraph) :=
  let s := finalize_run bmain g
  if s.stack = [] then some (s.bmain, s.graph) else none

/-- The nodes in the order in which they are finalized (popped from the ready
stack and given their layer and re-tag step). -/
def finalize_order (trace : List FinalizeEvent) : List Nat :=
  trace.filterMap fun e =>
    match e with
    | FinalizeEvent.finalize n => some n
    | FinalizeEvent.expand _ => none

/-! ## Update flushing (`DEG_graph_flush_updates`) -/

/-- Modelled from the spec: the type code of node-tree datablocks (`NT`). -/
def ID_NT : Nat := 78 + 256 * 84

/-- Modelled from the spec: the type code of material datablocks (`MA`). -/
def ID_MA : Nat := 77 + 256 * 65

/-- Modelled from the spec: the type code of texture datablocks (`TE`). -/
def ID_TE : Nat := 84 + 256 * 69

/-- Modelled from the spec: the type code of lamp datablocks (`LA`). -/
def ID_LA : Nat := 76 + 256 * 65

/-- Modelled from the spec: the type code of world datablocks (`WO`). -/
def ID_WO : Nat := 87 + 256 * 79

/-- Modelled from the spec: the type code of scene datablocks (`SC`). -/
def ID_SCE : Nat := 83 + 256 * 67

/-- The assignment `bmain->id_tag_update[((unsigned char *)&idtype)[0]] = 1`; the
first byte of the type code is its low byte (little-endian layout, as in
`GS`). -/
def id_type_tag_set (bmain : Main) (idtype : Nat) : Main :=
  { bmain with id_tag_update := bmain.id_tag_update.set (idtype % 256) 1 }

/-- The function `DEG_id_type_tag`: a node tree also tags the types of the
datablocks that can own one. -/
def DEG_id_type_tag (bmain : Main) (idtype : Nat) : Main :=
  if idtype = ID_NT then
    id_type_tag_set
      (id_type_tag_set (id_type_tag_set (id_type_tag_set (id_type_tag_set
        (id_type_tag_set bmain ID_MA) ID_TE) ID_LA) ID_WO) ID_SCE) idtype
  else
    id_type_tag_set bmain idtype

/-- The function `lib_id_recalc_tag`. -/
def lib_id_recalc_tag (bmain : Main) (id : Nat) : Main :=
  DEG_id_type_tag (bmain.modifyID id fun i => { i with flag := i.flag ||| LIB_ID_RECALC })
    (GS (bmain.getID id).name)

/-- The function `lib_id_recalc_data_tag`. -/
def lib_id_recalc_data_tag (bmain : Main) (id : Nat) : Main :=
  DEG_id_type_tag (bmain.modifyID id fun i => { i with flag := i.flag ||| LIB_ID_RECALC_DATA })
    (GS (bmain.getID id).name)

/-- The external callback `deg_editors_id_update`, recorded as a call. -/
def deg_editors_id_update (bmain : Main) (id : Nat) : Main :=
  { bmain with editors_id_update := bmain.editors_id_update ++ [id] }

/-- The legacy recalc bit the flush gives an object, by the type of the
component that owns the newly tagged operation. -/
def flush_recalc_bit (comp_type : eDepsNode_Type) : Nat :=
  if comp_type = DEPSNODE_TYPE_ANIMATION then OB_RECALC_TIME
  else if comp_type = DEPSNODE_TYPE_TRANSFORM then OB_RECALC_OB
  else OB_RECALC_DATA

/-- First loop of `DEG_graph_flush_updates`, over the remaining entry tags:
each one is queued and its datablock reported to the editors.  The queue is a
list whose head is the front. -/
def flush_seed : List Nat → Main → Depsgraph → List Nat → Main × List Nat
  | [], bmain, _, queue => (bmain, queue)
  | node :: rest, bmain, g, queue =>
    flush_seed rest (deg_editors_id_update bmain (g.node (g.id_node_of node)).id) g (queue ++ [node])

/-- The loop over the outlinks of a dequeued node, from `rels` on: a target
without `NEEDS_UPDATE` gets the flag, is queued and reported to the editors,
and when its datablock is an object that object gets a legacy recalc bit. -/
def flush_outlinks : List Nat → Main → Depsgraph → List Nat → Main × Depsgraph × List Nat
  | [], bmain, g, queue => (bmain, g, queue)
  | r :: rels, bmain, g, queue =>
    let to_node := (g.rel r).to_
    let id_node := g.id_node_of to_node
    if (g.node to_node).flag &&& DEPSOP_FLAG_NEEDS_UPDATE = 0 then
      let id := (g.node id_node).id
      let comp_node := (g.node to_node).owner
      let bmain1 := if GS (bmain.getID id).name = ID_OB then
          bmain.modifyID id fun i =>
            { i with recalc := i.recalc ||| flush_recalc_bit (g.node comp_node).type }
        else bmain
      let g1 := g.modifyNode to_node fun n => { n with flag := n.flag ||| DEPSOP_FLAG_NEEDS_UPDATE }
      flush_outlinks rels (deg_editors_id_update bmain1 id) g1 (queue ++ [to_node])
    else
      flush_outlinks rels bmain g queue

/-- The `while (!queue.empty())` loop, at most `fuel` iterations; the result
keeps what is left of the queue. -/
def flush_loop : Nat → Main → Depsgraph → List Nat → Main × Depsgraph × List Nat
  | 0, bmain, g, queue => (bmain, g, queue)
  | _ + 1, bmain, g, [] => (bmain, g, [])
  | fuel + 1, bmain, g, node :: queue =>
    let id := (g.node (g.id_node_of node)).id
    let bmain1 := lib_id_recalc_data_tag (lib_id_recalc_tag bmain id) id
    let o := flush_outlinks (g.node node).outlinks bmain1 g queue
    flush_loop fuel o.1 o.2.1 o.2.2

/-- A number of iterations after which the queue is empty when every relation
points to a node of the graph: the entry tags, plus one per node that can
still get `NEEDS_UPDATE`. -/
def flush_fuel (g : Depsgraph) : Nat :=
  g.entry_tags.length + g.nodes.length

/-- The state in which the `while` loop of `DEG_graph_flush_updates` stops. -/
def flush_run (bmain : Main) (g : Depsgraph) : Main × Depsgraph × List Nat :=
  let s := flush_seed g.entry_tags bmain g []
  flush_loop (flush_fuel g) s.1 g s.2

/-- The body of `DEG_graph_flush_updates` for a non-null graph: the datablocks
and the graph, entry tags cleared, when the loop has emptied the queue. -/
def flush_updates (bmain : Main) (g : Depsgraph) : Option (Main × Depsgraph) :=
  let s := flush_run bmain g
  if s.2.2 = [] then some (s.1, { s.2.1 with entry_tags := [] }) else none

/-- The function `DEG_graph_flush_updates`; a null graph is `none` and is
returned at once. -/
def DEG_graph_flush_updates (bmain : Main) (graph : Option Depsgraph) :
    Option (Main × Option Depsgraph) :=
  match graph with
  | none => some (bmain, none)
  | some g => (flush_updates bmain g).map fun r => (r.1, some r.2)

/-! ## Node and relation builders -/

/-- What a builder call leaves behind: the graph, the returned value, the
lines written to stderr, and whether a `BLI_assert` failed (fatal in a debug
build, without effect in a release build). -/
structure BuilderResult (α : Type) where
  graph : Depsgraph
  value : α
  stderr : List String := []
  assert_failed : Bool := false
  deriving DecidableEq, Repr

/-- A component key: datablock, component type and component name. -/
structure ComponentKey where
  id : Nat
  type : eDepsNode_Type
  name : String := ""
  deriving DecidableEq, Repr, Inhabited

/-- An operation key: a component key with the operation code and name. -/
structure OperationKey where
  id : Nat
  component_type : eDepsNode_Type
  component_name : String := ""
  opcode : Nat
  name : String := ""
  deriving DecidableEq, Repr, Inhabited

/-- Lookup in an association list, first match. -/
def assoc_find {κ : Type} [DecidableEq κ] (key : κ) (l : List (κ × Nat)) : Option Nat :=
  (l.find? fun e => decide (e.1 = key)).map Prod.snd

/-- Modelled from the spec: `Depsgraph::find_id_node`, which is not part of
the sources at hand: the graph maps a datablock to at most one ID node. -/
def Depsgraph.find_id_node (g : Depsgraph) (id : Nat) : Option Nat :=
  assoc_find id g.id_hash

/-- Modelled from the spec: `IDDepsNode::find_component`, which is not part of
the sources at hand: an ID node keys its components by (type, name). -/
def IDDepsNode.find_component (g : Depsgraph) (id_node : Nat) (type : eDepsNode_Type)
    (name : String) : Option Nat :=
  assoc_find (type, name) (g.node id_node).components

/-- Modelled from the spec: `ComponentDepsNode::find_operation`, which is not
part of the sources at hand: a component keys its operations by
(opcode, name). -/
def ComponentDepsNode.find_operation (g : Depsgraph) (comp_node : Nat) (opcode : Nat)
    (name : String) : Option Nat :=
  assoc_find (opcode, name) (g.node comp_node).operations

/-- Modelled from the spec: `ComponentDepsNode::has_operation`, which is not
part of the sources at hand: the operation stored under (opcode, name), or
null. -/
def ComponentDepsNode.has_operation (g : Depsgraph) (comp_node : Nat) (opcode : Nat)
    (name : String) : Option Nat :=
  assoc_find (opcode, name) (g.node comp_node).operations

/-- Modelled from the spec: `ComponentDepsNode::add_operation`, which is not
part of the sources at hand, for a key the component does not hold: a new
operation node with the given type, callback, code and name is allocated,
owned by the component and stored under (opcode, name). -/
def ComponentDepsNode.add_operation (g : Depsgraph) (comp_node : Nat) (optype op opcode : Nat)
    (name : String) : Depsgraph × Nat :=
  let op_node := g.nodes.length
  let n : DepsNode :=
    { name := name, type := DEPSNODE_TYPE_OPERATION, owner := comp_node,
      evaluate := op, optype := optype, opcode := opcode }
  let g1 := { g with nodes := g.nodes ++ [n] }
  (g1.modifyNode comp_node fun c =>
    { c with operations := c.operations ++ [((opcode, name), op_node)] }, op_node)

/-- Modelled from the spec: `Depsgraph::add_new_relation`, which is not part of
the sources at hand: a new relation with no flag set is allocated and
referenced from the outlinks of its source and the inlinks of its target. -/
def Depsgraph.add_new_relation (g : Depsgraph) (from_ to_ : Nat) (type : Nat)
    (description : String) : Depsgraph × Nat :=
  let rel := g.relations.length
  let new_rel : DepsRelation :=
    { from_ := from_, to_ := to_, type := type, name := description, flag := 0 }
  let g1 := { g with relations := g.relations ++ [new_rel] }
  let g2 := g1.modifyNode from_ fun n => { n with outlinks := n.outlinks ++ [rel] }
  (g2.modifyNode to_ fun n => { n with inlinks := n.inlinks ++ [rel] }, rel)

/-- The method `DepsgraphNodeBuilder::add_operation_node` on a component node. -/
def DepsgraphNodeBuilder.add_operation_node (g : Depsgraph) (comp_node : Nat)
    (optype op opcode : Nat) (description : String) : BuilderResult (Option Nat) :=
  match ComponentDepsNode.has_operation g comp_node opcode description with
  | none =>
    let a := ComponentDepsNode.add_operation g comp_node optype op opcode description
    { graph := { a.1 with operations := a.1.operations ++ [a.2] }, value := some a.2 }
  | some op_node =>
    { graph := g, value := some op_node,
      stderr := ["add_operation: Operation already exists"], assert_failed := true }

/-- One request to `add_operation_node`. -/
structure OperationRequest where
  comp_node : Nat
  optype : Nat := 0
  op : Nat := 0
  opcode : Nat
  description : String := ""
  deriving DecidableEq, Repr, Inhabited

/-- A sequence of `add_operation_node` calls in a release build, one per
request. -/
def add_operation_nodes (g : Depsgraph) (reqs : List OperationRequest) : Depsgraph :=
  reqs.foldl
    (fun g q =>
      (DepsgraphNodeBuilder.add_operation_node g q.comp_node q.optype q.op q.opcode q.description).graph)
    g

/-- The method `DepsgraphRelationBuilder::find_node` for a component key. -/
def DepsgraphRelationBuilder.find_node_component (g : Depsgraph) (key : ComponentKey) :
    BuilderResult (Option Nat) :=
  match g.find_id_node key.id with
  | none =>
    { graph := g, value := none, stderr := ["find_node component: Could not find ID"] }
  | some id_node =>
    { graph := g, value := IDDepsNode.find_component g id_node key.type key.name }

/-- The method `DepsgraphRelationBuilder::find_node` for an operation key. -/
def DepsgraphRelationBuilder.find_node_operation (g : Depsgraph) (key : OperationKey) :
    BuilderResult (Option Nat) :=
  match g.find_id_node key.id with
  | none =>
    { graph := g, value := none, stderr := ["find_node operation: Could not find ID"] }
  | some id_node =>
    match IDDepsNode.find_component g id_node key.component_type key.component_name with
    | none =>
      { graph := g, value := none, stderr := ["find_node operation: Could not find component"] }
    | some comp_node =>
      match ComponentDepsNode.find_operation g comp_node key.opcode key.name with
      | none =>
        { graph := g, value := none, stderr := ["find_node_operation: Failed"] }
      | some op_node =>
        { graph := g, value := some op_node }

/-- The method `DepsgraphRelationBuilder::add_operation_relation`; the
endpoints are nullable pointers. -/
def DepsgraphRelationBuilder.add_operation_relation (g : Depsgraph) (node_from node_to : Option Nat)
    (type : Nat) (description : String) : BuilderResult Unit :=
  match node_from, node_to with
  | some from_, some to_ =>
    { graph := (g.add_new_relation from_ to_ type description).1, value := () }
  | _, _ => { graph := g, value := () }

/-! ## Clearing tags (`DEG_graph_clear_tags`) -/

/-- The body of the loop of `DEG_graph_clear_tags` on one operation node: the
two pending-update bits are cleared, the pending counter is reset and the node
is unscheduled. -/
def DepsNode.clear_tags (n : DepsNode) : DepsNode :=
  { n with
    flag := clear_bits n.flag (DEPSOP_FLAG_DIRECTLY_MODIFIED ||| DEPSOP_FLAG_NEEDS_UPDATE)
    num_links_pending := 0
    scheduled := false }

/-- The function `DEG_graph_clear_tags`: every operation of the operations list
is cleared, then the entry tags are emptied. -/
def DEG_graph_clear_tags (g : Depsgraph) : Depsgraph :=
  { g.operations.foldl (fun g node => g.modifyNode node DepsNode.clear_tags) g with
    entry_tags := [] }

/-! ## Tagging a datablock (`DEG_id_tag_update_ex`) -/

/-- The function `lib_id_recalc_tag_flag`.  `PSYS_RECALC`, the mask of the
particle-system recalc bits, is declared outside the sources at hand and is a
parameter. -/
def lib_id_recalc_tag_flag (PSYS_RECALC : Nat) (bmain : Main) (id : Nat) (flag : Nat) : Main :=
  if flag ≠ 0 then
    let bmain1 := if GS (bmain.getID id).name = ID_OB then
        bmain.modifyID id fun i => { i with recalc := i.recalc ||| (flag &&& OB_RECALC_ALL) }
      else bmain
    let bmain2 := if flag &&& OB_RECALC_OB ≠ 0 then lib_id_recalc_tag bmain1 id else bmain1
    if flag &&& (OB_RECALC_DATA ||| PSYS_RECALC) ≠ 0 then lib_id_recalc_data_tag bmain2 id
    else bmain2
  else
    lib_id_recalc_tag bmain id

/-- The function `anim_data_tag_update`; the datablock pointer may be null. -/
def anim_data_tag_update (g : Depsgraph) (id : Option Nat) : Depsgraph :=
  match id.bind g.find_id_node with
  | some id_node =>
    match IDDepsNode.find_component g id_node DEPSNODE_TYPE_ANIMATION "" with
    | some anim_comp => ComponentDepsNode.tag_update g anim_comp
    | none => g
  | none => g

/-- The function `DEG_graph_id_tag_update`. -/
def DEG_graph_id_tag_update (bmain : Main) (g : Depsgraph) (id : Nat) : Main × Depsgraph :=
  let node := g.find_id_node id
  let bmain1 := lib_id_recalc_tag bmain id
  match node with
  | some n => (bmain1, IDDepsNode.tag_update g n false)
  | none => (bmain1, g)

/-- The body of the scene loop of `DEG_id_tag_update_ex` for a scene that has
the graph `g`. -/
def id_tag_update_graph (bmain : Main) (g : Depsgraph) (id : Nat) (flag : Nat) :
    Main × Depsgraph :=
  if flag = 0 then
    DEG_graph_id_tag_update bmain g id
  else
    let s1 : Main × Depsgraph :=
      if flag &&& OB_RECALC_DATA ≠ 0 ∧ GS (bmain.getID id).name = ID_OB then
        let data := (bmain.getID id).data
        let s : Main × Depsgraph :=
          match data with
          | some d => DEG_graph_id_tag_update bmain g d
          | none => (bmain, g)
        if flag &&& OB_RECALC_TIME ≠ 0 then (s.1, anim_data_tag_update s.2 data) else s
      else (bmain, g)
    let s2 : Main × Depsgraph :=
      if flag &&& (OB_RECALC_OB ||| OB_RECALC_DATA) ≠ 0 then
        DEG_graph_id_tag_update s1.1 s1.2 id
      else s1
    if flag &&& OB_RECALC_TIME ≠ 0 then (s2.1, anim_data_tag_update s2.2 (some id)) else s2

/-- The scene loop of `DEG_id_tag_update_ex`, over the remaining scenes: a
scene without graph is skipped.  The result is the main database (its scene
list is set by the caller) and the scenes as the loop leaves them. -/
def id_tag_update_scenes : List Scene → Main → Nat → Nat → Main × List Scene
  | [], bmain, _, _ => (bmain, [])
  | scene :: rest, bmain, id, flag =>
    match scene.depsgraph with
    | some g =>
      let s := id_tag_update_graph bmain g id flag
      let r := id_tag_update_scenes rest s.1 id flag
      (r.1, { scene with depsgraph := some s.2 } :: r.2)
    | none =>
      let r := id_tag_update_scenes rest bmain id flag
      (r.1, scene :: r.2)

/-- The function `DEG_id_tag_update_ex`; a null `id` is `none`. -/
def DEG_id_tag_update_ex (PSYS_RECALC : Nat) (bmain : Main) (id : Option Nat) (flag : Nat) :
    Main :=
  match id with
  | none => bmain
  | some id =>
    let bmain1 := lib_id_recalc_tag_flag PSYS_RECALC bmain id flag
    let r := id_tag_update_scenes bmain1.scene bmain1 id flag
    { r.1 with scene := r.2 }

/-! ## Visibility changes (`DEG_graph_on_visible_update`) -/

/-- Modelled from the spec: `BKE_main_id_flag_listbase(&bmain->scene, flag,
true)`, a library function outside the sources at hand: the flag is set on the
datablock of every scene of the list. -/
def main_id_flag_scenes (bmain : Main) (flag : Nat) : Main :=
  bmain.scene.foldl (fun b sc => b.modifyID sc.id fun i => { i with flag := i.flag ||| flag })
    bmain

/-- The loop over the windows of `DEG_graph_on_visible_update`, from `wins` on:
the first window of each scene contributes its visible layers to `layers` and
takes `LIB_DOIT` off the scene. -/
def visible_layers_windows : List wmWindow → Main → Nat → Main × Nat
  | [], bmain, layers => (bmain, layers)
  | win :: wins, bmain, layers =>
    let sid := (bmain.getScene win.scene).id
    if (bmain.getID sid).flag &&& LIB_DOIT ≠ 0 then
      visible_layers_windows wins
        (bmain.modifyID sid fun i => { i with flag := clear_bits i.flag LIB_DOIT })
        (layers ||| win.visible_layers)
    else
      visible_layers_windows wins bmain layers

/-- The first part of `DEG_graph_on_visible_update`: the new value of
`graph->layers`, with the main database as the computation leaves it. -/
def visible_layers_update (bmain : Main) : Main × Nat :=
  match bmain.wm with
  | some wins => visible_layers_windows wins (main_id_flag_scenes bmain LIB_DOIT) 0
  | none => (bmain, 2 ^ 20 - 1)

/-- The body of the loop over the operations of `DEG_graph_on_visible_update`
for one operation `node`, with the scene's `lay_updated`. -/
def visible_update_node (bmain : Main) (lay_updated : Nat) (g : Depsgraph) (node : Nat) :
    Depsgraph :=
  let id_node := g.id_node_of node
  let id := bmain.getID (g.node id_node).id
  let g1 := if id.flag &&& LIB_ID_RECALC_ALL ≠ 0 ∨ (g.node id_node).layers &&& lay_updated = 0 then
      IDDepsNode.tag_update g id_node false
    else g
  if GS id.name = ID_OB ∧ id.flag &&& LIB_ID_RECALC_ALL = 0 ∧ id.recalc &&& OB_RECALC_ALL ≠ 0 then
    IDDepsNode.tag_update g1 id_node (decide (id.recalc &&& OB_RECALC_TIME ≠ 0))
  else g1

/-- The function `DEG_graph_on_visible_update` for the scene `scene`; the
callers pass a scene that has a graph, and a scene without one is left as it
is. -/
def DEG_graph_on_visible_update (bmain : Main) (scene : Nat) : Main :=
  match (bmain.getScene scene).depsgraph with
  | none => bmain
  | some graph =>
    let old_layers := graph.layers
    let v := visible_layers_update bmain
    let g1 : Depsgraph := { graph with layers := v.2 }
    let g2 := if old_layers ≠ g1.layers then
        g1.operations.foldl (visible_update_node v.1 (bmain.getScene scene).lay_updated) g1
      else g1
    v.1.modifyScene scene fun sc =>
      { sc with depsgraph := some g2, lay_updated := sc.lay_updated ||| g2.layers }

/-! ## Transitive reduction (`deg_graph_transitive_reduction`) -/

/-- The mark `OP_VISITED` of the reduction pass. -/
def OP_VISITED : Nat := 1

/-- The mark `OP_REACHABLE` of the reduction pass. -/
def OP_REACHABLE : Nat := 2

/-- The statement `node->done |= OP_VISITED`. -/
def DepsNode.mark_visited (n : DepsNode) : DepsNode := { n with done := n.done ||| OP_VISITED }

/-- The statement `node->done |= OP_REACHABLE`. -/
def DepsNode.mark_reachable (n : DepsNode) : DepsNode := { n with done := n.done ||| OP_REACHABLE }

/-- The statement `node->done = 0`. -/
def DepsNode.clear_done (n : DepsNode) : DepsNode := { n with done := 0 }

/-- The function `deg_graph_tag_paths_recursive`, with at most `fuel` nested
calls: a node that is not yet visited is marked, and every source of an
inbound relation is visited in turn and then marked reachable. -/
def deg_graph_tag_paths_recursive : Nat → Depsgraph → Nat → Depsgraph
  | 0, g, _ => g
  | fuel + 1, g, node =>
    if (g.node node).done &&& OP_VISITED ≠ 0 then g
    else
      (g.node node).inlinks.foldl
        (fun g r =>
          (deg_graph_tag_paths_recursive fuel g (g.rel r).from_).modifyNode (g.rel r).from_
            DepsNode.mark_reachable)
        (g.modifyNode node DepsNode.mark_visited)

/-- A depth of nested calls that `deg_graph_tag_paths_recursive` does not
exceed: every call that goes on marks a node that was not visited. -/
def tag_paths_fuel (g : Depsgraph) : Nat := g.nodes.length + 1

/-- Modelled from the spec: the destruction of a relation
(`OBJECT_GUARDED_DELETE(rel, DepsRelation)`; the destructor is outside the
sources at hand): the relation is no longer referenced from the outlinks of
its source and the inlinks of its target. -/
def Depsgraph.delete_relation (g : Depsgraph) (r : Nat) : Depsgraph :=
  (g.modifyNode (g.rel r).from_ fun n => { n with outlinks := n.outlinks.erase r }).modifyNode
    (g.rel r).to_ fun n => { n with inlinks := n.inlinks.erase r }

/-- The marking part of the body of `deg_graph_transitive_reduction` for one
`target`: the marks of all operations are cleared, the target is marked
visited, and the sources of its inbound relations are visited. -/
def transitive_reduction_tag (g : Depsgraph) (target : Nat) : Depsgraph :=
  let g1 := g.operations.foldl (fun g node => g.modifyNode node DepsNode.clear_done) g
  let g2 := g1.modifyNode target DepsNode.mark_visited
  (g2.node target).inlinks.foldl
    (fun g r => deg_graph_tag_paths_recursive (tag_paths_fuel g) g (g.rel r).from_) g2

/-- The test of the removal loop: the source of the relation is not a time
source and carries `OP_REACHABLE`. -/
def reduction_removes (g : Depsgraph) (r : Nat) : Bool :=
  decide ((g.node (g.rel r).from_).type ≠ DEPSNODE_TYPE_TIMESOURCE ∧
    (g.node (g.rel r).from_).done &&& OP_REACHABLE ≠ 0)

/-- The removal loop of the body of `deg_graph_transitive_reduction`, over the
inbound relations of the target as they were when the loop started. -/
def transitive_reduction_remove (g : Depsgraph) (rels : List Nat) : Depsgraph :=
  rels.foldl (fun g r => if reduction_removes g r then g.delete_relation r else g) g

/-- The body of the loop of `deg_graph_transitive_reduction` for one `target`. -/
def transitive_reduction_target (g : Depsgraph) (target : Nat) : Depsgraph :=
  let g3 := transitive_reduction_tag g target
  transitive_reduction_remove g3 (g3.node target).inlinks

/-- The function `deg_graph_transitive_reduction`. -/
def deg_graph_transitive_reduction (g : Depsgraph) : Depsgraph :=
  g.operations.foldl transitive_reduction_target g

/-! ## Building and rebuilding (`DEG_scene_relations_update`) -/

/-- What `DEG_graph_build_from_scene` calls and the sources at hand do not
hold: the `build_scene` methods of the node builder, of the datablock-users
builder and of the relation builder, each taken as a function of the main
database, the scene and the graph it works on, and the global
`G.debug_value`. -/
structure BuildEnv where
  node_builder : Main → Nat → Depsgraph → Depsgraph
  users_builder : Main → Nat → Depsgraph → Depsgraph
  relation_builder : Main → Nat → Depsgraph → Depsgraph
  debug_value : Int

/-- Modelled from the spec: `Depsgraph::add_root_node`, which is not part of
the sources at hand: the root node is created unless the graph has one. -/
def Depsgraph.add_root_node (g : Depsgraph) : Depsgraph :=
  match g.root_node with
  | some _ => g
  | none =>
    { g with
      nodes := g.nodes ++ [{ name := "Root", type := DEPSNODE_TYPE_ROOT }]
      root_node := some g.nodes.length }

/-- Modelled from the spec: `Depsgraph::clear_all_nodes`, which is not part of
the sources at hand: the nodes, with their relations, and the identity maps
are discarded. -/
def Depsgraph.clear_all_nodes (g : Depsgraph) : Depsgraph :=
  { g with nodes := [], relations := [], root_node := none, id_hash := [] }

/-- Modelled from the spec: `DEG_graph_new`, which is not part of the sources
at hand: a graph without nodes, relations, operations and entry tags. -/
def DEG_graph_new : Depsgraph := {}

/-- The function `DEG_graph_build_from_scene`: the three builders, cycle
detection, the transitive reduction when `G.debug_value` is 799, and the
finalize pass. -/
def DEG_graph_build_from_scene (env : BuildEnv) (graph : Depsgraph) (bmain : Main)
    (scene : Nat) : Option (Main × Depsgraph) :=
  let g1 := env.node_builder bmain scene graph.add_root_node
  let g2 := env.users_builder bmain scene g1
  let g3 := env.relation_builder bmain scene g2
  let g4 := deg_graph_detect_cycles g3
  let g5 := if env.debug_value = 799 then deg_graph_transitive_reduction g4 else g4
  deg_graph_build_finalize bmain g5

/-- The function `DEG_graph_tag_relations_update`. -/
def DEG_graph_tag_relations_update (g : Depsgraph) : Depsgraph :=
  { g with need_update := true }

/-- The assignment of a graph to `scene->depsgraph`. -/
def Main.setGraph (bmain : Main) (scene : Nat) (g : Depsgraph) : Main :=
  bmain.modifyScene scene fun sc => { sc with depsgraph := some g }

/-- The function `DEG_scene_relations_update`.  The graph is changed in place:
the builders see the main database with the scene's graph as it is when the
build starts, and the built graph is what the scene holds afterwards. -/
def DEG_scene_relations_update (env : BuildEnv) (bmain : Main) (scene : Nat) : Option Main :=
  match (bmain.getScene scene).depsgraph with
  | none =>
    (DEG_graph_build_from_scene env DEG_graph_new (bmain.setGraph scene DEG_graph_new)
      scene).map fun r => r.1.setGraph scene r.2
  | some graph =>
    if graph.need_update = false then some bmain
    else
      let cleared : Depsgraph := { graph.clear_all_nodes with operations := [], entry_tags := [] }
      (DEG_graph_build_from_scene env cleared (bmain.setGraph scene cleared) scene).map fun r =>
        r.1.setGraph scene { r.2 with need_update := false }

/-- The function `DEG_scene_relations_rebuild`. -/
def DEG_scene_relations_rebuild (env : BuildEnv) (bmain : Main) (scene : Nat) : Option Main :=
  match (bmain.getScene scene).depsgraph with
  | some graph =>
    DEG_scene_relations_update env (bmain.setGraph scene (DEG_graph_tag_relations_update graph))
      scene
  | none => DEG_scene_relations_update env bmain scene

/-! ## Names of F-curves (`deg_fcurve_id_name`) -/

/-- The part of an F-curve that `deg_fcurve_id_name` reads: the RNA path (a
C string, not null) and the array index (an `int`). -/
structure FCurve where
  rna_path : String := ""
  array_index : Int := 0
  deriving DecidableEq, Repr, Inhabited

/-- The decimal digits of `n`, most significant first; `fuel` bounds the
number of digits. -/
def decimal_digits : Nat → Nat → List Char
  | 0, _ => []
  | fuel + 1, n =>
    if n < 10 then [Char.ofNat (48 + n)]
    else decimal_digits fuel (n / 10) ++ [Char.ofNat (48 + n % 10)]

/-- The conversion `%d` of the C library function `sprintf`: the decimal
digits of the number, after a minus sign when it is negative. -/
def sprintf_d (i : Int) : String :=
  if i < 0 then String.mk ('-' :: decimal_digits (i.natAbs + 1) i.natAbs)
  else String.mk (decimal_digits (i.natAbs + 1) i.natAbs)

/-- The function `deg_fcurve_id_name`: the RNA path followed by the array index
in square brackets.  The buffer of 32 characters holds the brackets, the at
most eleven characters of an `int` and the terminating zero. -/
def deg_fcurve_id_name (fcu : FCurve) : String :=
  fcu.rna_path ++ ("[" ++ sprintf_d fcu.array_index ++ "]")

/-! ## Queries of the node builder (`has_operation_node`) -/

/-- Modelled from the spec: `Depsgraph::add_id_node`, which is not part of the
sources at hand: the ID node of the datablock when the graph has one, and
otherwise a new ID node with the given name, registered under the
datablock. -/
def Depsgraph.add_id_node (g : Depsgraph) (id : Nat) (name : String) : Depsgraph × Nat :=
  match g.find_id_node id with
  | some id_node => (g, id_node)
  | none =>
    ({ g with
        nodes := g.nodes ++ [{ name := name, type := DEPSNODE_TYPE_ID_REF, id := id }]
        id_hash := g.id_hash ++ [(id, g.nodes.length)] }, g.nodes.length)

/-- Modelled from the spec: `IDDepsNode::add_component`, which is not part of
the sources at hand: the component the ID node holds under (type, name) when
there is one, and otherwise a new component node of that type and name, stored
under (type, name). -/
def IDDepsNode.add_component (g : Depsgraph) (id_node : Nat) (type : eDepsNode_Type)
    (name : String) : Depsgraph × Nat :=
  match IDDepsNode.find_component g id_node type name with
  | some comp_node => (g, comp_node)
  | none =>
    let g1 : Depsgraph := { g with nodes := g.nodes ++ [{ name := name, type := type }] }
    (g1.modifyNode id_node fun n =>
      { n with components := n.components ++ [((type, name), g.nodes.length)] }, g.nodes.length)

/-- The method `DepsgraphNodeBuilder::add_id_node`; `idcode_to_name` stands for
the external `BKE_idcode_to_name`. -/
def DepsgraphNodeBuilder.add_id_node (idcode_to_name : Nat → String) (bmain : Main)
    (g : Depsgraph) (id : Nat) : Depsgraph × Nat :=
  let idtype_name := idcode_to_name (GS (bmain.getID id).name)
  g.add_id_node id ((bmain.getID id).name.drop 2 ++ "[" ++ idtype_name ++ "]")

/-- The method `DepsgraphNodeBuilder::add_component_node`. -/
def DepsgraphNodeBuilder.add_component_node (idcode_to_name : Nat → String) (bmain : Main)
    (g : Depsgraph) (id : Nat) (comp_type : eDepsNode_Type) (comp_name : String) :
    Depsgraph × Nat :=
  let a := DepsgraphNodeBuilder.add_id_node idcode_to_name bmain g id
  let c := IDDepsNode.add_component a.1 a.2 comp_type comp_name
  (c.1.modifyNode c.2 fun n => { n with owner := a.2 }, c.2)

/-- The method `DepsgraphNodeBuilder::has_operation_node`; the argument
`optype` is not used. -/
def DepsgraphNodeBuilder.has_operation_node (idcode_to_name : Nat → String) (bmain : Main)
    (g : Depsgraph) (id : Nat) (comp_type : eDepsNode_Type) (comp_name : String)
    (_optype : Nat) (opcode : Nat) (description : String) : BuilderResult Bool :=
  let c := DepsgraphNodeBuilder.add_component_node idcode_to_name bmain g id comp_type comp_name
  { graph := c.1, value := (ComponentDepsNode.has_operation c.1 c.2 opcode description).isSome }

/-! ## Vocabulary of the properties -/

/-- The relation `a -> b` of the non-cyclic operation subgraph: an outlink of
the operation node `a` with `CYCLIC` unset whose target is the operation node
`b`. -/
def noncyclic_op_edge (g : Depsgraph) (a b : Nat) : Prop :=
  (g.node a).type = DEPSNODE_TYPE_OPERATION ∧ (g.node b).type = DEPSNODE_TYPE_OPERATION ∧
    ∃ r ∈ (g.node a).outlinks, (g.rel r).to_ = b ∧ (g.rel r).flag &&& DEPSREL_FLAG_CYCLIC = 0

instance (g : Depsgraph) (a b : Nat) : Decidable (noncyclic_op_edge g a b) := by
  unfold noncyclic_op_edge
  infer_instance

/-- An outlink of `a` reaches `b`, whatever its flag. -/
def outlink_edge (g : Depsgraph) (a b : Nat) : Prop :=
  ∃ r ∈ (g.node a).outlinks, (g.rel r).to_ = b

instance (g : Depsgraph) (a b : Nat) : Decidable (outlink_edge g a b) := by
  unfold outlink_edge
  infer_instance

/-- The node carries `NEEDS_UPDATE`. -/
def needs_update (g : Depsgraph) (n : Nat) : Prop :=
  (g.node n).flag &&& DEPSOP_FLAG_NEEDS_UPDATE ≠ 0

instance (g : Depsgraph) (n : Nat) : Decidable (needs_update g n) := by
  unfold needs_update
  infer_instance

/-- The key of an operation node in the flat operations list: its component,
its operation code and its name (the description it was created with). -/
def operation_key (g : Depsgraph) (op_node : Nat) : Nat × Nat × String :=
  ((g.node op_node).owner, (g.node op_node).opcode, (g.node op_node).name)

/-- The state in which the node builder keeps the flat operations list: no
pointer occurs twice, and every listed operation is a node of the graph that
its component holds under the operation's own (opcode, name). -/
def operations_registered (g : Depsgraph) : Prop :=
  g.operations.Nodup ∧
    ∀ op_node ∈ g.operations, op_node < g.nodes.length ∧
      ComponentDepsNode.has_operation g (g.node op_node).owner (g.node op_node).opcode
        (g.node op_node).name = some op_node

/-- Every relation in an outlinks list of the graph points to a node of the
graph (the pointer `rel->to` is valid). -/
def outlinks_valid (g : Depsgraph) : Prop :=
  ∀ n < g.nodes.length, ∀ r ∈ (g.node n).outlinks, (g.rel r).to_ < g.nodes.length

instance (g : Depsgraph) : Decidable (outlinks_valid g) := by
  unfold outlinks_valid
  infer_instance

/-- An outlink of `a` reaches `b`, and `b` is without `NEEDS_UPDATE`. -/
def flush_edge (g : Depsgraph) (a b : Nat) : Prop :=
  outlink_edge g a b ∧ ¬ needs_update g b

/-- The node is reached from an entry tag through one or more outlinks, every
target on the way being without `NEEDS_UPDATE`. -/
def flush_reached (g : Depsgraph) (b : Nat) : Prop :=
  ∃ e ∈ g.entry_tags, Relation.TransGen (flush_edge g) e b

/-- A node with its operation flag blanked. -/
def strip_flag (n : DepsNode) : DepsNode := { n with flag := 0 }

/-- The graph `g` differs from `g0` in operation flags only. -/
def flags_only (g0 g : Depsgraph) : Prop :=
  g.nodes.map strip_flag = g0.nodes.map strip_flag ∧
    ({ g with nodes := [] } : Depsgraph) = { g0 with nodes := [] }

/-- The number of nodes of the graph without `NEEDS_UPDATE`. -/
def unflagged (g : Depsgraph) : Nat :=
  g.nodes.countP fun n => decide (n.flag &&& DEPSOP_FLAG_NEEDS_UPDATE = 0)

/-- The invariant of the flush loop with respect to the graph `g0` it started
on: only flags have changed, no flag was cleared, a flag was set only on a
reached node, the queue holds entry tags and reached nodes, and every entry
tag or newly flagged node is still queued, or satisfies `P`, or has all its
outlink targets flagged. -/
structure FlushInv (g0 g : Depsgraph) (queue : List Nat) (P : Nat → Prop) : Prop where
  same : flags_only g0 g
  mono : ∀ m, needs_update g0 m → needs_update g m
  sound : ∀ m, needs_update g m → needs_update g0 m ∨ flush_reached g0 m
  queued : ∀ x ∈ queue, x ∈ g0.entry_tags ∨ flush_reached g0 x
  closed : ∀ y, (y ∈ g0.entry_tags ∨ (needs_update g y ∧ ¬ needs_update g0 y)) →
    y ∈ queue ∨ P y ∨ ∀ r ∈ (g0.node y).outlinks, needs_update g (g0.rel r).to_

/-- The link lists are consistent: no relation occurs twice in a link list,
every outlink of a node starts at that node, ends at a node of the graph and
is an inlink of its target, and every inlink of a node ends at that node,
starts at a node of the graph and is an outlink of its source. -/
def links_consistent (g : Depsgraph) : Prop :=
  ∀ n < g.nodes.length,
    (g.node n).outlinks.Nodup ∧ (g.node n).inlinks.Nodup ∧
      (∀ r ∈ (g.node n).outlinks, (g.rel r).from_ = n ∧ (g.rel r).to_ < g.nodes.length ∧
        r ∈ (g.node (g.rel r).to_).inlinks) ∧
      (∀ r ∈ (g.node n).inlinks, (g.rel r).to_ = n ∧ (g.rel r).from_ < g.nodes.length ∧
        r ∈ (g.node (g.rel r).from_).outlinks)

instance (g : Depsgraph) : Decidable (links_consistent g) := by
  unfold links_consistent
  infer_instance

/-- The flat operations list holds exactly the operation nodes of the graph. -/
def operations_typed (g : Depsgraph) : Prop :=
  (∀ n ∈ g.operations, n < g.nodes.length ∧ (g.node n).type = DEPSNODE_TYPE_OPERATION) ∧
    ∀ n < g.nodes.length, (g.node n).type = DEPSNODE_TYPE_OPERATION → n ∈ g.operations

instance (g : Depsgraph) : Decidable (operations_typed g) := by
  unfold operations_typed
  infer_instance

/-- The graphs `g` and `g'` have the same relations and operations list, and
their nodes agree under the projection `h`. -/
def agree_on {β : Type} (h : DepsNode → β) (g g' : Depsgraph) : Prop :=
  g'.nodes.map h = g.nodes.map h ∧ g'.relations = g.relations ∧ g'.operations = g.operations

/-- The part of a node that no pass over the built graph changes: its type and
its link lists. -/
def node_shape (n : DepsNode) : eDepsNode_Type × List Nat × List Nat :=
  (n.type, n.inlinks, n.outlinks)

/-- The shape of a node with its traversal marker. -/
def node_shape_done (n : DepsNode) : (eDepsNode_Type × List Nat × List Nat) × Nat :=
  (node_shape n, n.done)

/-- The part of a node the finalize loop is steered by: shape, traversal
marker and pending counter. -/
def node_control (n : DepsNode) : ((eDepsNode_Type × List Nat × List Nat) × Nat) × Int :=
  (node_shape_done n, n.num_links_pending)

/-- The number of relations among `rels` that end at `b` with `CYCLIC` unset. -/
def remaining_into (g : Depsgraph) (b : Nat) (rels : List Nat) : Nat :=
  rels.countP fun r => decide ((g.rel r).to_ = b) && cyclic_unset g r

/-- The number of inbound relations of `b` that count as pending in the shape
`g0` and whose source is not yet expanded in `g`. -/
def waiting (g0 g : Depsgraph) (b : Nat) : Nat :=
  (g0.node b).inlinks.countP fun r =>
    counts_as_pending g0 r && decide ((g.node (g0.rel r).from_).done = 0)

/-- The relations counted by `waiting` whose source is not `a`. -/
def waiting_except (g0 g : Depsgraph) (a b : Nat) : Nat :=
  (g0.node b).inlinks.countP fun r =>
    (counts_as_pending g0 r && decide ((g.node (g0.rel r).from_).done = 0)) &&
      decide ((g0.rel r).from_ ≠ a)

/-- The invariant of the finalize loop with respect to the graph `g0` it was
called on: the shape is that of `g0`; the pending counter of every operation
is the number of its waiting inbound relations; an operation whose marker is
set has been expanded; the stack holds operations whose counter is zero; and
every event of a node comes after the expansion of the source of each of its
inbound relations that count. -/
structure FinalizeInv (g0 g : Depsgraph) (stack : List Nat) (trace : List FinalizeEvent) :
    Prop where
  shape : agree_on node_shape g0 g
  pending : ∀ b, (g0.node b).type = DEPSNODE_TYPE_OPERATION →
    (g.node b).num_links_pending = ((waiting g0 g b : Nat) : Int)
  marked : ∀ a, (g0.node a).type = DEPSNODE_TYPE_OPERATION →
    (g.node a).done ≠ 0 → FinalizeEvent.expand a ∈ trace
  ready : ∀ b ∈ stack, (g0.node b).type = DEPSNODE_TYPE_OPERATION ∧
    (g.node b).num_links_pending = 0
  ordered : ∀ pre post ev b, trace = pre ++ ev :: post →
    (ev = FinalizeEvent.finalize b ∨ ev = FinalizeEvent.expand b) →
    ∀ r ∈ (g0.node b).inlinks, counts_as_pending g0 r = true →
      FinalizeEvent.expand (g0.rel r).from_ ∈ pre

/-- The weight of a node in the termination measure of the finalize loop: a
node whose marker is unset can still be expanded once, which takes one
iteration and pushes at most one entry per outlink. -/
def expand_weight (n : DepsNode) : Nat :=
  if n.done = 0 then 1 + n.outlinks.length else 0

/-- The termination measure of the finalize loop: the height of the stack plus
the weight of the nodes. -/
def finalize_measure (g : Depsgraph) (stack : List Nat) : Nat :=
  stack.length + (g.nodes.map expand_weight).sum

/-- What tagging the datablock `id` does to a scene: a scene without graph is
left alone, and in the graph of a scene the ID node of the datablock, when
there is one, is tagged for update. -/
def scene_id_tagged (id : Nat) (sc : Scene) : Scene :=
  match sc.depsgraph with
  | none => sc
  | some g =>
    { sc with
      depsgraph := some (match g.find_id_node id with
        | some n => IDDepsNode.tag_update g n false
        | none => g) }

/-- The ID node `id_node` of `g0` is tagged for update in `g`: every operation
of every component of the ID node is an entry tag of `g`. -/
def id_node_tagged (g0 g : Depsgraph) (id_node : Nat) : Prop :=
  ∀ c ∈ (g0.node id_node).components.map Prod.snd,
    ∀ o ∈ (g0.node c).operations.map Prod.snd, o ∈ g.entry_tags

instance (g0 g : Depsgraph) (id_node : Nat) : Decidable (id_node_tagged g0 g id_node) := by
  unfold id_node_tagged
  infer_instance

/-- The graph with the flag of every relation replaced by what `flags` gives
for the relation. -/
def reflag (flags : DepsRelation → Nat) (g : Depsgraph) : Depsgraph :=
  { g with relations := g.relations.map fun r => { r with flag := flags r } }

/-- The node `a` is the source of an inbound relation of `b`. -/
def inlink_edge (g : Depsgraph) (a b : Nat) : Prop :=
  ∃ r ∈ (g.node b).inlinks, (g.rel r).from_ = a

instance (g : Depsgraph) (a b : Nat) : Decidable (inlink_edge g a b) := by
  unfold inlink_edge
  infer_instance

/-- The node carries `OP_VISITED`. -/
def op_visited (g : Depsgraph) (n : Nat) : Prop :=
  (g.node n).done &&& OP_VISITED ≠ 0

/-- The node carries `OP_REACHABLE`. -/
def op_reachable (g : Depsgraph) (n : Nat) : Prop :=
  (g.node n).done &&& OP_REACHABLE ≠ 0

/-- The number of nodes of the graph without `OP_VISITED`. -/
def unvisited (g : Depsgraph) : Nat :=
  g.nodes.countP fun n => decide (n.done &&& OP_VISITED = 0)

/-- Every inbound relation of a node ends at that node and starts at a node of
the graph (the pointer `rel->from` is valid). -/
def inlinks_valid (g : Depsgraph) : Prop :=
  ∀ n, ∀ r ∈ (g.node n).inlinks, (g.rel r).to_ = n ∧ (g.rel r).from_ < g.nodes.length

/-- Only operation nodes of the operations list have inbound relations. -/
def inlinks_on_operations (g : Depsgraph) : Prop :=
  ∀ n, n ∈ g.operations ∨ (g.node n).inlinks = []

/-- What a marking pass from the nodes `roots` has done between the graphs `g`
and `g'`, with the relations of `g0`: only marks have changed and none was
taken off; a node that got `OP_VISITED` reaches a root; a node that got
`OP_REACHABLE` is the source of an inbound relation of a node that got
`OP_VISITED`, or, in a pass that marks its roots, a root; and when the calls
were deep enough, the roots are marked and all the sources of the inbound
relations of a node that got `OP_VISITED` carry both marks. -/
structure TagInv (g0 g g' : Depsgraph) (roots : List Nat) (marks : Prop) (enough : Prop) :
    Prop where
  shape : agree_on DepsNode.clear_done g g'
  vis_mono : ∀ n, op_visited g n → op_visited g' n
  rch_mono : ∀ n, op_reachable g n → op_reachable g' n
  vis_sound : ∀ n, op_visited g' n → ¬ op_visited g n →
    ∃ p ∈ roots, Relation.ReflTransGen (inlink_edge g0) n p
  rch_sound : ∀ x, op_reachable g' x → ¬ op_reachable g x →
    (∃ N, inlink_edge g0 x N ∧ op_visited g' N ∧ ¬ op_visited g N) ∨ (marks ∧ x ∈ roots)
  vis_roots : enough → ∀ p ∈ roots, p < g0.nodes.length →
    op_visited g' p ∧ (marks → op_reachable g' p)
  closed : enough → ∀ n, op_visited g' n → ¬ op_visited g n →
    ∀ r ∈ (g0.node n).inlinks,
      op_visited g' (g0.rel r).from_ ∧ op_reachable g' (g0.rel r).from_

/-- The part of a node that the removal loop of the transitive reduction reads
and does not change: its type and its marks. -/
def node_marks (n : DepsNode) : eDepsNode_Type × Nat :=
  (n.type, n.done)

/-- The layers that the layer loop of the finalize pass collects into `acc`
from the relations `rels`: the layers of the owning ID node of every target
that is an operation, as they are in `g`. -/
def layers_from_targets (g : Depsgraph) (rels : List Nat) (acc : Nat) : Nat :=
  rels.foldl
    (fun acc r =>
      if (g.node (g.rel r).to_).type = DEPSNODE_TYPE_OPERATION then
        acc ||| (g.node (g.id_node_of (g.rel r).to_)).layers
      else acc)
    acc

/-- A node with its layers blanked. -/
def node_sans_layers (n : DepsNode) : DepsNode := { n with layers := 0 }

/-- A relation with its flag blanked. -/
def rel_sans_flag (r : DepsRelation) : DepsRelation := { r with flag := 0 }

/-- What `deg_graph_detect_cycles` may change between `g` and `g'`: the `done`
markers of the nodes and the flags of the relations, where a flag stays as it
is or gets the `CYCLIC` bit. -/
def cycles_frame (g g' : Depsgraph) : Prop :=
  g'.nodes.map DepsNode.clear_done = g.nodes.map DepsNode.clear_done ∧
    g'.relations.map rel_sans_flag = g.relations.map rel_sans_flag ∧
    ({ g' with nodes := [], relations := [] } : Depsgraph) = { g with nodes := [], relations := [] } ∧
    ∀ r, (g'.rel r).flag = (g.rel r).flag ∨
      (g'.rel r).flag = (g.rel r).flag ||| DEPSREL_FLAG_CYCLIC

/-- The number of nodes of the graph whose marker is `NODE_NOT_VISITED`. -/
def not_visited_count (g : Depsgraph) : Nat :=
  g.nodes.countP fun n => decide (n.done = NODE_NOT_VISITED)

/-- The operation relation `a -> b`, whatever its flag: an outlink of the
operation node `a` whose target is the operation node `b`. -/
def op_edge (g : Depsgraph) (a b : Nat) : Prop :=
  (g.node a).type = DEPSNODE_TYPE_OPERATION ∧ (g.node b).type = DEPSNODE_TYPE_OPERATION ∧
    ∃ r ∈ (g.node a).outlinks, (g.rel r).to_ = b

instance (g : Depsgraph) (a b : Nat) : Decidable (op_edge g a b) := by
  unfold op_edge
  infer_instance

/-- Every relation in an outlinks list of the graph is a relation of the graph
(the pointer `rel` is valid). -/
def outlinks_in_store (g : Depsgraph) : Prop :=
  ∀ n < g.nodes.length, ∀ r ∈ (g.node n).outlinks, r < g.relations.length

instance (g : Depsgraph) : Decidable (outlinks_in_store g) := by
  unfold outlinks_in_store
  infer_instance

/-- How the entry `a` of the traversal stack lies on the entry `b` below it:
below an operation without inbound operation relation there are only such
operations (they were pushed by the first loop), and any other operation was
pushed from the entry below it along an operation relation. -/
def stack_link (g0 : Depsgraph) (a b : StackEntry) : Prop :=
  (has_operation_inlinks g0 a.node = false → has_operation_inlinks g0 b.node = false) ∧
    (has_operation_inlinks g0 a.node = true → op_edge g0 b.node a.node)

/-- What holds between the iterations of the traversal loop of
`deg_graph_detect_cycles` run on `g0`, with `g` the graph, `stack` the
traversal stack and `order` the operations that were popped, the last one
first: only `done` markers and flags differ from `g0`; the entries of the stack
are operations that are not `NODE_NOT_VISITED`; an operation that is
`NODE_IN_STACK` is on the stack; the entries lie on each other as `stack_link`
says; when the link lists are consistent, a relation whose flag was changed
closes a cycle of operation relations; the popped operations are those that
are neither `NODE_NOT_VISITED` nor `NODE_IN_STACK`; every operation relation
out of a popped operation ends at an operation that is not `NODE_NOT_VISITED`,
and when its `CYCLIC` bit is unset, at one that was popped earlier; and the
operations without inbound operation relation are not `NODE_NOT_VISITED`. -/
structure CyclesInv (g0 g : Depsgraph) (stack : List StackEntry) (order : List Nat) : Prop where
  frame : cycles_frame g0 g
  stack_ops : ∀ e ∈ stack, e.node ∈ g0.operations ∧ (g.node e.node).done ≠ NODE_NOT_VISITED
  in_stack : ∀ n, (g0.node n).type = DEPSNODE_TYPE_OPERATION →
    (g.node n).done = NODE_IN_STACK → ∃ e ∈ stack, e.node = n
  chain : List.Chain' (stack_link g0) stack
  flagged : links_consistent g0 → ∀ r, (g.rel r).flag ≠ (g0.rel r).flag →
    r ∈ (g0.node (g0.rel r).from_).outlinks ∧ op_edge g0 (g0.rel r).from_ (g0.rel r).to_ ∧
      Relation.ReflTransGen (op_edge g0) (g0.rel r).to_ (g0.rel r).from_
  order_done : ∀ n ∈ order, (g0.node n).type = DEPSNODE_TYPE_OPERATION ∧
    (g.node n).done ≠ NODE_NOT_VISITED ∧ (g.node n).done ≠ NODE_IN_STACK
  done_order : ∀ n, (g0.node n).type = DEPSNODE_TYPE_OPERATION →
    (g.node n).done ≠ NODE_NOT_VISITED → (g.node n).done ≠ NODE_IN_STACK → n ∈ order
  order_edges : ∀ u ∈ order, ∀ r ∈ (g0.node u).outlinks, r < g0.relations.length →
    (g0.node (g0.rel r).to_).type = DEPSNODE_TYPE_OPERATION →
    (g.node (g0.rel r).to_).done ≠ NODE_NOT_VISITED ∧
      ((g.rel r).flag &&& DEPSREL_FLAG_CYCLIC = 0 →
        (g0.rel r).to_ ∈ order ∧ order.indexOf u < order.indexOf (g0.rel r).to_)
  roots_seen : ∀ n ∈ g0.operations, has_operation_inlinks g0 n = false →
    (g.node n).done ≠ NODE_NOT_VISITED

/-- The number that a list of decimal digits stands for. -/
def decimal_value (l : List Char) : Nat :=
  l.foldl (fun acc c => 10 * acc + (c.toNat - 48)) 0

/-- The nodes that the `while (!queue.empty())` loop of
`DEG_graph_flush_updates` takes from the front of the queue, in order, during
at most `fuel` iterations.  It follows `flush_loop` step by step. -/
def flush_dequeued : Nat → Main → Depsgraph → List Nat → List Nat
  | 0, _, _, _ => []
  | _ + 1, _, _, [] => []
  | fuel + 1, bmain, g, node :: queue =>
    let id := (g.node (g.id_node_of node)).id
    let bmain1 := lib_id_recalc_data_tag (lib_id_recalc_tag bmain id) id
    let o := flush_outlinks (g.node node).outlinks bmain1 g queue
    node :: flush_dequeued fuel o.1 o.2.1 o.2.2

/-- The nodes that leave the queue during one call of
`DEG_graph_flush_updates`, in order.  When the loop empties the queue these
are the nodes that were put on the queue, once for every `queue.push`. -/
def flush_queued (bmain : Main) (g : Depsgraph) : List Nat :=
  let s := flush_seed g.entry_tags bmain g []
  flush_dequeued (flush_fuel g) s.1 g s.2

/-- The number of operation nodes of the graph. -/
def operation_count (g : Depsgraph) : Nat :=
  ((List.range g.nodes.length).filter fun n =>
    decide ((g.node n).type = DEPSNODE_TYPE_OPERATION)).length

/-- Every relation in an outlinks list of the graph ends at an operation node
(what the cast `(OperationDepsNode *)rel->to` of the flush takes for
granted). -/
def outlinks_to_operations (g : Depsgraph) : Prop :=
  ∀ n < g.nodes.length, ∀ r ∈ (g.node n).outlinks,
    (g.node (g.rel r).to_).type = DEPSNODE_TYPE_OPERATION

instance (g : Depsgraph) : Decidable (outlinks_to_operations g) := by
  unfold outlinks_to_operations
  infer_instance

/-- The map from datablocks to ID nodes points to nodes of the graph. -/
def id_hash_valid (g : Depsgraph) : Prop :=
  ∀ e ∈ g.id_hash, e.2 < g.nodes.length

instance (g : Depsgraph) : Decidable (id_hash_valid g) := by
  unfold id_hash_valid
  infer_instance

/-- What the finalize loop has done with the operations that became ready,
with respect to the graph `g0` it was called on: an operation whose pending
counter is zero is on the stack or has been finalized, and an operation that
has been finalized has no outlinks or has its marker set (it was expanded
first). -/
structure FinalizeDone (g0 g : Depsgraph) (stack : List Nat) (trace : List FinalizeEvent) :
    Prop where
  pushed : ∀ n, (g0.node n).type = DEPSNODE_TYPE_OPERATION →
    (g.node n).num_links_pending = 0 → n ∈ stack ∨ FinalizeEvent.finalize n ∈ trace
  popped : ∀ a, FinalizeEvent.finalize a ∈ trace →
    (g0.node a).outlinks = [] ∨ (g.node a).done ≠ 0

/-! ## Example graphs -/

/-- An operation node with the given link lists. -/
def example_op (inlinks outlinks : List Nat) : DepsNode :=
  { type := DEPSNODE_TYPE_OPERATION, inlinks := inlinks, outlinks := outlinks }

/-- Two operations `0` and `1` with the relations `0 -> 1` and `1 -> 0`. -/
def example_cycle2 : Depsgraph :=
  { nodes := [example_op [1] [0], example_op [0] [1]]
    relations := [{ from_ := 0, to_ := 1 }, { from_ := 1, to_ := 0 }]
    operations := [0, 1] }

/-- Three operations `A = 0`, `B = 1`, `C = 2` with the relations `A -> B`,
`B -> C` and `C -> A`. -/
def example_cycle3 : Depsgraph :=
  { nodes := [example_op [2] [0], example_op [0] [1], example_op [1] [2]]
    relations := [{ from_ := 0, to_ := 1 }, { from_ := 1, to_ := 2 }, { from_ := 2, to_ := 0 }]
    operations := [0, 1, 2] }

/-- Two operations `A = 0` and `B = 1` with the single relation `A -> B`. -/
def example_chain2 : Depsgraph :=
  { nodes := [example_op [] [0], example_op [0] []]
    relations := [{ from_ := 0, to_ := 1 }]
    operations := [0, 1] }

/-- A transform component (node `0`) that holds the operation with code `5`
and name `x` (node `1`). -/
def example_component : Depsgraph :=
  { nodes := [{ type := DEPSNODE_TYPE_TRANSFORM, operations := [((5, "x"), 1)] },
      { name := "x", type := DEPSNODE_TYPE_OPERATION, owner := 0, opcode := 5 }]
    operations := [1] }

/-- An ID node (node `0`, datablock `0`) with a transform component (node `1`)
that holds the operation with code `5` and name `x` (node `2`). -/
def example_id_graph : Depsgraph :=
  { nodes := [
      { type := DEPSNODE_TYPE_ID_REF, id := 0, components := [((DEPSNODE_TYPE_TRANSFORM, ""), 1)] },
      { type := DEPSNODE_TYPE_TRANSFORM, owner := 0, operations := [((5, "x"), 2)] },
      { name := "x", type := DEPSNODE_TYPE_OPERATION, owner := 1, opcode := 5 }]
    id_hash := [(0, 0)]
    operations := [2] }

/-- One operation `0` that carries `NEEDS_UPDATE`; no entry tag. -/
def example_flagged : Depsgraph :=
  { nodes := [{ type := DEPSNODE_TYPE_OPERATION, flag := DEPSOP_FLAG_NEEDS_UPDATE }]
    operations := [0] }

/-- The chain `0 -> 1` with operation `0` tagged: it carries
`DIRECTLY_MODIFIED` and `NEEDS_UPDATE` and is the one entry tag. -/
def example_tagged_chain : Depsgraph :=
  { nodes := [
      { type := DEPSNODE_TYPE_OPERATION, outlinks := [0],
        flag := DEPSOP_FLAG_DIRECTLY_MODIFIED ||| DEPSOP_FLAG_NEEDS_UPDATE },
      { type := DEPSNODE_TYPE_OPERATION, inlinks := [0] }]
    relations := [{ from_ := 0, to_ := 1 }]
    operations := [0, 1]
    entry_tags := [0] }

/-- A build environment whose builders add nothing, with the transitive
reduction switched off. -/
def example_env : BuildEnv :=
  { node_builder := fun _ _ g => g
    users_builder := fun _ _ g => g
    relation_builder := fun _ _ g => g
    debug_value := 0 }

/-- A main database with one scene, whose graph is `example_chain2` with
`need_update` as given. -/
def example_main (need_update : Bool) : Main :=
  { ids := [{}]
    scene := [{ depsgraph := some { example_chain2 with need_update := need_update } }] }

/-- A main database with the object `OBCube` (datablock `0`) and two scenes:
the first has the graph `example_id_graph`, the second has no graph.  There is
no window manager. -/
def example_object_main : Main :=
  { ids := [{ name := "OBCube" }]
    scene := [{ depsgraph := some example_id_graph }, {}] }

/-- A main database without window manager (a background run) with the object
`OBCube` and one scene, which has not been updated for any layer yet; its graph
is `example_id_graph` with all twenty layers visible already. -/
def example_background_main : Main :=
  { ids := [{ name := "OBCube" }]
    scene := [{ depsgraph := some { example_id_graph with layers := 2 ^ 20 - 1 } }] }

/-- Five operations `S = 0`, `A = 1`, `B = 2`, `C = 3`, `D = 4` with the
relations `S -> A`, `A -> B`, `B -> C`, `C -> A`, `C -> D` and `D -> A`: the
cycle `A -> B -> C -> A`, entered from `S`, with the detour `C -> D -> A`. -/
def example_cycle_detour : Depsgraph :=
  { nodes := [example_op [] [0], example_op [0, 3, 5] [1], example_op [1] [2],
      example_op [2] [3, 4], example_op [4] [5]]
    relations := [{ from_ := 0, to_ := 1 }, { from_ := 1, to_ := 2 }, { from_ := 2, to_ := 3 },
      { from_ := 3, to_ := 1 }, { from_ := 3, to_ := 4 }, { from_ := 4, to_ := 1 }]
    operations := [0, 1, 2, 3, 4] }

/-- Three operations `0`, `1`, `2` with the relations `0 -> 1`, `1 -> 2` and
the shortcut `0 -> 2`. -/
def example_shortcut : Depsgraph :=
  { nodes := [example_op [] [0, 2], example_op [0] [1], example_op [1, 2] []]
    relations := [{ from_ := 0, to_ := 1 }, { from_ := 1, to_ := 2 }, { from_ := 0, to_ := 2 }]
    operations := [0, 1, 2] }

/-- A time source (node `0`) and two operations `A = 1`, `B = 2` with the
relations `time -> A`, `A -> B` and `time -> B`. -/
def example_time_source : Depsgraph :=
  { nodes := [{ type := DEPSNODE_TYPE_TIMESOURCE, outlinks := [0, 2] }, example_op [0] [1],
      example_op [1, 2] []]
    relations := [{ from_ := 0, to_ := 1 }, { from_ := 1, to_ := 2 }, { from_ := 0, to_ := 2 }]
    operations := [1, 2] }

/-- Two datablocks with one operation each: ID node `0` (layers `1`) with
component `1` and operation `A = 2`, ID node `3` (layers `2`) with component
`4` and operation `B = 5`, and the relation `A -> B`. -/
def example_layers : Depsgraph :=
  { nodes := [
      { type := DEPSNODE_TYPE_ID_REF, id := 0, layers := 1 },
      { type := DEPSNODE_TYPE_TRANSFORM, owner := 0 },
      { type := DEPSNODE_TYPE_OPERATION, owner := 1, outlinks := [0] },
      { type := DEPSNODE_TYPE_ID_REF, id := 1, layers := 2 },
      { type := DEPSNODE_TYPE_TRANSFORM, owner := 3 },
      { type := DEPSNODE_TYPE_OPERATION, owner := 4, inlinks := [0] }]
    relations := [{ from_ := 2, to_ := 5 }]
    operations := [2, 5] }

/-- Four operations `S = 0`, `X = 1`, `N = 2`, `T = 3` with the relations
`S -> X`, `X -> N`, `N -> X` and `X -> T`: the cycle `X -> N -> X`, entered
from `S`, with the exit `X -> T`. -/
def example_rooted_cycle_exit : Depsgraph :=
  { nodes := [example_op [] [0], example_op [0, 2] [1, 3], example_op [1] [2], example_op [3] []]
    relations := [{ from_ := 0, to_ := 1 }, { from_ := 1, to_ := 2 }, { from_ := 2, to_ := 1 },
      { from_ := 1, to_ := 3 }]
    operations := [0, 1, 2, 3] }

/-- The chain `0 -> 1` with both operations as entry tags and no flag set. -/
def example_two_tags : Depsgraph :=
  { example_chain2 with entry_tags := [0, 1] }

/-- Two operations `0` and `1` with the relations `0 -> 1` and `1 -> 0`, with
operation `0` as the one entry tag and no flag set. -/
def example_tagged_cycle : Depsgraph :=
  { example_cycle2 with entry_tags := [0] }

/-- Two operations `0` and `1` with the relations `0 -> 1` and `1 -> 0`, the
second flagged `CYCLIC`. -/
def example_flagged_cycle : Depsgraph :=
  { example_cycle2 with
    relations := [{ from_ := 0, to_ := 1 },
      { from_ := 1, to_ := 0, flag := DEPSREL_FLAG_CYCLIC }] }

/-- An ID node (node `0`, datablock `0`) with a transform component (node `1`)
that holds two operations `A = 2` and `B = 3`, and the relation `A -> B`. -/
def example_object_chain : Depsgraph :=
  { nodes := [
      { type := DEPSNODE_TYPE_ID_REF, id := 0, components := [((DEPSNODE_TYPE_TRANSFORM, ""), 1)] },
      { type := DEPSNODE_TYPE_TRANSFORM, owner := 0,
        operations := [((5, "a"), 2), ((6, "b"), 3)] },
      { name := "a", type := DEPSNODE_TYPE_OPERATION, owner := 1, opcode := 5, outlinks := [0] },
      { name := "b", type := DEPSNODE_TYPE_OPERATION, owner := 1, opcode := 6, inlinks := [0] }]
    relations := [{ from_ := 2, to_ := 3 }]
    id_hash := [(0, 0)]
    operations := [2, 3]
    entry_tags := [2] }

/-- Four datablocks with one operation each and the relations `c -> b`,
`a -> b` and `b -> d`: ID node `0` (layers `8`) with component `1` and
operation `c = 2`, ID node `3` (layers `1`) with component `4` and operation
`a = 5`, ID node `6` (layers `2`) with component `7` and operation `b = 8`,
ID node `9` (layers `4`) with component `10` and operation `d = 11`. -/
def example_layers_join : Depsgraph :=
  { nodes := [
      { type := DEPSNODE_TYPE_ID_REF, id := 0, layers := 8 },
      { type := DEPSNODE_TYPE_TRANSFORM, owner := 0 },
      { type := DEPSNODE_TYPE_OPERATION, owner := 1, outlinks := [0] },
      { type := DEPSNODE_TYPE_ID_REF, id := 1, layers := 1 },
      { type := DEPSNODE_TYPE_TRANSFORM, owner := 3 },
      { type := DEPSNODE_TYPE_OPERATION, owner := 4, outlinks := [1] },
      { type := DEPSNODE_TYPE_ID_REF, id := 2, layers := 2 },
      { type := DEPSNODE_TYPE_TRANSFORM, owner := 6 },
      { type := DEPSNODE_TYPE_OPERATION, owner := 7, inlinks := [0, 1], outlinks := [2] },
      { type := DEPSNODE_TYPE_ID_REF, id := 3, layers := 4 },
      { type := DEPSNODE_TYPE_TRANSFORM, owner := 9 },
      { type := DEPSNODE_TYPE_OPERATION, owner := 10, inlinks := [2] }]
    relations := [{ from_ := 2, to_ := 8 }, { from_ := 5, to_ := 8 }, { from_ := 8, to_ := 11 }]
    operations := [2, 5, 8, 11] }

/-! ## Theorems -/

/-- C1, evaluated where it fails: on two operations with the relations `0 -> 1`
and `1 -> 0` no operation is without inbound operation relation, so the
traversal never starts; `deg_graph_detect_cycles` flags no relation and the
relations with `CYCLIC` unset still contain the directed cycle `0 -> 1 -> 0`. -/
theorem detect_cycles_leaves_sourceless_cycle :
    (∀ r ∈ (deg_graph_detect_cycles example_cycle2).relations,
        r.flag &&& DEPSREL_FLAG_CYCLIC = 0) ∧
      (detect_cycles_run example_cycle2).2 = [] ∧
      Relation.TransGen (noncyclic_op_edge (deg_graph_detect_cycles example_cycle2)) 0 0 := by
  have h01 : noncyclic_op_edge (deg_graph_detect_cycles example_cycle2) 0 1 := by decide
  have h10 : noncyclic_op_edge (deg_graph_detect_cycles example_cycle2) 1 0 := by decide
  exact ⟨by decide, by decide, Relation.TransGen.tail (Relation.TransGen.single h01) h10⟩

/-- C4, evaluated where it fails: on the three operations `A -> B -> C -> A`
`deg_graph_detect_cycles` flags no relation at all (in particular not
`C -> A`), and the finalize pass that follows stops at once with an empty
ready stack and without having processed any operation. -/
theorem detect_cycles_three_cycle_unflagged :
    (detect_cycles_run example_cycle3).2 = [] ∧
      (deg_graph_detect_cycles example_cycle3).relations = example_cycle3.relations ∧
      (finalize_run {} (deg_graph_detect_cycles example_cycle3)).trace = [] ∧
      (finalize_run {} (deg_graph_detect_cycles example_cycle3)).stack = [] := by
  decide

/-- C7 as stated fails: the component `0` of `example_component` already holds
the operation `(5, x)`, and the call returns that operation, not null. -/
theorem add_operation_node_duplicate_not_null :
    ComponentDepsNode.has_operation example_component 0 5 "x" = some 1 ∧
      (DepsgraphNodeBuilder.add_operation_node example_component 0 0 0 5 "x").value ≠ none := by
  decide

/-- C7 amended: when the component already holds an operation under
(opcode, description), `add_operation_node` writes the error line, hits the
assertion (without effect in a release build), leaves the graph as it is and
returns the operation that already exists. -/
theorem add_operation_node_duplicate (g : Depsgraph) (comp_node optype op opcode : Nat)
    (description : String) (op_node : Nat)
    (h : ComponentDepsNode.has_operation g comp_node opcode description = some op_node) :
    DepsgraphNodeBuilder.add_operation_node g comp_node optype op opcode description =
      { graph := g, value := some op_node,
        stderr := ["add_operation: Operation already exists"], assert_failed := true } := by
  simp [DepsgraphNodeBuilder.add_operation_node, h]

/-- Witness for `add_operation_node_duplicate`. -/
theorem add_operation_node_duplicate_witness :
    ComponentDepsNode.has_operation example_component 0 5 "x" = some 1 ∧
      DepsgraphNodeBuilder.add_operation_node example_component 0 0 0 5 "x" =
        { graph := example_component, value := some 1,
          stderr := ["add_operation: Operation already exists"], assert_failed := true } :=
  ⟨by decide, add_operation_node_duplicate example_component 0 0 0 5 "x" 1 (by decide)⟩

/-! ### Reading and writing through pointers -/

theorem node_modifyNode (g : Depsgraph) (n : Nat) (f : DepsNode → DepsNode) (m : Nat) :
    (g.modifyNode n f).node m = if n = m ∧ m < g.nodes.length then f (g.node m) else g.node m := by
  unfold Depsgraph.node Depsgraph.modifyNode
  simp only [List.getD_eq_getElem?_getD, List.getElem?_modify]
  by_cases hm : m < g.nodes.length
  · rw [List.getElem?_eq_getElem hm]
    by_cases hn : n = m <;> simp [hn, hm]
  · rw [List.getElem?_eq_none (by omega)]
    simp [hm]

theorem node_append_lt (g : Depsgraph) (x : DepsNode) (m : Nat) (h : m < g.nodes.length) :
    ({ g with nodes := g.nodes ++ [x] } : Depsgraph).node m = g.node m := by
  unfold Depsgraph.node
  simp [List.getElem?_append_left h]

/-- C8: with both endpoints non-null `add_operation_relation` adds exactly one
relation `from -> to` with the given type and description and no flag,
referenced once more from the outlinks of `from` and the inlinks of `to`, and
changes nothing else; with a null endpoint the graph is returned as it was. -/
theorem add_operation_relation_effect (g : Depsgraph) (from_ to_ type : Nat)
    (description : String) :
    ((DepsgraphRelationBuilder.add_operation_relation g (some from_) (some to_) type
          description).graph.relations =
        g.relations ++
          [{ from_ := from_, to_ := to_, type := type, name := description, flag := 0 }]) ∧
      (∀ n, ((DepsgraphRelationBuilder.add_operation_relation g (some from_) (some to_) type
          description).graph.node n).outlinks =
        if n = from_ ∧ n < g.nodes.length then (g.node n).outlinks ++ [g.relations.length]
        else (g.node n).outlinks) ∧
      (∀ n, ((DepsgraphRelationBuilder.add_operation_relation g (some from_) (some to_) type
          description).graph.node n).inlinks =
        if n = to_ ∧ n < g.nodes.length then (g.node n).inlinks ++ [g.relations.length]
        else (g.node n).inlinks) ∧
      (∀ n, { (DepsgraphRelationBuilder.add_operation_relation g (some from_) (some to_) type
          description).graph.node n with inlinks := [], outlinks := [] } =
        { g.node n with inlinks := [], outlinks := [] }) ∧
      ({ (DepsgraphRelationBuilder.add_operation_relation g (some from_) (some to_) type
          description).graph with nodes := [], relations := [] } =
        { g with nodes := [], relations := [] }) ∧
      (DepsgraphRelationBuilder.add_operation_relation g (some from_) (some to_) type
          description).graph.nodes.length = g.nodes.length ∧
      (∀ node_to, (DepsgraphRelationBuilder.add_operation_relation g none node_to type
          description).graph = g) ∧
      (∀ node_from, (DepsgraphRelationBuilder.add_operation_relation g node_from none type
          description).graph = g) := by
  refine ⟨rfl, ?_, ?_, ?_, rfl, ?_, ?_, ?_⟩
  · intro n
    simp only [DepsgraphRelationBuilder.add_operation_relation, Depsgraph.add_new_relation,
      node_modifyNode]
    by_cases h1 : to_ = n <;> by_cases h2 : from_ = n <;> by_cases h3 : n < g.nodes.length <;>
      simp [h1, h2, h3, Depsgraph.modifyNode, Depsgraph.node, eq_comm]
  · intro n
    simp only [DepsgraphRelationBuilder.add_operation_relation, Depsgraph.add_new_relation,
      node_modifyNode]
    by_cases h1 : to_ = n <;> by_cases h2 : from_ = n <;> by_cases h3 : n < g.nodes.length <;>
      simp [h1, h2, h3, Depsgraph.modifyNode, Depsgraph.node, eq_comm]
  · intro n
    simp only [DepsgraphRelationBuilder.add_operation_relation, Depsgraph.add_new_relation,
      node_modifyNode]
    by_cases h1 : to_ = n <;> by_cases h2 : from_ = n <;> by_cases h3 : n < g.nodes.length <;>
      simp [h1, h2, h3, Depsgraph.modifyNode, Depsgraph.node]
  · simp [DepsgraphRelationBuilder.add_operation_relation, Depsgraph.add_new_relation,
      Depsgraph.modifyNode]
  · intro node_to
    cases node_to <;> rfl
  · intro node_from
    cases node_from <;> rfl

/-- C9: `find_node` for an operation key returns no node exactly when the ID
has no ID node, or that ID node has no such component, or that component has
no such operation; otherwise it returns that operation; the graph is returned
as it was in every case. -/
theorem find_node_operation_result (g : Depsgraph) (key : OperationKey) :
    (DepsgraphRelationBuilder.find_node_operation g key).graph = g ∧
      ((DepsgraphRelationBuilder.find_node_operation g key).value = none ↔
        (g.find_id_node key.id = none ∨
          (∃ id_node, g.find_id_node key.id = some id_node ∧
            IDDepsNode.find_component g id_node key.component_type key.component_name = none) ∨
          (∃ id_node comp_node, g.find_id_node key.id = some id_node ∧
            IDDepsNode.find_component g id_node key.component_type key.component_name =
              some comp_node ∧
            ComponentDepsNode.find_operation g comp_node key.opcode key.name = none))) ∧
      (∀ id_node comp_node op_node, g.find_id_node key.id = some id_node →
        IDDepsNode.find_component g id_node key.component_type key.component_name =
          some comp_node →
        ComponentDepsNode.find_operation g comp_node key.opcode key.name = some op_node →
        (DepsgraphRelationBuilder.find_node_operation g key).value = some op_node) := by
  unfold DepsgraphRelationBuilder.find_node_operation
  cases h1 : g.find_id_node key.id with
  | none => simp
  | some id_node =>
    cases h2 : IDDepsNode.find_component g id_node key.component_type key.component_name with
    | none =>
      refine ⟨by simp [h2], by simp [h2], ?_⟩
      intro i c o hi hc
      cases hi
      rw [h2] at hc
      cases hc
    | some comp_node =>
      cases h3 : ComponentDepsNode.find_operation g comp_node key.opcode key.name with
      | none =>
        refine ⟨by simp [h2, h3], by simp [h2, h3], ?_⟩
        intro i c o hi hc ho
        cases hi
        rw [h2] at hc
        cases hc
        rw [h3] at ho
        cases ho
      | some op_node =>
        refine ⟨by simp [h2, h3], by simp [h2, h3], ?_⟩
        intro i c o hi hc ho
        cases hi
        rw [h2] at hc
        cases hc
        rw [h3] at ho
        cases ho
        simp [h2, h3]

/-- C10: for a component key whose ID has no ID node, `find_node` returns no
node, writes its diagnostic line and returns the graph as it was: no node, no
relation and no map entry is created. -/
theorem find_node_component_missing_id (g : Depsgraph) (key : ComponentKey)
    (h : g.find_id_node key.id = none) :
    DepsgraphRelationBuilder.find_node_component g key =
      { graph := g, value := none, stderr := ["find_node component: Could not find ID"] } := by
  simp [DepsgraphRelationBuilder.find_node_component, h]

/-- Witness for `find_node_component_missing_id`: the graph `example_component`
has no ID node at all. -/
theorem find_node_component_missing_id_witness :
    example_component.find_id_node 7 = none ∧
      DepsgraphRelationBuilder.find_node_component example_component
          { id := 7, type := DEPSNODE_TYPE_TRANSFORM } =
        { graph := example_component, value := none,
          stderr := ["find_node component: Could not find ID"] } :=
  ⟨by decide, find_node_component_missing_id example_component
    { id := 7, type := DEPSNODE_TYPE_TRANSFORM } (by decide)⟩

/-- Witness for `find_node_operation_result`: in `example_id_graph` the key
(datablock 0, transform, code 5, name x) resolves to node `2`. -/
theorem find_node_operation_result_witness :
    (DepsgraphRelationBuilder.find_node_operation example_id_graph
      { id := 0, component_type := DEPSNODE_TYPE_TRANSFORM, opcode := 5, name := "x" }).value =
      some 2 :=
  (find_node_operation_result example_id_graph
    { id := 0, component_type := DEPSNODE_TYPE_TRANSFORM, opcode := 5, name := "x" }).2.2
    0 1 2 (by decide) (by decide) (by decide)

/-! ### The operations list of the node builder -/

theorem assoc_find_append {κ : Type} [DecidableEq κ] (key : κ) (l₁ l₂ : List (κ × Nat)) :
    assoc_find key (l₁ ++ l₂) = (assoc_find key l₁).or (assoc_find key l₂) := by
  unfold assoc_find
  rw [List.find?_append]
  cases List.find? (fun e => decide (e.1 = key)) l₁ <;> simp

theorem assoc_find_singleton {κ : Type} [DecidableEq κ] (key : κ) (v : Nat) :
    assoc_find key [(key, v)] = some v := by
  simp [assoc_find]

theorem default_node_eq : (default : DepsNode) = {} := rfl

theorem node_default_of_le (g : Depsgraph) (m : Nat) (h : g.nodes.length ≤ m) :
    g.node m = default := by
  unfold Depsgraph.node
  simp [List.getElem?_eq_none h]

theorem add_operation_length (g : Depsgraph) (comp_node optype op opcode : Nat) (name : String) :
    (ComponentDepsNode.add_operation g comp_node optype op opcode name).1.nodes.length =
      g.nodes.length + 1 := by
  simp [ComponentDepsNode.add_operation, Depsgraph.modifyNode]

theorem add_operation_operations (g : Depsgraph) (comp_node optype op opcode : Nat)
    (name : String) :
    (ComponentDepsNode.add_operation g comp_node optype op opcode name).1.operations =
      g.operations := rfl

theorem add_operation_snd (g : Depsgraph) (comp_node optype op opcode : Nat) (name : String) :
    (ComponentDepsNode.add_operation g comp_node optype op opcode name).2 = g.nodes.length := rfl

theorem add_operation_node_lt (g : Depsgraph) (comp_node optype op opcode : Nat) (name : String)
    (m : Nat) (hm : m < g.nodes.length) :
    (ComponentDepsNode.add_operation g comp_node optype op opcode name).1.node m =
      if comp_node = m then
        { g.node m with
          operations := (g.node m).operations ++ [((opcode, name), g.nodes.length)] }
      else g.node m := by
  unfold ComponentDepsNode.add_operation
  simp only [node_modifyNode, node_append_lt _ _ _ hm]
  by_cases hcm : comp_node = m
  · simp [hcm]
    intro hge
    omega
  · simp [hcm]

theorem add_operation_node_new (g : Depsgraph) (comp_node optype op opcode : Nat) (name : String)
    (hc : comp_node < g.nodes.length) :
    (ComponentDepsNode.add_operation g comp_node optype op opcode name).1.node g.nodes.length =
      { name := name, type := DEPSNODE_TYPE_OPERATION, owner := comp_node,
        evaluate := op, optype := optype, opcode := opcode } := by
  unfold ComponentDepsNode.add_operation
  simp only [node_modifyNode]
  rw [if_neg (by omega)]
  simp [Depsgraph.node]

theorem add_operation_node_graph_new (g : Depsgraph) (comp_node optype op opcode : Nat)
    (description : String)
    (h : ComponentDepsNode.has_operation g comp_node opcode description = none) :
    (DepsgraphNodeBuilder.add_operation_node g comp_node optype op opcode description).graph =
      { (ComponentDepsNode.add_operation g comp_node optype op opcode description).1 with
        operations := g.operations ++ [g.nodes.length] } := by
  simp [DepsgraphNodeBuilder.add_operation_node, h, add_operation_operations, add_operation_snd]

theorem node_with_operations (g : Depsgraph) (ops : List Nat) (m : Nat) :
    ({ g with operations := ops } : Depsgraph).node m = g.node m := rfl

theorem has_operation_with_operations (g : Depsgraph) (ops : List Nat) (c o : Nat) (nm : String) :
    ComponentDepsNode.has_operation ({ g with operations := ops } : Depsgraph) c o nm =
      ComponentDepsNode.has_operation g c o nm := rfl

theorem add_operation_node_registered (g : Depsgraph) (comp_node optype op opcode : Nat)
    (description : String) (hreg : operations_registered g) (hc : comp_node < g.nodes.length) :
    operations_registered
        (DepsgraphNodeBuilder.add_operation_node g comp_node optype op opcode description).graph ∧
      g.nodes.length ≤
        (DepsgraphNodeBuilder.add_operation_node g comp_node optype op opcode
          description).graph.nodes.length := by
  cases h : ComponentDepsNode.has_operation g comp_node opcode description with
  | some op_node =>
    simp [DepsgraphNodeBuilder.add_operation_node, h, hreg]
  | none =>
    rw [add_operation_node_graph_new g comp_node optype op opcode description h]
    obtain ⟨hnd, hall⟩ := hreg
    have hfresh : g.nodes.length ∉ g.operations := fun hm => Nat.lt_irrefl _ (hall _ hm).1
    refine ⟨⟨?_, ?_⟩, ?_⟩
    · simp only
      exact List.Nodup.append hnd (List.nodup_singleton _) (by simpa using hfresh)
    · intro x hx
      simp only [List.mem_append, List.mem_singleton] at hx
      simp only [node_with_operations, has_operation_with_operations, add_operation_length]
      rcases hx with hx | hx
      · obtain ⟨hlt, hhas⟩ := hall x hx
        refine ⟨by omega, ?_⟩
        have hown : (g.node x).owner < g.nodes.length := by
          by_contra hge
          rw [ComponentDepsNode.has_operation,
            node_default_of_le g _ (Nat.le_of_not_lt hge), default_node_eq] at hhas
          simp [assoc_find] at hhas
        have e1 : ((ComponentDepsNode.add_operation g comp_node optype op opcode
            description).1.node x).owner = (g.node x).owner := by
          rw [add_operation_node_lt _ _ _ _ _ _ _ hlt]; split <;> rfl
        have e2 : ((ComponentDepsNode.add_operation g comp_node optype op opcode
            description).1.node x).opcode = (g.node x).opcode := by
          rw [add_operation_node_lt _ _ _ _ _ _ _ hlt]; split <;> rfl
        have e3 : ((ComponentDepsNode.add_operation g comp_node optype op opcode
            description).1.node x).name = (g.node x).name := by
          rw [add_operation_node_lt _ _ _ _ _ _ _ hlt]; split <;> rfl
        rw [e1, e2, e3]
        unfold ComponentDepsNode.has_operation at hhas ⊢
        rw [add_operation_node_lt _ _ _ _ _ _ _ hown]
        split
        · simp only
          rw [assoc_find_append, hhas]
          rfl
        · exact hhas
      · subst hx
        refine ⟨by omega, ?_⟩
        rw [add_operation_node_new _ _ _ _ _ _ hc]
        unfold ComponentDepsNode.has_operation at h ⊢
        simp only
        rw [add_operation_node_lt _ _ _ _ _ _ _ hc, if_pos rfl]
        simp only
        rw [assoc_find_append, h, assoc_find_singleton]
        rfl
    · simp only [add_operation_length]
      omega

theorem add_operation_nodes_registered (reqs : List OperationRequest) :
    ∀ g : Depsgraph, operations_registered g →
      (∀ q ∈ reqs, q.comp_node < g.nodes.length) →
      operations_registered (add_operation_nodes g reqs) := by
  induction reqs with
  | nil => intro g hreg _; exact hreg
  | cons q rest ih =>
    intro g hreg hval
    have hq := add_operation_node_registered g q.comp_node q.optype q.op q.opcode q.description
      hreg (hval q (List.mem_cons_self _ _))
    have := ih _ hq.1 (fun q' hq' =>
      Nat.lt_of_lt_of_le (hval q' (List.mem_cons_of_mem _ hq')) hq.2)
    simpa [add_operation_nodes] using this

theorem registered_keys_nodup (g : Depsgraph) (hreg : operations_registered g) :
    (g.operations.map (operation_key g)).Nodup := by
  obtain ⟨hnd, hall⟩ := hreg
  refine List.Nodup.map_on ?_ hnd
  intro x hx y hy hxy
  have hx' := (hall x hx).2
  have hy' := (hall y hy).2
  simp only [operation_key, Prod.mk.injEq] at hxy
  rw [hxy.1, hxy.2.1, hxy.2.2, hy'] at hx'
  exact (Option.some.inj hx').symm

/-- C6: starting from a graph whose operations list is in the builder's state
(`operations_registered`, which holds for an empty list), after every sequence
of `add_operation_node` calls on components of the graph no two entries of the
operations list have the same (component, opcode, description); a call whose
key the component already holds returns the graph as it was, and a call with
a new key appends exactly one entry, the newly allocated node. -/
theorem add_operation_node_unique_keys (g : Depsgraph) (reqs : List OperationRequest)
    (hreg : operations_registered g) (hval : ∀ q ∈ reqs, q.comp_node < g.nodes.length) :
    ((add_operation_nodes g reqs).operations.map
        (operation_key (add_operation_nodes g reqs))).Nodup ∧
      (∀ (g₁ : Depsgraph) (q : OperationRequest) (op_node : Nat),
        ComponentDepsNode.has_operation g₁ q.comp_node q.opcode q.description = some op_node →
        (DepsgraphNodeBuilder.add_operation_node g₁ q.comp_node q.optype q.op q.opcode
          q.description).graph = g₁) ∧
      (∀ (g₁ : Depsgraph) (q : OperationRequest),
        ComponentDepsNode.has_operation g₁ q.comp_node q.opcode q.description = none →
        (DepsgraphNodeBuilder.add_operation_node g₁ q.comp_node q.optype q.op q.opcode
            q.description).graph.operations = g₁.operations ++ [g₁.nodes.length] ∧
          (DepsgraphNodeBuilder.add_operation_node g₁ q.comp_node q.optype q.op q.opcode
            q.description).graph.nodes.length = g₁.nodes.length + 1 ∧
          (DepsgraphNodeBuilder.add_operation_node g₁ q.comp_node q.optype q.op q.opcode
            q.description).value = some g₁.nodes.length) := by
  refine ⟨registered_keys_nodup _ (add_operation_nodes_registered reqs g hreg hval), ?_, ?_⟩
  · intro g₁ q op_node h
    simp [DepsgraphNodeBuilder.add_operation_node, h]
  · intro g₁ q h
    rw [add_operation_node_graph_new _ _ _ _ _ _ h]
    refine ⟨rfl, ?_, ?_⟩
    · simp only [add_operation_length]
    · simp [DepsgraphNodeBuilder.add_operation_node, h, add_operation_snd]

/-- Witness for `add_operation_node_unique_keys`: on `example_component` a
request for the key the component holds, the same request again, and a request
for a new key. -/
theorem add_operation_node_unique_keys_witness :
    operations_registered example_component ∧
      (add_operation_nodes example_component
        [{ comp_node := 0, opcode := 5, description := "x" },
         { comp_node := 0, opcode := 5, description := "x" },
         { comp_node := 0, opcode := 6, description := "x" }]).operations = [1, 2] ∧
      ((add_operation_nodes example_component
        [{ comp_node := 0, opcode := 5, description := "x" },
         { comp_node := 0, opcode := 5, description := "x" },
         { comp_node := 0, opcode := 6, description := "x" }]).operations.map
        (operation_key (add_operation_nodes example_component
          [{ comp_node := 0, opcode := 5, description := "x" },
           { comp_node := 0, opcode := 5, description := "x" },
           { comp_node := 0, opcode := 6, description := "x" }]))).Nodup :=
  have hreg : operations_registered example_component :=
    ⟨by decide, by
      intro op_node h
      have h1 : op_node = 1 := by simpa [example_component] using h
      subst h1
      decide⟩
  ⟨hreg, by decide,
    (add_operation_node_unique_keys example_component
      [{ comp_node := 0, opcode := 5, description := "x" },
       { comp_node := 0, opcode := 5, description := "x" },
       { comp_node := 0, opcode := 6, description := "x" }] hreg (by decide)).1⟩

/-! ### Flushing -/

theorem or_and_self_mask (f m : Nat) : (f ||| m) &&& m = m := by
  apply Nat.eq_of_testBit_eq
  intro i
  simp only [Nat.testBit_and, Nat.testBit_or]
  cases f.testBit i <;> cases m.testBit i <;> rfl

theorem map_modify_of_invariant {α β : Type} (h : α → β) (f : α → α)
    (hf : ∀ x, h (f x) = h x) : ∀ (l : List α) (n : Nat), (l.modify f n).map h = l.map h := by
  intro l
  induction l with
  | nil => intro n; simp
  | cons a l ih =>
    intro n
    cases n with
    | zero => simp [hf]
    | succ n => simp [ih]

theorem flags_only_refl (g : Depsgraph) : flags_only g g := ⟨rfl, rfl⟩

theorem flags_only_length {g0 g : Depsgraph} (h : flags_only g0 g) :
    g.nodes.length = g0.nodes.length := by
  have := congrArg List.length h.1
  simpa using this

theorem flags_only_node {g0 g : Depsgraph} (h : flags_only g0 g) (m : Nat) :
    strip_flag (g.node m) = strip_flag (g0.node m) := by
  have h1 := congrArg (fun l => l[m]?) h.1
  simp only [List.getElem?_map] at h1
  unfold Depsgraph.node
  simp only [List.getD_eq_getElem?_getD]
  cases hg : g.nodes[m]? <;> cases hg0 : g0.nodes[m]? <;> simp [hg, hg0] at h1 ⊢
  exact h1

theorem flags_only_outlinks {g0 g : Depsgraph} (h : flags_only g0 g) (m : Nat) :
    (g.node m).outlinks = (g0.node m).outlinks := by
  show (strip_flag (g.node m)).outlinks = (strip_flag (g0.node m)).outlinks
  rw [flags_only_node h m]

theorem flags_only_rel {g0 g : Depsgraph} (h : flags_only g0 g) (r : Nat) :
    g.rel r = g0.rel r := by
  have := congrArg Depsgraph.relations h.2
  simp only at this
  unfold Depsgraph.rel
  rw [this]

theorem flags_only_set_flag {g0 g : Depsgraph} (h : flags_only g0 g) (t : Nat)
    (f : Nat → Nat) :
    flags_only g0 (g.modifyNode t fun n => { n with flag := f n.flag }) := by
  refine ⟨?_, ?_⟩
  · rw [← h.1]
    exact map_modify_of_invariant strip_flag (fun n => { n with flag := f n.flag })
      (fun x => rfl) g.nodes t
  · rw [← h.2]
    rfl

theorem needs_update_set (g : Depsgraph) (t m : Nat) :
    needs_update (g.modifyNode t fun n => { n with flag := n.flag ||| DEPSOP_FLAG_NEEDS_UPDATE }) m ↔
      needs_update g m ∨ (t = m ∧ m < g.nodes.length) := by
  unfold needs_update
  rw [node_modifyNode]
  by_cases hc : t = m ∧ m < g.nodes.length
  · rw [if_pos hc]
    simp only [or_and_self_mask]
    simp [hc, DEPSOP_FLAG_NEEDS_UPDATE]
  · rw [if_neg hc]
    simp [hc]

theorem countP_modify_drop {α : Type} (p : α → Bool) (f : α → α) :
    ∀ (l : List α) (n : Nat) (hn : n < l.length), p (l.get ⟨n, hn⟩) = true →
      p (f (l.get ⟨n, hn⟩)) = false → (l.modify f n).countP p + 1 = l.countP p := by
  intro l
  induction l with
  | nil => intro n hn; simp at hn
  | cons a l ih =>
    intro n hn h1 h2
    cases n with
    | zero =>
      simp only [List.get_eq_getElem, List.getElem_cons_zero] at h1 h2
      simp [List.countP_cons, h1, h2]
    | succ n =>
      simp only [List.get_eq_getElem, List.getElem_cons_succ] at h1 h2
      have hn' : n < l.length := by simpa using hn
      have := ih n hn' (by simpa using h1) (by simpa using h2)
      simp only [List.modify_succ_cons, List.countP_cons]
      omega

theorem unflagged_set (g : Depsgraph) (t : Nat) (ht : t < g.nodes.length)
    (hu : ¬ needs_update g t) :
    unflagged (g.modifyNode t fun n => { n with flag := n.flag ||| DEPSOP_FLAG_NEEDS_UPDATE }) + 1 =
      unflagged g := by
  unfold unflagged Depsgraph.modifyNode
  have hnode : g.node t = g.nodes.get ⟨t, ht⟩ := by
    unfold Depsgraph.node
    simp [List.getElem?_eq_getElem ht]
  apply countP_modify_drop _ _ _ t ht
  · rw [← hnode]
    unfold needs_update at hu
    simpa using hu
  · rw [← hnode]
    simp [or_and_self_mask, DEPSOP_FLAG_NEEDS_UPDATE]

theorem flush_outlinks_inv (g0 : Depsgraph) (P : Nat → Prop) :
    ∀ (rels : List Nat) (bmain : Main) (g : Depsgraph) (queue : List Nat),
      FlushInv g0 g queue P →
      (∀ r ∈ rels, (g0.rel r).to_ < g0.nodes.length ∧
        (¬ needs_update g0 (g0.rel r).to_ → flush_reached g0 (g0.rel r).to_)) →
      FlushInv g0 (flush_outlinks rels bmain g queue).2.1
          (flush_outlinks rels bmain g queue).2.2 P ∧
        (∀ m, needs_update g m → needs_update (flush_outlinks rels bmain g queue).2.1 m) ∧
        (∀ r ∈ rels, needs_update (flush_outlinks rels bmain g queue).2.1 (g0.rel r).to_) ∧
        (flush_outlinks rels bmain g queue).2.2.length +
            unflagged (flush_outlinks rels bmain g queue).2.1 =
          queue.length + unflagged g := by
  intro rels
  induction rels with
  | nil =>
    intro bmain g queue hinv _
    exact ⟨hinv, fun _ h => h, by simp, rfl⟩
  | cons r rels ih =>
    intro bmain g queue hinv hR
    have hrel : g.rel r = g0.rel r := flags_only_rel hinv.same r
    have hr := hR r (List.mem_cons_self _ _)
    have hR' : ∀ r' ∈ rels, (g0.rel r').to_ < g0.nodes.length ∧
        (¬ needs_update g0 (g0.rel r').to_ → flush_reached g0 (g0.rel r').to_) :=
      fun r' h' => hR r' (List.mem_cons_of_mem _ h')
    rw [flush_outlinks]
    simp only [hrel]
    by_cases hflag : (g.node (g0.rel r).to_).flag &&& DEPSOP_FLAG_NEEDS_UPDATE = 0
    · rw [if_pos hflag]
      have hnu : ¬ needs_update g (g0.rel r).to_ := fun h => h hflag
      have hnu0 : ¬ needs_update g0 (g0.rel r).to_ := fun h => hnu (hinv.mono _ h)
      have hreach := hr.2 hnu0
      have hlen : (g0.rel r).to_ < g.nodes.length := by
        rw [flags_only_length hinv.same]; exact hr.1
      have hinv1 : FlushInv g0
          (g.modifyNode (g0.rel r).to_ fun n =>
            { n with flag := n.flag ||| DEPSOP_FLAG_NEEDS_UPDATE })
          (queue ++ [(g0.rel r).to_]) P := by
        refine ⟨flags_only_set_flag hinv.same _ (fun f => f ||| DEPSOP_FLAG_NEEDS_UPDATE),
          ?_, ?_, ?_, ?_⟩
        · intro m hm
          exact (needs_update_set g _ m).2 (Or.inl (hinv.mono m hm))
        · intro m hm
          rcases (needs_update_set g _ m).1 hm with h | ⟨h, _⟩
          · exact hinv.sound m h
          · subst h; exact Or.inr hreach
        · intro x hx
          rcases List.mem_append.1 hx with h | h
          · exact hinv.queued x h
          · rw [List.mem_singleton.1 h]; exact Or.inr hreach
        · intro y hy
          by_cases hold : y ∈ g0.entry_tags ∨ (needs_update g y ∧ ¬ needs_update g0 y)
          · rcases hinv.closed y hold with h | h | h
            · exact Or.inl (List.mem_append_left _ h)
            · exact Or.inr (Or.inl h)
            · exact Or.inr (Or.inr fun r' hr' =>
                (needs_update_set g _ _).2 (Or.inl (h r' hr')))
          · rcases hy with hy | ⟨hy1, hy2⟩
            · exact absurd (Or.inl hy) hold
            · rcases (needs_update_set g _ y).1 hy1 with h | ⟨h, _⟩
              · exact absurd (Or.inr ⟨h, hy2⟩) hold
              · subst h; exact Or.inl (List.mem_append_right _ (List.mem_singleton_self _))
      obtain ⟨i1, i2, i3, i4⟩ := ih _ _ _ hinv1 hR'
      refine ⟨i1, ?_, ?_, ?_⟩
      · intro m hm
        exact i2 m ((needs_update_set g _ m).2 (Or.inl hm))
      · intro r' hr'
        rcases List.mem_cons.1 hr' with h | h
        · subst h
          exact i2 _ ((needs_update_set g _ _).2 (Or.inr ⟨rfl, hlen⟩))
        · exact i3 r' h
      · rw [i4]
        have := unflagged_set g _ hlen hnu
        simp only [List.length_append, List.length_singleton]
        omega
    · rw [if_neg hflag]
      obtain ⟨i1, i2, i3, i4⟩ := ih bmain g queue hinv hR'
      refine ⟨i1, i2, ?_, i4⟩
      intro r' hr'
      rcases List.mem_cons.1 hr' with h | h
      · subst h
        exact i2 _ hflag
      · exact i3 r' h

theorem flush_loop_inv (g0 : Depsgraph) (hv : outlinks_valid g0) :
    ∀ (fuel : Nat) (bmain : Main) (g : Depsgraph) (queue : List Nat),
      FlushInv g0 g queue (fun _ => False) →
      queue.length + unflagged g ≤ fuel →
      FlushInv g0 (flush_loop fuel bmain g queue).2.1 [] (fun _ => False) ∧
        (flush_loop fuel bmain g queue).2.2 = [] := by
  intro fuel
  induction fuel with
  | zero =>
    intro bmain g queue hinv hle
    have hq : queue = [] := List.length_eq_zero.1 (by omega)
    subst hq
    exact ⟨hinv, rfl⟩
  | succ fuel ih =>
    intro bmain g queue hinv hle
    cases queue with
    | nil => exact ⟨hinv, rfl⟩
    | cons node q =>
      rw [flush_loop]
      have hout : (g.node node).outlinks = (g0.node node).outlinks :=
        flags_only_outlinks hinv.same node
      have hinvP : FlushInv g0 g q (fun y => y = node) := by
        refine ⟨hinv.same, hinv.mono, hinv.sound,
          fun x hx => hinv.queued x (List.mem_cons_of_mem _ hx), ?_⟩
        intro y hy
        rcases hinv.closed y hy with h | h | h
        · rcases List.mem_cons.1 h with h' | h'
          · exact Or.inr (Or.inl h')
          · exact Or.inl h'
        · exact absurd h id
        · exact Or.inr (Or.inr h)
      have hR : ∀ r ∈ (g.node node).outlinks, (g0.rel r).to_ < g0.nodes.length ∧
          (¬ needs_update g0 (g0.rel r).to_ → flush_reached g0 (g0.rel r).to_) := by
        intro r hr
        rw [hout] at hr
        have hnode : node < g0.nodes.length := by
          by_contra hge
          rw [node_default_of_le g0 node (Nat.le_of_not_lt hge), default_node_eq] at hr
          simp at hr
        refine ⟨hv node hnode r hr, fun hnu => ?_⟩
        have hedge : flush_edge g0 node (g0.rel r).to_ := ⟨⟨r, hr, rfl⟩, hnu⟩
        rcases hinv.queued node (List.mem_cons_self _ _) with h | ⟨e, he, hp⟩
        · exact ⟨node, h, Relation.TransGen.single hedge⟩
        · exact ⟨e, he, Relation.TransGen.tail hp hedge⟩
      obtain ⟨i1, _, i3, i4⟩ := flush_outlinks_inv g0 (fun y => y = node)
        (g.node node).outlinks
        (lib_id_recalc_data_tag (lib_id_recalc_tag bmain (g.node (g.id_node_of node)).id)
          (g.node (g.id_node_of node)).id) g q hinvP hR
      apply ih
      · refine ⟨i1.same, i1.mono, i1.sound, i1.queued, ?_⟩
        intro y hy
        rcases i1.closed y hy with h | h | h
        · exact Or.inl h
        · subst h
          exact Or.inr (Or.inr fun r hr => i3 r (hout ▸ hr))
        · exact Or.inr (Or.inr h)
      · rw [i4]
        simp only [List.length_cons] at hle
        omega

theorem flush_seed_queue : ∀ (l : List Nat) (bmain : Main) (g : Depsgraph) (queue : List Nat),
    (flush_seed l bmain g queue).2 = queue ++ l := by
  intro l
  induction l with
  | nil => intro bmain g queue; simp [flush_seed]
  | cons a l ih =>
    intro bmain g queue
    rw [flush_seed, ih]
    simp

theorem flush_run_inv (bmain : Main) (g : Depsgraph) (hv : outlinks_valid g) :
    FlushInv g (flush_run bmain g).2.1 [] (fun _ => False) ∧ (flush_run bmain g).2.2 = [] := by
  unfold flush_run
  simp only
  apply flush_loop_inv g hv
  · rw [flush_seed_queue]
    refine ⟨flags_only_refl g, fun _ h => h, fun _ h => Or.inl h, ?_, ?_⟩
    · intro x hx
      exact Or.inl (by simpa using hx)
    · intro y hy
      rcases hy with h | ⟨h1, h2⟩
      · exact Or.inl (by simpa using h)
      · exact absurd h1 h2
  · rw [flush_seed_queue]
    unfold flush_fuel unflagged
    have := List.countP_le_length
      (fun n : DepsNode => decide (n.flag &&& DEPSOP_FLAG_NEEDS_UPDATE = 0)) (l := g.nodes)
    simp only [List.nil_append]
    omega

theorem flush_reached_of_closed (g0 g : Depsgraph) (hinv : FlushInv g0 g [] (fun _ => False))
    (m : Nat) (h : flush_reached g0 m) : needs_update g m := by
  obtain ⟨e, he, hp⟩ := h
  induction hp with
  | single hedge =>
    obtain ⟨⟨r, hr, hto⟩, _⟩ := hedge
    rcases hinv.closed e (Or.inl he) with h | h | h
    · simp at h
    · exact absurd h id
    · exact hto ▸ h r hr
  | tail hp hedge ih =>
    rename_i b c
    obtain ⟨⟨r, hr, hto⟩, _⟩ := hedge
    have hb0 : ¬ needs_update g0 b := by
      cases hp with
      | single h => exact h.2
      | tail _ h => exact h.2
    rcases hinv.closed b (Or.inr ⟨ih, hb0⟩) with h | h | h
    · simp at h
    · exact absurd h id
    · exact hto ▸ h r hr

/-- What the flush does to a graph whose outlinks point to nodes of the graph:
it returns, with the entry tags cleared, a graph that differs from the input
in operation flags only, and a node carries `NEEDS_UPDATE` afterwards exactly
when it carried it before or was reached. -/
theorem flush_updates_spec (bmain : Main) (g : Depsgraph) (hv : outlinks_valid g) :
    ∃ bmain' g', flush_updates bmain g = some (bmain', g') ∧
      g'.entry_tags = [] ∧
      (∀ n, strip_flag (g'.node n) = strip_flag (g.node n)) ∧
      ({ g' with nodes := [], entry_tags := [] } : Depsgraph) =
        { g with nodes := [], entry_tags := [] } ∧
      g'.nodes.length = g.nodes.length ∧
      ∀ n, needs_update g' n ↔ (needs_update g n ∨ flush_reached g n) := by
  obtain ⟨hinv, hq⟩ := flush_run_inv bmain g hv
  refine ⟨(flush_run bmain g).1, { (flush_run bmain g).2.1 with entry_tags := [] }, ?_, rfl,
    ?_, ?_, ?_, ?_⟩
  · simp [flush_updates, hq]
  · intro n
    exact flags_only_node hinv.same n
  · have := hinv.same.2
    simp only [Depsgraph.mk.injEq] at this ⊢
    simp [this]
  · show (flush_run bmain g).2.1.nodes.length = g.nodes.length
    exact flags_only_length hinv.same
  · intro n
    constructor
    · intro h
      exact hinv.sound n h
    · intro h
      rcases h with h | h
      · exact hinv.mono n h
      · exact flush_reached_of_closed g _ hinv n h

/-- C3 as stated fails: the operation `0` of `example_flagged` carries
`NEEDS_UPDATE` and there is no entry tag; after the flush the operation still
carries the flag although no entry-tagged operation reaches it, not even in
zero steps. -/
theorem flush_keeps_unreached_flag :
    ∃ bmain' g', DEG_graph_flush_updates {} (some example_flagged) = some (bmain', some g') ∧
      needs_update g' 0 ∧
      ¬ ∃ e ∈ example_flagged.entry_tags,
        Relation.ReflTransGen (outlink_edge example_flagged) e 0 :=
  ⟨_, _, rfl, by decide, by simp [example_flagged]⟩

/-- C3 amended: on a graph whose outlinks point to nodes of the graph,
`DEG_graph_flush_updates` returns, and afterwards a node carries
`NEEDS_UPDATE` exactly when it carried the flag before the flush or is reached
from an entry tag through one or more outlinks (cyclic relations included)
whose targets were all without the flag before the flush.  In particular,
when the nodes that carry the flag before the flush are exactly the entry
tags, the nodes that carry it afterwards are exactly the nodes reachable from
the entry tags by following outlinks. -/
theorem flush_updates_needs_update_set (bmain : Main) (g : Depsgraph)
    (hv : outlinks_valid g) :
    ∃ bmain' g', DEG_graph_flush_updates bmain (some g) = some (bmain', some g') ∧
      (∀ n, needs_update g' n ↔ (needs_update g n ∨ flush_reached g n)) ∧
      ((∀ n, needs_update g n ↔ n ∈ g.entry_tags) →
        ∀ n, needs_update g' n ↔
          ∃ e ∈ g.entry_tags, Relation.ReflTransGen (outlink_edge g) e n) := by
  obtain ⟨bmain', g', h1, _, _, _, _, h6⟩ := flush_updates_spec bmain g hv
  refine ⟨bmain', g', by simp [DEG_graph_flush_updates, h1], h6, ?_⟩
  intro htag n
  constructor
  · intro h
    rcases (h6 n).1 h with h | ⟨e, he, hp⟩
    · exact ⟨n, (htag n).1 h, Relation.ReflTransGen.refl⟩
    · exact ⟨e, he, (Relation.TransGen.mono (fun _ _ h => h.1) hp).to_reflTransGen⟩
  · rintro ⟨e, he, hp⟩
    induction hp with
    | refl => exact (h6 e).2 (Or.inl ((htag e).2 he))
    | tail hp hedge ih =>
      rename_i b c
      by_cases hc : needs_update g c
      · exact (h6 c).2 (Or.inl hc)
      · have hfe : flush_edge g b c := ⟨hedge, hc⟩
        rcases (h6 b).1 ih with hb | ⟨e', he', hp'⟩
        · exact (h6 c).2 (Or.inr ⟨b, (htag b).1 hb, Relation.TransGen.single hfe⟩)
        · exact (h6 c).2 (Or.inr ⟨e', he', Relation.TransGen.tail hp' hfe⟩)

theorem example_tagged_chain_flags (n : Nat) :
    needs_update example_tagged_chain n ↔ n ∈ example_tagged_chain.entry_tags := by
  match n with
  | 0 => decide
  | 1 => decide
  | n + 2 =>
    have hd : example_tagged_chain.node (n + 2) = default :=
      node_default_of_le _ _ (by simp [example_tagged_chain])
    have he : example_tagged_chain.entry_tags = [0] := rfl
    unfold needs_update
    rw [hd, default_node_eq, he]
    simp

/-- Witness for `flush_updates_needs_update_set`: the chain `0 -> 1` with the
tagged operation `0` as entry tag. -/
theorem flush_updates_needs_update_set_witness :
    outlinks_valid example_tagged_chain ∧
      (∀ n, needs_update example_tagged_chain n ↔ n ∈ example_tagged_chain.entry_tags) ∧
      ∃ bmain' g', DEG_graph_flush_updates {} (some example_tagged_chain) =
          some (bmain', some g') ∧
        ∀ n, needs_update g' n ↔
          ∃ e ∈ example_tagged_chain.entry_tags,
            Relation.ReflTransGen (outlink_edge example_tagged_chain) e n :=
  ⟨by decide, example_tagged_chain_flags,
    match flush_updates_needs_update_set {} example_tagged_chain (by decide) with
    | ⟨bmain', g', h1, _, h3⟩ => ⟨bmain', g', h1, h3 example_tagged_chain_flags⟩⟩

theorem flags_only_trans {g₁ g₂ g₃ : Depsgraph} (h₁ : flags_only g₁ g₂)
    (h₂ : flags_only g₂ g₃) : flags_only g₁ g₃ :=
  ⟨h₂.1.trans h₁.1, h₂.2.trans h₁.2⟩

theorem flush_outlinks_flags_only : ∀ (rels : List Nat) (bmain : Main) (g : Depsgraph)
    (queue : List Nat), flags_only g (flush_outlinks rels bmain g queue).2.1 := by
  intro rels
  induction rels with
  | nil => intro bmain g queue; exact flags_only_refl g
  | cons r rels ih =>
    intro bmain g queue
    rw [flush_outlinks]
    simp only
    split
    · refine flags_only_trans ?_ (ih _ _ _)
      exact flags_only_set_flag (flags_only_refl g) _ (fun f => f ||| DEPSOP_FLAG_NEEDS_UPDATE)
    · exact ih _ _ _

theorem flush_loop_flags_only : ∀ (fuel : Nat) (bmain : Main) (g : Depsgraph)
    (queue : List Nat), flags_only g (flush_loop fuel bmain g queue).2.1 := by
  intro fuel
  induction fuel with
  | zero => intro bmain g queue; exact flags_only_refl g
  | succ fuel ih =>
    intro bmain g queue
    cases queue with
    | nil => exact flags_only_refl g
    | cons node q =>
      rw [flush_loop]
      exact flags_only_trans (flush_outlinks_flags_only _ _ _ _) (ih _ _ _)

/-- C5: whenever `DEG_graph_flush_updates` returns on a non-null graph, in
whatever state of flags and entry tags, the entry tags are empty, and the
operations list, the relations and every pending counter are as before (the
nodes differ from the input in flags at most); and it does return on every
graph whose outlinks point to nodes of the graph. -/
theorem flush_updates_clears_entry_tags (bmain : Main) (g : Depsgraph) :
    (∀ bmain' graph', DEG_graph_flush_updates bmain (some g) = some (bmain', graph') →
      ∃ g', graph' = some g' ∧
        g'.entry_tags = [] ∧
        g'.operations = g.operations ∧
        g'.relations = g.relations ∧
        g'.nodes.length = g.nodes.length ∧
        (∀ n, (g'.node n).num_links_pending = (g.node n).num_links_pending) ∧
        (∀ n, strip_flag (g'.node n) = strip_flag (g.node n))) ∧
      (outlinks_valid g →
        ∃ bmain' g', DEG_graph_flush_updates bmain (some g) = some (bmain', some g')) := by
  constructor
  · intro bmain' graph' h
    have hfo : flags_only g (flush_run bmain g).2.1 := flush_loop_flags_only _ _ _ _
    simp only [DEG_graph_flush_updates, flush_updates, Option.map_eq_some'] at h
    obtain ⟨r, hr, hr'⟩ := h
    split at hr
    · cases hr
      cases hr'
      have h2 := hfo.2
      simp only [Depsgraph.mk.injEq, true_and] at h2
      refine ⟨{ (flush_run bmain g).2.1 with entry_tags := [] }, rfl, rfl, h2.2.2.2.1, h2.1,
        ?_, ?_, fun n => flags_only_node hfo n⟩
      · show (flush_run bmain g).2.1.nodes.length = g.nodes.length
        exact flags_only_length hfo
      intro n
      show (strip_flag ((flush_run bmain g).2.1.node n)).num_links_pending =
        (strip_flag (g.node n)).num_links_pending
      rw [flags_only_node hfo n]
    · cases hr
  · intro hv
    obtain ⟨bmain', g', h1, _⟩ := flush_updates_spec bmain g hv
    exact ⟨bmain', g', by simp [DEG_graph_flush_updates, h1]⟩

/-- Witness for `flush_updates_clears_entry_tags`: on the chain `0 -> 1` with
entry tag `0` the flush returns, with the entry tags empty. -/
theorem flush_updates_clears_entry_tags_witness :
    outlinks_valid example_tagged_chain ∧
      ∃ bmain' g', DEG_graph_flush_updates {} (some example_tagged_chain) =
          some (bmain', some g') ∧
        g'.entry_tags = [] ∧ g'.operations = [0, 1] :=
  ⟨by decide,
    match (flush_updates_clears_entry_tags {} example_tagged_chain).2 (by decide) with
    | ⟨bmain', g', h⟩ =>
      match (flush_updates_clears_entry_tags {} example_tagged_chain).1 bmain' (some g') h with
      | ⟨_, h1, h2, h3, _⟩ => ⟨bmain', g', h, by cases h1; exact ⟨h2, h3⟩⟩⟩

/-! ### Finalize -/

theorem agree_on_refl {β : Type} (h : DepsNode → β) (g : Depsgraph) : agree_on h g g :=
  ⟨rfl, rfl, rfl⟩

theorem agree_on_trans {β : Type} {h : DepsNode → β} {g₁ g₂ g₃ : Depsgraph}
    (h₁ : agree_on h g₁ g₂) (h₂ : agree_on h g₂ g₃) : agree_on h g₁ g₃ :=
  ⟨h₂.1.trans h₁.1, h₂.2.1.trans h₁.2.1, h₂.2.2.trans h₁.2.2⟩

theorem agree_on_modifyNode {β : Type} (h : DepsNode → β) (g : Depsgraph) (n : Nat)
    (f : DepsNode → DepsNode) (hf : ∀ x, h (f x) = h x) : agree_on h g (g.modifyNode n f) :=
  ⟨map_modify_of_invariant h f hf g.nodes n, rfl, rfl⟩

theorem agree_on_length {β : Type} {h : DepsNode → β} {g g' : Depsgraph}
    (ha : agree_on h g g') : g'.nodes.length = g.nodes.length := by
  have := congrArg List.length ha.1
  simpa using this

theorem agree_on_node {β : Type} {h : DepsNode → β} {g g' : Depsgraph}
    (ha : agree_on h g g') (m : Nat) : h (g'.node m) = h (g.node m) := by
  have h1 := congrArg (fun l => l[m]?) ha.1
  simp only [List.getElem?_map] at h1
  unfold Depsgraph.node
  simp only [List.getD_eq_getElem?_getD]
  cases hg : g.nodes[m]? <;> cases hg' : g'.nodes[m]? <;> simp [hg, hg'] at h1 ⊢
  exact h1

theorem agree_on_rel {β : Type} {h : DepsNode → β} {g g' : Depsgraph}
    (ha : agree_on h g g') (r : Nat) : g'.rel r = g.rel r := by
  unfold Depsgraph.rel
  rw [ha.2.1]

theorem agree_on_weaken {β γ : Type} {h : DepsNode → β} (k : β → γ) {g g' : Depsgraph}
    (ha : agree_on h g g') : agree_on (fun n => k (h n)) g g' := by
  refine ⟨?_, ha.2.1, ha.2.2⟩
  have := congrArg (List.map k) ha.1
  simpa [List.map_map] using this

theorem shape_of_control {g g' : Depsgraph} (ha : agree_on node_control g g') :
    agree_on node_shape g g' :=
  agree_on_weaken (fun c => c.1.1) ha

theorem shape_of_shape_done {g g' : Depsgraph} (ha : agree_on node_shape_done g g') :
    agree_on node_shape g g' :=
  agree_on_weaken (fun c => c.1) ha

theorem shape_type {g g' : Depsgraph} (ha : agree_on node_shape g g') (m : Nat) :
    (g'.node m).type = (g.node m).type :=
  congrArg (fun c => c.1) (agree_on_node ha m)

theorem shape_inlinks {g g' : Depsgraph} (ha : agree_on node_shape g g') (m : Nat) :
    (g'.node m).inlinks = (g.node m).inlinks :=
  congrArg (fun c => c.2.1) (agree_on_node ha m)

theorem shape_outlinks {g g' : Depsgraph} (ha : agree_on node_shape g g') (m : Nat) :
    (g'.node m).outlinks = (g.node m).outlinks :=
  congrArg (fun c => c.2.2) (agree_on_node ha m)

theorem shape_done_done {g g' : Depsgraph} (ha : agree_on node_shape_done g g') (m : Nat) :
    (g'.node m).done = (g.node m).done :=
  congrArg (fun c => c.2) (agree_on_node ha m)

theorem control_done {g g' : Depsgraph} (ha : agree_on node_control g g') (m : Nat) :
    (g'.node m).done = (g.node m).done :=
  congrArg (fun c => c.1.2) (agree_on_node ha m)

theorem control_pending {g g' : Depsgraph} (ha : agree_on node_control g g') (m : Nat) :
    (g'.node m).num_links_pending = (g.node m).num_links_pending :=
  congrArg (fun c => c.2) (agree_on_node ha m)

theorem type_operation_lt (g : Depsgraph) (m : Nat)
    (h : (g.node m).type = DEPSNODE_TYPE_OPERATION) : m < g.nodes.length := by
  by_contra hge
  rw [node_default_of_le g m (Nat.le_of_not_lt hge), default_node_eq] at h
  cases h

theorem counts_as_pending_shape {g g' : Depsgraph} (ha : agree_on node_shape g g') (r : Nat) :
    counts_as_pending g' r = counts_as_pending g r := by
  unfold counts_as_pending
  rw [agree_on_rel ha, shape_type ha]

theorem cyclic_unset_shape {g g' : Depsgraph} (ha : agree_on node_shape g g') (r : Nat) :
    cyclic_unset g' r = cyclic_unset g r := by
  unfold cyclic_unset
  rw [agree_on_rel ha]

theorem remaining_into_cons (g : Depsgraph) (b r : Nat) (rels : List Nat) :
    remaining_into g b (r :: rels) =
      remaining_into g b rels + if (g.rel r).to_ = b ∧ cyclic_unset g r = true then 1 else 0 := by
  unfold remaining_into
  rw [List.countP_cons]
  simp

theorem finalize_expand_inv (g0 : Depsgraph) (K : Nat → Nat) :
    ∀ (rels : List Nat) (g : Depsgraph) (stack : List Nat) (af : Bool),
      agree_on node_shape g0 g →
      (∀ b, (g0.node b).type = DEPSNODE_TYPE_OPERATION →
        (g.node b).num_links_pending = ((K b + remaining_into g0 b rels : Nat) : Int)) →
      (∀ b ∈ stack, (g0.node b).type = DEPSNODE_TYPE_OPERATION ∧
        (g.node b).num_links_pending = 0) →
      agree_on node_shape_done g (finalize_expand rels g stack af).1 ∧
        (∀ b, (g0.node b).type = DEPSNODE_TYPE_OPERATION →
          ((finalize_expand rels g stack af).1.node b).num_links_pending = (K b : Int)) ∧
        (∀ b ∈ (finalize_expand rels g stack af).2.1,
          (g0.node b).type = DEPSNODE_TYPE_OPERATION ∧
            ((finalize_expand rels g stack af).1.node b).num_links_pending = 0) ∧
        (finalize_expand rels g stack af).2.1.length ≤ stack.length + rels.length ∧
        (finalize_expand rels g stack af).2.2 = af := by
  intro rels
  induction rels with
  | nil =>
    intro g stack af hs hp hst
    refine ⟨agree_on_refl _ _, ?_, hst, by simp [finalize_expand], rfl⟩
    intro b hb
    simpa [remaining_into, finalize_expand] using hp b hb
  | cons r rels ih =>
    intro g stack af hs hp hst
    have hrel : g.rel r = g0.rel r := agree_on_rel hs r
    have htype : ∀ m, (g.node m).type = (g0.node m).type := shape_type hs
    have hcu : cyclic_unset g r = cyclic_unset g0 r := cyclic_unset_shape hs r
    rw [finalize_expand]
    simp only [hrel, htype, hcu]
    by_cases hop : (g0.node (g0.rel r).to_).type = DEPSNODE_TYPE_OPERATION
    · rw [if_pos hop]
      have hlt : (g0.rel r).to_ < g.nodes.length := by
        rw [agree_on_length hs]; exact type_operation_lt g0 _ hop
      cases hnc : cyclic_unset g0 r with
      | true =>
        simp only [if_true, Bool.true_and]
        have hpt := hp _ hop
        rw [remaining_into_cons, if_pos ⟨rfl, hnc⟩] at hpt
        have hpos : ¬ (g.node (g0.rel r).to_).num_links_pending ≤ 0 := by
          rw [hpt]; push_cast; omega
        have hs1 : agree_on node_shape g0
            (g.modifyNode (g0.rel r).to_ DepsNode.decrement_pending) :=
          agree_on_trans hs (agree_on_modifyNode _ _ _ _ (fun _ => rfl))
        have hsd1 : agree_on node_shape_done g
            (g.modifyNode (g0.rel r).to_ DepsNode.decrement_pending) :=
          agree_on_modifyNode _ _ _ _ (fun _ => rfl)
        have hp1 : ∀ b, (g0.node b).type = DEPSNODE_TYPE_OPERATION →
            ((g.modifyNode (g0.rel r).to_ DepsNode.decrement_pending).node b).num_links_pending =
              ((K b + remaining_into g0 b rels : Nat) : Int) := by
          intro b hb
          rw [node_modifyNode]
          by_cases hbt : (g0.rel r).to_ = b
          · subst hbt
            rw [if_pos ⟨rfl, hlt⟩]
            show (g.node (g0.rel r).to_).num_links_pending - 1 = _
            rw [hpt]; push_cast; omega
          · rw [if_neg (fun h => hbt h.1)]
            have := hp b hb
            rw [remaining_into_cons, if_neg (fun h => hbt h.1)] at this
            simpa using this
        have hst1 : ∀ b ∈ (if ((g.modifyNode (g0.rel r).to_
              DepsNode.decrement_pending).node (g0.rel r).to_).num_links_pending = 0
            then (g0.rel r).to_ :: stack else stack),
            (g0.node b).type = DEPSNODE_TYPE_OPERATION ∧
              ((g.modifyNode (g0.rel r).to_ DepsNode.decrement_pending).node b).num_links_pending
                = 0 := by
          intro b hb
          have hold : b ∈ stack → (g0.node b).type = DEPSNODE_TYPE_OPERATION ∧
              ((g.modifyNode (g0.rel r).to_ DepsNode.decrement_pending).node b).num_links_pending
                = 0 := by
            intro hb'
            obtain ⟨h1, h2⟩ := hst b hb'
            refine ⟨h1, ?_⟩
            rw [node_modifyNode]
            by_cases hbt : (g0.rel r).to_ = b
            · subst hbt
              exact absurd (le_of_eq h2) hpos
            · rw [if_neg (fun h => hbt h.1)]; exact h2
          split at hb
          · rename_i hz
            rcases List.mem_cons.1 hb with h | h
            · subst h; exact ⟨hop, hz⟩
            · exact hold h
          · exact hold hb
        obtain ⟨i1, i2, i3, i4, i5⟩ := ih _ _ (af || decide
          ((g.node (g0.rel r).to_).num_links_pending ≤ 0)) hs1 hp1 hst1
        refine ⟨agree_on_trans hsd1 i1, i2, i3, ?_, ?_⟩
        · refine le_trans i4 ?_
          split
          · simp
            omega
          · simp
        · rw [i5]; simp [hpos]
      | false =>
        simp only [Bool.false_and, Bool.or_false]
        have hp1 : ∀ b, (g0.node b).type = DEPSNODE_TYPE_OPERATION →
            (g.node b).num_links_pending = ((K b + remaining_into g0 b rels : Nat) : Int) := by
          intro b hb
          have := hp b hb
          rw [remaining_into_cons, if_neg (fun h => by simp [hnc] at h)] at this
          simpa using this
        have hst1 : ∀ b ∈ (if (g.node (g0.rel r).to_).num_links_pending = 0
            then (g0.rel r).to_ :: stack else stack),
            (g0.node b).type = DEPSNODE_TYPE_OPERATION ∧ (g.node b).num_links_pending = 0 := by
          intro b hb
          split at hb
          · rename_i hz
            rcases List.mem_cons.1 hb with h | h
            · subst h; exact ⟨hop, hz⟩
            · exact hst b h
          · exact hst b hb
        obtain ⟨i1, i2, i3, i4, i5⟩ := ih g _ af hs hp1 hst1
        refine ⟨i1, i2, i3, ?_, i5⟩
        refine le_trans i4 ?_
        split
        · simp
          omega
        · simp
    · rw [if_neg hop]
      have hp1 : ∀ b, (g0.node b).type = DEPSNODE_TYPE_OPERATION →
          (g.node b).num_links_pending = ((K b + remaining_into g0 b rels : Nat) : Int) := by
        intro b hb
        have := hp b hb
        have hne : ¬ ((g0.rel r).to_ = b ∧ cyclic_unset g0 r = true) := by
          intro h
          apply hop
          rw [h.1]
          exact hb
        rw [remaining_into_cons, if_neg hne] at this
        simpa using this
      obtain ⟨i1, i2, i3, i4, i5⟩ := ih g stack af hs hp1 hst
      exact ⟨i1, i2, i3, by simp; omega, i5⟩

theorem countP_split {α : Type} (p q : α → Bool) (l : List α) :
    l.countP p = l.countP (fun x => p x && q x) + l.countP (fun x => p x && !q x) := by
  induction l with
  | nil => rfl
  | cons a l ih =>
    simp only [List.countP_cons, ih]
    cases p a <;> cases q a <;> simp <;> omega

theorem links_count_eq (g : Depsgraph) (hl : links_consistent g) (a b : Nat)
    (ha : a < g.nodes.length) (hb : b < g.nodes.length) :
    (g.node b).inlinks.countP (fun r => decide ((g.rel r).from_ = a) && cyclic_unset g r) =
      remaining_into g b (g.node a).outlinks := by
  unfold remaining_into
  rw [List.countP_eq_length_filter, List.countP_eq_length_filter]
  apply List.Perm.length_eq
  obtain ⟨hao, _, hao', _⟩ := hl a ha
  obtain ⟨_, hbi, _, hbi'⟩ := hl b hb
  rw [List.perm_ext_iff_of_nodup (hbi.filter _) (hao.filter _)]
  intro r
  simp only [List.mem_filter, Bool.and_eq_true, decide_eq_true_eq]
  constructor
  · rintro ⟨hm, hf, hc⟩
    obtain ⟨h1, _, h3⟩ := hbi' r hm
    exact ⟨hf ▸ h3, h1, hc⟩
  · rintro ⟨hm, ht, hc⟩
    obtain ⟨h1, _, h3⟩ := hao' r hm
    exact ⟨ht ▸ h3, h1, hc⟩

theorem waiting_split (g0 g : Depsgraph) (hl : links_consistent g0) (a b : Nat)
    (ha : (g0.node a).type = DEPSNODE_TYPE_OPERATION) (hd : (g.node a).done = 0)
    (hb : b < g0.nodes.length) :
    waiting g0 g b = waiting_except g0 g a b + remaining_into g0 b (g0.node a).outlinks := by
  unfold waiting waiting_except
  rw [countP_split _ (fun r => decide ((g0.rel r).from_ ≠ a))]
  congr 1
  rw [← links_count_eq g0 hl a b (type_operation_lt g0 a ha) hb]
  apply List.countP_congr
  intro r _
  simp only [Bool.and_eq_true, decide_eq_true_eq, Bool.not_eq_true', decide_eq_false_iff_not,
    not_not, counts_as_pending, cyclic_unset]
  constructor
  · rintro ⟨⟨⟨_, h2⟩, _⟩, h4⟩
    exact ⟨h4, h2⟩
  · rintro ⟨h1, h2⟩
    exact ⟨⟨⟨h1 ▸ ha, h2⟩, h1 ▸ hd⟩, h1⟩

theorem waiting_after_mark (g0 g g' : Depsgraph) (a b : Nat)
    (hd : ∀ m, (g'.node m).done = if m = a then 1 else (g.node m).done) :
    waiting g0 g' b = waiting_except g0 g a b := by
  unfold waiting waiting_except
  apply List.countP_congr
  intro r _
  simp only [Bool.and_eq_true, decide_eq_true_eq, hd]
  by_cases h : (g0.rel r).from_ = a <;> simp [h]

theorem waiting_congr (g0 g g' : Depsgraph) (b : Nat)
    (hd : ∀ m, (g'.node m).done = (g.node m).done) : waiting g0 g' b = waiting g0 g b := by
  unfold waiting
  simp only [hd]

theorem operation_tag_update_control (g : Depsgraph) (op_node : Nat) :
    agree_on node_control g (OperationDepsNode.tag_update g op_node) := by
  unfold OperationDepsNode.tag_update
  exact agree_on_modifyNode node_control g op_node _ (fun _ => rfl)

theorem foldl_control (f : Depsgraph → Nat → Depsgraph)
    (hf : ∀ g x, agree_on node_control g (f g x)) :
    ∀ (l : List Nat) (g : Depsgraph), agree_on node_control g (l.foldl f g) := by
  intro l
  induction l with
  | nil => intro g; exact agree_on_refl _ _
  | cons a l ih => intro g; exact agree_on_trans (hf g a) (ih (f g a))

theorem component_tag_update_control (g : Depsgraph) (comp_node : Nat) :
    agree_on node_control g (ComponentDepsNode.tag_update g comp_node) :=
  foldl_control _ operation_tag_update_control _ g

theorem id_tag_update_control (g : Depsgraph) (id_node : Nat) (do_time : Bool) :
    agree_on node_control g (IDDepsNode.tag_update g id_node do_time) :=
  foldl_control _ component_tag_update_control _ g

theorem finalize_layers_control : ∀ (rels : List Nat) (g : Depsgraph) (id_node : Nat),
    agree_on node_control g (finalize_layers rels g id_node) := by
  intro rels
  induction rels with
  | nil => intro g id_node; exact agree_on_refl _ _
  | cons r rels ih =>
    intro g id_node
    rw [finalize_layers]
    simp only
    split
    · refine agree_on_trans ?_ (ih _ _)
      exact agree_on_modifyNode node_control g id_node _ (fun _ => rfl)
    · exact ih _ _

theorem finalize_retag_control (bmain : Main) (g : Depsgraph) (id_node : Nat) :
    agree_on node_control g (finalize_retag bmain g id_node).2 := by
  unfold finalize_retag
  simp only
  split
  · exact id_tag_update_control g id_node true
  · exact agree_on_refl _ _

theorem FinalizeInv.transfer {g0 g g' : Depsgraph} {stack : List Nat}
    {trace : List FinalizeEvent} (hinv : FinalizeInv g0 g stack trace)
    (ha : agree_on node_control g g') : FinalizeInv g0 g' stack trace := by
  refine ⟨agree_on_trans hinv.shape (shape_of_control ha), ?_, ?_, ?_, hinv.ordered⟩
  · intro b hb
    rw [control_pending ha, waiting_congr g0 g g' b (control_done ha)]
    exact hinv.pending b hb
  · intro a hta hd
    rw [control_done ha] at hd
    exact hinv.marked a hta hd
  · intro b hb
    rw [control_pending ha]
    exact hinv.ready b hb

theorem mem_of_append_singleton_eq {α : Type} {l pre post : List α} {e ev : α}
    (h : l ++ [e] = pre ++ ev :: post) :
    (post = [] ∧ pre = l ∧ ev = e) ∨ ∃ post', post = post' ++ [e] ∧ l = pre ++ ev :: post' := by
  rcases List.eq_nil_or_concat post with hp | ⟨post', x, hp⟩
  · subst hp
    have h' : l ++ [e] = pre ++ [ev] := h
    have := List.append_inj' h' rfl
    left
    refine ⟨rfl, this.1.symm, ?_⟩
    have h2 := this.2
    simp at h2
    exact h2.symm
  · subst hp
    right
    have h' : l ++ [e] = (pre ++ ev :: post') ++ [x] := by simpa using h
    have := List.append_inj' h' rfl
    have h2 := this.2
    simp at h2
    exact ⟨post', by rw [h2]; simp, this.1⟩

theorem FinalizeInv.ordered_push {g0 g : Depsgraph} {stack : List Nat}
    {trace : List FinalizeEvent} (hinv : FinalizeInv g0 g stack trace) (node : Nat)
    (hn : node ∈ stack) (e : FinalizeEvent)
    (he : e = FinalizeEvent.finalize node ∨ e = FinalizeEvent.expand node) :
    ∀ pre post ev b, trace ++ [e] = pre ++ ev :: post →
      (ev = FinalizeEvent.finalize b ∨ ev = FinalizeEvent.expand b) →
      ∀ r ∈ (g0.node b).inlinks, counts_as_pending g0 r = true →
        FinalizeEvent.expand (g0.rel r).from_ ∈ pre := by
  intro pre post ev b hsplit hev r hr hc
  rcases mem_of_append_singleton_eq hsplit with ⟨_, hpre, hev'⟩ | ⟨post', _, htr⟩
  · subst hpre
    subst hev'
    have hb : b = node := by
      rcases he with he | he <;> rcases hev with hev | hev <;> rw [he] at hev <;> cases hev <;> rfl
    subst hb
    obtain ⟨hty, hz⟩ := hinv.ready b hn
    have hw := hinv.pending b hty
    rw [hz] at hw
    have hw0 : waiting g0 g b = 0 := by exact_mod_cast hw.symm
    unfold waiting at hw0
    rw [List.countP_eq_zero] at hw0
    have := hw0 r hr
    simp only [Bool.and_eq_true, decide_eq_true_eq, not_and] at this
    have hdone := this hc
    have hfrom : (g0.node (g0.rel r).from_).type = DEPSNODE_TYPE_OPERATION := by
      unfold counts_as_pending at hc
      simp only [decide_eq_true_eq] at hc
      exact hc.1
    exact hinv.marked _ hfrom hdone
  · exact hinv.ordered pre post' ev b htr hev r hr hc

theorem finalize_step_inv (g0 : Depsgraph) (hl : links_consistent g0) (s : FinalizeState)
    (node : Nat) (rest : List Nat)
    (hinv : FinalizeInv g0 s.graph (node :: rest) s.trace) :
    FinalizeInv g0 (finalize_step s node rest).graph (finalize_step s node rest).stack
      (finalize_step s node rest).trace := by
  obtain ⟨hty, hz⟩ := hinv.ready node (List.mem_cons_self _ _)
  have hlt0 : node < g0.nodes.length := type_operation_lt g0 node hty
  unfold finalize_step
  split
  · rename_i hcond
    have hd : (s.graph.node node).done = 0 := hcond.1
    simp only
    have hp : ∀ b, (g0.node b).type = DEPSNODE_TYPE_OPERATION →
        (s.graph.node b).num_links_pending =
          ((waiting_except g0 s.graph node b +
            remaining_into g0 b (s.graph.node node).outlinks : Nat) : Int) := by
      intro b hb
      rw [hinv.pending b hb, shape_outlinks hinv.shape,
        waiting_split g0 s.graph hl node b hty hd (type_operation_lt g0 b hb)]
    obtain ⟨i1, i2, i3, _, _⟩ := finalize_expand_inv g0 (waiting_except g0 s.graph node)
      (s.graph.node node).outlinks s.graph (node :: rest) s.assert_failed hinv.shape hp hinv.ready
    have hlen : node < (finalize_expand (s.graph.node node).outlinks s.graph (node :: rest)
        s.assert_failed).1.nodes.length := by
      rw [agree_on_length i1, agree_on_length hinv.shape]; exact hlt0
    have hpend : ∀ b, (((finalize_expand (s.graph.node node).outlinks s.graph (node :: rest)
        s.assert_failed).1.modifyNode node fun n => { n with done := 1 }).node
          b).num_links_pending =
        ((finalize_expand (s.graph.node node).outlinks s.graph (node :: rest)
          s.assert_failed).1.node b).num_links_pending := by
      intro b
      rw [node_modifyNode]
      split <;> rfl
    have hdone : ∀ m, (((finalize_expand (s.graph.node node).outlinks s.graph (node :: rest)
        s.assert_failed).1.modifyNode node fun n => { n with done := 1 }).node m).done =
        if m = node then 1 else (s.graph.node m).done := by
      intro m
      rw [node_modifyNode]
      by_cases hm : m = node
      · subst hm
        rw [if_pos ⟨rfl, hlen⟩, if_pos rfl]
      · rw [if_neg (fun h => hm h.1.symm), if_neg hm]
        exact shape_done_done i1 m
    refine ⟨?_, ?_, ?_, ?_, ?_⟩
    · exact agree_on_trans (agree_on_trans hinv.shape (shape_of_shape_done i1))
        (agree_on_modifyNode node_shape _ node _ (fun _ => rfl))
    · intro b hb
      rw [hpend, i2 b hb, waiting_after_mark g0 s.graph _ node b hdone]
    · intro a hta hda
      rw [hdone] at hda
      by_cases ha : a = node
      · subst ha
        exact List.mem_append_right _ (List.mem_singleton_self _)
      · rw [if_neg ha] at hda
        exact List.mem_append_left _ (hinv.marked a hta hda)
    · intro b hb
      rw [hpend]
      exact i3 b hb
    · exact hinv.ordered_push node (List.mem_cons_self _ _) _ (Or.inr rfl)
  · simp only
    have hctl : agree_on node_control s.graph
        (finalize_retag s.bmain
          (finalize_layers (s.graph.node node).outlinks s.graph (s.graph.id_node_of node))
          (s.graph.id_node_of node)).2 :=
      agree_on_trans (finalize_layers_control _ _ _) (finalize_retag_control _ _ _)
    have hinv' : FinalizeInv g0 s.graph rest (s.trace ++ [FinalizeEvent.finalize node]) := by
      refine ⟨hinv.shape, hinv.pending, ?_, ?_, ?_⟩
      · intro a hta hda
        exact List.mem_append_left _ (hinv.marked a hta hda)
      · intro b hb
        exact hinv.ready b (List.mem_cons_of_mem _ hb)
      · exact hinv.ordered_push node (List.mem_cons_self _ _) _ (Or.inl rfl)
    exact hinv'.transfer hctl

theorem finalize_loop_inv (g0 : Depsgraph) (hl : links_consistent g0) :
    ∀ (fuel : Nat) (s : FinalizeState), FinalizeInv g0 s.graph s.stack s.trace →
      FinalizeInv g0 (finalize_loop fuel s).graph (finalize_loop fuel s).stack
        (finalize_loop fuel s).trace := by
  intro fuel
  induction fuel with
  | zero => intro s h; exact h
  | succ fuel ih =>
    intro s h
    rw [finalize_loop]
    cases hs : s.stack with
    | nil => simpa [hs] using h
    | cons node rest =>
      simp only
      apply ih
      rw [hs] at h
      exact finalize_step_inv g0 hl s node rest h

theorem finalize_init_spec (g0 : Depsgraph) :
    ∀ (l : List Nat) (bmain : Main) (g : Depsgraph) (stack : List Nat),
      agree_on node_shape g0 g →
      (∀ n ∈ l, n < g0.nodes.length) →
      agree_on node_shape g0 (finalize_init l bmain g stack).2.1 ∧
        (∀ n, (n ∈ l ∨ ((g.node n).done = 0 ∧ (g.node n).num_links_pending =
              (((g0.node n).inlinks.countP (counts_as_pending g0) : Nat) : Int))) →
          ((finalize_init l bmain g stack).2.1.node n).done = 0 ∧
            ((finalize_init l bmain g stack).2.1.node n).num_links_pending =
              (((g0.node n).inlinks.countP (counts_as_pending g0) : Nat) : Int)) ∧
        (∀ b ∈ (finalize_init l bmain g stack).2.2, b ∈ stack ∨
          (b ∈ l ∧ (((g0.node b).inlinks.countP (counts_as_pending g0) : Nat) : Int) = 0)) := by
  intro l
  induction l with
  | nil =>
    intro bmain g stack hs _
    refine ⟨hs, ?_, fun b hb => Or.inl hb⟩
    intro n hn
    rcases hn with hn | hn
    · cases hn
    · exact hn
  | cons node rest ih =>
    intro bmain g stack hs hlt
    have hnode : node < g.nodes.length := by
      rw [agree_on_length hs]; exact hlt node (List.mem_cons_self _ _)
    have hc : (g.node node).inlinks.countP (counts_as_pending g) =
        (g0.node node).inlinks.countP (counts_as_pending g0) := by
      rw [shape_inlinks hs]
      congr 1
      funext r
      exact counts_as_pending_shape hs r
    rw [finalize_init]
    simp only [hc]
    have hs1 : agree_on node_shape g0 (g.modifyNode node fun n =>
        { n with done := 0, num_links_pending :=
          (((g0.node node).inlinks.countP (counts_as_pending g0) : Nat) : Int) }) :=
      agree_on_trans hs (agree_on_modifyNode node_shape g node _ (fun _ => rfl))
    obtain ⟨i1, i2, i3⟩ := ih
      ((bmain.modifyID ((g.modifyNode node fun n =>
        { n with done := 0, num_links_pending :=
          (((g0.node node).inlinks.countP (counts_as_pending g0) : Nat) : Int) }).node
          ((g.modifyNode node fun n =>
        { n with done := 0, num_links_pending :=
          (((g0.node node).inlinks.countP (counts_as_pending g0) : Nat) : Int) }).id_node_of
            node)).id) fun i => { i with flag := i.flag ||| LIB_DOIT })
      (g.modifyNode node fun n =>
        { n with done := 0, num_links_pending :=
          (((g0.node node).inlinks.countP (counts_as_pending g0) : Nat) : Int) })
      (if ((g.modifyNode node fun n =>
        { n with done := 0, num_links_pending :=
          (((g0.node node).inlinks.countP (counts_as_pending g0) : Nat) : Int) }).node
            node).num_links_pending = 0 then node :: stack else stack)
      hs1 (fun n hn => hlt n (List.mem_cons_of_mem _ hn))
    have hself : ((g.modifyNode node fun n =>
        { n with done := 0, num_links_pending :=
          (((g0.node node).inlinks.countP (counts_as_pending g0) : Nat) : Int) }).node node) =
        { g.node node with done := 0, num_links_pending :=
          (((g0.node node).inlinks.countP (counts_as_pending g0) : Nat) : Int) } := by
      rw [node_modifyNode, if_pos ⟨rfl, hnode⟩]
    refine ⟨i1, ?_, ?_⟩
    · intro n hn
      apply i2
      by_cases hnn : n = node
      · subst hnn
        right
        rw [hself]
        exact ⟨rfl, rfl⟩
      · rcases hn with hn | hn
        · rcases List.mem_cons.1 hn with h | h
          · exact absurd h hnn
          · exact Or.inl h
        · right
          rw [node_modifyNode, if_neg (fun h => hnn h.1.symm)]
          exact hn
    · intro b hb
      rcases i3 b hb with h | ⟨h1, h2⟩
      · split at h
        · rename_i hz
          rcases List.mem_cons.1 h with h' | h'
          · subst h'
            right
            rw [hself] at hz
            exact ⟨List.mem_cons_self _ _, hz⟩
          · exact Or.inl h'
        · exact Or.inl h
      · exact Or.inr ⟨List.mem_cons_of_mem _ h1, h2⟩

theorem finalize_start_inv (bmain : Main) (g : Depsgraph) (ho : operations_typed g) :
    FinalizeInv g (finalize_start bmain g).graph (finalize_start bmain g).stack
      (finalize_start bmain g).trace := by
  obtain ⟨i1, i2, i3⟩ := finalize_init_spec g g.operations bmain g [] (agree_on_refl _ _)
    (fun n hn => (ho.1 n hn).1)
  have hdone : ∀ a, (g.node a).type = DEPSNODE_TYPE_OPERATION →
      ((finalize_init g.operations bmain g []).2.1.node a).done = 0 := by
    intro a ha
    exact (i2 a (Or.inl (ho.2 a (type_operation_lt g a ha) ha))).1
  unfold finalize_start
  simp only
  refine ⟨i1, ?_, ?_, ?_, ?_⟩
  · intro b hb
    rw [(i2 b (Or.inl (ho.2 b (type_operation_lt g b hb) hb))).2]
    congr 1
    unfold waiting
    apply List.countP_congr
    intro r _
    simp only [Bool.and_eq_true, decide_eq_true_eq, iff_self_and]
    intro hc
    apply hdone
    unfold counts_as_pending at hc
    simp only [decide_eq_true_eq] at hc
    exact hc.1
  · intro a ha hd
    exact absurd (hdone a ha) hd
  · intro b hb
    rcases i3 b hb with h | ⟨h1, h2⟩
    · cases h
    · refine ⟨(ho.1 b h1).2, ?_⟩
      rw [(i2 b (Or.inl h1)).2]
      exact h2
  · intro pre post ev b h
    simp at h

/-- The invariant of the finalize loop holds after any number of iterations on
a graph with consistent link lists whose operations list holds exactly its
operation nodes. -/
theorem finalize_invariant (bmain : Main) (g : Depsgraph) (hl : links_consistent g)
    (ho : operations_typed g) (fuel : Nat) :
    FinalizeInv g (finalize_loop fuel (finalize_start bmain g)).graph
      (finalize_loop fuel (finalize_start bmain g)).stack
      (finalize_loop fuel (finalize_start bmain g)).trace :=
  finalize_loop_inv g hl fuel _ (finalize_start_inv bmain g ho)

/-! ### Termination of the finalize loop -/

theorem finalize_expand_frame : ∀ (rels : List Nat) (g : Depsgraph) (stack : List Nat)
    (af : Bool),
    agree_on node_shape_done g (finalize_expand rels g stack af).1 ∧
      (finalize_expand rels g stack af).2.1.length ≤ stack.length + rels.length := by
  intro rels
  induction rels with
  | nil => intro g stack af; exact ⟨agree_on_refl _ _, by simp [finalize_expand]⟩
  | cons r rels ih =>
    intro g stack af
    rw [finalize_expand]
    simp only
    split
    · obtain ⟨i1, i2⟩ := ih
        (if cyclic_unset g r = true then g.modifyNode (g.rel r).to_ DepsNode.decrement_pending
          else g)
        (if ((if cyclic_unset g r = true then
            g.modifyNode (g.rel r).to_ DepsNode.decrement_pending else g).node
              (g.rel r).to_).num_links_pending = 0 then (g.rel r).to_ :: stack else stack)
        (af || (cyclic_unset g r && decide ((g.node (g.rel r).to_).num_links_pending ≤ 0)))
      have hpush : ∀ (c : Prop) [Decidable c],
          (if c then (g.rel r).to_ :: stack else stack).length ≤ stack.length + 1 := by
        intro c _
        split <;> simp
      refine ⟨agree_on_trans ?_ i1,
        le_trans i2 (le_trans (Nat.add_le_add_right (hpush _) _) ?_)⟩
      · split
        · exact agree_on_modifyNode _ _ _ _ (fun _ => rfl)
        · exact agree_on_refl _ _
      · simp
        omega
    · obtain ⟨i1, i2⟩ := ih g stack af
      exact ⟨i1, by simp; omega⟩

theorem sum_map_modify {α : Type} (w : α → Nat) (f : α → α) :
    ∀ (l : List α) (n : Nat) (hn : n < l.length),
      ((l.modify f n).map w).sum + w (l.get ⟨n, hn⟩) =
        (l.map w).sum + w (f (l.get ⟨n, hn⟩)) := by
  intro l
  induction l with
  | nil => intro n hn; simp at hn
  | cons a l ih =>
    intro n hn
    cases n with
    | zero => simp; omega
    | succ n =>
      have hn' : n < l.length := by simpa using hn
      have := ih n hn'
      simp only [List.modify_succ_cons, List.map_cons, List.sum_cons, List.get_eq_getElem,
        List.getElem_cons_succ] at this ⊢
      omega

theorem weight_of_shape_done {g g' : Depsgraph} (ha : agree_on node_shape_done g g') :
    (g'.nodes.map expand_weight).sum = (g.nodes.map expand_weight).sum := by
  have hw : expand_weight = (fun c : (eDepsNode_Type × List Nat × List Nat) × Nat =>
      if c.2 = 0 then 1 + c.1.2.2.length else 0) ∘ node_shape_done := by
    funext n
    rfl
  rw [hw, ← List.map_map, ← List.map_map, ha.1]

theorem node_eq_get (g : Depsgraph) (m : Nat) (h : m < g.nodes.length) :
    g.node m = g.nodes.get ⟨m, h⟩ := by
  unfold Depsgraph.node
  simp [List.getElem?_eq_getElem h]

theorem shape_done_of_control {g g' : Depsgraph} (ha : agree_on node_control g g') :
    agree_on node_shape_done g g' :=
  agree_on_weaken (fun c => c.1) ha

theorem finalize_step_measure (s : FinalizeState) (node : Nat) (rest : List Nat) :
    finalize_measure (finalize_step s node rest).graph (finalize_step s node rest).stack + 1 ≤
      finalize_measure s.graph (node :: rest) := by
  unfold finalize_step
  split
  · rename_i hcond
    simp only
    obtain ⟨i1, i2⟩ := finalize_expand_frame (s.graph.node node).outlinks s.graph (node :: rest)
      s.assert_failed
    have hlt : node < s.graph.nodes.length := by
      by_contra hge
      apply hcond.2
      rw [node_default_of_le _ _ (Nat.le_of_not_lt hge), default_node_eq]
      rfl
    have hlt' : node < (finalize_expand (s.graph.node node).outlinks s.graph (node :: rest)
        s.assert_failed).1.nodes.length := by
      rw [agree_on_length i1]; exact hlt
    have hget := (node_eq_get _ node hlt').symm
    have hsum := sum_map_modify expand_weight (fun n => { n with done := 1 })
      (finalize_expand (s.graph.node node).outlinks s.graph (node :: rest)
        s.assert_failed).1.nodes node hlt'
    rw [hget] at hsum
    have hw1 : expand_weight ((finalize_expand (s.graph.node node).outlinks s.graph
        (node :: rest) s.assert_failed).1.node node) = 1 + (s.graph.node node).outlinks.length := by
      unfold expand_weight
      rw [shape_done_done i1, shape_outlinks (shape_of_shape_done i1), if_pos hcond.1]
    have hw2 : expand_weight ({ (finalize_expand (s.graph.node node).outlinks s.graph
        (node :: rest) s.assert_failed).1.node node with done := 1 }) = 0 := by
      unfold expand_weight
      simp
    rw [hw1, hw2] at hsum
    have hws := weight_of_shape_done i1
    unfold finalize_measure Depsgraph.modifyNode
    simp only [List.length_cons] at i2 ⊢
    omega
  · simp only
    have hctl : agree_on node_control s.graph
        (finalize_retag s.bmain
          (finalize_layers (s.graph.node node).outlinks s.graph (s.graph.id_node_of node))
          (s.graph.id_node_of node)).2 :=
      agree_on_trans (finalize_layers_control _ _ _) (finalize_retag_control _ _ _)
    have hws := weight_of_shape_done (shape_done_of_control hctl)
    unfold finalize_measure
    simp only [List.length_cons]
    omega

theorem finalize_loop_terminates : ∀ (fuel : Nat) (s : FinalizeState),
    finalize_measure s.graph s.stack ≤ fuel → (finalize_loop fuel s).stack = [] := by
  intro fuel
  induction fuel with
  | zero =>
    intro s h
    unfold finalize_measure at h
    rw [finalize_loop]
    exact List.length_eq_zero.1 (by omega)
  | succ fuel ih =>
    intro s h
    rw [finalize_loop]
    cases hs : s.stack with
    | nil => simpa using hs
    | cons node rest =>
      simp only
      apply ih
      have := finalize_step_measure s node rest
      rw [hs] at h
      omega

theorem finalize_init_length : ∀ (l : List Nat) (bmain : Main) (g : Depsgraph)
    (stack : List Nat), (finalize_init l bmain g stack).2.2.length ≤ stack.length + l.length := by
  intro l
  induction l with
  | nil => intro bmain g stack; simp [finalize_init]
  | cons node rest ih =>
    intro bmain g stack
    rw [finalize_init]
    refine le_trans (ih _ _ _) ?_
    split
    · simp
      omega
    · simp

theorem finalize_init_shape : ∀ (l : List Nat) (bmain : Main) (g : Depsgraph)
    (stack : List Nat), agree_on node_shape g (finalize_init l bmain g stack).2.1 := by
  intro l
  induction l with
  | nil => intro bmain g stack; exact agree_on_refl _ _
  | cons node rest ih =>
    intro bmain g stack
    rw [finalize_init]
    refine agree_on_trans ?_ (ih _ _ _)
    exact agree_on_modifyNode node_shape g node _ (fun _ => rfl)

theorem weight_le_of_shape {g g' : Depsgraph} (ha : agree_on node_shape g g') :
    (g'.nodes.map expand_weight).sum ≤ (g.nodes.map fun n => 1 + n.outlinks.length).sum := by
  have h1 : (g'.nodes.map expand_weight).sum ≤
      (g'.nodes.map fun n => 1 + n.outlinks.length).sum := by
    apply List.sum_le_sum
    intro n _
    unfold expand_weight
    split <;> omega
  have h2 : (fun n : DepsNode => 1 + n.outlinks.length) =
      (fun c : eDepsNode_Type × List Nat × List Nat => 1 + c.2.2.length) ∘ node_shape := by
    funext n
    rfl
  rw [h2, ← List.map_map, ← ha.1, List.map_map, ← h2]
  exact h1

/-- The finalize loop empties its stack within `finalize_fuel` iterations, on
every graph. -/
theorem finalize_run_terminates (bmain : Main) (g : Depsgraph) :
    (finalize_run bmain g).stack = [] := by
  unfold finalize_run
  apply finalize_loop_terminates
  unfold finalize_measure finalize_start finalize_fuel
  simp only
  have h1 := finalize_init_length g.operations bmain g []
  have h2 := weight_le_of_shape (finalize_init_shape g.operations bmain g [])
  simp only [List.length_nil] at h1
  omega

/-- C2 as stated fails: in the chain `0 -> 1` the relation has `CYCLIC` unset,
and the finalize pass pops and finalizes operation `1` first and operation `0`
second. -/
theorem finalize_order_not_topological :
    noncyclic_op_edge example_chain2 0 1 ∧
      (finalize_run {} example_chain2).stack = [] ∧
      finalize_order (finalize_run {} example_chain2).trace = [1, 0] := by
  decide

/-- C2 amended: on a graph with consistent link lists whose operations list
holds exactly its operation nodes, the finalize loop empties its stack, and
for every relation `a -> b` between operation nodes with `CYCLIC` unset every
visit of `b` on top of the ready stack, its expansion as well as each time it
is popped and finalized, comes after the expansion of `a` (the visit that
scans the outlinks of `a` and decrements the counter of `b`). -/
theorem finalize_visits_after_source_expanded (bmain : Main) (g : Depsgraph)
    (hl : links_consistent g) (ho : operations_typed g) :
    (finalize_run bmain g).stack = [] ∧
      ∀ a b, noncyclic_op_edge g a b →
        ∀ pre post ev, (finalize_run bmain g).trace = pre ++ ev :: post →
          (ev = FinalizeEvent.finalize b ∨ ev = FinalizeEvent.expand b) →
          FinalizeEvent.expand a ∈ pre := by
  refine ⟨finalize_run_terminates bmain g, ?_⟩
  intro a b hab pre post ev htr hev
  obtain ⟨hta, _, r, hr, hto, hnc⟩ := hab
  have hinv := finalize_invariant bmain g hl ho (finalize_fuel g)
  obtain ⟨_, _, hout, _⟩ := hl a (type_operation_lt g a hta)
  obtain ⟨hfrom, _, hin⟩ := hout r hr
  have hc : counts_as_pending g r = true := by
    unfold counts_as_pending
    simp only [decide_eq_true_eq]
    exact ⟨hfrom ▸ hta, hnc⟩
  have := hinv.ordered pre post ev b htr hev r (hto ▸ hin) hc
  rw [hfrom] at this
  exact this

/-- Witness for `finalize_visits_after_source_expanded`: the chain `0 -> 1`. -/
theorem finalize_visits_after_source_expanded_witness :
    links_consistent example_chain2 ∧ operations_typed example_chain2 ∧
      (finalize_run {} example_chain2).stack = [] ∧
      ∀ a b, noncyclic_op_edge example_chain2 a b →
        ∀ pre post ev, (finalize_run {} example_chain2).trace = pre ++ ev :: post →
          (ev = FinalizeEvent.finalize b ∨ ev = FinalizeEvent.expand b) →
          FinalizeEvent.expand a ∈ pre :=
  ⟨by decide, by decide,
    finalize_visits_after_source_expanded {} example_chain2 (by decide) (by decide)⟩

/-- On two operations with `0 -> 1` and `1 -> 0`, the second relation flagged
`CYCLIC`, the finalize pass expands `0`, which pushes `1`, then expands `1`,
which pushes `0` again because the counter of `0` is zero, and then pops and
finalizes `0`, `1` and `0`: a node can be finalized ahead of a node it has
pushed, and more than once. -/
theorem finalize_flagged_cycle_trace :
    links_consistent example_flagged_cycle ∧ operations_typed example_flagged_cycle ∧
      noncyclic_op_edge example_flagged_cycle 0 1 ∧
      (finalize_run {} example_flagged_cycle).stack = [] ∧
      (finalize_run {} example_flagged_cycle).trace =
        [FinalizeEvent.expand 0, FinalizeEvent.expand 1, FinalizeEvent.finalize 0,
          FinalizeEvent.finalize 1, FinalizeEvent.finalize 0] := by
  decide

/-! ### Building and rebuilding -/

theorem getScene_modifyScene (bmain : Main) (s : Nat) (f : Scene → Scene) (t : Nat) :
    (bmain.modifyScene s f).getScene t =
      if s = t ∧ t < bmain.scene.length then f (bmain.getScene t) else bmain.getScene t := by
  unfold Main.getScene Main.modifyScene
  simp only [List.getD_eq_getElem?_getD, List.getElem?_modify]
  by_cases ht : t < bmain.scene.length
  · rw [List.getElem?_eq_getElem ht]
    by_cases hs : s = t <;> simp [hs, ht]
  · rw [List.getElem?_eq_none (by omega)]
    simp [ht]

theorem scene_lt_of_graph (bmain : Main) (scene : Nat) (graph : Depsgraph)
    (hg : (bmain.getScene scene).depsgraph = some graph) : scene < bmain.scene.length := by
  by_contra h
  unfold Main.getScene at hg
  rw [List.getD_eq_default _ _ (by omega)] at hg
  cases hg

theorem getScene_setGraph (bmain : Main) (scene : Nat) (g : Depsgraph)
    (h : scene < bmain.scene.length) :
    ((bmain.setGraph scene g).getScene scene).depsgraph = some g := by
  unfold Main.setGraph
  rw [getScene_modifyScene]
  simp [h]

theorem setGraph_setGraph (bmain : Main) (scene : Nat) (g g' : Depsgraph) :
    (bmain.setGraph scene g).setGraph scene g' = bmain.setGraph scene g' := by
  unfold Main.setGraph Main.modifyScene
  simp only [List.modify_modify_eq]
  rfl

theorem modifyID_scene (bmain : Main) (i : Nat) (f : ID → ID) :
    (bmain.modifyID i f).scene = bmain.scene := rfl

theorem DEG_id_type_tag_scene (bmain : Main) (idtype : Nat) :
    (DEG_id_type_tag bmain idtype).scene = bmain.scene := by
  unfold DEG_id_type_tag
  split <;> rfl

theorem lib_id_recalc_tag_scene (bmain : Main) (id : Nat) :
    (lib_id_recalc_tag bmain id).scene = bmain.scene := by
  unfold lib_id_recalc_tag
  rw [DEG_id_type_tag_scene, modifyID_scene]

theorem finalize_init_scene : ∀ (l : List Nat) (bmain : Main) (g : Depsgraph) (stack : List Nat),
    (finalize_init l bmain g stack).1.scene = bmain.scene := by
  intro l
  induction l with
  | nil => intro bmain g stack; rfl
  | cons node rest ih =>
    intro bmain g stack
    rw [finalize_init, ih, modifyID_scene]

theorem finalize_retag_scene (bmain : Main) (g : Depsgraph) (id_node : Nat) :
    (finalize_retag bmain g id_node).1.scene = bmain.scene := by
  unfold finalize_retag
  simp only
  split <;> rfl

theorem finalize_step_scene (s : FinalizeState) (node : Nat) (rest : List Nat) :
    (finalize_step s node rest).bmain.scene = s.bmain.scene := by
  unfold finalize_step
  split
  · rfl
  · exact finalize_retag_scene _ _ _

theorem finalize_loop_scene : ∀ (fuel : Nat) (s : FinalizeState),
    (finalize_loop fuel s).bmain.scene = s.bmain.scene := by
  intro fuel
  induction fuel with
  | zero => intro s; rfl
  | succ fuel ih =>
    intro s
    rw [finalize_loop]
    split
    · rfl
    · rw [ih, finalize_step_scene]

theorem build_finalize_scene (bmain : Main) (g : Depsgraph) :
    ∃ r, deg_graph_build_finalize bmain g = some r ∧ r.1.scene = bmain.scene := by
  refine ⟨((finalize_run bmain g).bmain, (finalize_run bmain g).graph), ?_, ?_⟩
  · unfold deg_graph_build_finalize
    simp [finalize_run_terminates]
  · show (finalize_run bmain g).bmain.scene = bmain.scene
    unfold finalize_run
    rw [finalize_loop_scene]
    exact finalize_init_scene _ _ _ _

theorem build_from_scene_returns (env : BuildEnv) (graph : Depsgraph) (bmain : Main)
    (scene : Nat) :
    ∃ r, DEG_graph_build_from_scene env graph bmain scene = some r ∧ r.1.scene = bmain.scene :=
  build_finalize_scene _ _

theorem relations_update_noop (env : BuildEnv) (bmain : Main) (scene : Nat) (graph : Depsgraph)
    (hg : (bmain.getScene scene).depsgraph = some graph) (hn : graph.need_update = false) :
    DEG_scene_relations_update env bmain scene = some bmain := by
  unfold DEG_scene_relations_update
  rw [hg]
  simp [hn]

theorem relations_update_new (env : BuildEnv) (bmain : Main) (scene : Nat)
    (hg : (bmain.getScene scene).depsgraph = none) :
    ∃ r, DEG_graph_build_from_scene env DEG_graph_new (bmain.setGraph scene DEG_graph_new)
          scene = some r ∧
      DEG_scene_relations_update env bmain scene = some (r.1.setGraph scene r.2) := by
  obtain ⟨r, hr, _⟩ := build_from_scene_returns env DEG_graph_new
    (bmain.setGraph scene DEG_graph_new) scene
  refine ⟨r, hr, ?_⟩
  unfold DEG_scene_relations_update
  rw [hg]
  simp only [hr, Option.map_some']

theorem relations_update_stale (env : BuildEnv) (bmain : Main) (scene : Nat) (graph : Depsgraph)
    (hg : (bmain.getScene scene).depsgraph = some graph) (hn : graph.need_update = true) :
    ∃ r, DEG_graph_build_from_scene env { layers := graph.layers, need_update := true }
          (bmain.setGraph scene { layers := graph.layers, need_update := true })
          scene = some r ∧
      DEG_scene_relations_update env bmain scene =
        some (r.1.setGraph scene { r.2 with need_update := false }) ∧
      ((r.1.setGraph scene { r.2 with need_update := false }).getScene scene).depsgraph =
        some { r.2 with need_update := false } := by
  have hc : ({ graph.clear_all_nodes with operations := [], entry_tags := [] } : Depsgraph) =
      { layers := graph.layers, need_update := true } := by
    unfold Depsgraph.clear_all_nodes
    simp only [hn]
  obtain ⟨r, hr, hs⟩ := build_from_scene_returns env
    { layers := graph.layers, need_update := true }
    (bmain.setGraph scene { layers := graph.layers, need_update := true }) scene
  refine ⟨r, hr, ?_, ?_⟩
  · unfold DEG_scene_relations_update
    rw [hg]
    simp only [hn, hc, hr, Option.map_some']
    simp
  · apply getScene_setGraph
    rw [hs]
    unfold Main.setGraph Main.modifyScene
    simp only [List.length_modify]
    exact scene_lt_of_graph bmain scene graph hg

/-- C12: `DEG_scene_relations_update` on a scene whose graph exists and has
`need_update` false returns the main database as it was, so the graph keeps its
nodes, operations, relations, entry tags and flags, whatever the builders would
do; when the scene has no graph it builds a new graph, and when `need_update`
is true it builds from the emptied graph, and in both cases the scene holds the
built graph afterwards. -/
theorem scene_relations_update_builds_when_stale (env : BuildEnv) (bmain : Main) (scene : Nat) :
    (∀ graph, (bmain.getScene scene).depsgraph = some graph → graph.need_update = false →
        DEG_scene_relations_update env bmain scene = some bmain) ∧
      ((bmain.getScene scene).depsgraph = none →
        ∃ r, DEG_graph_build_from_scene env DEG_graph_new (bmain.setGraph scene DEG_graph_new)
              scene = some r ∧
          DEG_scene_relations_update env bmain scene = some (r.1.setGraph scene r.2)) ∧
      (∀ graph, (bmain.getScene scene).depsgraph = some graph → graph.need_update = true →
        ∃ r, DEG_graph_build_from_scene env { layers := graph.layers, need_update := true }
              (bmain.setGraph scene { layers := graph.layers, need_update := true })
              scene = some r ∧
          DEG_scene_relations_update env bmain scene =
            some (r.1.setGraph scene { r.2 with need_update := false }) ∧
          ((r.1.setGraph scene { r.2 with need_update := false }).getScene scene).depsgraph =
            some { r.2 with need_update := false }) :=
  ⟨relations_update_noop env bmain scene, relations_update_new env bmain scene,
    relations_update_stale env bmain scene⟩

/-- Witness for `scene_relations_update_builds_when_stale`: a scene whose graph
is up to date; the update returns the main database as it was. -/
theorem scene_relations_update_builds_when_stale_witness :
    DEG_scene_relations_update example_env (example_main false) 0 = some (example_main false) :=
  (scene_relations_update_builds_when_stale example_env (example_main false) 0).1
    { example_chain2 with need_update := false } rfl rfl

/-- C11: `DEG_scene_relations_rebuild` on a scene that has a graph returns, and
what it returns is a full rebuild: `DEG_graph_build_from_scene` is run on the
graph with its nodes, relations, operations list and entry tags emptied (only
`layers` is kept), the scene holds the graph that this build produced, and
`need_update` is false on it. -/
theorem scene_relations_rebuild_full (env : BuildEnv) (bmain : Main) (scene : Nat)
    (graph : Depsgraph) (hg : (bmain.getScene scene).depsgraph = some graph) :
    ∃ cleared r,
      cleared = ({ layers := graph.layers, need_update := true } : Depsgraph) ∧
      cleared.nodes = [] ∧ cleared.operations = [] ∧ cleared.entry_tags = [] ∧
      DEG_graph_build_from_scene env cleared (bmain.setGraph scene cleared) scene = some r ∧
      DEG_scene_relations_rebuild env bmain scene =
        some (r.1.setGraph scene { r.2 with need_update := false }) ∧
      ∃ built, ((r.1.setGraph scene { r.2 with need_update := false }).getScene scene).depsgraph =
          some built ∧ built.need_update = false ∧ built.nodes = r.2.nodes ∧
        built.relations = r.2.relations ∧ built.operations = r.2.operations ∧
        built.entry_tags = r.2.entry_tags := by
  have hlt := scene_lt_of_graph bmain scene graph hg
  have hu := relations_update_stale env
    (bmain.setGraph scene (DEG_graph_tag_relations_update graph)) scene
    (DEG_graph_tag_relations_update graph) (getScene_setGraph _ _ _ hlt) rfl
  obtain ⟨r, hr, hres, hget⟩ := hu
  rw [setGraph_setGraph] at hr
  refine ⟨_, r, rfl, rfl, rfl, rfl, hr, ?_, _, hget, rfl, rfl, rfl, rfl, rfl⟩
  unfold DEG_scene_relations_rebuild
  rw [hg]
  exact hres

/-- Witness for `scene_relations_rebuild_full`: the first scene of
`example_main`, whose graph is the chain `0 -> 1`. -/
theorem scene_relations_rebuild_full_witness :
    ((example_main false).getScene 0).depsgraph =
        some { example_chain2 with need_update := false } ∧
      ∃ cleared r,
        cleared = ({ layers := 0, need_update := true } : Depsgraph) ∧
        cleared.nodes = [] ∧ cleared.operations = [] ∧ cleared.entry_tags = [] ∧
        DEG_graph_build_from_scene example_env cleared ((example_main false).setGraph 0 cleared)
          0 = some r ∧
        DEG_scene_relations_rebuild example_env (example_main false) 0 =
          some (r.1.setGraph 0 { r.2 with need_update := false }) ∧
        ∃ built, ((r.1.setGraph 0 { r.2 with need_update := false }).getScene 0).depsgraph =
            some built ∧ built.need_update = false ∧ built.nodes = r.2.nodes ∧
          built.relations = r.2.relations ∧ built.operations = r.2.operations ∧
          built.entry_tags = r.2.entry_tags :=
  ⟨rfl, scene_relations_rebuild_full example_env (example_main false) 0
    { example_chain2 with need_update := false } rfl⟩

/-! ### Clearing tags -/

theorem foldl_modifyNode_eq (f : DepsNode → DepsNode) : ∀ (ops : List Nat) (g : Depsgraph),
    ops.foldl (fun g n => g.modifyNode n f) g =
      { g with nodes := ops.foldl (fun ns n => ns.modify f n) g.nodes } := by
  intro ops
  induction ops with
  | nil => intro g; rfl
  | cons a ops ih => intro g; rw [List.foldl_cons, ih]; rfl

theorem foldl_modify_getElem? {α : Type} (f : α → α) (hf : ∀ x, f (f x) = f x) :
    ∀ (ops : List Nat) (ns : List α) (m : Nat),
      (ops.foldl (fun ns n => ns.modify f n) ns)[m]? =
        if m ∈ ops then ns[m]?.map f else ns[m]? := by
  intro ops
  induction ops with
  | nil => intro ns m; simp
  | cons a ops ih =>
    intro ns m
    rw [List.foldl_cons, ih, List.getElem?_modify]
    by_cases ha : a = m
    · subst ha
      cases h : ns[a]? <;> simp [hf]
    · have ha2 : ¬ m = a := fun h => ha h.symm
      simp [ha, ha2]

theorem clear_bits_testBit (x m i : Nat) :
    (clear_bits x m).testBit i = (x.testBit i && !m.testBit i) := by
  unfold clear_bits
  rw [Nat.testBit_xor, Nat.testBit_and]
  cases x.testBit i <;> cases m.testBit i <;> rfl

theorem clear_bits_and (x m : Nat) : clear_bits x m &&& m = 0 := by
  apply Nat.eq_of_testBit_eq
  intro i
  rw [Nat.testBit_and, clear_bits_testBit, Nat.zero_testBit]
  cases x.testBit i <;> cases m.testBit i <;> rfl

theorem clear_bits_idem (x m : Nat) : clear_bits (clear_bits x m) m = clear_bits x m := by
  apply Nat.eq_of_testBit_eq
  intro i
  simp only [clear_bits_testBit]
  cases x.testBit i <;> cases m.testBit i <;> rfl

theorem clear_tags_idem (n : DepsNode) : n.clear_tags.clear_tags = n.clear_tags := by
  unfold DepsNode.clear_tags
  simp only [clear_bits_idem]

theorem clear_tags_node (g : Depsgraph) (m : Nat) :
    (DEG_graph_clear_tags g).node m =
      if m ∈ g.operations then (g.node m).clear_tags else g.node m := by
  unfold DEG_graph_clear_tags
  rw [foldl_modifyNode_eq]
  unfold Depsgraph.node
  simp only [List.getD_eq_getElem?_getD, foldl_modify_getElem? _ clear_tags_idem]
  split
  · cases h : g.nodes[m]? with
    | none => simp only [Option.map_none', Option.getD_none]; rfl
    | some x => rfl
  · rfl

theorem clear_tags_mask_bits (i : Nat) :
    (DEPSOP_FLAG_DIRECTLY_MODIFIED ||| DEPSOP_FLAG_NEEDS_UPDATE).testBit i =
      decide (i = 0 ∨ i = 1) := by
  match i with
  | 0 => rfl
  | 1 => rfl
  | i + 2 =>
    have h : DEPSOP_FLAG_DIRECTLY_MODIFIED ||| DEPSOP_FLAG_NEEDS_UPDATE = 3 := rfl
    rw [h]
    have h3 : (3 : Nat) < 2 ^ (i + 2) := by
      have : 2 ^ 2 ≤ 2 ^ (i + 2) := Nat.pow_le_pow_right (by decide) (by omega)
      omega
    rw [Nat.testBit_lt_two_pow h3]
    simp

theorem clear_tags_shape (g : Depsgraph) :
    DEG_graph_clear_tags g =
      { g with
        nodes := g.operations.foldl (fun ns n => ns.modify DepsNode.clear_tags n) g.nodes
        entry_tags := [] } := by
  unfold DEG_graph_clear_tags
  rw [foldl_modifyNode_eq]

theorem foldl_modify_length {α : Type} (f : α → α) : ∀ (ops : List Nat) (ns : List α),
    (ops.foldl (fun ns n => ns.modify f n) ns).length = ns.length := by
  intro ops
  induction ops with
  | nil => intro ns; rfl
  | cons a ops ih => intro ns; rw [List.foldl_cons, ih, List.length_modify]

theorem clear_tags_length (g : Depsgraph) :
    (DEG_graph_clear_tags g).nodes.length = g.nodes.length := by
  rw [clear_tags_shape]
  exact foldl_modify_length _ _ _

theorem getElem?_eq_node (g : Depsgraph) (m : Nat) (h : m < g.nodes.length) :
    g.nodes[m]? = some (g.node m) := by
  unfold Depsgraph.node
  simp [List.getElem?_eq_getElem h]

theorem graph_eq_of_fields (a b : Depsgraph) (h1 : a.nodes = b.nodes)
    (h2 : a.relations = b.relations) (h3 : a.root_node = b.root_node)
    (h4 : a.id_hash = b.id_hash) (h5 : a.operations = b.operations)
    (h6 : a.entry_tags = b.entry_tags) (h7 : a.layers = b.layers)
    (h8 : a.need_update = b.need_update) : a = b := by
  cases a
  cases b
  simp_all

/-- C17: after `DEG_graph_clear_tags` every operation of the graph has
`DIRECTLY_MODIFIED` and `NEEDS_UPDATE` unset, a pending counter of zero and
`scheduled` false, and there are no entry tags; every other flag bit of every
node is as before, every other field of a node and every node outside the
operations list is as before, the operations list and the relations are
unchanged, and a second call changes nothing. -/
theorem clear_tags_effect (g : Depsgraph) :
    (∀ n ∈ g.operations,
        ((DEG_graph_clear_tags g).node n).flag &&& DEPSOP_FLAG_DIRECTLY_MODIFIED = 0 ∧
        ((DEG_graph_clear_tags g).node n).flag &&& DEPSOP_FLAG_NEEDS_UPDATE = 0 ∧
        ((DEG_graph_clear_tags g).node n).num_links_pending = 0 ∧
        ((DEG_graph_clear_tags g).node n).scheduled = false) ∧
      (DEG_graph_clear_tags g).entry_tags = [] ∧
      (∀ n i, i ≠ 0 → i ≠ 1 →
        ((DEG_graph_clear_tags g).node n).flag.testBit i = (g.node n).flag.testBit i) ∧
      (∀ n, { (DEG_graph_clear_tags g).node n with
          flag := 0, num_links_pending := 0, scheduled := false } =
        { g.node n with flag := 0, num_links_pending := 0, scheduled := false }) ∧
      (∀ n, n ∉ g.operations → (DEG_graph_clear_tags g).node n = g.node n) ∧
      (DEG_graph_clear_tags g).operations = g.operations ∧
      (DEG_graph_clear_tags g).relations = g.relations ∧
      (DEG_graph_clear_tags g).nodes.length = g.nodes.length ∧
      DEG_graph_clear_tags (DEG_graph_clear_tags g) = DEG_graph_clear_tags g := by
  have hshape := clear_tags_shape g
  refine ⟨?_, ?_, ?_, ?_, ?_, ?_, ?_, ?_, ?_⟩
  · intro n hn
    rw [clear_tags_node, if_pos hn]
    refine ⟨?_, ?_, rfl, rfl⟩
    · show clear_bits _ _ &&& _ = 0
      apply Nat.eq_of_testBit_eq
      intro i
      rw [Nat.testBit_and, clear_bits_testBit, clear_tags_mask_bits, Nat.zero_testBit]
      match i with
      | 0 => simp
      | i + 1 => simp [DEPSOP_FLAG_DIRECTLY_MODIFIED, Nat.testBit_succ]
    · show clear_bits _ _ &&& _ = 0
      apply Nat.eq_of_testBit_eq
      intro i
      rw [Nat.testBit_and, clear_bits_testBit, clear_tags_mask_bits, Nat.zero_testBit]
      match i with
      | 0 => simp
      | 1 => simp
      | i + 2 => simp [DEPSOP_FLAG_NEEDS_UPDATE, Nat.testBit_succ]
  · rw [hshape]
  · intro n i h0 h1
    rw [clear_tags_node]
    split
    · show (clear_bits _ _).testBit i = _
      rw [clear_bits_testBit, clear_tags_mask_bits]
      simp [h0, h1]
    · rfl
  · intro n
    rw [clear_tags_node]
    split
    · rfl
    · rfl
  · intro n hn
    rw [clear_tags_node, if_neg hn]
  · rw [hshape]
  · rw [hshape]
  · exact clear_tags_length g
  · have hops : (DEG_graph_clear_tags g).operations = g.operations := by rw [hshape]
    have h2 := clear_tags_shape (DEG_graph_clear_tags g)
    have hl1 := clear_tags_length g
    have hl2 := (clear_tags_length (DEG_graph_clear_tags g)).trans hl1
    apply graph_eq_of_fields
    · apply List.ext_getElem?
      intro m
      by_cases hm : m < g.nodes.length
      · rw [getElem?_eq_node _ m (by omega), getElem?_eq_node _ m (by omega)]
        congr 1
        rw [clear_tags_node (DEG_graph_clear_tags g) m, hops, clear_tags_node g m]
        split
        · exact clear_tags_idem _
        · rfl
      · rw [List.getElem?_eq_none (by omega), List.getElem?_eq_none (by omega)]
    · have h := congrArg Depsgraph.relations h2
      exact h
    · have h := congrArg Depsgraph.root_node h2
      exact h
    · have h := congrArg Depsgraph.id_hash h2
      exact h
    · have h := congrArg Depsgraph.operations h2
      exact h
    · exact (congrArg Depsgraph.entry_tags h2).trans (congrArg Depsgraph.entry_tags hshape).symm
    · have h := congrArg Depsgraph.layers h2
      exact h
    · have h := congrArg Depsgraph.need_update h2
      exact h

/-! ### What the flush may flag -/

/-- C13: on a graph whose outlinks point to nodes of the graph,
`DEG_graph_flush_updates` returns, every node that carries `NEEDS_UPDATE`
afterwards and did not carry it before is reached through one or more outlinks
from an operation that was an entry tag when the flush started, so the flag is
set on no other node, and every node that carried the flag before still
carries it. -/
theorem flush_flags_only_reached (bmain : Main) (g : Depsgraph) (hv : outlinks_valid g) :
    ∃ bmain' g', DEG_graph_flush_updates bmain (some g) = some (bmain', some g') ∧
      (∀ n, needs_update g' n → ¬ needs_update g n →
        ∃ e ∈ g.entry_tags, Relation.TransGen (outlink_edge g) e n) ∧
      (∀ n, needs_update g n → needs_update g' n) := by
  obtain ⟨bmain', g', h1, _, _, _, _, h6⟩ := flush_updates_spec bmain g hv
  refine ⟨bmain', g', by simp [DEG_graph_flush_updates, h1], ?_, ?_⟩
  · intro n hn hold
    rcases (h6 n).1 hn with h | ⟨e, he, hp⟩
    · exact absurd h hold
    · exact ⟨e, he, Relation.TransGen.mono (fun _ _ h => h.1) hp⟩
  · intro n hn
    exact (h6 n).2 (Or.inl hn)

/-- Witness for `flush_flags_only_reached`: the chain `0 -> 1` with the tagged
operation `0` as entry tag. -/
theorem flush_flags_only_reached_witness :
    outlinks_valid example_tagged_chain ∧
      ∃ bmain' g', DEG_graph_flush_updates {} (some example_tagged_chain) =
          some (bmain', some g') ∧
        (∀ n, needs_update g' n → ¬ needs_update example_tagged_chain n →
          ∃ e ∈ example_tagged_chain.entry_tags,
            Relation.TransGen (outlink_edge example_tagged_chain) e n) ∧
        (∀ n, needs_update example_tagged_chain n → needs_update g' n) :=
  ⟨by decide, flush_flags_only_reached {} example_tagged_chain (by decide)⟩

/-! ### The pending counters of the finalize pass -/

theorem finalize_init_pushes (g0 : Depsgraph) :
    ∀ (l : List Nat) (bmain : Main) (g : Depsgraph) (stack : List Nat),
      agree_on node_shape g0 g →
      (∀ n ∈ l, n < g0.nodes.length) →
      (∀ b ∈ stack, b ∈ (finalize_init l bmain g stack).2.2) ∧
        (∀ b ∈ l, (g0.node b).inlinks.countP (counts_as_pending g0) = 0 →
          b ∈ (finalize_init l bmain g stack).2.2) := by
  intro l
  induction l with
  | nil =>
    intro bmain g stack _ _
    exact ⟨fun b hb => hb, fun b hb => absurd hb (List.not_mem_nil b)⟩
  | cons node rest ih =>
    intro bmain g stack hs hlt
    have hnode : node < g.nodes.length := by
      rw [agree_on_length hs]; exact hlt node (List.mem_cons_self _ _)
    have hc : (g.node node).inlinks.countP (counts_as_pending g) =
        (g0.node node).inlinks.countP (counts_as_pending g0) := by
      rw [shape_inlinks hs]
      congr 1
      funext r
      exact counts_as_pending_shape hs r
    have hs1 : ∀ p : Int, agree_on node_shape g0 (g.modifyNode node fun n =>
        { n with done := 0, num_links_pending := p }) := fun p =>
      agree_on_trans hs (agree_on_modifyNode node_shape g node _ (fun _ => rfl))
    have hlt1 : ∀ n ∈ rest, n < g0.nodes.length := fun n hn => hlt n (List.mem_cons_of_mem _ hn)
    have hself : ∀ p : Int, ((g.modifyNode node fun n =>
        { n with done := 0, num_links_pending := p }).node node).num_links_pending = p := by
      intro p
      rw [node_modifyNode, if_pos ⟨rfl, hnode⟩]
    rw [finalize_init]
    simp only [hc, hself]
    refine ⟨fun b hb => (ih _ _ _ (hs1 _) hlt1).1 b ?_, fun b hb hz => ?_⟩
    · split
      · exact List.mem_cons_of_mem _ hb
      · exact hb
    · rcases List.mem_cons.1 hb with h | h
      · subst h
        refine (ih _ _ _ (hs1 _) hlt1).1 b ?_
        rw [if_pos (by rw [hz]; rfl)]
        exact List.mem_cons_self _ _
      · exact (ih _ _ _ (hs1 _) hlt1).2 b h hz

theorem finalize_step_assert (g0 : Depsgraph) (hl : links_consistent g0) (s : FinalizeState)
    (node : Nat) (rest : List Nat)
    (hinv : FinalizeInv g0 s.graph (node :: rest) s.trace) :
    (finalize_step s node rest).assert_failed = s.assert_failed := by
  obtain ⟨hty, hz⟩ := hinv.ready node (List.mem_cons_self _ _)
  unfold finalize_step
  split
  · rename_i hcond
    have hd : (s.graph.node node).done = 0 := hcond.1
    have hp : ∀ b, (g0.node b).type = DEPSNODE_TYPE_OPERATION →
        (s.graph.node b).num_links_pending =
          ((waiting_except g0 s.graph node b +
            remaining_into g0 b (s.graph.node node).outlinks : Nat) : Int) := by
      intro b hb
      rw [hinv.pending b hb, shape_outlinks hinv.shape,
        waiting_split g0 s.graph hl node b hty hd (type_operation_lt g0 b hb)]
    exact (finalize_expand_inv g0 (waiting_except g0 s.graph node)
      (s.graph.node node).outlinks s.graph (node :: rest) s.assert_failed hinv.shape hp
      hinv.ready).2.2.2.2
  · rfl

theorem finalize_loop_assert (g0 : Depsgraph) (hl : links_consistent g0) :
    ∀ (fuel : Nat) (s : FinalizeState), FinalizeInv g0 s.graph s.stack s.trace →
      (finalize_loop fuel s).assert_failed = s.assert_failed := by
  intro fuel
  induction fuel with
  | zero => intro s _; rfl
  | succ fuel ih =>
    intro s h
    rw [finalize_loop]
    cases hs : s.stack with
    | nil => rfl
    | cons node rest =>
      simp only
      rw [hs] at h
      rw [ih _ (finalize_step_inv g0 hl s node rest h)]
      exact finalize_step_assert g0 hl s node rest h

theorem finalize_step_expanded (g0 : Depsgraph) (s : FinalizeState) (node : Nat)
    (rest : List Nat) (hinv : FinalizeInv g0 s.graph (node :: rest) s.trace)
    (hexp : ∀ a, FinalizeEvent.expand a ∈ s.trace → (s.graph.node a).done ≠ 0) :
    ∀ a, FinalizeEvent.expand a ∈ (finalize_step s node rest).trace →
      ((finalize_step s node rest).graph.node a).done ≠ 0 := by
  obtain ⟨hty, _⟩ := hinv.ready node (List.mem_cons_self _ _)
  have hlt0 : node < g0.nodes.length := type_operation_lt g0 node hty
  unfold finalize_step
  split
  · intro a ha
    simp only at ha ⊢
    obtain ⟨i1, _⟩ := finalize_expand_frame (s.graph.node node).outlinks s.graph (node :: rest)
      s.assert_failed
    have hlen : node < (finalize_expand (s.graph.node node).outlinks s.graph (node :: rest)
        s.assert_failed).1.nodes.length := by
      rw [agree_on_length i1, agree_on_length hinv.shape]; exact hlt0
    rw [node_modifyNode]
    by_cases han : a = node
    · subst han
      rw [if_pos ⟨rfl, hlen⟩]
      exact Nat.one_ne_zero
    · rw [if_neg (fun h => han h.1.symm), shape_done_done i1 a]
      apply hexp
      rcases List.mem_append.1 ha with h | h
      · exact h
      · rw [List.mem_singleton] at h
        exact absurd (FinalizeEvent.expand.inj h) han
  · intro a ha
    simp only at ha ⊢
    have hctl : agree_on node_control s.graph
        (finalize_retag s.bmain
          (finalize_layers (s.graph.node node).outlinks s.graph (s.graph.id_node_of node))
          (s.graph.id_node_of node)).2 :=
      agree_on_trans (finalize_layers_control _ _ _) (finalize_retag_control _ _ _)
    rw [control_done hctl]
    apply hexp
    rcases List.mem_append.1 ha with h | h
    · exact h
    · rw [List.mem_singleton] at h
      cases h

theorem finalize_loop_expanded (g0 : Depsgraph) (hl : links_consistent g0) :
    ∀ (fuel : Nat) (s : FinalizeState), FinalizeInv g0 s.graph s.stack s.trace →
      (∀ a, FinalizeEvent.expand a ∈ s.trace → (s.graph.node a).done ≠ 0) →
      ∀ a, FinalizeEvent.expand a ∈ (finalize_loop fuel s).trace →
        ((finalize_loop fuel s).graph.node a).done ≠ 0 := by
  intro fuel
  induction fuel with
  | zero => intro s _ h; exact h
  | succ fuel ih =>
    intro s h hexp
    rw [finalize_loop]
    cases hs : s.stack with
    | nil => exact hexp
    | cons node rest =>
      simp only
      rw [hs] at h
      exact ih _ (finalize_step_inv g0 hl s node rest h)
        (finalize_step_expanded g0 s node rest h hexp)

/-- C14: on a graph with consistent link lists whose operations list holds its
operation nodes, after the first loop of `deg_graph_build_finalize` the pending
counter of every operation is the number of its inbound relations whose source
is an operation and whose `CYCLIC` flag is unset, and the ready stack holds
exactly the operations for which that number is zero; after any number of
iterations of the second loop the counter of every operation is the number of
those inbound relations whose source has not been expanded yet, and every node
on the stack has the counter zero. -/
theorem finalize_pending_counts (bmain : Main) (g : Depsgraph) (hl : links_consistent g)
    (ho : operations_typed g) :
    (∀ n, (g.node n).type = DEPSNODE_TYPE_OPERATION →
        ((finalize_start bmain g).graph.node n).num_links_pending =
          (((g.node n).inlinks.countP (counts_as_pending g) : Nat) : Int)) ∧
      (∀ n, n ∈ (finalize_start bmain g).stack ↔
        n ∈ g.operations ∧ (g.node n).inlinks.countP (counts_as_pending g) = 0) ∧
      ∀ fuel,
        (∀ n, (g.node n).type = DEPSNODE_TYPE_OPERATION →
          ((finalize_loop fuel (finalize_start bmain g)).graph.node n).num_links_pending =
            (((g.node n).inlinks.countP fun r => counts_as_pending g r &&
              decide (FinalizeEvent.expand (g.rel r).from_ ∉
                (finalize_loop fuel (finalize_start bmain g)).trace) : Nat) : Int)) ∧
        (∀ n ∈ (finalize_loop fuel (finalize_start bmain g)).stack,
          ((finalize_loop fuel (finalize_start bmain g)).graph.node n).num_links_pending = 0) := by
  have hrange : ∀ n ∈ g.operations, n < g.nodes.length := fun n hn => (ho.1 n hn).1
  obtain ⟨_, i2, i3⟩ := finalize_init_spec g g.operations bmain g [] (agree_on_refl _ _) hrange
  obtain ⟨_, j2⟩ := finalize_init_pushes g g.operations bmain g [] (agree_on_refl _ _) hrange
  refine ⟨?_, ?_, ?_⟩
  · intro n hn
    exact (i2 n (Or.inl (ho.2 n (type_operation_lt g n hn) hn))).2
  · intro n
    constructor
    · intro hn
      rcases i3 n hn with h | ⟨h1, h2⟩
      · cases h
      · exact ⟨h1, by exact_mod_cast h2⟩
    · rintro ⟨h1, h2⟩
      exact j2 n h1 h2
  · intro fuel
    have hinv := finalize_invariant bmain g hl ho fuel
    have hexp := finalize_loop_expanded g hl fuel (finalize_start bmain g)
      (finalize_start_inv bmain g ho) (fun a ha => absurd ha (List.not_mem_nil _))
    refine ⟨?_, fun n hn => (hinv.ready n hn).2⟩
    intro n hn
    rw [hinv.pending n hn]
    unfold waiting
    congr 1
    apply List.countP_congr
    intro r _
    by_cases hc : counts_as_pending g r = true
    · have hty : (g.node (g.rel r).from_).type = DEPSNODE_TYPE_OPERATION := by
        unfold counts_as_pending at hc
        exact (of_decide_eq_true hc).1
      simp only [hc, Bool.true_and, decide_eq_true_eq]
      constructor
      · intro hd hmem
        exact hexp _ hmem hd
      · intro hnot
        by_contra hd
        exact hnot (hinv.marked _ hty hd)
    · simp [hc]

/-- Witness for `finalize_pending_counts`: the chain `0 -> 1`. -/
theorem finalize_pending_counts_witness :
    links_consistent example_chain2 ∧ operations_typed example_chain2 ∧
      (∀ n, n ∈ (finalize_start {} example_chain2).stack ↔
        n ∈ example_chain2.operations ∧
          (example_chain2.node n).inlinks.countP (counts_as_pending example_chain2) = 0) :=
  ⟨by decide, by decide, (finalize_pending_counts {} example_chain2 (by decide) (by decide)).2.1⟩

/-- C15: on a graph with consistent link lists whose operations list holds its
operation nodes, the assertion `to->num_links_pending > 0` of
`deg_graph_build_finalize` does not fail, after any number of iterations and in
the state in which the pass stops, whatever relations carry `CYCLIC`: no
pending counter is decremented at zero, and no counter is ever negative. -/
theorem finalize_assert_holds (bmain : Main) (g : Depsgraph) (hl : links_consistent g)
    (ho : operations_typed g) :
    (∀ fuel, (finalize_loop fuel (finalize_start bmain g)).assert_failed = false ∧
        ∀ n, (g.node n).type = DEPSNODE_TYPE_OPERATION →
          0 ≤ ((finalize_loop fuel (finalize_start bmain g)).graph.node n).num_links_pending) ∧
      (finalize_run bmain g).assert_failed = false ∧
      (finalize_run bmain g).stack = [] := by
  have h : ∀ fuel, (finalize_loop fuel (finalize_start bmain g)).assert_failed = false := by
    intro fuel
    rw [finalize_loop_assert g hl fuel _ (finalize_start_inv bmain g ho)]
    rfl
  refine ⟨fun fuel => ⟨h fuel, ?_⟩, h _, finalize_run_terminates bmain g⟩
  intro n hn
  rw [(finalize_invariant bmain g hl ho fuel).pending n hn]
  exact Int.natCast_nonneg _

/-- Witness for `finalize_assert_holds`: the chain `0 -> 1`, in which the
counter of operation `1` is decremented once. -/
theorem finalize_assert_holds_witness :
    links_consistent example_chain2 ∧ operations_typed example_chain2 ∧
      (finalize_run {} example_chain2).assert_failed = false :=
  ⟨by decide, by decide, (finalize_assert_holds {} example_chain2 (by decide) (by decide)).2.1⟩

/-! ### Tagging a datablock -/

theorem getID_modifyID (bmain : Main) (i : Nat) (f : ID → ID) (j : Nat) :
    (bmain.modifyID i f).getID j =
      if i = j ∧ j < bmain.ids.length then f (bmain.getID j) else bmain.getID j := by
  unfold Main.getID Main.modifyID
  simp only [List.getD_eq_getElem?_getD, List.getElem?_modify]
  by_cases hj : j < bmain.ids.length
  · rw [List.getElem?_eq_getElem hj]
    by_cases hi : i = j <;> simp [hi, hj]
  · rw [List.getElem?_eq_none (by omega)]
    simp [hj]

theorem DEG_id_type_tag_ids (bmain : Main) (idtype : Nat) :
    (DEG_id_type_tag bmain idtype).ids = bmain.ids := by
  unfold DEG_id_type_tag
  split <;> rfl

theorem getID_type_tag (bmain : Main) (idtype j : Nat) :
    (DEG_id_type_tag bmain idtype).getID j = bmain.getID j := by
  unfold Main.getID
  rw [DEG_id_type_tag_ids]

theorem lib_id_recalc_tag_getID (bmain : Main) (id j : Nat) :
    (lib_id_recalc_tag bmain id).getID j =
      if id = j ∧ j < bmain.ids.length then
        { bmain.getID j with flag := (bmain.getID j).flag ||| LIB_ID_RECALC }
      else bmain.getID j := by
  unfold lib_id_recalc_tag
  rw [getID_type_tag, getID_modifyID]

theorem lib_id_recalc_data_tag_getID (bmain : Main) (id j : Nat) :
    (lib_id_recalc_data_tag bmain id).getID j =
      if id = j ∧ j < bmain.ids.length then
        { bmain.getID j with flag := (bmain.getID j).flag ||| LIB_ID_RECALC_DATA }
      else bmain.getID j := by
  unfold lib_id_recalc_data_tag
  rw [getID_type_tag, getID_modifyID]

theorem lib_id_recalc_tag_length (bmain : Main) (id : Nat) :
    (lib_id_recalc_tag bmain id).ids.length = bmain.ids.length := by
  unfold lib_id_recalc_tag
  rw [DEG_id_type_tag_ids]
  exact List.length_modify _ _ _

theorem lib_id_recalc_data_tag_length (bmain : Main) (id : Nat) :
    (lib_id_recalc_data_tag bmain id).ids.length = bmain.ids.length := by
  unfold lib_id_recalc_data_tag
  rw [DEG_id_type_tag_ids]
  exact List.length_modify _ _ _

theorem lib_id_recalc_data_tag_scene (bmain : Main) (id : Nat) :
    (lib_id_recalc_data_tag bmain id).scene = bmain.scene := by
  unfold lib_id_recalc_data_tag
  rw [DEG_id_type_tag_scene, modifyID_scene]

theorem or_or_and_mask (f m k : Nat) : (f ||| m ||| k) &&& m = m := by
  apply Nat.eq_of_testBit_eq
  intro i
  simp only [Nat.testBit_and, Nat.testBit_or]
  cases f.testBit i <;> cases m.testBit i <;> cases k.testBit i <;> rfl

/-- The datablock `O` carries `LIB_ID_RECALC` and has the recalc bits `r`. -/
theorem lib_id_recalc_tag_keeps (bmain : Main) (O r : Nat)
    (h : (bmain.getID O).flag &&& LIB_ID_RECALC = LIB_ID_RECALC ∧ (bmain.getID O).recalc = r) :
    ((lib_id_recalc_tag bmain O).getID O).flag &&& LIB_ID_RECALC = LIB_ID_RECALC ∧
      ((lib_id_recalc_tag bmain O).getID O).recalc = r := by
  rw [lib_id_recalc_tag_getID]
  split
  · exact ⟨or_and_self_mask _ _, h.2⟩
  · exact h

theorem id_tag_update_graph_transform (bmain : Main) (g : Depsgraph) (O : Nat) :
    id_tag_update_graph bmain g O OB_RECALC_OB =
      (lib_id_recalc_tag bmain O,
        match g.find_id_node O with
        | some n => IDDepsNode.tag_update g n false
        | none => g) := by
  have h0 : ¬ OB_RECALC_OB = 0 := by decide
  have h1 : ¬ (OB_RECALC_OB &&& OB_RECALC_DATA ≠ 0) := by decide
  have h2 : OB_RECALC_OB &&& (OB_RECALC_OB ||| OB_RECALC_DATA) ≠ 0 := by decide
  have h3 : ¬ (OB_RECALC_OB &&& OB_RECALC_TIME ≠ 0) := by decide
  have h4 : ¬ (OB_RECALC_OB &&& OB_RECALC_DATA ≠ 0 ∧ GS (bmain.getID O).name = ID_OB) :=
    fun h => h1 h.1
  unfold id_tag_update_graph
  simp only [if_neg h0, if_neg h3, if_pos h2, if_neg h4]
  unfold DEG_graph_id_tag_update
  cases g.find_id_node O <;> rfl

theorem id_tag_update_scenes_transform (O r : Nat) :
    ∀ (scenes : List Scene) (bmain : Main),
      ((bmain.getID O).flag &&& LIB_ID_RECALC = LIB_ID_RECALC ∧ (bmain.getID O).recalc = r) →
      (id_tag_update_scenes scenes bmain O OB_RECALC_OB).2 = scenes.map (scene_id_tagged O) ∧
        ((id_tag_update_scenes scenes bmain O OB_RECALC_OB).1.getID O).flag &&& LIB_ID_RECALC =
          LIB_ID_RECALC ∧
        ((id_tag_update_scenes scenes bmain O OB_RECALC_OB).1.getID O).recalc = r := by
  intro scenes
  induction scenes with
  | nil => intro bmain h; exact ⟨rfl, h⟩
  | cons sc rest ih =>
    intro bmain h
    rw [id_tag_update_scenes]
    cases hg : sc.depsgraph with
    | none =>
      simp only
      obtain ⟨i1, i2⟩ := ih bmain h
      refine ⟨?_, i2⟩
      rw [i1, List.map_cons]
      congr 1
      unfold scene_id_tagged
      rw [hg]
    | some g =>
      simp only [id_tag_update_graph_transform]
      obtain ⟨i1, i2⟩ := ih (lib_id_recalc_tag bmain O) (lib_id_recalc_tag_keeps bmain O r h)
      refine ⟨?_, i2⟩
      rw [i1, List.map_cons]
      congr 1
      unfold scene_id_tagged
      rw [hg]

/-- C16: `DEG_id_tag_update_ex(bmain, O, OB_RECALC_OB)` for an object `O` of the
main database leaves `LIB_ID_RECALC` set on the datablock of `O`, makes its
recalc field the old one ORed with `OB_RECALC_OB`, and maps every scene to
itself when it has no graph and otherwise to the scene whose graph has the ID
node of `O`, if there is one, tagged for update; with a null `id` the call
returns the main database unchanged, whatever the flag. -/
theorem id_tag_update_object_transform (PSYS_RECALC : Nat) (bmain : Main) (O : Nat)
    (hO : O < bmain.ids.length) (hob : GS (bmain.getID O).name = ID_OB) :
    ((DEG_id_tag_update_ex PSYS_RECALC bmain (some O) OB_RECALC_OB).getID O).flag &&&
        LIB_ID_RECALC = LIB_ID_RECALC ∧
      ((DEG_id_tag_update_ex PSYS_RECALC bmain (some O) OB_RECALC_OB).getID O).recalc =
        (bmain.getID O).recalc ||| OB_RECALC_OB ∧
      (DEG_id_tag_update_ex PSYS_RECALC bmain (some O) OB_RECALC_OB).scene =
        bmain.scene.map (scene_id_tagged O) ∧
      ∀ flag, DEG_id_tag_update_ex PSYS_RECALC bmain none flag = bmain := by
  have hflag : lib_id_recalc_tag_flag PSYS_RECALC bmain O OB_RECALC_OB =
      (if OB_RECALC_OB &&& (OB_RECALC_DATA ||| PSYS_RECALC) ≠ 0 then
        lib_id_recalc_data_tag (lib_id_recalc_tag (bmain.modifyID O fun i =>
          { i with recalc := i.recalc ||| OB_RECALC_OB }) O) O
      else lib_id_recalc_tag (bmain.modifyID O fun i =>
          { i with recalc := i.recalc ||| OB_RECALC_OB }) O) := by
    have h0 : OB_RECALC_OB ≠ 0 := by decide
    have h1 : OB_RECALC_OB &&& OB_RECALC_OB ≠ 0 := by decide
    have h2 : OB_RECALC_OB &&& OB_RECALC_ALL = OB_RECALC_OB := by decide
    unfold lib_id_recalc_tag_flag
    simp only [if_pos h0, if_pos h1, if_pos hob, h2]
  have hlen : (bmain.modifyID O fun i =>
      { i with recalc := i.recalc ||| OB_RECALC_OB }).ids.length = bmain.ids.length :=
    List.length_modify _ _ _
  have hkeep : ((lib_id_recalc_tag_flag PSYS_RECALC bmain O OB_RECALC_OB).getID O).flag &&&
        LIB_ID_RECALC = LIB_ID_RECALC ∧
      ((lib_id_recalc_tag_flag PSYS_RECALC bmain O OB_RECALC_OB).getID O).recalc =
        (bmain.getID O).recalc ||| OB_RECALC_OB := by
    rw [hflag]
    split
    · rw [lib_id_recalc_data_tag_getID, lib_id_recalc_tag_length, hlen, if_pos ⟨rfl, hO⟩,
        lib_id_recalc_tag_getID, hlen, if_pos ⟨rfl, hO⟩, getID_modifyID, if_pos ⟨rfl, hO⟩]
      exact ⟨or_or_and_mask _ _ _, rfl⟩
    · rw [lib_id_recalc_tag_getID, hlen, if_pos ⟨rfl, hO⟩, getID_modifyID, if_pos ⟨rfl, hO⟩]
      exact ⟨or_and_self_mask _ _, rfl⟩
  have hscene : (lib_id_recalc_tag_flag PSYS_RECALC bmain O OB_RECALC_OB).scene = bmain.scene := by
    rw [hflag]
    split
    · rw [lib_id_recalc_data_tag_scene, lib_id_recalc_tag_scene, modifyID_scene]
    · rw [lib_id_recalc_tag_scene, modifyID_scene]
  obtain ⟨i1, i2, i3⟩ := id_tag_update_scenes_transform O _
    (lib_id_recalc_tag_flag PSYS_RECALC bmain O OB_RECALC_OB).scene
    (lib_id_recalc_tag_flag PSYS_RECALC bmain O OB_RECALC_OB) hkeep
  refine ⟨i2, i3, ?_, fun _ => rfl⟩
  show (id_tag_update_scenes _ _ O OB_RECALC_OB).2 = _
  rw [i1, hscene]

/-- Witness for `id_tag_update_object_transform`: the object `OBCube` in a main
database with one scene that has a graph and one that has none; afterwards the
operation of the object is an entry tag of the graph. -/
theorem id_tag_update_object_transform_witness :
    0 < example_object_main.ids.length ∧ GS (example_object_main.getID 0).name = ID_OB ∧
      ((DEG_id_tag_update_ex 55 example_object_main (some 0) OB_RECALC_OB).getID 0).recalc =
        OB_RECALC_OB ∧
      (DEG_id_tag_update_ex 55 example_object_main (some 0) OB_RECALC_OB).scene =
        [{ depsgraph := some (IDDepsNode.tag_update example_id_graph 0 false) }, {}] :=
  ⟨by decide, by decide,
    (id_tag_update_object_transform 55 example_object_main 0 (by decide) (by decide)).2.1,
    (id_tag_update_object_transform 55 example_object_main 0 (by decide) (by decide)).2.2.1⟩

/-! ### Visibility changes -/

theorem foldl_agree_on {β : Type} (h : DepsNode → β) (f : Depsgraph → Nat → Depsgraph)
    (hf : ∀ g x, agree_on h g (f g x)) :
    ∀ (l : List Nat) (g : Depsgraph), agree_on h g (l.foldl f g) := by
  intro l
  induction l with
  | nil => intro g; exact agree_on_refl _ _
  | cons a l ih => intro g; exact agree_on_trans (hf g a) (ih (f g a))

theorem operation_tag_update_strip (g : Depsgraph) (op_node : Nat) :
    agree_on strip_flag g (OperationDepsNode.tag_update g op_node) := by
  unfold OperationDepsNode.tag_update
  exact agree_on_modifyNode strip_flag g op_node _ (fun _ => rfl)

theorem component_tag_update_strip (g : Depsgraph) (comp_node : Nat) :
    agree_on strip_flag g (ComponentDepsNode.tag_update g comp_node) :=
  foldl_agree_on _ _ operation_tag_update_strip _ g

theorem id_tag_update_strip (g : Depsgraph) (id_node : Nat) (do_time : Bool) :
    agree_on strip_flag g (IDDepsNode.tag_update g id_node do_time) :=
  foldl_agree_on _ _ component_tag_update_strip _ g

theorem operation_tag_update_tags (g : Depsgraph) (op_node : Nat) :
    op_node ∈ (OperationDepsNode.tag_update g op_node).entry_tags ∧
      ∀ e ∈ g.entry_tags, e ∈ (OperationDepsNode.tag_update g op_node).entry_tags := by
  unfold OperationDepsNode.tag_update
  simp only
  have he : (g.modifyNode op_node fun n =>
      { n with flag := n.flag ||| DEPSOP_FLAG_DIRECTLY_MODIFIED }).entry_tags = g.entry_tags := rfl
  rw [he]
  split
  · exact ⟨by assumption, fun e he => he⟩
  · exact ⟨List.mem_append_right _ (List.mem_singleton_self _),
      fun e he => List.mem_append_left _ he⟩

theorem foldl_tags (f : Depsgraph → Nat → Depsgraph) (T : Nat → Nat → Prop)
    (hmono : ∀ g x, ∀ e ∈ g.entry_tags, e ∈ (f g x).entry_tags)
    (hadd : ∀ g x o, T x o → o ∈ (f g x).entry_tags) :
    ∀ (l : List Nat) (g : Depsgraph),
      (∀ e ∈ g.entry_tags, e ∈ (l.foldl f g).entry_tags) ∧
        ∀ x ∈ l, ∀ o, T x o → o ∈ (l.foldl f g).entry_tags := by
  intro l
  induction l with
  | nil => intro g; exact ⟨fun e he => he, fun x hx => absurd hx (List.not_mem_nil x)⟩
  | cons a l ih =>
    intro g
    obtain ⟨i1, i2⟩ := ih (f g a)
    refine ⟨fun e he => i1 e (hmono g a e he), ?_⟩
    intro x hx o ho
    rcases List.mem_cons.1 hx with h | h
    · subst h
      exact i1 o (hadd g x o ho)
    · exact i2 x h o ho

theorem component_tag_update_tags (g : Depsgraph) (comp_node : Nat) :
    (∀ e ∈ g.entry_tags, e ∈ (ComponentDepsNode.tag_update g comp_node).entry_tags) ∧
      ∀ o ∈ (g.node comp_node).operations.map Prod.snd,
        o ∈ (ComponentDepsNode.tag_update g comp_node).entry_tags := by
  obtain ⟨h1, h2⟩ := foldl_tags OperationDepsNode.tag_update (fun x o => x = o)
    (fun g x => (operation_tag_update_tags g x).2)
    (fun g x o h => h ▸ (operation_tag_update_tags g x).1)
    ((g.node comp_node).operations.map Prod.snd) g
  exact ⟨h1, fun o ho => h2 o ho o rfl⟩

theorem strip_operations {g g' : Depsgraph} (ha : agree_on strip_flag g g') (m : Nat) :
    (g'.node m).operations = (g.node m).operations := by
  have h := congrArg DepsNode.operations (agree_on_node ha m)
  exact h

theorem strip_components {g g' : Depsgraph} (ha : agree_on strip_flag g g') (m : Nat) :
    (g'.node m).components = (g.node m).components := by
  have h := congrArg DepsNode.components (agree_on_node ha m)
  exact h

theorem strip_owner {g g' : Depsgraph} (ha : agree_on strip_flag g g') (m : Nat) :
    (g'.node m).owner = (g.node m).owner := by
  have h := congrArg DepsNode.owner (agree_on_node ha m)
  exact h

theorem strip_layers {g g' : Depsgraph} (ha : agree_on strip_flag g g') (m : Nat) :
    (g'.node m).layers = (g.node m).layers := by
  have h := congrArg DepsNode.layers (agree_on_node ha m)
  exact h

theorem strip_id {g g' : Depsgraph} (ha : agree_on strip_flag g g') (m : Nat) :
    (g'.node m).id = (g.node m).id := by
  have h := congrArg DepsNode.id (agree_on_node ha m)
  exact h

theorem strip_id_node_of {g g' : Depsgraph} (ha : agree_on strip_flag g g') (m : Nat) :
    g'.id_node_of m = g.id_node_of m := by
  unfold Depsgraph.id_node_of
  rw [strip_owner ha, strip_owner ha]

theorem id_tag_update_tags_aux (g0 : Depsgraph) :
    ∀ (l : List Nat) (g : Depsgraph), agree_on strip_flag g0 g →
      (∀ e ∈ g.entry_tags, e ∈ (l.foldl ComponentDepsNode.tag_update g).entry_tags) ∧
        ∀ c ∈ l, ∀ o ∈ (g0.node c).operations.map Prod.snd,
          o ∈ (l.foldl ComponentDepsNode.tag_update g).entry_tags := by
  intro l
  induction l with
  | nil => intro g _; exact ⟨fun e he => he, fun c hc => absurd hc (List.not_mem_nil c)⟩
  | cons a l ih =>
    intro g ha
    obtain ⟨i1, i2⟩ := ih (ComponentDepsNode.tag_update g a)
      (agree_on_trans ha (component_tag_update_strip g a))
    obtain ⟨c1, c2⟩ := component_tag_update_tags g a
    refine ⟨fun e he => i1 e (c1 e he), ?_⟩
    intro c hc o ho
    rcases List.mem_cons.1 hc with h | h
    · subst h
      rw [← strip_operations ha] at ho
      exact i1 o (c2 o ho)
    · exact i2 c h o ho

theorem id_tag_update_tags (g0 g : Depsgraph) (ha : agree_on strip_flag g0 g) (id_node : Nat)
    (do_time : Bool) :
    (∀ e ∈ g.entry_tags, e ∈ (IDDepsNode.tag_update g id_node do_time).entry_tags) ∧
      id_node_tagged g0 (IDDepsNode.tag_update g id_node do_time) id_node := by
  obtain ⟨h1, h2⟩ := id_tag_update_tags_aux g0 ((g.node id_node).components.map Prod.snd) g ha
  refine ⟨h1, ?_⟩
  intro c hc o ho
  rw [← strip_components ha] at hc
  exact h2 c hc o ho

theorem visible_update_node_strip (bmain : Main) (lay_updated : Nat) (g : Depsgraph)
    (node : Nat) : agree_on strip_flag g (visible_update_node bmain lay_updated g node) := by
  unfold visible_update_node
  simp only
  split
  · split
    · exact agree_on_trans (id_tag_update_strip _ _ _) (id_tag_update_strip _ _ _)
    · exact agree_on_trans (agree_on_refl _ _) (id_tag_update_strip _ _ _)
  · split
    · exact id_tag_update_strip _ _ _
    · exact agree_on_refl _ _

theorem id_node_tagged_mono {g0 g g' : Depsgraph} {id_node : Nat}
    (h : id_node_tagged g0 g id_node) (hm : ∀ e ∈ g.entry_tags, e ∈ g'.entry_tags) :
    id_node_tagged g0 g' id_node :=
  fun c hc o ho => hm o (h c hc o ho)

theorem visible_update_node_tags (g0 g : Depsgraph) (ha : agree_on strip_flag g0 g)
    (bmain : Main) (lay_updated node : Nat) :
    (∀ e ∈ g.entry_tags, e ∈ (visible_update_node bmain lay_updated g node).entry_tags) ∧
      ((g0.node (g0.id_node_of node)).layers &&& lay_updated = 0 →
        id_node_tagged g0 (visible_update_node bmain lay_updated g node)
          (g0.id_node_of node)) := by
  have hidn : g.id_node_of node = g0.id_node_of node := strip_id_node_of ha node
  have hlay : (g.node (g0.id_node_of node)).layers = (g0.node (g0.id_node_of node)).layers :=
    strip_layers ha _
  unfold visible_update_node
  simp only [hidn, hlay]
  obtain ⟨t1, t2⟩ := id_tag_update_tags g0 g ha (g0.id_node_of node) false
  constructor
  · intro e he
    split
    · split
      · exact (id_tag_update_tags g0 _ (agree_on_trans ha (id_tag_update_strip _ _ _))
          (g0.id_node_of node) _).1 e (t1 e he)
      · exact (id_tag_update_tags g0 g ha (g0.id_node_of node) _).1 e he
    · split
      · exact t1 e he
      · exact he
  · intro hz
    rw [if_pos (Or.inr hz)]
    split
    · exact (id_tag_update_tags g0 _ (agree_on_trans ha (id_tag_update_strip _ _ _))
        (g0.id_node_of node) _).2
    · exact t2

theorem visible_update_fold (g0 : Depsgraph) (bmain : Main) (lay_updated : Nat) :
    ∀ (l : List Nat) (g : Depsgraph), agree_on strip_flag g0 g →
      (∀ e ∈ g.entry_tags,
          e ∈ (l.foldl (visible_update_node bmain lay_updated) g).entry_tags) ∧
        ∀ op ∈ l, (g0.node (g0.id_node_of op)).layers &&& lay_updated = 0 →
          id_node_tagged g0 (l.foldl (visible_update_node bmain lay_updated) g)
            (g0.id_node_of op) := by
  intro l
  induction l with
  | nil => intro g _; exact ⟨fun e he => he, fun op hop => absurd hop (List.not_mem_nil op)⟩
  | cons a l ih =>
    intro g ha
    obtain ⟨i1, i2⟩ := ih (visible_update_node bmain lay_updated g a)
      (agree_on_trans ha (visible_update_node_strip bmain lay_updated g a))
    obtain ⟨n1, n2⟩ := visible_update_node_tags g0 g ha bmain lay_updated a
    refine ⟨fun e he => i1 e (n1 e he), ?_⟩
    intro op hop hz
    rcases List.mem_cons.1 hop with h | h
    · subst h
      exact id_node_tagged_mono (n2 hz) i1
    · exact i2 op h hz

theorem foldl_layers (f : Depsgraph → Nat → Depsgraph) (hf : ∀ g x, (f g x).layers = g.layers) :
    ∀ (l : List Nat) (g : Depsgraph), (l.foldl f g).layers = g.layers := by
  intro l
  induction l with
  | nil => intro g; rfl
  | cons a l ih => intro g; rw [List.foldl_cons, ih, hf]

theorem component_tag_update_layers (g : Depsgraph) (comp_node : Nat) :
    (ComponentDepsNode.tag_update g comp_node).layers = g.layers :=
  foldl_layers OperationDepsNode.tag_update (fun _ _ => rfl) _ g

theorem id_tag_update_layers (g : Depsgraph) (id_node : Nat) (do_time : Bool) :
    (IDDepsNode.tag_update g id_node do_time).layers = g.layers :=
  foldl_layers _ component_tag_update_layers _ g

theorem visible_update_node_layers (bmain : Main) (lay_updated : Nat) (g : Depsgraph)
    (node : Nat) : (visible_update_node bmain lay_updated g node).layers = g.layers := by
  unfold visible_update_node
  simp only
  split
  · split
    · rw [id_tag_update_layers, id_tag_update_layers]
    · rw [id_tag_update_layers]
  · split
    · rw [id_tag_update_layers]
    · rfl

theorem main_id_flag_scenes_scene (bmain : Main) (flag : Nat) :
    (main_id_flag_scenes bmain flag).scene = bmain.scene := by
  unfold main_id_flag_scenes
  have h : ∀ (l : List Scene) (b : Main),
      (l.foldl (fun b sc => b.modifyID sc.id fun i => { i with flag := i.flag ||| flag })
        b).scene = b.scene := by
    intro l
    induction l with
    | nil => intro b; rfl
    | cons a l ih => intro b; rw [List.foldl_cons, ih, modifyID_scene]
  exact h bmain.scene bmain

theorem visible_layers_windows_scene : ∀ (wins : List wmWindow) (bmain : Main) (layers : Nat),
    (visible_layers_windows wins bmain layers).1.scene = bmain.scene := by
  intro wins
  induction wins with
  | nil => intro bmain layers; rfl
  | cons win wins ih =>
    intro bmain layers
    rw [visible_layers_windows]
    split
    · rw [ih, modifyID_scene]
    · rw [ih]

theorem visible_layers_update_scene (bmain : Main) :
    (visible_layers_update bmain).1.scene = bmain.scene := by
  unfold visible_layers_update
  split
  · rw [visible_layers_windows_scene, main_id_flag_scenes_scene]
  · rfl

/-- C18 as stated fails: in a background run (no window manager) on a scene
whose graph has all twenty layers visible already, the recomputed layers equal
the old ones and nothing is tagged: operation `2` belongs to an ID node whose
layers have no bit in common with the scene's `lay_updated`, and after the call
the graph has no entry tag, so that ID node has not been tagged. -/
theorem visible_update_same_layers_no_retag :
    (2 : Nat) ∈ example_id_graph.operations ∧
      (example_id_graph.node (example_id_graph.id_node_of 2)).layers &&&
        (example_background_main.getScene 0).lay_updated = 0 ∧
      ∃ g', ((DEG_graph_on_visible_update example_background_main 0).getScene 0).depsgraph =
          some g' ∧ g'.entry_tags = [] ∧
        ¬ id_node_tagged example_id_graph g' (example_id_graph.id_node_of 2) := by
  refine ⟨by decide, by decide, { example_id_graph with layers := 2 ^ 20 - 1 }, by decide,
    rfl, by decide⟩

/-- C18 amended: `DEG_graph_on_visible_update` re-tags only when the recomputed
visible layers differ from the layers the graph had: in that case, for every
operation of the graph whose owning ID node's layers have no bit in common
with the scene's `lay_updated` before the call, that ID node is tagged for
update (every operation of every component of it is an entry tag afterwards);
when the recomputed layers equal the old ones the graph is left as it was. -/
theorem visible_update_retags_on_change (bmain : Main) (scene : Nat) (graph : Depsgraph)
    (hg : (bmain.getScene scene).depsgraph = some graph) :
    ∃ g', ((DEG_graph_on_visible_update bmain scene).getScene scene).depsgraph = some g' ∧
      g'.layers = (visible_layers_update bmain).2 ∧
      (graph.layers ≠ (visible_layers_update bmain).2 →
        ∀ op ∈ graph.operations,
          (graph.node (graph.id_node_of op)).layers &&& (bmain.getScene scene).lay_updated = 0 →
            id_node_tagged graph g' (graph.id_node_of op)) ∧
      (graph.layers = (visible_layers_update bmain).2 → g' = graph) := by
  have hlt : scene < (visible_layers_update bmain).1.scene.length := by
    rw [visible_layers_update_scene]
    exact scene_lt_of_graph bmain scene graph hg
  have hstrip : agree_on strip_flag graph
      ({ graph with layers := (visible_layers_update bmain).2 } : Depsgraph) := ⟨rfl, rfl, rfl⟩
  by_cases hl : graph.layers = (visible_layers_update bmain).2
  · refine ⟨graph, ?_, hl, fun h => absurd hl h, fun _ => rfl⟩
    unfold DEG_graph_on_visible_update
    rw [hg]
    simp only [ne_eq, hl, not_true_eq_false, if_false]
    rw [getScene_modifyScene, if_pos ⟨rfl, hlt⟩]
    simp only [← hl]
  · refine ⟨({ graph with layers := (visible_layers_update bmain).2 } : Depsgraph).operations.foldl
        (visible_update_node (visible_layers_update bmain).1 (bmain.getScene scene).lay_updated)
        { graph with layers := (visible_layers_update bmain).2 }, ?_, ?_, ?_,
      fun h => absurd h hl⟩
    · unfold DEG_graph_on_visible_update
      rw [hg]
      simp only [ne_eq, hl, not_false_eq_true, if_true]
      rw [getScene_modifyScene, if_pos ⟨rfl, hlt⟩]
    · rw [foldl_layers _ (visible_update_node_layers _ _)]
    · intro _ op hop hz
      exact (visible_update_fold graph (visible_layers_update bmain).1
        (bmain.getScene scene).lay_updated _ _ hstrip).2 op hop hz

/-- Witness for `visible_update_retags_on_change`: a background run on the
first scene of `example_object_main`, whose graph has no visible layer yet. -/
theorem visible_update_retags_on_change_witness :
    (example_object_main.getScene 0).depsgraph = some example_id_graph ∧
      ∃ g', ((DEG_graph_on_visible_update example_object_main 0).getScene 0).depsgraph =
          some g' ∧
        g'.layers = (visible_layers_update example_object_main).2 ∧
        (example_id_graph.layers ≠ (visible_layers_update example_object_main).2 →
          ∀ op ∈ example_id_graph.operations,
            (example_id_graph.node (example_id_graph.id_node_of op)).layers &&&
                (example_object_main.getScene 0).lay_updated = 0 →
              id_node_tagged example_id_graph g' (example_id_graph.id_node_of op)) ∧
        (example_id_graph.layers = (visible_layers_update example_object_main).2 →
          g' = example_id_graph) :=
  ⟨rfl, visible_update_retags_on_change example_object_main 0 example_id_graph rfl⟩

/-! ### Transitive reduction and the `CYCLIC` flag -/

theorem reflag_rel (flags : DepsRelation → Nat) (g : Depsgraph) (r : Nat) :
    ((reflag flags g).rel r).from_ = (g.rel r).from_ ∧
      ((reflag flags g).rel r).to_ = (g.rel r).to_ := by
  unfold Depsgraph.rel reflag
  simp only [List.getD_eq_getElem?_getD, List.getElem?_map]
  cases g.relations[r]? <;> exact ⟨rfl, rfl⟩

theorem foldl_reflag {α : Type} (flags : DepsRelation → Nat) (f : Depsgraph → α → Depsgraph)
    (hf : ∀ g x, f (reflag flags g) x = reflag flags (f g x)) :
    ∀ (l : List α) (g : Depsgraph), l.foldl f (reflag flags g) = reflag flags (l.foldl f g) := by
  intro l
  induction l with
  | nil => intro g; rfl
  | cons a l ih => intro g; rw [List.foldl_cons, List.foldl_cons, hf, ih]

theorem tag_paths_reflag (flags : DepsRelation → Nat) :
    ∀ (fuel : Nat) (g : Depsgraph) (node : Nat),
      deg_graph_tag_paths_recursive fuel (reflag flags g) node =
        reflag flags (deg_graph_tag_paths_recursive fuel g node) := by
  intro fuel
  induction fuel with
  | zero => intro g node; rfl
  | succ fuel ih =>
    intro g node
    rw [deg_graph_tag_paths_recursive, deg_graph_tag_paths_recursive]
    have hn : (reflag flags g).node node = g.node node := rfl
    rw [hn]
    split
    · rfl
    · have hm : (reflag flags g).modifyNode node DepsNode.mark_visited =
          reflag flags (g.modifyNode node DepsNode.mark_visited) := rfl
      rw [hm]
      apply foldl_reflag
      intro g' r
      simp only [(reflag_rel flags g' r).1, ih]
      rfl

theorem delete_relation_reflag (flags : DepsRelation → Nat) (g : Depsgraph) (r : Nat) :
    (reflag flags g).delete_relation r = reflag flags (g.delete_relation r) := by
  unfold Depsgraph.delete_relation
  rw [(reflag_rel flags g r).1, (reflag_rel flags g r).2]
  rfl

theorem reduction_removes_reflag (flags : DepsRelation → Nat) (g : Depsgraph) (r : Nat) :
    reduction_removes (reflag flags g) r = reduction_removes g r := by
  unfold reduction_removes
  rw [(reflag_rel flags g r).1]
  rfl

theorem transitive_reduction_target_reflag (flags : DepsRelation → Nat) (g : Depsgraph)
    (target : Nat) :
    transitive_reduction_target (reflag flags g) target =
      reflag flags (transitive_reduction_target g target) := by
  have htag : transitive_reduction_tag (reflag flags g) target =
      reflag flags (transitive_reduction_tag g target) := by
    unfold transitive_reduction_tag
    simp only
    have h1 : (reflag flags g).operations = g.operations := rfl
    rw [h1, foldl_reflag flags _ (fun _ _ => rfl)]
    have h2 : ∀ g' : Depsgraph, (reflag flags g').modifyNode target DepsNode.mark_visited =
        reflag flags (g'.modifyNode target DepsNode.mark_visited) := fun _ => rfl
    rw [h2]
    have h3 : ∀ g' : Depsgraph, (reflag flags g').node target = g'.node target := fun _ => rfl
    rw [h3]
    apply foldl_reflag
    intro g' r
    rw [(reflag_rel flags g' r).1, tag_paths_reflag]
    rfl
  unfold transitive_reduction_target
  simp only [htag]
  have h3 : ∀ g' : Depsgraph, (reflag flags g').node target = g'.node target := fun _ => rfl
  rw [h3]
  unfold transitive_reduction_remove
  apply foldl_reflag
  intro g' r
  rw [reduction_removes_reflag]
  split
  · exact delete_relation_reflag flags g' r
  · rfl

theorem foldl_relations {α : Type} (f : Depsgraph → α → Depsgraph)
    (hf : ∀ g x, (f g x).relations = g.relations) :
    ∀ (l : List α) (g : Depsgraph), (l.foldl f g).relations = g.relations := by
  intro l
  induction l with
  | nil => intro g; rfl
  | cons a l ih => intro g; rw [List.foldl_cons, ih, hf]

theorem tag_paths_relations : ∀ (fuel : Nat) (g : Depsgraph) (node : Nat),
    (deg_graph_tag_paths_recursive fuel g node).relations = g.relations := by
  intro fuel
  induction fuel with
  | zero => intro g node; rfl
  | succ fuel ih =>
    intro g node
    rw [deg_graph_tag_paths_recursive]
    split
    · rfl
    · rw [foldl_relations _ (fun g' r => ?_)]
      · rfl
      · show (deg_graph_tag_paths_recursive fuel g' (g'.rel r).from_).relations = g'.relations
        exact ih _ _

theorem transitive_reduction_target_relations (g : Depsgraph) (target : Nat) :
    (transitive_reduction_target g target).relations = g.relations := by
  unfold transitive_reduction_target transitive_reduction_remove transitive_reduction_tag
  simp only
  rw [foldl_relations _ (fun g' r => ?_), foldl_relations _ (fun g' r => ?_)]
  · show (g.operations.foldl (fun g node => g.modifyNode node DepsNode.clear_done) g).relations
      = g.relations
    exact foldl_relations (fun g node => g.modifyNode node DepsNode.clear_done)
      (fun _ _ => rfl) _ _
  · exact tag_paths_relations _ _ _
  · split
    · rfl
    · rfl

/-- C20 as stated fails: in `example_cycle_detour` cycle detection flags the
relations `C -> A` (relation `3`) and `D -> A` as `CYCLIC`; the reduction then
finds `C` among the nodes that reach `A` through `D` and deletes the `CYCLIC`
relation `C -> A`: it is an inlink of `A` and an outlink of `C` before the
reduction and neither afterwards. -/
theorem transitive_reduction_deletes_cyclic :
    links_consistent (deg_graph_detect_cycles example_cycle_detour) ∧
      ((deg_graph_detect_cycles example_cycle_detour).rel 3).flag &&& DEPSREL_FLAG_CYCLIC ≠ 0 ∧
      3 ∈ ((deg_graph_detect_cycles example_cycle_detour).node 1).inlinks ∧
      3 ∈ ((deg_graph_detect_cycles example_cycle_detour).node 3).outlinks ∧
      3 ∉ ((deg_graph_transitive_reduction
        (deg_graph_detect_cycles example_cycle_detour)).node 1).inlinks ∧
      3 ∉ ((deg_graph_transitive_reduction
        (deg_graph_detect_cycles example_cycle_detour)).node 3).outlinks := by
  decide

/-- C20 amended: `deg_graph_transitive_reduction` does not look at the `CYCLIC`
flag: with the flags of the relations replaced in any way it deletes the same
relations (the result is the same graph, with the replaced flags), and it
changes no flag, so a `CYCLIC` relation is deleted or kept like any other
relation and is still `CYCLIC` when it is kept. -/
theorem transitive_reduction_ignores_flags (flags : DepsRelation → Nat) (g : Depsgraph) :
    deg_graph_transitive_reduction (reflag flags g) =
        reflag flags (deg_graph_transitive_reduction g) ∧
      (deg_graph_transitive_reduction g).relations = g.relations := by
  unfold deg_graph_transitive_reduction
  have h1 : (reflag flags g).operations = g.operations := rfl
  rw [h1]
  exact ⟨foldl_reflag flags _ (transitive_reduction_target_reflag flags) _ _,
    foldl_relations _ transitive_reduction_target_relations _ _⟩

/-! ### The marking pass of the transitive reduction -/

theorem or_and_of_disjoint (d a b : Nat) (h : a &&& b = 0) : (d ||| a) &&& b = d &&& b := by
  apply Nat.eq_of_testBit_eq
  intro i
  have hi := congrArg (fun x => x.testBit i) h
  simp only [Nat.testBit_and, Nat.zero_testBit] at hi
  simp only [Nat.testBit_and, Nat.testBit_or]
  cases hd : d.testBit i <;> cases ha : a.testBit i <;> cases hb : b.testBit i <;>
    simp_all

theorem op_visited_mark_visited (g : Depsgraph) (p n : Nat) :
    op_visited (g.modifyNode p DepsNode.mark_visited) n ↔
      op_visited g n ∨ (p = n ∧ n < g.nodes.length) := by
  unfold op_visited
  rw [node_modifyNode]
  by_cases hc : p = n ∧ n < g.nodes.length
  · rw [if_pos hc]
    have h : (g.node n).mark_visited.done &&& OP_VISITED = OP_VISITED := or_and_self_mask _ _
    rw [h]
    simp [hc, OP_VISITED]
  · rw [if_neg hc]
    simp [hc]

theorem op_reachable_mark_visited (g : Depsgraph) (p n : Nat) :
    op_reachable (g.modifyNode p DepsNode.mark_visited) n ↔ op_reachable g n := by
  unfold op_reachable
  rw [node_modifyNode]
  split
  · have h : (g.node n).mark_visited.done &&& OP_REACHABLE = (g.node n).done &&& OP_REACHABLE :=
      or_and_of_disjoint _ _ _ (by decide)
    rw [h]
  · rfl

theorem op_reachable_mark_reachable (g : Depsgraph) (p n : Nat) :
    op_reachable (g.modifyNode p DepsNode.mark_reachable) n ↔
      op_reachable g n ∨ (p = n ∧ n < g.nodes.length) := by
  unfold op_reachable
  rw [node_modifyNode]
  by_cases hc : p = n ∧ n < g.nodes.length
  · rw [if_pos hc]
    have h : (g.node n).mark_reachable.done &&& OP_REACHABLE = OP_REACHABLE :=
      or_and_self_mask _ _
    rw [h]
    simp [hc, OP_REACHABLE]
  · rw [if_neg hc]
    simp [hc]

theorem op_visited_mark_reachable (g : Depsgraph) (p n : Nat) :
    op_visited (g.modifyNode p DepsNode.mark_reachable) n ↔ op_visited g n := by
  unfold op_visited
  rw [node_modifyNode]
  split
  · have h : (g.node n).mark_reachable.done &&& OP_VISITED = (g.node n).done &&& OP_VISITED :=
      or_and_of_disjoint _ _ _ (by decide)
    rw [h]
  · rfl

theorem unvisited_mark_visited (g : Depsgraph) (t : Nat) (ht : t < g.nodes.length)
    (hu : ¬ op_visited g t) :
    unvisited (g.modifyNode t DepsNode.mark_visited) + 1 = unvisited g := by
  unfold unvisited Depsgraph.modifyNode
  have hnode : g.node t = g.nodes.get ⟨t, ht⟩ := node_eq_get g t ht
  apply countP_modify_drop _ _ _ t ht
  · rw [← hnode]
    unfold op_visited at hu
    simpa using hu
  · rw [← hnode]
    have h : (g.node t).mark_visited.done &&& OP_VISITED = OP_VISITED := or_and_self_mask _ _
    rw [h]
    decide

theorem countP_le_of_pointwise {α : Type} (p : α → Bool) :
    ∀ (l l' : List α), l.length = l'.length →
      (∀ (i : Nat) (x y : α), l'[i]? = some x → l[i]? = some y → p x = true → p y = true) →
      l'.countP p ≤ l.countP p := by
  intro l
  induction l with
  | nil =>
    intro l' hlen _
    have : l' = [] := List.length_eq_zero.1 hlen.symm
    subst this
    exact Nat.le_refl _
  | cons a l ih =>
    intro l' hlen h
    cases l' with
    | nil => simp at hlen
    | cons b l' =>
      have h0 := h 0 b a (by simp) (by simp)
      have ht := ih l' (by simpa using hlen) (fun i x y hx hy => h (i + 1) x y (by simpa using hx)
        (by simpa using hy))
      simp only [List.countP_cons]
      by_cases hb : p b = true
      · rw [if_pos hb, if_pos (h0 hb)]
        omega
      · rw [if_neg hb]
        split <;> omega

theorem unvisited_le_of_mono (g g' : Depsgraph) (hlen : g'.nodes.length = g.nodes.length)
    (hm : ∀ n, op_visited g n → op_visited g' n) : unvisited g' ≤ unvisited g := by
  unfold unvisited
  apply countP_le_of_pointwise _ _ _ hlen.symm
  intro i x y hx hy hp
  have hi : i < g.nodes.length := by
    by_contra hge
    rw [List.getElem?_eq_none (by omega)] at hy
    cases hy
  have hxn : g'.node i = x := by
    have := getElem?_eq_node g' i (by omega)
    rw [hx] at this
    exact (Option.some.inj this).symm
  have hyn : g.node i = y := by
    have := getElem?_eq_node g i hi
    rw [hy] at this
    exact (Option.some.inj this).symm
  by_contra hy'
  have hv : op_visited g i := by
    unfold op_visited
    rw [hyn]
    simpa using hy'
  have hv' := hm i hv
  unfold op_visited at hv'
  rw [hxn] at hv'
  simp only [decide_eq_true_eq] at hp
  exact hv' hp

theorem unvisited_le_length (g : Depsgraph) : unvisited g ≤ g.nodes.length :=
  List.countP_le_length _

theorem inlinks_lt (g : Depsgraph) (n r : Nat) (hr : r ∈ (g.node n).inlinks) :
    n < g.nodes.length := by
  by_contra hge
  rw [node_default_of_le g n (Nat.le_of_not_lt hge), default_node_eq] at hr
  cases hr

theorem done_inlinks {g g' : Depsgraph} (ha : agree_on DepsNode.clear_done g g') (m : Nat) :
    (g'.node m).inlinks = (g.node m).inlinks := by
  have h := congrArg DepsNode.inlinks (agree_on_node ha m)
  exact h

theorem done_type {g g' : Depsgraph} (ha : agree_on DepsNode.clear_done g g') (m : Nat) :
    (g'.node m).type = (g.node m).type := by
  have h := congrArg DepsNode.type (agree_on_node ha m)
  exact h

theorem TagInv.count {g0 g g' : Depsgraph} {roots : List Nat} {marks enough : Prop}
    (h : TagInv g0 g g' roots marks enough) : unvisited g' ≤ unvisited g :=
  unvisited_le_of_mono g g' (agree_on_length h.shape) h.vis_mono

theorem TagInv.refl (g0 g : Depsgraph) (roots : List Nat) (marks enough : Prop)
    (hroots : enough → ∀ p ∈ roots, p < g0.nodes.length →
      op_visited g p ∧ (marks → op_reachable g p)) :
    TagInv g0 g g roots marks enough :=
  ⟨agree_on_refl _ _, fun _ h => h, fun _ h => h, fun _ h h' => absurd h h',
    fun _ h h' => absurd h h', hroots, fun _ _ h h' => absurd h h'⟩

theorem TagInv.append {g0 g g1 g2 : Depsgraph} {roots1 roots2 : List Nat} {marks : Prop}
    {k : Nat} (h1 : TagInv g0 g g1 roots1 marks (unvisited g < k))
    (h2 : TagInv g0 g1 g2 roots2 marks (unvisited g1 < k)) :
    TagInv g0 g g2 (roots1 ++ roots2) marks (unvisited g < k) := by
  have hc := h1.count
  refine ⟨agree_on_trans h1.shape h2.shape, fun n h => h2.vis_mono n (h1.vis_mono n h),
    fun n h => h2.rch_mono n (h1.rch_mono n h), ?_, ?_, ?_, ?_⟩
  · intro n hn hold
    by_cases hv : op_visited g1 n
    · obtain ⟨p, hp, hpath⟩ := h1.vis_sound n hv hold
      exact ⟨p, List.mem_append_left _ hp, hpath⟩
    · obtain ⟨p, hp, hpath⟩ := h2.vis_sound n hn hv
      exact ⟨p, List.mem_append_right _ hp, hpath⟩
  · intro x hx hold
    by_cases hr : op_reachable g1 x
    · rcases h1.rch_sound x hr hold with ⟨N, hN1, hN2, hN3⟩ | ⟨hm, hx1⟩
      · exact Or.inl ⟨N, hN1, h2.vis_mono N hN2, hN3⟩
      · exact Or.inr ⟨hm, List.mem_append_left _ hx1⟩
    · rcases h2.rch_sound x hx hr with ⟨N, hN1, hN2, hN3⟩ | ⟨hm, hx1⟩
      · exact Or.inl ⟨N, hN1, hN2, fun h => hN3 (h1.vis_mono N h)⟩
      · exact Or.inr ⟨hm, List.mem_append_right _ hx1⟩
  · intro he p hp hlt
    rcases List.mem_append.1 hp with h | h
    · obtain ⟨a, b⟩ := h1.vis_roots he p h hlt
      exact ⟨h2.vis_mono p a, fun hm => h2.rch_mono p (b hm)⟩
    · exact h2.vis_roots (by omega) p h hlt
  · intro he n hn hold r hr
    by_cases hv : op_visited g1 n
    · obtain ⟨a, b⟩ := h1.closed he n hv hold r hr
      exact ⟨h2.vis_mono _ a, h2.rch_mono _ b⟩
    · exact h2.closed (by omega) n hn hv r hr

theorem TagInv.foldl (g0 : Depsgraph) (step : Depsgraph → Nat → Depsgraph) (marks : Prop)
    (k : Nat)
    (hstep : ∀ g r, agree_on DepsNode.clear_done g0 g →
      TagInv g0 g (step g r) [(g0.rel r).from_] marks (unvisited g < k)) :
    ∀ (rels : List Nat) (g : Depsgraph), agree_on DepsNode.clear_done g0 g →
      TagInv g0 g (rels.foldl step g) (rels.map fun r => (g0.rel r).from_) marks
        (unvisited g < k) := by
  intro rels
  induction rels with
  | nil =>
    intro g _
    exact TagInv.refl g0 g [] marks _ (fun _ p hp => absurd hp (List.not_mem_nil p))
  | cons r rels ih =>
    intro g ha
    have h1 := hstep g r ha
    have h2 := ih (step g r) (agree_on_trans ha h1.shape)
    exact TagInv.append h1 h2

theorem tag_step_inv (g0 g gd : Depsgraph) (p : Nat) (enough : Prop)
    (ha : agree_on DepsNode.clear_done g0 g) (hd : TagInv g0 g gd [p] False enough) :
    TagInv g0 g (gd.modifyNode p DepsNode.mark_reachable) [p] True enough := by
  have hlen : gd.nodes.length = g0.nodes.length :=
    (agree_on_length hd.shape).trans (agree_on_length ha)
  refine ⟨agree_on_trans hd.shape (agree_on_modifyNode _ gd p _ (fun _ => rfl)), ?_, ?_, ?_, ?_,
    ?_, ?_⟩
  · intro n hn
    exact (op_visited_mark_reachable gd p n).2 (hd.vis_mono n hn)
  · intro n hn
    exact (op_reachable_mark_reachable gd p n).2 (Or.inl (hd.rch_mono n hn))
  · intro n hn hold
    exact hd.vis_sound n ((op_visited_mark_reachable gd p n).1 hn) hold
  · intro x hx hold
    rcases (op_reachable_mark_reachable gd p x).1 hx with h | h
    · rcases hd.rch_sound x h hold with ⟨N, hN1, hN2, hN3⟩ | ⟨hf, _⟩
      · exact Or.inl ⟨N, hN1, (op_visited_mark_reachable gd p N).2 hN2, hN3⟩
      · exact absurd hf not_false
    · exact Or.inr ⟨trivial, by rw [h.1]; exact List.mem_singleton_self _⟩
  · intro he q hq hlt
    have hqp : q = p := List.mem_singleton.1 hq
    subst hqp
    refine ⟨(op_visited_mark_reachable gd q q).2 (hd.vis_roots he q hq hlt).1, fun _ => ?_⟩
    exact (op_reachable_mark_reachable gd q q).2 (Or.inr ⟨rfl, by omega⟩)
  · intro he n hn hold r hr
    obtain ⟨a, b⟩ := hd.closed he n ((op_visited_mark_reachable gd p n).1 hn) hold r hr
    exact ⟨(op_visited_mark_reachable gd p _).2 a,
      (op_reachable_mark_reachable gd p _).2 (Or.inl b)⟩

theorem tag_paths_inv (g0 : Depsgraph) (hin : inlinks_valid g0) :
    ∀ (fuel : Nat) (g : Depsgraph) (node : Nat), agree_on DepsNode.clear_done g0 g →
      TagInv g0 g (deg_graph_tag_paths_recursive fuel g node) [node] False
        (unvisited g < fuel) := by
  intro fuel
  induction fuel with
  | zero =>
    intro g node _
    rw [deg_graph_tag_paths_recursive]
    exact TagInv.refl g0 g [node] False _ (fun h => absurd h (Nat.not_lt_zero _))
  | succ fuel ih =>
    intro g node ha
    rw [deg_graph_tag_paths_recursive]
    split
    · rename_i hv
      apply TagInv.refl
      intro _ p hp _
      rw [List.mem_singleton.1 hp]
      exact ⟨hv, fun hf => absurd hf not_false⟩
    · rename_i hnv
      have hnv' : ¬ op_visited g node := hnv
      have ha1 : agree_on DepsNode.clear_done g0 (g.modifyNode node DepsNode.mark_visited) :=
        agree_on_trans ha (agree_on_modifyNode _ g node _ (fun _ => rfl))
      have hstep : ∀ g' r, agree_on DepsNode.clear_done g0 g' →
          TagInv g0 g'
            ((deg_graph_tag_paths_recursive fuel g' (g'.rel r).from_).modifyNode (g'.rel r).from_
              DepsNode.mark_reachable) [(g0.rel r).from_] True (unvisited g' < fuel) := by
        intro g' r ha'
        rw [agree_on_rel ha' r]
        exact tag_step_inv g0 g' _ _ _ ha' (ih g' _ ha')
      have h2 := TagInv.foldl g0 _ True fuel hstep (g.node node).inlinks
        (g.modifyNode node DepsNode.mark_visited) ha1
      have hinl : (g.node node).inlinks = (g0.node node).inlinks := done_inlinks ha node
      have hlen : g.nodes.length = g0.nodes.length := agree_on_length ha
      have hedge : ∀ r ∈ (g0.node node).inlinks, inlink_edge g0 (g0.rel r).from_ node :=
        fun r hr => ⟨r, hr, rfl⟩
      have hvis1 : ∀ n, op_visited (g.modifyNode node DepsNode.mark_visited) n ↔
          op_visited g n ∨ (node = n ∧ n < g.nodes.length) := op_visited_mark_visited g node
      refine ⟨agree_on_trans (agree_on_modifyNode _ g node DepsNode.mark_visited (fun _ => rfl))
        h2.shape, ?_, ?_, ?_, ?_, ?_, ?_⟩
      · intro n hn
        exact h2.vis_mono n ((hvis1 n).2 (Or.inl hn))
      · intro n hn
        exact h2.rch_mono n ((op_reachable_mark_visited g node n).2 hn)
      · intro n hn hold
        refine ⟨node, List.mem_singleton_self _, ?_⟩
        by_cases hv1 : op_visited (g.modifyNode node DepsNode.mark_visited) n
        · rcases (hvis1 n).1 hv1 with h | h
          · exact absurd h hold
          · rw [h.1]
        · obtain ⟨p, hp, hpath⟩ := h2.vis_sound n hn hv1
          obtain ⟨r, hr, hpr⟩ := List.mem_map.1 hp
          rw [hinl] at hr
          rw [← hpr] at hpath
          exact hpath.tail (hedge r hr)
      · intro x hx hold
        left
        have hold1 : ¬ op_reachable (g.modifyNode node DepsNode.mark_visited) x :=
          fun h => hold ((op_reachable_mark_visited g node x).1 h)
        rcases h2.rch_sound x hx hold1 with ⟨N, hN1, hN2, hN3⟩ | ⟨_, hx1⟩
        · exact ⟨N, hN1, hN2, fun h => hN3 ((hvis1 N).2 (Or.inl h))⟩
        · obtain ⟨r, hr, hpr⟩ := List.mem_map.1 hx1
          have hnode : node < g.nodes.length := inlinks_lt g node r hr
          rw [hinl] at hr
          refine ⟨node, hpr ▸ hedge r hr, ?_, hnv'⟩
          exact h2.vis_mono node ((hvis1 node).2 (Or.inr ⟨rfl, hnode⟩))
      · intro _ p hp hlt
        rw [List.mem_singleton.1 hp] at hlt ⊢
        exact ⟨h2.vis_mono node ((hvis1 node).2 (Or.inr ⟨rfl, by omega⟩)),
          fun hf => absurd hf not_false⟩
      · intro he n hn hold r hr
        by_cases hnode : node < g.nodes.length
        · have he1 : unvisited (g.modifyNode node DepsNode.mark_visited) < fuel := by
            have := unvisited_mark_visited g node hnode hnv'
            omega
          by_cases hv1 : op_visited (g.modifyNode node DepsNode.mark_visited) n
          · rcases (hvis1 n).1 hv1 with h | h
            · exact absurd h hold
            · have hn' : n = node := h.1.symm
              subst hn'
              rw [← hinl] at hr
              have hmem : (g0.rel r).from_ ∈
                  (g.node n).inlinks.map fun r => (g0.rel r).from_ :=
                List.mem_map.2 ⟨r, hr, rfl⟩
              rw [hinl] at hr
              obtain ⟨a, b⟩ := h2.vis_roots he1 _ hmem (hin n r hr).2
              exact ⟨a, b trivial⟩
          · exact h2.closed he1 n hn hv1 r hr
        · have hemp : (g.node node).inlinks = [] := by
            rw [node_default_of_le g node (Nat.le_of_not_lt hnode), default_node_eq]
          rw [hemp] at h2 hn
          have hv1 : op_visited (g.modifyNode node DepsNode.mark_visited) n := h2.vis_mono n
            (by
              by_contra hc
              obtain ⟨p, hp, _⟩ := h2.vis_sound n hn hc
              exact absurd hp (List.not_mem_nil p))
          rcases (hvis1 n).1 hv1 with h | h
          · exact absurd h hold
          · exact absurd (h.1 ▸ h.2) hnode

theorem foldl_modifyNode_node (f : DepsNode → DepsNode) (hf : ∀ x, f (f x) = f x)
    (hd : f default = default) (ops : List Nat) (g : Depsgraph) (m : Nat) :
    (ops.foldl (fun g n => g.modifyNode n f) g).node m =
      if m ∈ ops then f (g.node m) else g.node m := by
  rw [foldl_modifyNode_eq]
  unfold Depsgraph.node
  simp only [List.getD_eq_getElem?_getD, foldl_modify_getElem? _ hf]
  split
  · cases h : g.nodes[m]? with
    | none => simp only [Option.map_none', Option.getD_none]; exact hd.symm
    | some x => rfl
  · rfl

theorem reduction_tag_spec (g : Depsgraph) (target : Nat)
    (hops : ∀ n ∈ g.operations, n < g.nodes.length) (hsrc : inlinks_on_operations g)
    (hin : inlinks_valid g) (ht : target ∈ g.operations) :
    agree_on DepsNode.clear_done g (transitive_reduction_tag g target) ∧
      ∀ x ∈ g.operations, (op_reachable (transitive_reduction_tag g target) x ↔
        ∃ N, N ≠ target ∧ inlink_edge g x N ∧ Relation.TransGen (inlink_edge g) N target) := by
  unfold transitive_reduction_tag
  simp only
  have ha1 : agree_on DepsNode.clear_done g
      (g.operations.foldl (fun g node => g.modifyNode node DepsNode.clear_done) g) :=
    foldl_agree_on _ (fun g node => g.modifyNode node DepsNode.clear_done)
      (fun g x => agree_on_modifyNode DepsNode.clear_done g x DepsNode.clear_done (fun _ => rfl))
      _ g
  have hdone1 : ∀ n ∈ g.operations,
      ((g.operations.foldl (fun g node => g.modifyNode node DepsNode.clear_done) g).node n).done
        = 0 := by
    intro n hn
    rw [foldl_modifyNode_node DepsNode.clear_done (fun _ => rfl) rfl, if_pos hn]
    rfl
  have hlen1 := agree_on_length ha1
  generalize g.operations.foldl (fun g node => g.modifyNode node DepsNode.clear_done) g = g1
    at ha1 hdone1 hlen1 ⊢
  have ha2 : agree_on DepsNode.clear_done g (g1.modifyNode target DepsNode.mark_visited) :=
    agree_on_trans ha1
      (agree_on_modifyNode DepsNode.clear_done g1 target DepsNode.mark_visited (fun _ => rfl))
  have hvis2 : ∀ n ∈ g.operations,
      (op_visited (g1.modifyNode target DepsNode.mark_visited) n ↔ n = target) := by
    intro n hn
    rw [op_visited_mark_visited]
    constructor
    · rintro (h | h)
      · unfold op_visited at h
        rw [hdone1 n hn] at h
        exact absurd rfl h
      · exact h.1.symm
    · intro h
      exact Or.inr ⟨h.symm, by rw [hlen1]; exact hops n hn⟩
  have hrch2 : ∀ n ∈ g.operations,
      ¬ op_reachable (g1.modifyNode target DepsNode.mark_visited) n := by
    intro n hn h
    rw [op_reachable_mark_visited] at h
    unfold op_reachable at h
    rw [hdone1 n hn] at h
    exact absurd rfl h
  have hlen2 := agree_on_length ha2
  generalize g1.modifyNode target DepsNode.mark_visited = g2 at ha2 hvis2 hrch2 hlen2 ⊢
  have hstep : ∀ g' r, agree_on DepsNode.clear_done g g' →
      TagInv g g' (deg_graph_tag_paths_recursive (tag_paths_fuel g') g' (g'.rel r).from_)
        [(g.rel r).from_] False (unvisited g' < g.nodes.length + 1) := by
    intro g' r ha'
    rw [agree_on_rel ha' r]
    have hf : tag_paths_fuel g' = g.nodes.length + 1 := by
      unfold tag_paths_fuel
      rw [agree_on_length ha']
    have h := tag_paths_inv g hin (tag_paths_fuel g') g' (g.rel r).from_ ha'
    rw [hf] at h ⊢
    exact h
  have h3 := TagInv.foldl g _ False (g.nodes.length + 1) hstep (g2.node target).inlinks g2 ha2
  have he : unvisited g2 < g.nodes.length + 1 := by
    have := unvisited_le_length g2
    omega
  have hinl : (g2.node target).inlinks = (g.node target).inlinks := done_inlinks ha2 target
  have hmem : ∀ r ∈ (g.node target).inlinks,
      (g.rel r).from_ ∈ (g2.node target).inlinks.map fun r => (g.rel r).from_ := by
    intro r hr
    rw [hinl]
    exact List.mem_map.2 ⟨r, hr, rfl⟩
  have hparent : ∀ n, inlink_edge g n target →
      op_visited ((g2.node target).inlinks.foldl
        (fun g r => deg_graph_tag_paths_recursive (tag_paths_fuel g) g (g.rel r).from_) g2) n := by
    rintro n ⟨r, hr, hfr⟩
    rw [← hfr]
    exact (h3.vis_roots he _ (hmem r hr) (hin target r hr).2).1
  have hops_of_edge : ∀ a b, inlink_edge g a b → b ∈ g.operations := by
    rintro a b ⟨r, hr, _⟩
    rcases hsrc b with h | h
    · exact h
    · rw [h] at hr
      cases hr
  have hall : ∀ n, Relation.TransGen (inlink_edge g) n target →
      op_visited ((g2.node target).inlinks.foldl
        (fun g r => deg_graph_tag_paths_recursive (tag_paths_fuel g) g (g.rel r).from_) g2) n := by
    intro n hp
    induction hp using Relation.TransGen.head_induction_on with
    | base h => exact hparent _ h
    | ih h hp ih =>
      rename_i a m
      by_cases hm : m = target
      · subst hm
        exact hparent _ h
      · obtain ⟨r, hr, hfr⟩ := h
        have hmo : m ∈ g.operations := hops_of_edge a m ⟨r, hr, hfr⟩
        have hnv : ¬ op_visited g2 m := fun hv => hm ((hvis2 m hmo).1 hv)
        rw [← hfr]
        exact (h3.closed he m ih hnv r hr).1
  refine ⟨agree_on_trans ha2 h3.shape, ?_⟩
  intro x hx
  constructor
  · intro hr
    rcases h3.rch_sound x hr (hrch2 x hx) with ⟨N, hN1, hN2, hN3⟩ | ⟨hf, _⟩
    · have hNt : N ≠ target := fun h => hN3 (h ▸ (hvis2 target ht).2 rfl)
      obtain ⟨p, hp, hpath⟩ := h3.vis_sound N hN2 hN3
      obtain ⟨r, hr', hpr⟩ := List.mem_map.1 hp
      rw [hinl] at hr'
      exact ⟨N, hNt, hN1, Relation.TransGen.tail' hpath ⟨r, hr', hpr⟩⟩
    · exact absurd hf not_false
  · rintro ⟨N, hNt, hxN, hpath⟩
    have hNo : N ∈ g.operations := hops_of_edge x N hxN
    have hnv : ¬ op_visited g2 N := fun hv => hNt ((hvis2 N hNo).1 hv)
    obtain ⟨r, hr, hfr⟩ := hxN
    rw [← hfr]
    exact (h3.closed he N (hall N hpath) hnv r hr).2

/-! ### The removal loop of the transitive reduction -/

theorem delete_relation_marks (g : Depsgraph) (r : Nat) :
    agree_on node_marks g (g.delete_relation r) := by
  unfold Depsgraph.delete_relation
  refine agree_on_trans (?_ : agree_on node_marks g (g.modifyNode (g.rel r).from_ fun n =>
    { n with outlinks := n.outlinks.erase r })) ?_
  · exact agree_on_modifyNode node_marks g _ _ (fun _ => rfl)
  · exact agree_on_modifyNode node_marks _ _ _ (fun _ => rfl)

theorem delete_relation_inlinks (g : Depsgraph) (r m : Nat) :
    ((g.delete_relation r).node m).inlinks =
      if (g.rel r).to_ = m ∧ m < g.nodes.length then (g.node m).inlinks.erase r
      else (g.node m).inlinks := by
  unfold Depsgraph.delete_relation
  rw [node_modifyNode, node_modifyNode]
  have hlen : (g.modifyNode (g.rel r).from_ fun n =>
      { n with outlinks := n.outlinks.erase r }).nodes.length = g.nodes.length :=
    List.length_modify _ _ _
  rw [hlen]
  by_cases h1 : (g.rel r).to_ = m ∧ m < g.nodes.length
  · rw [if_pos h1, if_pos h1]
    split <;> rfl
  · rw [if_neg h1, if_neg h1]
    split <;> rfl

theorem marks_type {g g' : Depsgraph} (ha : agree_on node_marks g g') (m : Nat) :
    (g'.node m).type = (g.node m).type :=
  congrArg Prod.fst (agree_on_node ha m)

theorem marks_done {g g' : Depsgraph} (ha : agree_on node_marks g g') (m : Nat) :
    (g'.node m).done = (g.node m).done :=
  congrArg Prod.snd (agree_on_node ha m)

theorem reduction_removes_marks {g g' : Depsgraph} (ha : agree_on node_marks g g') (r : Nat) :
    reduction_removes g' r = reduction_removes g r := by
  unfold reduction_removes
  rw [agree_on_rel ha r, marks_type ha, marks_done ha]

theorem reduction_remove_spec (g3 : Depsgraph) (t : Nat) (ht : t < g3.nodes.length) :
    ∀ (rels : List Nat) (g : Depsgraph), agree_on node_marks g3 g →
      (∀ r ∈ rels, (g3.rel r).to_ = t) →
      agree_on node_marks g3 (transitive_reduction_remove g rels) ∧
        ((transitive_reduction_remove g rels).node t).inlinks =
          rels.foldl (fun l r => if reduction_removes g3 r then l.erase r else l)
            (g.node t).inlinks ∧
        ∀ m, ∀ r ∈ ((transitive_reduction_remove g rels).node m).inlinks,
          r ∈ (g.node m).inlinks := by
  intro rels
  induction rels with
  | nil => intro g ha _; exact ⟨ha, rfl, fun _ _ h => h⟩
  | cons r rels ih =>
    intro g ha hto
    have hrm : reduction_removes g r = reduction_removes g3 r := reduction_removes_marks ha r
    have hto' : ∀ r' ∈ rels, (g3.rel r').to_ = t := fun r' h => hto r' (List.mem_cons_of_mem _ h)
    have hlen : g.nodes.length = g3.nodes.length := agree_on_length ha
    unfold transitive_reduction_remove
    rw [List.foldl_cons, List.foldl_cons, hrm]
    by_cases hp : reduction_removes g3 r = true
    · rw [if_pos hp, if_pos hp]
      obtain ⟨i1, i2, i3⟩ := ih (g.delete_relation r)
        (agree_on_trans ha (delete_relation_marks g r)) hto'
      unfold transitive_reduction_remove at i1 i2 i3
      refine ⟨i1, ?_, ?_⟩
      · rw [i2, delete_relation_inlinks, agree_on_rel ha r, hto r (List.mem_cons_self _ _),
          if_pos ⟨rfl, by omega⟩]
      · intro m r' hr'
        have := i3 m r' hr'
        rw [delete_relation_inlinks] at this
        split at this
        · exact List.mem_of_mem_erase this
        · exact this
    · rw [if_neg hp, if_neg hp]
      obtain ⟨i1, i2, i3⟩ := ih g ha hto'
      unfold transitive_reduction_remove at i1 i2 i3
      exact ⟨i1, i2, i3⟩

theorem count_foldl_erase (p : Nat → Bool) (x : Nat) :
    ∀ (rels l : List Nat),
      List.count x (rels.foldl (fun l r => if p r then l.erase r else l) l) =
        List.count x l - (if p x then List.count x rels else 0) := by
  intro rels
  induction rels with
  | nil => intro l; simp
  | cons r rels ih =>
    intro l
    rw [List.foldl_cons, ih]
    by_cases hpr : p r = true
    · rw [if_pos hpr, List.count_erase]
      by_cases hx : x = r
      · subst hx
        simp only [hpr, if_true, beq_self_eq_true, List.count_cons_self]
        omega
      · have hx' : (x == r) = false := by simpa using hx
        have hx2 : (r == x) = false := by simpa using fun h : r = x => hx h.symm
        simp only [hx', List.count_cons, hx2]
        simp
    · rw [if_neg hpr]
      by_cases hx : x = r
      · subst hx
        simp [hpr]
      · have hx2 : (r == x) = false := by simpa using fun h : r = x => hx h.symm
        simp only [List.count_cons, hx2]
        simp

theorem mem_foldl_erase_self (p : Nat → Bool) (x : Nat) (l : List Nat) :
    x ∈ l.foldl (fun l r => if p r then l.erase r else l) l ↔ x ∈ l ∧ p x = false := by
  rw [← List.count_pos_iff, count_foldl_erase, ← List.count_pos_iff]
  cases hp : p x
  · simp
  · simp

theorem reduction_target_inlinks (g : Depsgraph) (target : Nat)
    (hops : ∀ n ∈ g.operations, n < g.nodes.length) (hsrc : inlinks_on_operations g)
    (hin : inlinks_valid g) (ht : target ∈ g.operations) :
    (transitive_reduction_target g target).operations = g.operations ∧
      (transitive_reduction_target g target).relations = g.relations ∧
      (transitive_reduction_target g target).nodes.length = g.nodes.length ∧
      (∀ m, ((transitive_reduction_target g target).node m).type = (g.node m).type) ∧
      (∀ m, ∀ r ∈ ((transitive_reduction_target g target).node m).inlinks,
        r ∈ (g.node m).inlinks) ∧
      ∀ r, r ∈ ((transitive_reduction_target g target).node target).inlinks ↔
        r ∈ (g.node target).inlinks ∧
          reduction_removes (transitive_reduction_tag g target) r = false := by
  obtain ⟨ha3, _⟩ := reduction_tag_spec g target hops hsrc hin ht
  have hlen3 : (transitive_reduction_tag g target).nodes.length = g.nodes.length :=
    agree_on_length ha3
  have hto : ∀ r ∈ ((transitive_reduction_tag g target).node target).inlinks,
      ((transitive_reduction_tag g target).rel r).to_ = target := by
    intro r hr
    rw [done_inlinks ha3] at hr
    rw [agree_on_rel ha3 r]
    exact (hin target r hr).1
  obtain ⟨i1, i2, i3⟩ := reduction_remove_spec (transitive_reduction_tag g target) target
    (by rw [hlen3]; exact hops target ht)
    ((transitive_reduction_tag g target).node target).inlinks
    (transitive_reduction_tag g target) (agree_on_refl _ _) hto
  have hdef : transitive_reduction_target g target =
      transitive_reduction_remove (transitive_reduction_tag g target)
        ((transitive_reduction_tag g target).node target).inlinks := rfl
  rw [hdef]
  refine ⟨i1.2.2.trans ha3.2.2, i1.2.1.trans ha3.2.1, (agree_on_length i1).trans hlen3, ?_, ?_, ?_⟩
  · intro m
    rw [marks_type i1, done_type ha3]
  · intro m r hr
    have := i3 m r hr
    rw [done_inlinks ha3] at this
    exact this
  · intro r
    rw [i2, mem_foldl_erase_self, done_inlinks ha3]

theorem reduction_target_spec (g : Depsgraph) (target : Nat)
    (hops : ∀ n ∈ g.operations, n < g.nodes.length) (hsrc : inlinks_on_operations g)
    (hin : inlinks_valid g) (ht : target ∈ g.operations) (r : Nat)
    (hr : r ∈ (g.node target).inlinks) (hX : (g.rel r).from_ ∈ g.operations)
    (hty : (g.node (g.rel r).from_).type ≠ DEPSNODE_TYPE_TIMESOURCE) :
    r ∉ ((transitive_reduction_target g target).node target).inlinks ↔
      ∃ N, N ≠ target ∧ inlink_edge g (g.rel r).from_ N ∧
        Relation.TransGen (inlink_edge g) N target := by
  obtain ⟨ha3, hiff⟩ := reduction_tag_spec g target hops hsrc hin ht
  obtain ⟨_, _, _, _, _, hmem⟩ := reduction_target_inlinks g target hops hsrc hin ht
  rw [hmem r, ← hiff _ hX]
  have hrm : reduction_removes (transitive_reduction_tag g target) r = true ↔
      op_reachable (transitive_reduction_tag g target) (g.rel r).from_ := by
    unfold reduction_removes op_reachable
    rw [agree_on_rel ha3 r, done_type ha3]
    simp [hty]
  rw [← hrm]
  constructor
  · intro h
    by_contra hc
    exact h ⟨hr, by simpa using hc⟩
  · intro h hc
    rw [h] at hc
    cases hc.2

theorem reduction_prefix_inv : ∀ (pre : List Nat) (g : Depsgraph),
    (∀ n ∈ g.operations, n < g.nodes.length) → inlinks_on_operations g → inlinks_valid g →
    (∀ t ∈ pre, t ∈ g.operations) →
    (∀ n ∈ (pre.foldl transitive_reduction_target g).operations,
        n < (pre.foldl transitive_reduction_target g).nodes.length) ∧
      inlinks_on_operations (pre.foldl transitive_reduction_target g) ∧
      inlinks_valid (pre.foldl transitive_reduction_target g) ∧
      (pre.foldl transitive_reduction_target g).operations = g.operations ∧
      (∀ m, ((pre.foldl transitive_reduction_target g).node m).type = (g.node m).type) ∧
      ∀ a b, inlink_edge (pre.foldl transitive_reduction_target g) a b → inlink_edge g a b := by
  intro pre
  induction pre with
  | nil => intro g hops hsrc hin _; exact ⟨hops, hsrc, hin, rfl, fun _ => rfl, fun _ _ h => h⟩
  | cons t pre ih =>
    intro g hops hsrc hin hpre
    obtain ⟨f1, f2, f3, f4, f5, _⟩ := reduction_target_inlinks g t hops hsrc hin
      (hpre t (List.mem_cons_self _ _))
    have hops' : ∀ n ∈ (transitive_reduction_target g t).operations,
        n < (transitive_reduction_target g t).nodes.length := by
      intro n hn
      rw [f1] at hn
      rw [f3]
      exact hops n hn
    have hsrc' : inlinks_on_operations (transitive_reduction_target g t) := by
      intro n
      rcases hsrc n with h | h
      · left
        rw [f1]
        exact h
      · right
        apply List.eq_nil_iff_forall_not_mem.2
        intro r hr
        have := f5 n r hr
        rw [h] at this
        cases this
    have hin' : inlinks_valid (transitive_reduction_target g t) := by
      intro n r hr
      have h := hin n r (f5 n r hr)
      unfold Depsgraph.rel at h ⊢
      rw [f2, f3]
      exact h
    obtain ⟨j1, j2, j3, j4, j5, j6⟩ := ih (transitive_reduction_target g t) hops' hsrc' hin'
      (fun t' ht' => by rw [f1]; exact hpre t' (List.mem_cons_of_mem _ ht'))
    rw [List.foldl_cons]
    refine ⟨j1, j2, j3, j4.trans f1, fun m => (j5 m).trans (f4 m), ?_⟩
    intro a b hab
    obtain ⟨r, hr, hfr⟩ := j6 a b hab
    refine ⟨r, f5 b r hr, ?_⟩
    unfold Depsgraph.rel at hfr ⊢
    rw [f2] at hfr
    exact hfr

theorem example_shortcut_inlinks : inlinks_on_operations example_shortcut := by
  intro n
  match n with
  | 0 => exact Or.inl (by decide)
  | 1 => exact Or.inl (by decide)
  | 2 => exact Or.inl (by decide)
  | n + 3 => exact Or.inr rfl

theorem example_shortcut_edge_lt (a b : Nat) (h : inlink_edge example_shortcut a b) : a < b := by
  obtain ⟨r, hr, hfr⟩ := h
  match b with
  | 0 => cases hr
  | 1 =>
    have h1 : r = 0 := by simpa [example_shortcut, Depsgraph.node, example_op] using hr
    subst h1
    rw [← hfr]
    decide
  | 2 =>
    have h1 : r = 1 ∨ r = 2 := by simpa [example_shortcut, Depsgraph.node, example_op] using hr
    rcases h1 with h1 | h1 <;> subst h1 <;> rw [← hfr] <;> decide
  | b + 3 => cases hr

theorem example_shortcut_acyclic (n : Nat) :
    ¬ Relation.TransGen (inlink_edge example_shortcut) n n := by
  have h : ∀ a b, Relation.TransGen (inlink_edge example_shortcut) a b → a < b := by
    intro a b hab
    induction hab with
    | single h => exact example_shortcut_edge_lt _ _ h
    | tail _ h ih => exact Nat.lt_trans ih (example_shortcut_edge_lt _ _ h)
  intro hn
  exact Nat.lt_irrefl n (h n n hn)

theorem delete_relation_outlinks (g : Depsgraph) (r m : Nat) :
    ((g.delete_relation r).node m).outlinks =
      if (g.rel r).from_ = m ∧ m < g.nodes.length then (g.node m).outlinks.erase r
      else (g.node m).outlinks := by
  unfold Depsgraph.delete_relation
  rw [node_modifyNode, node_modifyNode]
  by_cases h1 : (g.rel r).from_ = m ∧ m < g.nodes.length
  · rw [if_pos h1, if_pos h1]
    split <;> rfl
  · rw [if_neg h1, if_neg h1]
    split <;> rfl

theorem tag_paths_node_shape : ∀ (fuel : Nat) (g : Depsgraph) (node : Nat),
    agree_on node_shape g (deg_graph_tag_paths_recursive fuel g node) := by
  intro fuel
  induction fuel with
  | zero => intro g node; exact agree_on_refl _ _
  | succ fuel ih =>
    intro g node
    rw [deg_graph_tag_paths_recursive]
    split
    · exact agree_on_refl _ _
    · refine agree_on_trans
        (agree_on_modifyNode node_shape g node DepsNode.mark_visited (fun _ => rfl)) ?_
      apply foldl_agree_on
      intro g' r
      exact agree_on_trans (ih g' _)
        (agree_on_modifyNode node_shape _ _ DepsNode.mark_reachable (fun _ => rfl))

theorem reduction_tag_node_shape (g : Depsgraph) (target : Nat) :
    agree_on node_shape g (transitive_reduction_tag g target) := by
  unfold transitive_reduction_tag
  simp only
  refine agree_on_trans (?_ : agree_on node_shape g
    (g.operations.foldl (fun g node => g.modifyNode node DepsNode.clear_done) g)) ?_
  · exact foldl_agree_on node_shape (fun g node => g.modifyNode node DepsNode.clear_done)
      (fun g x => agree_on_modifyNode node_shape g x DepsNode.clear_done (fun _ => rfl)) _ g
  · refine agree_on_trans
      (agree_on_modifyNode node_shape _ target DepsNode.mark_visited (fun _ => rfl)) ?_
    apply foldl_agree_on
    intro g' r
    exact tag_paths_node_shape _ _ _

theorem reduction_remove_keeps (r : Nat) : ∀ (rels : List Nat) (g : Depsgraph),
    (g.node (g.rel r).from_).type = DEPSNODE_TYPE_TIMESOURCE →
    agree_on node_marks g (transitive_reduction_remove g rels) ∧
      (∀ n, r ∈ (g.node n).inlinks → r ∈ ((transitive_reduction_remove g rels).node n).inlinks) ∧
      ∀ n, r ∈ (g.node n).outlinks →
        r ∈ ((transitive_reduction_remove g rels).node n).outlinks := by
  intro rels
  induction rels with
  | nil => intro g _; exact ⟨agree_on_refl _ _, fun _ h => h, fun _ h => h⟩
  | cons r' rels ih =>
    intro g hts
    unfold transitive_reduction_remove
    rw [List.foldl_cons]
    by_cases hp : reduction_removes g r' = true
    · rw [if_pos hp]
      have hne : r ≠ r' := by
        intro h
        subst h
        unfold reduction_removes at hp
        exact (of_decide_eq_true hp).1 hts
      have hm := delete_relation_marks g r'
      have hts' : ((g.delete_relation r').node ((g.delete_relation r').rel r).from_).type =
          DEPSNODE_TYPE_TIMESOURCE := by
        rw [agree_on_rel hm r, marks_type hm]
        exact hts
      obtain ⟨i1, i2, i3⟩ := ih (g.delete_relation r') hts'
      unfold transitive_reduction_remove at i1 i2 i3
      refine ⟨agree_on_trans hm i1, ?_, ?_⟩
      · intro n hn
        apply i2
        rw [delete_relation_inlinks]
        split
        · exact (List.mem_erase_of_ne hne).2 hn
        · exact hn
      · intro n hn
        apply i3
        rw [delete_relation_outlinks]
        split
        · exact (List.mem_erase_of_ne hne).2 hn
        · exact hn
    · rw [if_neg hp]
      have := ih g hts
      unfold transitive_reduction_remove at this
      exact this

theorem reduction_target_keeps (r : Nat) (g : Depsgraph) (target : Nat)
    (hts : (g.node (g.rel r).from_).type = DEPSNODE_TYPE_TIMESOURCE) :
    (transitive_reduction_target g target).rel r = g.rel r ∧
      (∀ m, ((transitive_reduction_target g target).node m).type = (g.node m).type) ∧
      (∀ n, r ∈ (g.node n).inlinks →
        r ∈ ((transitive_reduction_target g target).node n).inlinks) ∧
      ∀ n, r ∈ (g.node n).outlinks →
        r ∈ ((transitive_reduction_target g target).node n).outlinks := by
  have hs := reduction_tag_node_shape g target
  have hts3 : ((transitive_reduction_tag g target).node
      ((transitive_reduction_tag g target).rel r).from_).type = DEPSNODE_TYPE_TIMESOURCE := by
    rw [agree_on_rel hs r, shape_type hs]
    exact hts
  obtain ⟨i1, i2, i3⟩ := reduction_remove_keeps r
    ((transitive_reduction_tag g target).node target).inlinks _ hts3
  have hdef : transitive_reduction_target g target =
      transitive_reduction_remove (transitive_reduction_tag g target)
        ((transitive_reduction_tag g target).node target).inlinks := rfl
  rw [hdef]
  refine ⟨(agree_on_rel i1 r).trans (agree_on_rel hs r), ?_, ?_, ?_⟩
  · intro m
    rw [marks_type i1, shape_type hs]
  · intro n hn
    apply i2
    rw [shape_inlinks hs]
    exact hn
  · intro n hn
    apply i3
    rw [shape_outlinks hs]
    exact hn

theorem reduction_fold_keeps (r : Nat) : ∀ (targets : List Nat) (g : Depsgraph),
    (g.node (g.rel r).from_).type = DEPSNODE_TYPE_TIMESOURCE →
    (targets.foldl transitive_reduction_target g).rel r = g.rel r ∧
      (∀ n, r ∈ (g.node n).inlinks →
        r ∈ ((targets.foldl transitive_reduction_target g).node n).inlinks) ∧
      ∀ n, r ∈ (g.node n).outlinks →
        r ∈ ((targets.foldl transitive_reduction_target g).node n).outlinks := by
  intro targets
  induction targets with
  | nil => intro g _; exact ⟨rfl, fun _ h => h, fun _ h => h⟩
  | cons t targets ih =>
    intro g hts
    obtain ⟨k1, k2, k3, k4⟩ := reduction_target_keeps r g t hts
    have hts' : ((transitive_reduction_target g t).node
        ((transitive_reduction_target g t).rel r).from_).type = DEPSNODE_TYPE_TIMESOURCE := by
      rw [k1, k2]
      exact hts
    obtain ⟨i1, i2, i3⟩ := ih (transitive_reduction_target g t) hts'
    rw [List.foldl_cons]
    exact ⟨i1.trans k1, fun n hn => i2 n (k3 n hn), fun n hn => i3 n (k4 n hn)⟩

/-- C24: `deg_graph_transitive_reduction` never deletes a relation whose source
is a time-source node, whatever marks the nodes carry when it starts: the
relation is in every link list afterwards in which it was before, and the
relation itself is unchanged. -/
theorem transitive_reduction_keeps_time_source (g : Depsgraph) (r : Nat)
    (hts : (g.node (g.rel r).from_).type = DEPSNODE_TYPE_TIMESOURCE) :
    (deg_graph_transitive_reduction g).rel r = g.rel r ∧
      (∀ n, r ∈ (g.node n).inlinks → r ∈ ((deg_graph_transitive_reduction g).node n).inlinks) ∧
      ∀ n, r ∈ (g.node n).outlinks →
        r ∈ ((deg_graph_transitive_reduction g).node n).outlinks :=
  reduction_fold_keeps r g.operations g hts

/-- Witness for `transitive_reduction_keeps_time_source`: in
`example_time_source` the time source is marked reachable when `B` is
processed (through `time -> A -> B`), and the relation `time -> B` (relation
`2`) is kept. -/
theorem transitive_reduction_keeps_time_source_witness :
    (example_time_source.node (example_time_source.rel 2).from_).type =
        DEPSNODE_TYPE_TIMESOURCE ∧
      ((transitive_reduction_tag example_time_source 2).node 0).done &&& OP_REACHABLE ≠ 0 ∧
      2 ∈ ((deg_graph_transitive_reduction example_time_source).node 2).inlinks ∧
      2 ∈ ((deg_graph_transitive_reduction example_time_source).node 0).outlinks :=
  ⟨by decide, by decide,
    (transitive_reduction_keeps_time_source example_time_source 2 (by decide)).2.1 2 (by decide),
    (transitive_reduction_keeps_time_source example_time_source 2 (by decide)).2.2 0
      (by decide)⟩

/-! ### The layers collected by the finalize pass -/

theorem or_absorb_step (acc x a : Nat) (h : acc ||| a = acc) : (acc ||| x) ||| a = acc ||| x := by
  rw [Nat.or_assoc, Nat.or_comm x a, ← Nat.or_assoc, h]

theorem sans_layers_node {g g' : Depsgraph} (ha : agree_on node_sans_layers g g') (m : Nat) :
    (g'.node m).type = (g.node m).type ∧ (g'.node m).owner = (g.node m).owner := by
  have h1 := congrArg DepsNode.type (agree_on_node ha m)
  have h2 := congrArg DepsNode.owner (agree_on_node ha m)
  exact ⟨h1, h2⟩

theorem layers_from_targets_congr (g g1 : Depsgraph) (id_node : Nat)
    (ha : agree_on node_sans_layers g g1)
    (hl : ∀ x, x ≠ id_node → (g1.node x).layers = (g.node x).layers) :
    ∀ (rels : List Nat) (acc : Nat), acc ||| (g.node id_node).layers = acc →
      acc ||| (g1.node id_node).layers = acc →
      layers_from_targets g1 rels acc = layers_from_targets g rels acc := by
  intro rels
  induction rels with
  | nil => intro acc _ _; rfl
  | cons r rels ih =>
    intro acc h h1
    unfold layers_from_targets at ih ⊢
    rw [List.foldl_cons, List.foldl_cons]
    have hrel : g1.rel r = g.rel r := agree_on_rel ha r
    have hidn : g1.id_node_of (g.rel r).to_ = g.id_node_of (g.rel r).to_ := by
      unfold Depsgraph.id_node_of
      rw [(sans_layers_node ha _).2, (sans_layers_node ha _).2]
    rw [hrel, (sans_layers_node ha _).1, hidn]
    split
    · by_cases hx : g.id_node_of (g.rel r).to_ = id_node
      · rw [hx, h, h1]
        exact ih acc h h1
      · rw [hl _ hx]
        exact ih _ (or_absorb_step _ _ _ h) (or_absorb_step _ _ _ h1)
    · exact ih acc h h1

theorem finalize_layers_node : ∀ (rels : List Nat) (g : Depsgraph) (id_node m : Nat),
    (finalize_layers rels g id_node).node m =
      if m = id_node ∧ m < g.nodes.length then
        { g.node m with layers := layers_from_targets g rels (g.node m).layers }
      else g.node m := by
  intro rels
  induction rels with
  | nil =>
    intro g id_node m
    rw [finalize_layers]
    split <;> rfl
  | cons r rels ih =>
    intro g id_node m
    rw [finalize_layers]
    have hcons : ∀ acc, layers_from_targets g (r :: rels) acc =
        layers_from_targets g rels
          (if (g.node (g.rel r).to_).type = DEPSNODE_TYPE_OPERATION then
            acc ||| (g.node (g.id_node_of (g.rel r).to_)).layers else acc) := fun _ => rfl
    rw [hcons]
    by_cases hop : (g.node (g.rel r).to_).type = DEPSNODE_TYPE_OPERATION
    · simp only [if_pos hop]
      rw [ih]
      have hlen : (g.modifyNode id_node fun n =>
          { n with layers := n.layers ||| (g.node (g.id_node_of (g.rel r).to_)).layers }).nodes.length
          = g.nodes.length := List.length_modify _ _ _
      rw [hlen]
      by_cases hm : m = id_node ∧ m < g.nodes.length
      · rw [if_pos hm, if_pos hm, node_modifyNode, if_pos ⟨hm.1.symm, hm.2⟩]
        have ha : agree_on node_sans_layers g (g.modifyNode id_node fun n =>
            { n with layers := n.layers ||| (g.node (g.id_node_of (g.rel r).to_)).layers }) :=
          agree_on_modifyNode node_sans_layers g id_node _ (fun _ => rfl)
        have hl : ∀ x, x ≠ id_node → ((g.modifyNode id_node fun n =>
            { n with layers := n.layers ||| (g.node (g.id_node_of (g.rel r).to_)).layers }).node
              x).layers = (g.node x).layers := by
          intro x hx
          rw [node_modifyNode, if_neg (fun h => hx h.1.symm)]
        have hself : ((g.modifyNode id_node fun n =>
            { n with layers := n.layers ||| (g.node (g.id_node_of (g.rel r).to_)).layers }).node
              id_node).layers =
            (g.node id_node).layers ||| (g.node (g.id_node_of (g.rel r).to_)).layers := by
          rw [node_modifyNode, if_pos ⟨rfl, hm.1 ▸ hm.2⟩]
        have hc := layers_from_targets_congr g _ id_node ha hl rels
          ((g.node id_node).layers ||| (g.node (g.id_node_of (g.rel r).to_)).layers)
          (by rw [Nat.or_comm, ← Nat.or_assoc, Nat.or_self])
          (by rw [hself, Nat.or_self])
        rw [hm.1]
        simp only [hc]
      · rw [if_neg hm, if_neg hm, node_modifyNode]
        split
        · rename_i h
          exact absurd ⟨h.1.symm, h.2⟩ hm
        · rfl
    · simp only [if_neg hop]
      exact ih g id_node m

theorem finalize_retag_layers (bmain : Main) (g : Depsgraph) (id_node m : Nat) :
    ((finalize_retag bmain g id_node).2.node m).layers = (g.node m).layers := by
  unfold finalize_retag
  simp only
  split
  · exact strip_layers (id_tag_update_strip g id_node true) m
  · rfl

/-- C30 as stated fails: in `example_layers` the operation `A` has the one
outbound operation target `B`; the finalize pass finalizes `A`, and afterwards
the ID node of `B` still has the layers `2` it had, without the layer `1` of
the ID node of `A`, while the ID node of `A` has the layers `3`: the layers
went from the target to the node. -/
theorem finalize_layers_not_pushed_to_targets :
    FinalizeEvent.finalize 2 ∈ (finalize_run {} example_layers).trace ∧
      example_layers.id_node_of 2 = 0 ∧ example_layers.id_node_of 5 = 3 ∧
      (example_layers.node 0).layers = 1 ∧ (example_layers.node 3).layers = 2 ∧
      ∃ bmain' g', deg_graph_build_finalize {} example_layers = some (bmain', g') ∧
        (g'.node 3).layers = 2 ∧ (g'.node 0).layers = 3 := by
  refine ⟨by decide, by decide, by decide, by decide, by decide,
    (finalize_run {} example_layers).bmain, (finalize_run {} example_layers).graph, by decide,
    by decide, by decide⟩

/-- C30 amended: when the finalize pass finalizes the operation `node` (the
iteration that pops it), it ORs into the layers of the owning ID node of
`node` the layers of the owning ID node of every outbound relation's target
that is an operation, and the layers of every other node stay as they are:
the layers go from the targets to the node. -/
theorem finalize_collects_target_layers (s : FinalizeState) (node : Nat) (rest : List Nat)
    (hpop : ¬ ((s.graph.node node).done = 0 ∧ (s.graph.node node).outlinks.length ≠ 0)) :
    (finalize_step s node rest).trace = s.trace ++ [FinalizeEvent.finalize node] ∧
      ∀ m, ((finalize_step s node rest).graph.node m).layers =
        if m = s.graph.id_node_of node ∧ m < s.graph.nodes.length then
          layers_from_targets s.graph (s.graph.node node).outlinks (s.graph.node m).layers
        else (s.graph.node m).layers := by
  unfold finalize_step
  rw [if_neg hpop]
  refine ⟨rfl, ?_⟩
  intro m
  simp only
  rw [finalize_retag_layers, finalize_layers_node]
  split <;> rfl

/-- Witness for `finalize_collects_target_layers`: the operation `A` of
`example_layers`, already expanded, is popped; its ID node gets the layers
`1 ||| 2` and the ID node of its target keeps the layers `2`. -/
theorem finalize_collects_target_layers_witness :
    ¬ (((example_layers.modifyNode 2 fun n => { n with done := 1 }).node 2).done = 0 ∧
        ((example_layers.modifyNode 2 fun n => { n with done := 1 }).node 2).outlinks.length ≠ 0) ∧
      ((finalize_step
          { bmain := {}, graph := example_layers.modifyNode 2 fun n => { n with done := 1 },
            stack := [2], trace := [], assert_failed := false } 2 []).graph.node 0).layers = 3 ∧
      ((finalize_step
          { bmain := {}, graph := example_layers.modifyNode 2 fun n => { n with done := 1 },
            stack := [2], trace := [], assert_failed := false } 2 []).graph.node 3).layers = 2 :=
  ⟨by decide,
    ((finalize_collects_target_layers
      { bmain := {}, graph := example_layers.modifyNode 2 fun n => { n with done := 1 },
        stack := [2], trace := [], assert_failed := false } 2 [] (by decide)).2 0).trans
      (by decide),
    ((finalize_collects_target_layers
      { bmain := {}, graph := example_layers.modifyNode 2 fun n => { n with done := 1 },
        stack := [2], trace := [], assert_failed := false } 2 [] (by decide)).2 3).trans
      (by decide)⟩

/-! ### Cycle detection: what it changes -/

theorem rel_modifyRel (g : Depsgraph) (r : Nat) (f : DepsRelation → DepsRelation) (q : Nat) :
    (g.modifyRel r f).rel q =
      if r = q ∧ q < g.relations.length then f (g.rel q) else g.rel q := by
  unfold Depsgraph.rel Depsgraph.modifyRel
  simp only [List.getD_eq_getElem?_getD, List.getElem?_modify]
  by_cases hq : q < g.relations.length
  · rw [List.getElem?_eq_getElem hq]
    by_cases hr : r = q <;> simp [hr, hq]
  · rw [List.getElem?_eq_none (by omega)]
    simp [hq]

theorem or_or_self (f m : Nat) : (f ||| m) ||| m = f ||| m := by
  rw [Nat.or_assoc, Nat.or_self]

theorem cycles_frame_refl (g : Depsgraph) : cycles_frame g g :=
  ⟨rfl, rfl, rfl, fun _ => Or.inl rfl⟩

theorem cycles_frame_trans {g₁ g₂ g₃ : Depsgraph} (h₁ : cycles_frame g₁ g₂)
    (h₂ : cycles_frame g₂ g₃) : cycles_frame g₁ g₃ := by
  refine ⟨h₂.1.trans h₁.1, h₂.2.1.trans h₁.2.1, h₂.2.2.1.trans h₁.2.2.1, ?_⟩
  intro r
  rcases h₁.2.2.2 r with a | a <;> rcases h₂.2.2.2 r with b | b
  · exact Or.inl (b.trans a)
  · exact Or.inr (by rw [b, a])
  · exact Or.inr (by rw [b, a])
  · exact Or.inr (by rw [b, a, or_or_self])

theorem cycles_frame_modifyNode (g : Depsgraph) (n : Nat) (f : DepsNode → DepsNode)
    (hf : ∀ x, (f x).clear_done = x.clear_done) : cycles_frame g (g.modifyNode n f) :=
  ⟨map_modify_of_invariant DepsNode.clear_done f hf g.nodes n, rfl, rfl, fun _ => Or.inl rfl⟩

theorem cycles_frame_flag (g : Depsgraph) (r : Nat) :
    cycles_frame g
      (g.modifyRel r fun rel => { rel with flag := rel.flag ||| DEPSREL_FLAG_CYCLIC }) := by
  refine ⟨rfl, map_modify_of_invariant rel_sans_flag
    (fun rel : DepsRelation => { rel with flag := rel.flag ||| DEPSREL_FLAG_CYCLIC })
    (fun _ => rfl) g.relations r, rfl, ?_⟩
  intro q
  rw [rel_modifyRel]
  split
  · exact Or.inr rfl
  · exact Or.inl rfl

theorem cycles_frame_node {g g' : Depsgraph} (h : cycles_frame g g') (m : Nat) :
    (g'.node m).clear_done = (g.node m).clear_done := by
  have h1 := congrArg (fun l => l[m]?) h.1
  simp only [List.getElem?_map] at h1
  unfold Depsgraph.node
  simp only [List.getD_eq_getElem?_getD]
  cases hg : g.nodes[m]? <;> cases hg' : g'.nodes[m]? <;> simp [hg, hg'] at h1 ⊢
  exact h1

theorem cycles_frame_rel {g g' : Depsgraph} (h : cycles_frame g g') (r : Nat) :
    rel_sans_flag (g'.rel r) = rel_sans_flag (g.rel r) := by
  have h1 := congrArg (fun l => l[r]?) h.2.1
  simp only [List.getElem?_map] at h1
  unfold Depsgraph.rel
  simp only [List.getD_eq_getElem?_getD]
  cases hg : g.relations[r]? <;> cases hg' : g'.relations[r]? <;> simp [hg, hg'] at h1 ⊢
  exact h1

theorem cycles_frame_to {g g' : Depsgraph} (h : cycles_frame g g') (r : Nat) :
    (g'.rel r).to_ = (g.rel r).to_ := by
  have h1 := congrArg DepsRelation.to_ (cycles_frame_rel h r)
  exact h1

theorem cycles_frame_from {g g' : Depsgraph} (h : cycles_frame g g') (r : Nat) :
    (g'.rel r).from_ = (g.rel r).from_ := by
  have h1 := congrArg DepsRelation.from_ (cycles_frame_rel h r)
  exact h1

theorem cycles_frame_type {g g' : Depsgraph} (h : cycles_frame g g') (m : Nat) :
    (g'.node m).type = (g.node m).type := by
  have h1 := congrArg DepsNode.type (cycles_frame_node h m)
  exact h1

theorem cycles_frame_outlinks {g g' : Depsgraph} (h : cycles_frame g g') (m : Nat) :
    (g'.node m).outlinks = (g.node m).outlinks := by
  have h1 := congrArg DepsNode.outlinks (cycles_frame_node h m)
  exact h1

theorem cycles_frame_inlinks {g g' : Depsgraph} (h : cycles_frame g g') (m : Nat) :
    (g'.node m).inlinks = (g.node m).inlinks := by
  have h1 := congrArg DepsNode.inlinks (cycles_frame_node h m)
  exact h1

theorem cycles_frame_nodes_length {g g' : Depsgraph} (h : cycles_frame g g') :
    g'.nodes.length = g.nodes.length := by
  have := congrArg List.length h.1
  simpa using this

theorem cycles_frame_relations_length {g g' : Depsgraph} (h : cycles_frame g g') :
    g'.relations.length = g.relations.length := by
  have := congrArg List.length h.2.1
  simpa using this

theorem cycles_frame_operations {g g' : Depsgraph} (h : cycles_frame g g') :
    g'.operations = g.operations := by
  have h1 := congrArg Depsgraph.operations h.2.2.1
  exact h1

theorem cycles_frame_flag_mono {g g' : Depsgraph} (h : cycles_frame g g') (r : Nat)
    (hf : (g.rel r).flag &&& DEPSREL_FLAG_CYCLIC ≠ 0) :
    (g'.rel r).flag &&& DEPSREL_FLAG_CYCLIC ≠ 0 := by
  rcases h.2.2.2 r with a | a
  · rw [a]; exact hf
  · rw [a, or_and_self_mask]
    decide

theorem has_operation_inlinks_frame {g g' : Depsgraph} (h : cycles_frame g g') (n : Nat) :
    has_operation_inlinks g' n = has_operation_inlinks g n := by
  unfold has_operation_inlinks
  rw [cycles_frame_inlinks h]
  congr 1
  funext r
  rw [cycles_frame_from h, cycles_frame_type h]

theorem detect_cycles_scan_spec : ∀ (rels : List Nat) (g : Depsgraph),
    cycles_frame g (detect_cycles_scan rels g).1 ∧
      (∀ q, ((detect_cycles_scan rels g).1.rel q).flag ≠ (g.rel q).flag →
        q ∈ rels ∧ (g.node (g.rel q).to_).type = DEPSNODE_TYPE_OPERATION ∧
          (g.node (g.rel q).to_).done = NODE_IN_STACK) ∧
      ((detect_cycles_scan rels g).2 = none →
        (detect_cycles_scan rels g).1.nodes = g.nodes ∧
          ∀ r ∈ rels, r < g.relations.length →
            (g.node (g.rel r).to_).type = DEPSNODE_TYPE_OPERATION →
            ((g.node (g.rel r).to_).done = NODE_IN_STACK ∧
                ((detect_cycles_scan rels g).1.rel r).flag &&& DEPSREL_FLAG_CYCLIC ≠ 0) ∨
              ((g.node (g.rel r).to_).done ≠ NODE_IN_STACK ∧
                (g.node (g.rel r).to_).done ≠ NODE_NOT_VISITED)) ∧
      ∀ v r, (detect_cycles_scan rels g).2 = some (v, r) →
        (detect_cycles_scan rels g).1.nodes =
            g.nodes.modify (fun n => { n with done := NODE_IN_STACK }) v ∧
          r ∈ rels ∧ (g.rel r).to_ = v ∧ (g.node v).type = DEPSNODE_TYPE_OPERATION ∧
          (g.node v).done = NODE_NOT_VISITED := by
  intro rels
  induction rels with
  | nil =>
    intro g
    refine ⟨cycles_frame_refl g, fun q h => absurd rfl h, fun _ => ⟨rfl, ?_⟩, ?_⟩
    · intro r hr
      cases hr
    · intro v r h
      cases h
  | cons r rels ih =>
    intro g
    rw [detect_cycles_scan]
    by_cases hop : (g.node (g.rel r).to_).type = DEPSNODE_TYPE_OPERATION
    · by_cases hin : (g.node (g.rel r).to_).done = NODE_IN_STACK
      · simp only [if_pos hop, if_pos hin]
        have hfr := cycles_frame_flag g r
        have hrel := rel_modifyRel g r
          (fun rel : DepsRelation => { rel with flag := rel.flag ||| DEPSREL_FLAG_CYCLIC })
        have hnodes : (g.modifyRel r fun rel =>
            { rel with flag := rel.flag ||| DEPSREL_FLAG_CYCLIC }).nodes = g.nodes := rfl
        have hnode : ∀ m, (g.modifyRel r fun rel =>
            { rel with flag := rel.flag ||| DEPSREL_FLAG_CYCLIC }).node m = g.node m :=
          fun _ => rfl
        have hlen := cycles_frame_relations_length hfr
        have hto := cycles_frame_to hfr
        obtain ⟨i1, i2, i3, i4⟩ := ih (g.modifyRel r fun rel =>
          { rel with flag := rel.flag ||| DEPSREL_FLAG_CYCLIC })
        generalize (g.modifyRel r fun rel =>
          { rel with flag := rel.flag ||| DEPSREL_FLAG_CYCLIC }) = g1
          at hfr hrel hnodes hnode hlen hto i1 i2 i3 i4 ⊢
        refine ⟨cycles_frame_trans hfr i1, ?_, ?_, ?_⟩
        · intro q hq
          by_cases h1 : ((detect_cycles_scan rels g1).1.rel q).flag = (g1.rel q).flag
          · rw [h1, hrel] at hq
            by_cases hc : r = q ∧ q < g.relations.length
            · rw [← hc.1]
              exact ⟨List.mem_cons_self _ _, hop, hin⟩
            · rw [if_neg hc] at hq
              exact absurd rfl hq
          · obtain ⟨a, b, c⟩ := i2 q h1
            rw [hto, hnode] at b c
            exact ⟨List.mem_cons_of_mem _ a, b, c⟩
        · intro hnone
          obtain ⟨a, b⟩ := i3 hnone
          refine ⟨a.trans hnodes, ?_⟩
          intro r' hr' hlt hop'
          rcases List.mem_cons.1 hr' with h | h
          · subst h
            left
            refine ⟨hin, cycles_frame_flag_mono i1 r' ?_⟩
            rw [hrel, if_pos ⟨rfl, hlt⟩]
            show ((g.rel r').flag ||| DEPSREL_FLAG_CYCLIC) &&& DEPSREL_FLAG_CYCLIC ≠ 0
            rw [or_and_self_mask]
            decide
          · have := b r' h (by omega) (by rw [hto, hnode]; exact hop')
            rw [hto, hnode] at this
            exact this
        · intro v r' hsome
          obtain ⟨a, b, c, d, e⟩ := i4 v r' hsome
          rw [hnodes] at a
          rw [hto] at c
          rw [hnode] at d e
          exact ⟨a, List.mem_cons_of_mem _ b, c, d, e⟩
      · by_cases hnv : (g.node (g.rel r).to_).done = NODE_NOT_VISITED
        · simp only [if_pos hop, if_neg hin, if_pos hnv]
          refine ⟨cycles_frame_modifyNode g _ _ (fun _ => rfl), fun q h => absurd rfl h,
            (fun h => Option.noConfusion h), ?_⟩
          intro v r' hsome
          simp only [Option.some.injEq, Prod.mk.injEq] at hsome
          obtain ⟨h1, h2⟩ := hsome
          subst h1 h2
          exact ⟨rfl, List.mem_cons_self _ _, rfl, hop, hnv⟩
        · simp only [if_pos hop, if_neg hin, if_neg hnv]
          obtain ⟨i1, i2, i3, i4⟩ := ih g
          refine ⟨i1, ?_, ?_, ?_⟩
          · intro q hq
            obtain ⟨a, b, c⟩ := i2 q hq
            exact ⟨List.mem_cons_of_mem _ a, b, c⟩
          · intro hnone
            obtain ⟨a, b⟩ := i3 hnone
            refine ⟨a, ?_⟩
            intro r' hr' hlt hop'
            rcases List.mem_cons.1 hr' with h | h
            · subst h
              exact Or.inr ⟨hin, hnv⟩
            · exact b r' h hlt hop'
          · intro v r' hsome
            obtain ⟨a, b, c, d, e⟩ := i4 v r' hsome
            exact ⟨a, List.mem_cons_of_mem _ b, c, d, e⟩
    · simp only [if_neg hop]
      obtain ⟨i1, i2, i3, i4⟩ := ih g
      refine ⟨i1, ?_, ?_, ?_⟩
      · intro q hq
        obtain ⟨a, b, c⟩ := i2 q hq
        exact ⟨List.mem_cons_of_mem _ a, b, c⟩
      · intro hnone
        obtain ⟨a, b⟩ := i3 hnone
        refine ⟨a, ?_⟩
        intro r' hr' hlt hop'
        rcases List.mem_cons.1 hr' with h | h
        · subst h
          exact absurd hop' hop
        · exact b r' h hlt hop'
      · intro v r' hsome
        obtain ⟨a, b, c, d, e⟩ := i4 v r' hsome
        exact ⟨a, List.mem_cons_of_mem _ b, c, d, e⟩

theorem detect_cycles_init_frame : ∀ (l : List Nat) (g : Depsgraph) (stack : List StackEntry),
    cycles_frame g (detect_cycles_init l g stack).1 ∧
      (detect_cycles_init l g stack).1.relations = g.relations ∧
      (detect_cycles_init l g stack).2.length ≤ stack.length + l.length := by
  intro l
  induction l with
  | nil => intro g stack; exact ⟨cycles_frame_refl g, rfl, Nat.le_refl _⟩
  | cons node rest ih =>
    intro g stack
    rw [detect_cycles_init]
    split
    · obtain ⟨i1, i2, i3⟩ := ih (g.modifyNode node fun n => { n with done := NODE_IN_STACK })
        ({ node := node, from_ := none, via_relation := none } :: stack)
      refine ⟨cycles_frame_trans ?_ i1, i2, ?_⟩
      · exact cycles_frame_modifyNode g node _ (fun _ => rfl)
      · simp only [List.length_cons] at i3 ⊢
        omega
    · obtain ⟨i1, i2, i3⟩ := ih (g.modifyNode node fun n => { n with done := NODE_NOT_VISITED })
        stack
      refine ⟨cycles_frame_trans ?_ i1, i2, ?_⟩
      · exact cycles_frame_modifyNode g node _ (fun _ => rfl)
      · simp only [List.length_cons] at i3 ⊢
        omega

theorem detect_cycles_loop_frame : ∀ (fuel : Nat) (g : Depsgraph) (stack : List StackEntry),
    cycles_frame g (detect_cycles_loop fuel g stack).1 := by
  intro fuel
  induction fuel with
  | zero => intro g stack; rw [detect_cycles_loop]; exact cycles_frame_refl g
  | succ fuel ih =>
    intro g stack
    cases stack with
    | nil => rw [detect_cycles_loop]; exact cycles_frame_refl g
    | cons entry stack =>
      rw [detect_cycles_loop]
      have hs := (detect_cycles_scan_spec (g.node entry.node).outlinks g).1
      split
      · rename_i g' to_ rel heq
        rw [heq] at hs
        exact cycles_frame_trans hs (ih _ _)
      · rename_i g' heq
        rw [heq] at hs
        refine cycles_frame_trans hs (cycles_frame_trans ?_ (ih _ _))
        exact cycles_frame_modifyNode g' _ _ (fun _ => rfl)

theorem countP_modify_le {α : Type} (p : α → Bool) (f : α → α)
    (hf : ∀ x, p (f x) = true → p x = true) :
    ∀ (l : List α) (n : Nat), (l.modify f n).countP p ≤ l.countP p := by
  intro l
  induction l with
  | nil => intro n; simp
  | cons a l ih =>
    intro n
    cases n with
    | zero =>
      simp only [List.modify_zero_cons, List.countP_cons]
      by_cases h : p (f a) = true
      · rw [if_pos h, if_pos (hf a h)]
      · rw [if_neg h]
        split <;> omega
    | succ n =>
      simp only [List.modify_succ_cons, List.countP_cons]
      have := ih n
      omega

theorem detect_cycles_loop_terminates : ∀ (fuel : Nat) (g : Depsgraph)
    (stack : List StackEntry), 2 * not_visited_count g + stack.length ≤ fuel →
    (detect_cycles_loop fuel g stack).2 = [] := by
  intro fuel
  induction fuel with
  | zero =>
    intro g stack h
    have hs : stack = [] := List.length_eq_zero.1 (by omega)
    subst hs
    rfl
  | succ fuel ih =>
    intro g stack h
    cases stack with
    | nil => rfl
    | cons entry stack =>
      rw [detect_cycles_loop]
      obtain ⟨_, _, s3, s4⟩ := detect_cycles_scan_spec (g.node entry.node).outlinks g
      simp only [List.length_cons] at h
      split
      · rename_i g' to_ rel heq
        rw [heq] at s4
        obtain ⟨a, _, _, d, e⟩ := s4 to_ rel rfl
        apply ih
        have hlt : to_ < g.nodes.length := type_operation_lt g to_ d
        have hdrop : not_visited_count g' + 1 = not_visited_count g := by
          unfold not_visited_count
          rw [a]
          apply countP_modify_drop _ _ _ to_ hlt
          · rw [← node_eq_get g to_ hlt]
            simpa using e
          · simp [NODE_IN_STACK, NODE_NOT_VISITED]
        simp only [List.length_cons]
        omega
      · rename_i g' heq
        rw [heq] at s3
        obtain ⟨a, _⟩ := s3 rfl
        apply ih
        have hle : not_visited_count
            (g'.modifyNode entry.node fun n => { n with done := NODE_VISITED }) ≤
            not_visited_count g := by
          unfold not_visited_count Depsgraph.modifyNode
          rw [a]
          apply countP_modify_le
          intro x hx
          simp [NODE_VISITED, NODE_NOT_VISITED] at hx
        omega

/-- C29: `deg_graph_detect_cycles` keeps the nodes and the relations: the
numbers of nodes and of relations are unchanged, every node is as it was except
for its `done` marker, every relation is as it was except for its flag, a flag
is left as it was or gets the `CYCLIC` bit and loses no bit, everything else in
the graph is unchanged, and every relation is still in the outlinks of its
source and in the inlinks of its target when it was there before. -/
theorem detect_cycles_frame (g : Depsgraph) :
    (deg_graph_detect_cycles g).nodes.length = g.nodes.length ∧
      (deg_graph_detect_cycles g).relations.length = g.relations.length ∧
      (∀ n, ((deg_graph_detect_cycles g).node n).clear_done = (g.node n).clear_done) ∧
      (∀ r, rel_sans_flag ((deg_graph_detect_cycles g).rel r) = rel_sans_flag (g.rel r)) ∧
      (∀ r, ((deg_graph_detect_cycles g).rel r).flag = (g.rel r).flag ∨
        ((deg_graph_detect_cycles g).rel r).flag = (g.rel r).flag ||| DEPSREL_FLAG_CYCLIC) ∧
      (∀ r i, (g.rel r).flag.testBit i = true →
        ((deg_graph_detect_cycles g).rel r).flag.testBit i = true) ∧
      ({ deg_graph_detect_cycles g with nodes := [], relations := [] } : Depsgraph) =
        { g with nodes := [], relations := [] } ∧
      (∀ r, r ∈ (g.node (g.rel r).from_).outlinks →
        r ∈ ((deg_graph_detect_cycles g).node
          ((deg_graph_detect_cycles g).rel r).from_).outlinks) ∧
      ∀ r, r ∈ (g.node (g.rel r).to_).inlinks →
        r ∈ ((deg_graph_detect_cycles g).node ((deg_graph_detect_cycles g).rel r).to_).inlinks := by
  have h : cycles_frame g (deg_graph_detect_cycles g) := by
    unfold deg_graph_detect_cycles detect_cycles_run
    exact cycles_frame_trans (detect_cycles_init_frame g.operations g []).1
      (detect_cycles_loop_frame _ _ _)
  refine ⟨cycles_frame_nodes_length h, cycles_frame_relations_length h, cycles_frame_node h,
    cycles_frame_rel h, h.2.2.2, ?_, h.2.2.1, ?_, ?_⟩
  · intro r i hi
    rcases h.2.2.2 r with a | a
    · rw [a]; exact hi
    · rw [a, Nat.testBit_or, hi]
      rfl
  · intro r hr
    rw [cycles_frame_from h, cycles_frame_outlinks h]
    exact hr
  · intro r hr
    rw [cycles_frame_to h, cycles_frame_inlinks h]
    exact hr

/-- C26, evaluated where it fails: on two operations with the relations
`0 -> 1` and `1 -> 0` no operation is without inbound operation relation, so
nothing is pushed; `deg_graph_detect_cycles` returns with an empty stack and
every operation is left `NODE_NOT_VISITED`. -/
theorem detect_cycles_leaves_unvisited :
    (detect_cycles_run example_cycle2).2 = [] ∧
      ∀ n ∈ example_cycle2.operations,
        ((deg_graph_detect_cycles example_cycle2).node n).type = DEPSNODE_TYPE_OPERATION ∧
          ((deg_graph_detect_cycles example_cycle2).node n).done = NODE_NOT_VISITED := by
  decide

/-! ### The reduction after cycle detection -/

/-- C21, evaluated where it fails.  On `example_rooted_cycle_exit` cycle
detection flags `N -> X` and nothing else, so before the reduction `T` is
reachable from `X` (and from `S`) through `X -> T`, a relation with `CYCLIC`
unset.  When the reduction processes the target `T`, the marking pass walks
`T <- X <- N <- X` through the flagged relation, `X` gets `OP_REACHABLE`, and
`X -> T` is deleted: afterwards `T` has no inbound relation and is reachable
from no operation. -/
theorem transitive_reduction_cuts_noncyclic_path :
    links_consistent example_rooted_cycle_exit ∧ operations_typed example_rooted_cycle_exit ∧
      (deg_graph_detect_cycles example_rooted_cycle_exit).relations.map DepsRelation.flag =
        [0, 0, DEPSREL_FLAG_CYCLIC, 0] ∧
      (∀ n ∈ example_rooted_cycle_exit.operations,
        ((deg_graph_detect_cycles example_rooted_cycle_exit).node n).done = NODE_VISITED) ∧
      Relation.TransGen (noncyclic_op_edge (deg_graph_detect_cycles example_rooted_cycle_exit)) 1 3 ∧
      Relation.TransGen (noncyclic_op_edge (deg_graph_detect_cycles example_rooted_cycle_exit)) 0 3 ∧
      ((deg_graph_transitive_reduction
        (deg_graph_detect_cycles example_rooted_cycle_exit)).node 3).inlinks = [] ∧
      ∀ a, ¬ Relation.TransGen (noncyclic_op_edge (deg_graph_transitive_reduction
        (deg_graph_detect_cycles example_rooted_cycle_exit))) a 3 := by
  have h01 : noncyclic_op_edge (deg_graph_detect_cycles example_rooted_cycle_exit) 0 1 := by
    decide
  have h13 : noncyclic_op_edge (deg_graph_detect_cycles example_rooted_cycle_exit) 1 3 := by
    decide
  have hlen : (deg_graph_transitive_reduction
      (deg_graph_detect_cycles example_rooted_cycle_exit)).nodes.length = 4 := by decide
  have hno : ∀ b, ¬ noncyclic_op_edge (deg_graph_transitive_reduction
      (deg_graph_detect_cycles example_rooted_cycle_exit)) b 3 := by
    intro b
    match b with
    | 0 => decide
    | 1 => decide
    | 2 => decide
    | 3 => decide
    | b + 4 =>
      rintro ⟨_, _, r, hr, _⟩
      rw [node_default_of_le _ _ (by rw [hlen]; omega)] at hr
      cases hr
  refine ⟨by decide, by decide, by decide, by decide, Relation.TransGen.single h13,
    Relation.TransGen.tail (Relation.TransGen.single h01) h13, by decide, ?_⟩
  intro a h
  cases h with
  | single h => exact hno _ h
  | tail _ h => exact hno _ h

/-! ### The reduction of an acyclic graph -/

theorem reduction_remove_other_inlinks (t : Nat) : ∀ (rels : List Nat) (g : Depsgraph),
    (∀ r ∈ rels, (g.rel r).to_ = t) → ∀ m, m ≠ t →
      ((transitive_reduction_remove g rels).node m).inlinks = (g.node m).inlinks := by
  intro rels
  induction rels with
  | nil => intro g _ m _; rfl
  | cons r rels ih =>
    intro g hto m hm
    have hto' : ∀ r' ∈ rels, (g.rel r').to_ = t := fun r' h => hto r' (List.mem_cons_of_mem _ h)
    unfold transitive_reduction_remove
    rw [List.foldl_cons]
    by_cases hp : reduction_removes g r = true
    · rw [if_pos hp]
      have h1 := ih (g.delete_relation r)
        (fun r' h => by rw [agree_on_rel (delete_relation_marks g r) r']; exact hto' r' h) m hm
      unfold transitive_reduction_remove at h1
      rw [h1, delete_relation_inlinks, hto r (List.mem_cons_self _ _), if_neg]
      intro hc
      exact hm hc.1.symm
    · rw [if_neg hp]
      have h1 := ih g hto' m hm
      unfold transitive_reduction_remove at h1
      exact h1

theorem reduction_target_other_inlinks (g : Depsgraph) (target : Nat)
    (hops : ∀ n ∈ g.operations, n < g.nodes.length) (hsrc : inlinks_on_operations g)
    (hin : inlinks_valid g) (ht : target ∈ g.operations) (m : Nat) (hm : m ≠ target) :
    ((transitive_reduction_target g target).node m).inlinks = (g.node m).inlinks := by
  obtain ⟨ha3, _⟩ := reduction_tag_spec g target hops hsrc hin ht
  have hto : ∀ r ∈ ((transitive_reduction_tag g target).node target).inlinks,
      ((transitive_reduction_tag g target).rel r).to_ = target := by
    intro r hr
    rw [done_inlinks ha3] at hr
    rw [agree_on_rel ha3 r]
    exact (hin target r hr).1
  have hdef : transitive_reduction_target g target =
      transitive_reduction_remove (transitive_reduction_tag g target)
        ((transitive_reduction_tag g target).node target).inlinks := rfl
  rw [hdef, reduction_remove_other_inlinks target _ _ hto m hm, done_inlinks ha3]

theorem inlink_edge_lt {g : Depsgraph} {a b : Nat} (h : inlink_edge g a b) :
    b < g.nodes.length := by
  obtain ⟨r, hr, _⟩ := h
  exact inlinks_lt g b r hr

theorem transGen_inlink_lt {g : Depsgraph} {a b : Nat}
    (h : Relation.TransGen (inlink_edge g) a b) : b < g.nodes.length := by
  cases h with
  | single h => exact inlink_edge_lt h
  | tail _ h => exact inlink_edge_lt h

theorem inlink_edge_operation {g : Depsgraph} (hsrc : inlinks_on_operations g) {a b : Nat}
    (h : inlink_edge g a b) : b ∈ g.operations := by
  obtain ⟨r, hr, _⟩ := h
  rcases hsrc b with hb | hb
  · exact hb
  · rw [hb] at hr
    cases hr

/-- Induction along the relations of a graph without cycles: a property that
holds for a node as soon as it holds for the targets of all its outbound
relations holds for every node. -/
theorem acyclic_induction (g : Depsgraph)
    (hacyclic : ∀ n, ¬ Relation.TransGen (inlink_edge g) n n) (P : Nat → Prop)
    (h : ∀ y, (∀ z, inlink_edge g y z → P z) → P y) : ∀ y, P y := by
  classical
  have hlt : ∀ y z, inlink_edge g y z →
      ((Finset.range g.nodes.length).filter
          fun w => Relation.TransGen (inlink_edge g) z w).card <
        ((Finset.range g.nodes.length).filter
          fun w => Relation.TransGen (inlink_edge g) y w).card := by
    intro y z hyz
    apply Finset.card_lt_card
    rw [Finset.ssubset_iff_of_subset]
    · refine ⟨z, ?_, ?_⟩
      · rw [Finset.mem_filter, Finset.mem_range]
        exact ⟨inlink_edge_lt hyz, Relation.TransGen.single hyz⟩
      · rw [Finset.mem_filter]
        intro hc
        exact hacyclic z hc.2
    · intro w hw
      rw [Finset.mem_filter] at hw ⊢
      exact ⟨hw.1, Relation.TransGen.head hyz hw.2⟩
  have key : ∀ k y, ((Finset.range g.nodes.length).filter
      fun w => Relation.TransGen (inlink_edge g) y w).card < k → P y := by
    intro k
    induction k with
    | zero => intro y hy; exact absurd hy (Nat.not_lt_zero _)
    | succ k ih =>
      intro y hy
      apply h
      intro z hyz
      exact ih z (Nat.lt_of_lt_of_le (hlt y z hyz) (Nat.le_of_lt_succ hy))
  intro y
  exact key _ y (Nat.lt_succ_self _)

theorem reduction_target_reaches (g : Depsgraph) (target : Nat)
    (hops : ∀ n ∈ g.operations, n < g.nodes.length) (hsrc : inlinks_on_operations g)
    (hin : inlinks_valid g) (hacyclic : ∀ n, ¬ Relation.TransGen (inlink_edge g) n n)
    (ht : target ∈ g.operations) :
    ∀ y, y ∈ g.operations → Relation.TransGen (inlink_edge g) y target →
      Relation.TransGen (inlink_edge (transitive_reduction_target g target)) y target := by
  obtain ⟨ha3, hiff⟩ := reduction_tag_spec g target hops hsrc hin ht
  obtain ⟨_, f2, _, _, _, hmem⟩ := reduction_target_inlinks g target hops hsrc hin ht
  have hrel : ∀ r, (transitive_reduction_target g target).rel r = g.rel r := by
    intro r
    unfold Depsgraph.rel
    rw [f2]
  apply acyclic_induction g hacyclic
  intro y ih hy hyt
  have hN : ∀ N, N ≠ target → inlink_edge g y N → Relation.TransGen (inlink_edge g) N target →
      Relation.TransGen (inlink_edge (transitive_reduction_target g target)) y target := by
    intro N hNt hyN hNT
    have h1 := ih N hyN (inlink_edge_operation hsrc hyN) hNT
    refine Relation.TransGen.head ?_ h1
    obtain ⟨r, hr, hfr⟩ := hyN
    refine ⟨r, ?_, ?_⟩
    · rw [reduction_target_other_inlinks g target hops hsrc hin ht N hNt]
      exact hr
    · rw [hrel]
      exact hfr
  rw [Relation.TransGen.head'_iff] at hyt
  obtain ⟨z, hyz, hzt⟩ := hyt
  rw [Relation.reflTransGen_iff_eq_or_transGen] at hzt
  rcases hzt with hzt | hzt
  · subst hzt
    obtain ⟨r, hr, hfr⟩ := hyz
    by_cases hrm : reduction_removes (transitive_reduction_tag g target) r = true
    · have hreach : op_reachable (transitive_reduction_tag g target) y := by
        unfold reduction_removes at hrm
        rw [agree_on_rel ha3 r, hfr] at hrm
        exact (of_decide_eq_true hrm).2
      obtain ⟨N, hNt, hyN, hNT⟩ := (hiff y hy).1 hreach
      exact hN N hNt hyN hNT
    · refine Relation.TransGen.single ⟨r, ?_, ?_⟩
      · rw [hmem r]
        exact ⟨hr, by simpa using hrm⟩
      · rw [hrel]
        exact hfr
  · refine hN z ?_ hyz hzt
    intro hc
    rw [hc] at hzt
    exact hacyclic target hzt

theorem reduction_target_preserves (g : Depsgraph) (target : Nat)
    (hops : ∀ n ∈ g.operations, n < g.nodes.length) (hsrc : inlinks_on_operations g)
    (hin : inlinks_valid g) (hacyclic : ∀ n, ¬ Relation.TransGen (inlink_edge g) n n)
    (ht : target ∈ g.operations) (a b : Nat) (ha : a ∈ g.operations)
    (hab : Relation.TransGen (inlink_edge g) a b) :
    Relation.TransGen (inlink_edge (transitive_reduction_target g target)) a b := by
  have hreach := reduction_target_reaches g target hops hsrc hin hacyclic ht
  obtain ⟨_, f2, _, _, _, _⟩ := reduction_target_inlinks g target hops hsrc hin ht
  have hrel : ∀ r, (transitive_reduction_target g target).rel r = g.rel r := by
    intro r
    unfold Depsgraph.rel
    rw [f2]
  have hedge : ∀ c d, c ∈ g.operations → inlink_edge g c d →
      Relation.TransGen (inlink_edge (transitive_reduction_target g target)) c d := by
    intro c d hc hcd
    by_cases hd : d = target
    · subst hd
      exact hreach c hc (Relation.TransGen.single hcd)
    · obtain ⟨r, hr, hfr⟩ := hcd
      refine Relation.TransGen.single ⟨r, ?_, ?_⟩
      · rw [reduction_target_other_inlinks g target hops hsrc hin ht d hd]
        exact hr
      · rw [hrel]
        exact hfr
  have hmem : ∀ c, Relation.TransGen (inlink_edge g) a c → c ∈ g.operations := by
    intro c hc
    cases hc with
    | single h => exact inlink_edge_operation hsrc h
    | tail _ h => exact inlink_edge_operation hsrc h
  induction hab with
  | single h => exact hedge a _ ha h
  | tail hac hcb ih => exact Relation.TransGen.trans ih (hedge _ _ (hmem _ hac) hcb)

theorem reduction_fold_preserves : ∀ (pre : List Nat) (g : Depsgraph),
    (∀ n ∈ g.operations, n < g.nodes.length) → inlinks_on_operations g → inlinks_valid g →
    (∀ n, ¬ Relation.TransGen (inlink_edge g) n n) → (∀ t ∈ pre, t ∈ g.operations) →
    ∀ a b, a ∈ g.operations → Relation.TransGen (inlink_edge g) a b →
      Relation.TransGen (inlink_edge (pre.foldl transitive_reduction_target g)) a b := by
  intro pre
  induction pre with
  | nil => intro g _ _ _ _ _ a b _ h; exact h
  | cons t pre ih =>
    intro g hops hsrc hin hacyclic hpre a b ha hab
    have ht : t ∈ g.operations := hpre t (List.mem_cons_self _ _)
    obtain ⟨p1, p2, p3, p4, _, p6⟩ := reduction_prefix_inv [t] g hops hsrc hin
      (fun t' ht' => by rw [List.mem_singleton] at ht'; rw [ht']; exact ht)
    rw [List.foldl_cons]
    exact ih (transitive_reduction_target g t) p1 p2 p3
      (fun n hn => hacyclic n (Relation.TransGen.mono p6 hn))
      (fun t' ht' => by
        have h4 : (transitive_reduction_target g t).operations = g.operations := p4
        rw [h4]
        exact hpre t' (List.mem_cons_of_mem _ ht'))
      a b (by
        have h4 : (transitive_reduction_target g t).operations = g.operations := p4
        rw [h4]
        exact ha)
      (reduction_target_preserves g t hops hsrc hin hacyclic ht a b ha hab)

theorem inlinks_valid_of_consistent (g : Depsgraph) (hl : links_consistent g) :
    inlinks_valid g := by
  intro n r hr
  obtain ⟨_, _, _, h4⟩ := hl n (inlinks_lt g n r hr)
  exact ⟨(h4 r hr).1, (h4 r hr).2.1⟩

/-- C22: on a graph without cycles whose link lists are consistent, whose
operations list holds the operation nodes and in which only operations have
inbound relations, `deg_graph_transitive_reduction` preserves reachability:
for an operation node `a` and every node `b` (an operation node or not), there
is a path of relations from `a` to `b` after the reduction if and only if
there was one before. -/
theorem transitive_reduction_preserves_reachability (g : Depsgraph)
    (hl : links_consistent g) (ho : operations_typed g) (hsrc : inlinks_on_operations g)
    (hacyclic : ∀ n, ¬ Relation.TransGen (inlink_edge g) n n) (a b : Nat)
    (ha : (g.node a).type = DEPSNODE_TYPE_OPERATION) :
    Relation.TransGen (inlink_edge (deg_graph_transitive_reduction g)) a b ↔
      Relation.TransGen (inlink_edge g) a b := by
  have hops : ∀ n ∈ g.operations, n < g.nodes.length := fun n hn => (ho.1 n hn).1
  have hin : inlinks_valid g := inlinks_valid_of_consistent g hl
  unfold deg_graph_transitive_reduction
  constructor
  · intro h
    exact Relation.TransGen.mono
      (reduction_prefix_inv g.operations g hops hsrc hin (fun _ h => h)).2.2.2.2.2 h
  · intro h
    exact reduction_fold_preserves g.operations g hops hsrc hin hacyclic (fun _ h => h) a b
      (ho.2 a (type_operation_lt g a ha) ha) h

/-- Witness for `transitive_reduction_preserves_reachability`: in
`example_shortcut` the operation `2` is reachable from `0` before and after
the reduction, which deletes the shortcut `0 -> 2`. -/
theorem transitive_reduction_preserves_reachability_witness :
    links_consistent example_shortcut ∧ operations_typed example_shortcut ∧
      inlinks_on_operations example_shortcut ∧
      (∀ n, ¬ Relation.TransGen (inlink_edge example_shortcut) n n) ∧
      ((deg_graph_transitive_reduction example_shortcut).node 2).inlinks = [1] ∧
      (Relation.TransGen (inlink_edge (deg_graph_transitive_reduction example_shortcut)) 0 2 ↔
        Relation.TransGen (inlink_edge example_shortcut) 0 2) :=
  ⟨by decide, by decide, example_shortcut_inlinks, example_shortcut_acyclic, by decide,
    transitive_reduction_preserves_reachability example_shortcut (by decide) (by decide)
      example_shortcut_inlinks example_shortcut_acyclic 0 2 (by decide)⟩

theorem reduction_fold_inlinks : ∀ (pre : List Nat) (g : Depsgraph),
    (∀ n ∈ g.operations, n < g.nodes.length) → inlinks_on_operations g → inlinks_valid g →
    (∀ t ∈ pre, t ∈ g.operations) →
    (pre.foldl transitive_reduction_target g).relations = g.relations ∧
      ∀ m, ∀ r ∈ ((pre.foldl transitive_reduction_target g).node m).inlinks,
        r ∈ (g.node m).inlinks := by
  intro pre
  induction pre with
  | nil => intro g _ _ _ _; exact ⟨rfl, fun _ _ h => h⟩
  | cons t pre ih =>
    intro g hops hsrc hin hpre
    have ht : t ∈ g.operations := hpre t (List.mem_cons_self _ _)
    obtain ⟨_, f2, _, _, f5, _⟩ := reduction_target_inlinks g t hops hsrc hin ht
    obtain ⟨p1, p2, p3, p4, _, _⟩ := reduction_prefix_inv [t] g hops hsrc hin
      (fun t' ht' => by rw [List.mem_singleton] at ht'; rw [ht']; exact ht)
    have h4 : (transitive_reduction_target g t).operations = g.operations := p4
    obtain ⟨j1, j2⟩ := ih (transitive_reduction_target g t) p1 p2 p3
      (fun t' ht' => by rw [h4]; exact hpre t' (List.mem_cons_of_mem _ ht'))
    rw [List.foldl_cons]
    exact ⟨j1.trans f2, fun m r hr => f5 m r (j2 m r hr)⟩

/-- C23: on a graph without cycles whose link lists are consistent, whose
operations list holds the operation nodes and in which only operations have
inbound relations, no redundant relation between operations is left after
`deg_graph_transitive_reduction`: when `r` is still an inbound relation of `T`
and its source `X` is an operation node, `X` does not reach `T` through a path
of two or more remaining relations (a relation `X -> m` followed by a path from
`m` to `T`). -/
theorem transitive_reduction_leaves_no_redundant (g : Depsgraph)
    (hl : links_consistent g) (ho : operations_typed g) (hsrc : inlinks_on_operations g)
    (hacyclic : ∀ n, ¬ Relation.TransGen (inlink_edge g) n n) (T r : Nat)
    (hr : r ∈ ((deg_graph_transitive_reduction g).node T).inlinks)
    (hX : ((deg_graph_transitive_reduction g).node
      ((deg_graph_transitive_reduction g).rel r).from_).type = DEPSNODE_TYPE_OPERATION) :
    ¬ ∃ m, inlink_edge (deg_graph_transitive_reduction g)
          ((deg_graph_transitive_reduction g).rel r).from_ m ∧
        Relation.TransGen (inlink_edge (deg_graph_transitive_reduction g)) m T := by
  have hops : ∀ n ∈ g.operations, n < g.nodes.length := fun n hn => (ho.1 n hn).1
  have hin : inlinks_valid g := inlinks_valid_of_consistent g hl
  obtain ⟨_, q2, _, _, q5, _⟩ := reduction_prefix_inv g.operations g hops hsrc hin (fun _ h => h)
  obtain ⟨qrel, qin⟩ := reduction_fold_inlinks g.operations g hops hsrc hin (fun _ h => h)
  have hT : T ∈ g.operations := by
    rcases hsrc T with h | h
    · exact h
    · have := qin T r hr
      rw [h] at this
      cases this
  obtain ⟨pre, post, hsplit⟩ := List.append_of_mem hT
  have hpre : ∀ t ∈ pre, t ∈ g.operations := by
    intro t ht
    rw [hsplit]
    exact List.mem_append_left _ ht
  obtain ⟨p1, p2, p3, p4, p5, p6⟩ := reduction_prefix_inv pre g hops hsrc hin hpre
  obtain ⟨prel, _⟩ := reduction_fold_inlinks pre g hops hsrc hin hpre
  have hTp : T ∈ (pre.foldl transitive_reduction_target g).operations := by
    rw [p4]
    exact hT
  obtain ⟨s1, s2, s3, s4, s5, s6⟩ := reduction_prefix_inv [T]
    (pre.foldl transitive_reduction_target g) p1 p2 p3
    (fun t' ht' => by rw [List.mem_singleton] at ht'; rw [ht']; exact hTp)
  have s4' : (transitive_reduction_target (pre.foldl transitive_reduction_target g) T).operations
      = (pre.foldl transitive_reduction_target g).operations := s4
  have hpost : ∀ t ∈ post,
      t ∈ (transitive_reduction_target (pre.foldl transitive_reduction_target g) T).operations := by
    intro t ht
    rw [s4', p4, hsplit]
    exact List.mem_append_right _ (List.mem_cons_of_mem _ ht)
  obtain ⟨t1, t2, t3, t4, t5, t6⟩ := reduction_prefix_inv post
    (transitive_reduction_target (pre.foldl transitive_reduction_target g) T) s1 s2 s3 hpost
  obtain ⟨trel, tin⟩ := reduction_fold_inlinks post
    (transitive_reduction_target (pre.foldl transitive_reduction_target g) T) s1 s2 s3 hpost
  have hfinal : deg_graph_transitive_reduction g =
      post.foldl transitive_reduction_target
        (transitive_reduction_target (pre.foldl transitive_reduction_target g) T) := by
    unfold deg_graph_transitive_reduction
    rw [hsplit, List.foldl_append, List.foldl_cons]
  obtain ⟨_, f2, _, _, f5, _⟩ := reduction_target_inlinks
    (pre.foldl transitive_reduction_target g) T p1 p2 p3 hTp
  have hrelp : ∀ q, (deg_graph_transitive_reduction g).rel q =
      (pre.foldl transitive_reduction_target g).rel q := by
    intro q
    unfold Depsgraph.rel
    rw [hfinal, trel, f2]
  rw [hrelp] at hX ⊢
  have hrt : r ∈ ((transitive_reduction_target (pre.foldl transitive_reduction_target g) T).node
      T).inlinks := by
    rw [hfinal] at hr
    exact tin T r hr
  have hrp : r ∈ ((pre.foldl transitive_reduction_target g).node T).inlinks := f5 T r hrt
  have hXty : ((pre.foldl transitive_reduction_target g).node
      ((pre.foldl transitive_reduction_target g).rel r).from_).type = DEPSNODE_TYPE_OPERATION := by
    rw [hfinal, t5] at hX
    have s5' := s5 ((pre.foldl transitive_reduction_target g).rel r).from_
    rw [List.foldl_cons, List.foldl_nil] at s5'
    rw [s5'] at hX
    exact hX
  have hXo : ((pre.foldl transitive_reduction_target g).rel r).from_ ∈
      (pre.foldl transitive_reduction_target g).operations := by
    rw [p5] at hXty
    rw [p4]
    exact ho.2 _ (type_operation_lt g _ hXty) hXty
  have hspec := reduction_target_spec (pre.foldl transitive_reduction_target g) T p1 p2 p3 hTp r
    hrp hXo (by rw [hXty]; decide)
  rintro ⟨m, hXm, hmT⟩
  have hsub : ∀ a b, inlink_edge (deg_graph_transitive_reduction g) a b →
      inlink_edge (pre.foldl transitive_reduction_target g) a b := by
    intro a b hab
    rw [hfinal] at hab
    have h1 := s6 a b (t6 a b hab)
    exact h1
  have hmT' := Relation.TransGen.mono hsub hmT
  apply hspec.2 ⟨m, ?_, hsub _ _ hXm, hmT'⟩ hrt
  intro hc
  rw [hc] at hmT'
  exact hacyclic T (Relation.TransGen.mono p6 hmT')

/-- Witness for `transitive_reduction_leaves_no_redundant`: after the reduction
of `example_shortcut` the relation `1 -> 2` (relation `1`) is the only inbound
relation of `2`, and `1` does not reach `2` in another way. -/
theorem transitive_reduction_leaves_no_redundant_witness :
    links_consistent example_shortcut ∧ operations_typed example_shortcut ∧
      inlinks_on_operations example_shortcut ∧
      (∀ n, ¬ Relation.TransGen (inlink_edge example_shortcut) n n) ∧
      1 ∈ ((deg_graph_transitive_reduction example_shortcut).node 2).inlinks ∧
      ((deg_graph_transitive_reduction example_shortcut).node
        ((deg_graph_transitive_reduction example_shortcut).rel 1).from_).type =
          DEPSNODE_TYPE_OPERATION ∧
      ¬ ∃ m, inlink_edge (deg_graph_transitive_reduction example_shortcut)
            ((deg_graph_transitive_reduction example_shortcut).rel 1).from_ m ∧
          Relation.TransGen (inlink_edge (deg_graph_transitive_reduction example_shortcut)) m 2 :=
  ⟨by decide, by decide, example_shortcut_inlinks, example_shortcut_acyclic, by decide, by decide,
    transitive_reduction_leaves_no_redundant example_shortcut (by decide) (by decide)
      example_shortcut_inlinks example_shortcut_acyclic 2 1 (by decide) (by decide)⟩

/-! ### Cycle detection: the traversal -/

theorem node_of_nodes_eq {g g' : Depsgraph} (h : g'.nodes = g.nodes) (m : Nat) :
    g'.node m = g.node m := by
  unfold Depsgraph.node
  rw [h]

theorem detect_cycles_run_empty (g : Depsgraph) : (detect_cycles_run g).2 = [] := by
  unfold detect_cycles_run
  apply detect_cycles_loop_terminates
  obtain ⟨i1, _, i3⟩ := detect_cycles_init_frame g.operations g []
  have h1 : not_visited_count (detect_cycles_init g.operations g []).1 ≤ g.nodes.length := by
    rw [← cycles_frame_nodes_length i1]
    exact List.countP_le_length _
  unfold detect_cycles_fuel
  simp only [List.length_nil] at i3
  omega

theorem detect_cycles_init_spec : ∀ (l : List Nat) (g : Depsgraph) (stack : List StackEntry),
    (∀ n, n ∉ l → ((detect_cycles_init l g stack).1.node n).done = (g.node n).done) ∧
      (∀ n ∈ l, n < g.nodes.length → ((detect_cycles_init l g stack).1.node n).done =
        if has_operation_inlinks g n = false then NODE_IN_STACK else NODE_NOT_VISITED) ∧
      (∀ e ∈ (detect_cycles_init l g stack).2,
        e ∈ stack ∨ (e.node ∈ l ∧ has_operation_inlinks g e.node = false)) ∧
      (∀ e ∈ stack, e ∈ (detect_cycles_init l g stack).2) ∧
      ∀ n ∈ l, has_operation_inlinks g n = false →
        ∃ e ∈ (detect_cycles_init l g stack).2, e.node = n := by
  intro l
  induction l with
  | nil =>
    intro g stack
    refine ⟨fun _ _ => rfl, ?_, fun e he => Or.inl he, fun e he => he, ?_⟩
    · intro n hn
      cases hn
    · intro n hn
      cases hn
  | cons node rest ih =>
    intro g stack
    rw [detect_cycles_init]
    by_cases hroot : has_operation_inlinks g node = false
    · rw [if_pos hroot]
      have hfr : cycles_frame g (g.modifyNode node fun n => { n with done := NODE_IN_STACK }) :=
        cycles_frame_modifyNode g node _ (fun _ => rfl)
      have hlen := cycles_frame_nodes_length hfr
      have hnode := node_modifyNode g node (fun n => { n with done := NODE_IN_STACK })
      obtain ⟨i1, i2, i3, i4, i5⟩ := ih
        (g.modifyNode node fun n => { n with done := NODE_IN_STACK })
        ({ node := node, from_ := none, via_relation := none } :: stack)
      generalize (g.modifyNode node fun n => { n with done := NODE_IN_STACK }) = g1
        at hfr hlen hnode i1 i2 i3 i4 i5 ⊢
      refine ⟨?_, ?_, ?_, ?_, ?_⟩
      · intro n hn
        rw [i1 n (fun h => hn (List.mem_cons_of_mem _ h)), hnode, if_neg]
        intro hc
        exact hn (by rw [hc.1]; exact List.mem_cons_self _ _)
      · intro n hn hlt
        by_cases hr : n ∈ rest
        · rw [i2 n hr (by omega), has_operation_inlinks_frame hfr]
        · have hnn : n = node := by
            rcases List.mem_cons.1 hn with h | h
            · exact h
            · exact absurd h hr
          subst hnn
          rw [i1 n hr, hnode, if_pos ⟨rfl, hlt⟩, if_pos hroot]
      · intro e he
        rcases i3 e he with h | h
        · rcases List.mem_cons.1 h with h1 | h1
          · right
            rw [h1]
            exact ⟨List.mem_cons_self _ _, hroot⟩
          · exact Or.inl h1
        · right
          rw [has_operation_inlinks_frame hfr] at h
          exact ⟨List.mem_cons_of_mem _ h.1, h.2⟩
      · intro e he
        exact i4 e (List.mem_cons_of_mem _ he)
      · intro n hn hr
        rcases List.mem_cons.1 hn with h | h
        · exact ⟨_, i4 _ (List.mem_cons_self _ _), h.symm⟩
        · exact i5 n h (by rw [has_operation_inlinks_frame hfr]; exact hr)
    · rw [if_neg hroot]
      have hfr : cycles_frame g
          (g.modifyNode node fun n => { n with done := NODE_NOT_VISITED }) :=
        cycles_frame_modifyNode g node _ (fun _ => rfl)
      have hlen := cycles_frame_nodes_length hfr
      have hnode := node_modifyNode g node (fun n => { n with done := NODE_NOT_VISITED })
      obtain ⟨i1, i2, i3, i4, i5⟩ := ih
        (g.modifyNode node fun n => { n with done := NODE_NOT_VISITED }) stack
      generalize (g.modifyNode node fun n => { n with done := NODE_NOT_VISITED }) = g1
        at hfr hlen hnode i1 i2 i3 i4 i5 ⊢
      refine ⟨?_, ?_, ?_, i4, ?_⟩
      · intro n hn
        rw [i1 n (fun h => hn (List.mem_cons_of_mem _ h)), hnode, if_neg]
        intro hc
        exact hn (by rw [hc.1]; exact List.mem_cons_self _ _)
      · intro n hn hlt
        by_cases hr : n ∈ rest
        · rw [i2 n hr (by omega), has_operation_inlinks_frame hfr]
        · have hnn : n = node := by
            rcases List.mem_cons.1 hn with h | h
            · exact h
            · exact absurd h hr
          subst hnn
          rw [i1 n hr, hnode, if_pos ⟨rfl, hlt⟩, if_neg hroot]
      · intro e he
        rcases i3 e he with h | h
        · exact Or.inl h
        · right
          rw [has_operation_inlinks_frame hfr] at h
          exact ⟨List.mem_cons_of_mem _ h.1, h.2⟩
      · intro n hn hr
        rcases List.mem_cons.1 hn with h | h
        · rw [h] at hr
          exact absurd hr hroot
        · exact i5 n h (by rw [has_operation_inlinks_frame hfr]; exact hr)

theorem stack_link_roots (g0 : Depsgraph) : ∀ (l : List StackEntry),
    (∀ e ∈ l, has_operation_inlinks g0 e.node = false) → List.Chain' (stack_link g0) l := by
  intro l
  induction l with
  | nil => intro _; exact List.chain'_nil
  | cons a l ih =>
    intro h
    cases l with
    | nil => exact List.chain'_singleton a
    | cons b l =>
      rw [List.chain'_cons]
      refine ⟨⟨fun _ => h b (by simp), fun hc => ?_⟩, ih (fun e he => h e (List.mem_cons_of_mem _ he))⟩
      rw [h a (List.mem_cons_self _ _)] at hc
      cases hc

theorem chain_all_roots (g0 : Depsgraph) : ∀ (l : List StackEntry) (b : StackEntry),
    List.Chain' (stack_link g0) (b :: l) → has_operation_inlinks g0 b.node = false →
    ∀ x ∈ b :: l, has_operation_inlinks g0 x.node = false := by
  intro l
  induction l with
  | nil =>
    intro b _ hb x hx
    rw [List.mem_singleton] at hx
    rw [hx]
    exact hb
  | cons c l ih =>
    intro b hch hb x hx
    rw [List.chain'_cons] at hch
    rcases List.mem_cons.1 hx with h | h
    · rw [h]
      exact hb
    · exact ih c hch.2 (hch.1.1 hb) x h

theorem chain_reaches_top (g0 : Depsgraph) : ∀ (l : List StackEntry) (u : StackEntry),
    List.Chain' (stack_link g0) (u :: l) →
    ∀ x ∈ u :: l, has_operation_inlinks g0 x.node = true →
      Relation.ReflTransGen (op_edge g0) x.node u.node := by
  intro l
  induction l with
  | nil =>
    intro u _ x hx _
    rw [List.mem_singleton] at hx
    rw [hx]
  | cons b l ih =>
    intro u hch x hx hnr
    rw [List.chain'_cons] at hch
    rcases List.mem_cons.1 hx with h | h
    · rw [h]
    · have h1 := ih b hch.2 x h hnr
      have hu : has_operation_inlinks g0 u.node = true := by
        by_contra hc
        have hc2 : has_operation_inlinks g0 u.node = false := by simpa using hc
        have := chain_all_roots g0 (b :: l) u (List.chain'_cons.2 hch) hc2 x hx
        rw [this] at hnr
        cases hnr
      exact Relation.ReflTransGen.tail h1 (hch.1.2 hu)

theorem finish_order_spec (u : Nat) (order : List Nat) :
    ∃ order' : List Nat, u ∈ order' ∧ (∀ n ∈ order, n ∈ order') ∧
      (∀ n ∈ order', n = u ∨ n ∈ order) ∧
      (∀ x y, x ∈ order → y ∈ order → order.indexOf x < order.indexOf y →
        order'.indexOf x < order'.indexOf y) ∧
      (u ∉ order → ∀ y ∈ order, order'.indexOf u < order'.indexOf y) := by
  by_cases hu : u ∈ order
  · exact ⟨order, hu, fun _ h => h, fun _ h => Or.inr h, fun _ _ _ _ h => h,
      fun h => absurd hu h⟩
  · refine ⟨u :: order, List.mem_cons_self _ _, fun _ h => List.mem_cons_of_mem _ h,
      fun _ h => List.mem_cons.1 h, ?_, ?_⟩
    · intro x y hx hy hxy
      have hxu : u ≠ x := fun h => hu (by rw [h]; exact hx)
      have hyu : u ≠ y := fun h => hu (by rw [h]; exact hy)
      rw [List.indexOf_cons_ne _ hxu, List.indexOf_cons_ne _ hyu]
      exact Nat.succ_lt_succ hxy
    · intro _ y hy
      have hyu : u ≠ y := fun h => hu (by rw [h]; exact hy)
      rw [List.indexOf_cons_self, List.indexOf_cons_ne _ hyu]
      exact Nat.succ_pos _

theorem cycles_flag_step {g0 g g1 : Depsgraph} {entry : StackEntry} {rest : List StackEntry}
    {order : List Nat} (ho : operations_typed g0) (inv : CyclesInv g0 g (entry :: rest) order)
    (s2 : ∀ q, (g1.rel q).flag ≠ (g.rel q).flag →
      q ∈ (g.node entry.node).outlinks ∧
        (g.node (g.rel q).to_).type = DEPSNODE_TYPE_OPERATION ∧
        (g.node (g.rel q).to_).done = NODE_IN_STACK)
    (hl : links_consistent g0) (r : Nat) (hr : (g1.rel r).flag ≠ (g0.rel r).flag) :
    r ∈ (g0.node (g0.rel r).from_).outlinks ∧ op_edge g0 (g0.rel r).from_ (g0.rel r).to_ ∧
      Relation.ReflTransGen (op_edge g0) (g0.rel r).to_ (g0.rel r).from_ := by
  by_cases h : (g1.rel r).flag = (g.rel r).flag
  · rw [h] at hr
    exact inv.flagged hl r hr
  · obtain ⟨a, b, c⟩ := s2 r h
    rw [cycles_frame_outlinks inv.frame] at a
    rw [cycles_frame_to inv.frame, cycles_frame_type inv.frame] at b
    rw [cycles_frame_to inv.frame] at c
    have hu := (inv.stack_ops entry (List.mem_cons_self _ _)).1
    obtain ⟨hult, hutype⟩ := ho.1 _ hu
    obtain ⟨_, _, h3, _⟩ := hl _ hult
    obtain ⟨k1, _, k3⟩ := h3 r a
    have hroot : has_operation_inlinks g0 (g0.rel r).to_ = true := by
      unfold has_operation_inlinks
      rw [List.any_eq_true]
      refine ⟨r, k3, ?_⟩
      rw [k1]
      exact decide_eq_true hutype
    obtain ⟨e, he, hew⟩ := inv.in_stack _ b c
    have hreach := chain_reaches_top g0 rest entry inv.chain e he (by rw [hew]; exact hroot)
    rw [hew] at hreach
    rw [k1]
    exact ⟨a, ⟨hutype, b, r, a, rfl⟩, hreach⟩

theorem detect_cycles_push_inv {g0 g g' : Depsgraph} {entry : StackEntry}
    {rest : List StackEntry} {order : List Nat} (ho : operations_typed g0)
    (inv : CyclesInv g0 g (entry :: rest) order) (v r : Nat)
    (heq : detect_cycles_scan (g.node entry.node).outlinks g = (g', some (v, r))) :
    CyclesInv g0 g'
      ({ node := v, from_ := some rest.length, via_relation := some r } :: entry :: rest)
      order := by
  obtain ⟨s1, s2, _, s4⟩ := detect_cycles_scan_spec (g.node entry.node).outlinks g
  rw [heq] at s1 s2 s4
  obtain ⟨a, b, c, d, e⟩ := s4 v r rfl
  have hvlt : v < g.nodes.length := type_operation_lt g v d
  have hnode : ∀ m, (g'.node m).done =
      if v = m ∧ m < g.nodes.length then NODE_IN_STACK else (g.node m).done := by
    intro m
    have h1 : g'.node m = (g.modifyNode v fun n => { n with done := NODE_IN_STACK }).node m :=
      node_of_nodes_eq a m
    rw [h1, node_modifyNode]
    split <;> rfl
  have hmono : ∀ m, (g.node m).done ≠ NODE_NOT_VISITED →
      (g'.node m).done ≠ NODE_NOT_VISITED := by
    intro m hm
    rw [hnode]
    split
    · decide
    · exact hm
  have hu := inv.stack_ops entry (List.mem_cons_self _ _)
  have hutype := (ho.1 _ hu.1).2
  have hrels : (g.node entry.node).outlinks = (g0.node entry.node).outlinks :=
    cycles_frame_outlinks inv.frame _
  have hvtype : (g0.node v).type = DEPSNODE_TYPE_OPERATION := by
    rw [← cycles_frame_type inv.frame]
    exact d
  have hto : (g0.rel r).to_ = v := by
    rw [← cycles_frame_to inv.frame]
    exact c
  have hvop : v ∈ g0.operations := ho.2 v (type_operation_lt g0 v hvtype) hvtype
  have hvroot : has_operation_inlinks g0 v = true := by
    by_contra hc
    exact inv.roots_seen v hvop (by simpa using hc) e
  refine ⟨cycles_frame_trans inv.frame s1, ?_, ?_, ?_, ?_, ?_, ?_, ?_, ?_⟩
  · intro x hx
    rcases List.mem_cons.1 hx with h | h
    · rw [h]
      refine ⟨hvop, ?_⟩
      show (g'.node v).done ≠ NODE_NOT_VISITED
      rw [hnode, if_pos ⟨rfl, hvlt⟩]
      decide
    · obtain ⟨p, q⟩ := inv.stack_ops x h
      exact ⟨p, hmono _ q⟩
  · intro n hn hd
    rw [hnode] at hd
    by_cases hc : v = n ∧ n < g.nodes.length
    · exact ⟨_, List.mem_cons_self _ _, hc.1⟩
    · rw [if_neg hc] at hd
      obtain ⟨x, hx, hxn⟩ := inv.in_stack n hn hd
      exact ⟨x, List.mem_cons_of_mem _ hx, hxn⟩
  · refine List.chain'_cons.2 ⟨⟨?_, ?_⟩, inv.chain⟩
    · intro h
      exact Bool.noConfusion (hvroot.symm.trans h)
    · intro _
      exact ⟨hutype, hvtype, r, by rw [← hrels]; exact b, hto⟩
  · intro hl q hq
    exact cycles_flag_step ho inv s2 hl q hq
  · intro n hn
    obtain ⟨p, q, t⟩ := inv.order_done n hn
    refine ⟨p, hmono n q, ?_⟩
    rw [hnode, if_neg]
    · exact t
    · intro hc
      rw [← hc.1] at q
      exact q e
  · intro n hn h1 h2
    have hc : ¬ (v = n ∧ n < g.nodes.length) := by
      intro hc
      rw [hnode, if_pos hc] at h2
      exact h2 rfl
    rw [hnode, if_neg hc] at h1 h2
    exact inv.done_order n hn h1 h2
  · intro u' hu' r' hr' hlt hty
    obtain ⟨p, q⟩ := inv.order_edges u' hu' r' hr' hlt hty
    refine ⟨hmono _ p, fun hf => q ?_⟩
    by_contra hne
    exact cycles_frame_flag_mono s1 r' hne hf
  · intro n hn hr
    exact hmono n (inv.roots_seen n hn hr)

theorem detect_cycles_pop_inv {g0 g g' : Depsgraph} {entry : StackEntry}
    {rest : List StackEntry} {order : List Nat} (ho : operations_typed g0)
    (inv : CyclesInv g0 g (entry :: rest) order)
    (heq : detect_cycles_scan (g.node entry.node).outlinks g = (g', none)) :
    ∃ order', CyclesInv g0
      (g'.modifyNode entry.node fun n => { n with done := NODE_VISITED }) rest order' := by
  obtain ⟨s1, s2, s3, _⟩ := detect_cycles_scan_spec (g.node entry.node).outlinks g
  rw [heq] at s1 s2 s3
  obtain ⟨a, b⟩ := s3 rfl
  have hu := inv.stack_ops entry (List.mem_cons_self _ _)
  obtain ⟨hult0, hutype⟩ := ho.1 _ hu.1
  have hlen : g.nodes.length = g0.nodes.length := cycles_frame_nodes_length inv.frame
  have hult : entry.node < g.nodes.length := by omega
  have hnode : ∀ m,
      ((g'.modifyNode entry.node fun n => { n with done := NODE_VISITED }).node m).done =
        if entry.node = m ∧ m < g.nodes.length then NODE_VISITED else (g.node m).done := by
    intro m
    rw [node_modifyNode, a, node_of_nodes_eq a]
    split <;> rfl
  have hmono : ∀ m, (g.node m).done ≠ NODE_NOT_VISITED →
      ((g'.modifyNode entry.node fun n => { n with done := NODE_VISITED }).node m).done ≠
        NODE_NOT_VISITED := by
    intro m hm
    rw [hnode]
    split
    · decide
    · exact hm
  have hfr2 : cycles_frame g
      (g'.modifyNode entry.node fun n => { n with done := NODE_VISITED }) := by
    refine cycles_frame_trans s1 ?_
    exact cycles_frame_modifyNode g' entry.node _ (fun _ => rfl)
  have hrel : ∀ q, (g'.modifyNode entry.node fun n => { n with done := NODE_VISITED }).rel q =
      g'.rel q := fun _ => rfl
  have hrels : (g.node entry.node).outlinks = (g0.node entry.node).outlinks :=
    cycles_frame_outlinks inv.frame _
  generalize (g'.modifyNode entry.node fun n => { n with done := NODE_VISITED }) = g2
    at hnode hmono hfr2 hrel ⊢
  obtain ⟨order', o1, o2, o3, o4, o5⟩ := finish_order_spec entry.node order
  refine ⟨order', cycles_frame_trans inv.frame hfr2, ?_, ?_, ?_, ?_, ?_, ?_, ?_, ?_⟩
  · intro x hx
    obtain ⟨p, q⟩ := inv.stack_ops x (List.mem_cons_of_mem _ hx)
    exact ⟨p, hmono _ q⟩
  · intro n hn hd
    rw [hnode] at hd
    have hc : ¬ (entry.node = n ∧ n < g.nodes.length) := by
      intro hc
      rw [if_pos hc] at hd
      exact absurd hd (by decide)
    rw [if_neg hc] at hd
    obtain ⟨x, hx, hxn⟩ := inv.in_stack n hn hd
    rcases List.mem_cons.1 hx with h | h
    · exfalso
      apply hc
      rw [h] at hxn
      exact ⟨hxn, by rw [← hxn]; exact hult⟩
    · exact ⟨x, h, hxn⟩
  · exact inv.chain.tail
  · intro hl q hq
    rw [hrel] at hq
    exact cycles_flag_step ho inv s2 hl q hq
  · intro n hn
    rcases o3 n hn with h | h
    · rw [h]
      refine ⟨hutype, ?_, ?_⟩
      · rw [hnode, if_pos ⟨rfl, hult⟩]
        decide
      · rw [hnode, if_pos ⟨rfl, hult⟩]
        decide
    · obtain ⟨p, q, t⟩ := inv.order_done n h
      refine ⟨p, hmono n q, ?_⟩
      rw [hnode]
      split
      · decide
      · exact t
  · intro n hn h1 h2
    by_cases hc : entry.node = n
    · rw [← hc]
      exact o1
    · rw [hnode, if_neg (fun h => hc h.1)] at h1 h2
      exact o2 n (inv.done_order n hn h1 h2)
  · intro u' hu' r' hr' hlt hty
    by_cases hold : u' ∈ order
    · obtain ⟨p, q⟩ := inv.order_edges u' hold r' hr' hlt hty
      refine ⟨hmono _ p, fun hf => ?_⟩
      have hf0 : (g.rel r').flag &&& DEPSREL_FLAG_CYCLIC = 0 := by
        by_contra hne
        exact cycles_frame_flag_mono hfr2 r' hne hf
      obtain ⟨q1, q2⟩ := q hf0
      exact ⟨o2 _ q1, o4 _ _ hold q1 q2⟩
    · have hu'eq : u' = entry.node := (o3 u' hu').resolve_right hold
      rw [hu'eq] at hr' hold ⊢
      have hb := b r' (by rw [hrels]; exact hr')
        (by rw [cycles_frame_relations_length inv.frame]; exact hlt)
        (by rw [cycles_frame_to inv.frame, cycles_frame_type inv.frame]; exact hty)
      rw [cycles_frame_to inv.frame] at hb
      rcases hb with ⟨c1, c2⟩ | ⟨c1, c2⟩
      · refine ⟨hmono _ (by rw [c1]; decide), fun hf => ?_⟩
        rw [hrel] at hf
        exact absurd hf c2
      · have hw : (g0.rel r').to_ ∈ order := inv.done_order _ hty c2 c1
        exact ⟨hmono _ c2, fun _ => ⟨o2 _ hw, o5 hold _ hw⟩⟩
  · intro n hn hr
    exact hmono n (inv.roots_seen n hn hr)

theorem detect_cycles_loop_inv (g0 : Depsgraph) (ho : operations_typed g0) :
    ∀ (fuel : Nat) (g : Depsgraph) (stack : List StackEntry) (order : List Nat),
      CyclesInv g0 g stack order →
      ∃ order', CyclesInv g0 (detect_cycles_loop fuel g stack).1
        (detect_cycles_loop fuel g stack).2 order' := by
  intro fuel
  induction fuel with
  | zero => intro g stack order inv; exact ⟨order, inv⟩
  | succ fuel ih =>
    intro g stack order inv
    cases stack with
    | nil => exact ⟨order, inv⟩
    | cons entry rest =>
      rw [detect_cycles_loop]
      split
      · rename_i g' to_ rel heq
        exact ih _ _ order (detect_cycles_push_inv ho inv to_ rel heq)
      · rename_i g' heq
        obtain ⟨order', inv'⟩ := detect_cycles_pop_inv ho inv heq
        exact ih _ _ order' inv'

theorem detect_cycles_init_inv (g : Depsgraph) (ho : operations_typed g) :
    CyclesInv g (detect_cycles_init g.operations g []).1
      (detect_cycles_init g.operations g []).2 [] := by
  obtain ⟨f1, f2, _⟩ := detect_cycles_init_frame g.operations g []
  obtain ⟨_, i2, i3, _, i5⟩ := detect_cycles_init_spec g.operations g []
  have hdone : ∀ n, (g.node n).type = DEPSNODE_TYPE_OPERATION →
      ((detect_cycles_init g.operations g []).1.node n).done =
        if has_operation_inlinks g n = false then NODE_IN_STACK else NODE_NOT_VISITED := by
    intro n hn
    have hlt := type_operation_lt g n hn
    exact i2 n (ho.2 n hlt hn) hlt
  have hroots : ∀ e ∈ (detect_cycles_init g.operations g []).2,
      e.node ∈ g.operations ∧ has_operation_inlinks g e.node = false := by
    intro e he
    rcases i3 e he with h | h
    · cases h
    · exact h
  refine ⟨f1, ?_, ?_, ?_, ?_, ?_, ?_, ?_, ?_⟩
  · intro e he
    obtain ⟨p, q⟩ := hroots e he
    refine ⟨p, ?_⟩
    rw [hdone _ (ho.1 _ p).2, if_pos q]
    decide
  · intro n hn hd
    rw [hdone n hn] at hd
    by_cases hr : has_operation_inlinks g n = false
    · exact i5 n (ho.2 n (type_operation_lt g n hn) hn) hr
    · rw [if_neg hr] at hd
      exact absurd hd (by decide)
  · exact stack_link_roots g _ (fun e he => (hroots e he).2)
  · intro _ r hr
    exfalso
    apply hr
    unfold Depsgraph.rel
    rw [f2]
  · intro n hn
    cases hn
  · intro n hn h1 h2
    rw [hdone n hn] at h1 h2
    by_cases hr : has_operation_inlinks g n = false
    · rw [if_pos hr] at h2
      exact absurd rfl h2
    · rw [if_neg hr] at h1
      exact absurd rfl h1
  · intro u hu
    cases hu
  · intro n hn hr
    rw [hdone n (ho.1 n hn).2, if_pos hr]
    decide

theorem detect_cycles_run_inv (g : Depsgraph) (ho : operations_typed g) :
    ∃ order, CyclesInv g (deg_graph_detect_cycles g) [] order := by
  obtain ⟨order, inv⟩ := detect_cycles_loop_inv g ho (detect_cycles_fuel g) _ _ []
    (detect_cycles_init_inv g ho)
  have hrun : detect_cycles_loop (detect_cycles_fuel g) (detect_cycles_init g.operations g []).1
      (detect_cycles_init g.operations g []).2 = detect_cycles_run g := rfl
  rw [hrun, detect_cycles_run_empty] at inv
  exact ⟨order, inv⟩

theorem example_rooted_cycle_exit_reach (n : Nat)
    (hn : (example_rooted_cycle_exit.node n).type = DEPSNODE_TYPE_OPERATION) :
    ∃ root, (example_rooted_cycle_exit.node root).type = DEPSNODE_TYPE_OPERATION ∧
      has_operation_inlinks example_rooted_cycle_exit root = false ∧
      Relation.ReflTransGen (op_edge example_rooted_cycle_exit) root n := by
  have h01 : op_edge example_rooted_cycle_exit 0 1 := by decide
  have h12 : op_edge example_rooted_cycle_exit 1 2 := by decide
  have h13 : op_edge example_rooted_cycle_exit 1 3 := by decide
  refine ⟨0, by decide, by decide, ?_⟩
  match n with
  | 0 => exact Relation.ReflTransGen.refl
  | 1 => exact Relation.ReflTransGen.single h01
  | 2 => exact Relation.ReflTransGen.tail (Relation.ReflTransGen.single h01) h12
  | 3 => exact Relation.ReflTransGen.tail (Relation.ReflTransGen.single h01) h13
  | n + 4 =>
    have h : (default : DepsNode).type = DEPSNODE_TYPE_OPERATION := hn
    cases h

theorem example_chain2_op_edge (a b : Nat) (h : op_edge example_chain2 a b) : a < b := by
  obtain ⟨_, _, r, hr, hto⟩ := h
  match a with
  | 0 =>
    have h1 : r = 0 := by simpa [example_chain2, Depsgraph.node, example_op] using hr
    subst h1
    rw [← hto]
    decide
  | 1 => cases hr
  | a + 2 => cases hr

theorem example_chain2_op_acyclic (n : Nat) :
    ¬ Relation.TransGen (op_edge example_chain2) n n := by
  have h : ∀ a b, Relation.TransGen (op_edge example_chain2) a b → a < b := by
    intro a b hab
    induction hab with
    | single h => exact example_chain2_op_edge _ _ h
    | tail _ h ih => exact Nat.lt_trans ih (example_chain2_op_edge _ _ h)
  intro hn
  exact Nat.lt_irrefl n (h n n hn)

/-- C27: when the operations list holds the operation nodes, the relations in
the outlinks lists are relations of the graph, and every operation node is
reachable, along operation relations, from an operation node without inbound
operation relation, then after `deg_graph_detect_cycles` the operation
relations with `CYCLIC` unset contain no directed cycle. -/
theorem detect_cycles_acyclic_when_rooted (g : Depsgraph) (ho : operations_typed g)
    (hs : outlinks_in_store g)
    (hreach : ∀ n, (g.node n).type = DEPSNODE_TYPE_OPERATION →
      ∃ root, (g.node root).type = DEPSNODE_TYPE_OPERATION ∧
        has_operation_inlinks g root = false ∧ Relation.ReflTransGen (op_edge g) root n) :
    ∀ n, ¬ Relation.TransGen (noncyclic_op_edge (deg_graph_detect_cycles g)) n n := by
  obtain ⟨order, inv⟩ := detect_cycles_run_inv g ho
  have hfin : ∀ n, (g.node n).type = DEPSNODE_TYPE_OPERATION →
      ((deg_graph_detect_cycles g).node n).done ≠ NODE_NOT_VISITED → n ∈ order := by
    intro n hn h
    refine inv.done_order n hn h ?_
    intro hc
    obtain ⟨e, he, _⟩ := inv.in_stack n hn hc
    cases he
  have hseen : ∀ root n, (g.node root).type = DEPSNODE_TYPE_OPERATION →
      has_operation_inlinks g root = false → Relation.ReflTransGen (op_edge g) root n →
      ((deg_graph_detect_cycles g).node n).done ≠ NODE_NOT_VISITED := by
    intro root n h1 h2 h3
    induction h3 with
    | refl => exact inv.roots_seen root (ho.2 root (type_operation_lt g root h1) h1) h2
    | tail _ hbc ih =>
      obtain ⟨t1, t2, r, hr, hto⟩ := hbc
      have h4 := (inv.order_edges _ (hfin _ t1 ih) r hr (hs _ (type_operation_lt g _ t1) r hr)
        (by rw [hto]; exact t2)).1
      rw [hto] at h4
      exact h4
  have hall : ∀ n, (g.node n).type = DEPSNODE_TYPE_OPERATION → n ∈ order := by
    intro n hn
    obtain ⟨root, h1, h2, h3⟩ := hreach n hn
    exact hfin n hn (hseen root n h1 h2 h3)
  have hidx : ∀ a b, noncyclic_op_edge (deg_graph_detect_cycles g) a b →
      order.indexOf a < order.indexOf b := by
    rintro a b ⟨ta, tb, r, hr, hto, hflag⟩
    rw [cycles_frame_type inv.frame] at ta tb
    rw [cycles_frame_outlinks inv.frame] at hr
    rw [cycles_frame_to inv.frame] at hto
    have h4 := (inv.order_edges a (hall a ta) r hr (hs a (type_operation_lt g a ta) r hr)
      (by rw [hto]; exact tb)).2 hflag
    rw [hto] at h4
    exact h4.2
  have htrans : ∀ a b, Relation.TransGen (noncyclic_op_edge (deg_graph_detect_cycles g)) a b →
      order.indexOf a < order.indexOf b := by
    intro a b hab
    induction hab with
    | single h => exact hidx _ _ h
    | tail _ h ih => exact Nat.lt_trans ih (hidx _ _ h)
  intro n hn
  exact Nat.lt_irrefl _ (htrans n n hn)

/-- Witness for `detect_cycles_acyclic_when_rooted`: in
`example_rooted_cycle_exit` every operation is reachable from `S`, which has no
inbound relation; the traversal flags `N -> X`, and no cycle is left. -/
theorem detect_cycles_acyclic_when_rooted_witness :
    operations_typed example_rooted_cycle_exit ∧ outlinks_in_store example_rooted_cycle_exit ∧
      (∀ n, (example_rooted_cycle_exit.node n).type = DEPSNODE_TYPE_OPERATION →
        ∃ root, (example_rooted_cycle_exit.node root).type = DEPSNODE_TYPE_OPERATION ∧
          has_operation_inlinks example_rooted_cycle_exit root = false ∧
          Relation.ReflTransGen (op_edge example_rooted_cycle_exit) root n) ∧
      Relation.TransGen (op_edge example_rooted_cycle_exit) 1 1 ∧
      ((deg_graph_detect_cycles example_rooted_cycle_exit).rel 2).flag = DEPSREL_FLAG_CYCLIC ∧
      ∀ n, ¬ Relation.TransGen
        (noncyclic_op_edge (deg_graph_detect_cycles example_rooted_cycle_exit)) n n :=
  ⟨by decide, by decide, example_rooted_cycle_exit_reach,
    Relation.TransGen.tail
      (Relation.TransGen.single (by decide : op_edge example_rooted_cycle_exit 1 2))
      (by decide : op_edge example_rooted_cycle_exit 2 1), by decide,
    detect_cycles_acyclic_when_rooted example_rooted_cycle_exit (by decide) (by decide)
      example_rooted_cycle_exit_reach⟩

/-- C28: when the link lists are consistent and the operations list holds the
operation nodes, every relation whose flag `deg_graph_detect_cycles` changes
gets the `CYCLIC` bit and lies on a directed cycle of operation relations: it
is an operation relation from its source to its target, and its target reaches
its source along operation relations.  In particular, when the operation
relations contain no directed cycle, no flag is changed. -/
theorem detect_cycles_flags_on_cycles (g : Depsgraph) (hl : links_consistent g)
    (ho : operations_typed g) :
    (∀ r, ((deg_graph_detect_cycles g).rel r).flag ≠ (g.rel r).flag →
        ((deg_graph_detect_cycles g).rel r).flag = (g.rel r).flag ||| DEPSREL_FLAG_CYCLIC ∧
          r ∈ (g.node (g.rel r).from_).outlinks ∧
          op_edge g (g.rel r).from_ (g.rel r).to_ ∧
          Relation.ReflTransGen (op_edge g) (g.rel r).to_ (g.rel r).from_) ∧
      ((∀ n, ¬ Relation.TransGen (op_edge g) n n) →
        ∀ r, ((deg_graph_detect_cycles g).rel r).flag = (g.rel r).flag) := by
  obtain ⟨order, inv⟩ := detect_cycles_run_inv g ho
  have h1 : ∀ r, ((deg_graph_detect_cycles g).rel r).flag ≠ (g.rel r).flag →
      ((deg_graph_detect_cycles g).rel r).flag = (g.rel r).flag ||| DEPSREL_FLAG_CYCLIC ∧
        r ∈ (g.node (g.rel r).from_).outlinks ∧
        op_edge g (g.rel r).from_ (g.rel r).to_ ∧
        Relation.ReflTransGen (op_edge g) (g.rel r).to_ (g.rel r).from_ := by
    intro r hr
    exact ⟨(inv.frame.2.2.2 r).resolve_left hr, inv.flagged hl r hr⟩
  refine ⟨h1, ?_⟩
  intro hac r
  by_contra hne
  obtain ⟨_, _, h3, h4⟩ := h1 r hne
  exact hac _ (Relation.TransGen.head' h3 h4)

/-- Witness for `detect_cycles_flags_on_cycles`: in `example_rooted_cycle_exit`
the flag of `N -> X` (relation `2`) is changed, and `X` reaches `N`; in
`example_chain2`, which has no cycle, no flag is changed. -/
theorem detect_cycles_flags_on_cycles_witness :
    (links_consistent example_rooted_cycle_exit ∧ operations_typed example_rooted_cycle_exit ∧
      ((deg_graph_detect_cycles example_rooted_cycle_exit).rel 2).flag ≠
        (example_rooted_cycle_exit.rel 2).flag ∧
      op_edge example_rooted_cycle_exit 2 1 ∧
      Relation.ReflTransGen (op_edge example_rooted_cycle_exit) 1 2) ∧
    (links_consistent example_chain2 ∧ operations_typed example_chain2 ∧
      (∀ n, ¬ Relation.TransGen (op_edge example_chain2) n n) ∧
      ∀ r, ((deg_graph_detect_cycles example_chain2).rel r).flag =
        (example_chain2.rel r).flag) :=
  ⟨⟨by decide, by decide, by decide,
      ((detect_cycles_flags_on_cycles example_rooted_cycle_exit (by decide) (by decide)).1 2
        (by decide)).2.2.1,
      ((detect_cycles_flags_on_cycles example_rooted_cycle_exit (by decide) (by decide)).1 2
        (by decide)).2.2.2⟩,
    by decide, by decide, example_chain2_op_acyclic,
    (detect_cycles_flags_on_cycles example_chain2 (by decide) (by decide)).2
      example_chain2_op_acyclic⟩

/-! ### Names of F-curves -/

theorem digit_char_spec : ∀ d < 10, (Char.ofNat (48 + d)).toNat - 48 = d ∧
    Char.ofNat (48 + d) ≠ '[' ∧ Char.ofNat (48 + d) ≠ '-' := by
  decide

theorem decimal_value_append (l : List Char) (c : Char) :
    decimal_value (l ++ [c]) = 10 * decimal_value l + (c.toNat - 48) := by
  unfold decimal_value
  rw [List.foldl_append]
  rfl

theorem decimal_digits_value : ∀ (fuel n : Nat), n < fuel →
    decimal_value (decimal_digits fuel n) = n := by
  intro fuel
  induction fuel with
  | zero => intro n h; omega
  | succ fuel ih =>
    intro n h
    rw [decimal_digits]
    by_cases h10 : n < 10
    · rw [if_pos h10]
      have := (digit_char_spec n h10).1
      simpa [decimal_value] using this
    · rw [if_neg h10, decimal_value_append, ih (n / 10) (by omega),
        (digit_char_spec (n % 10) (Nat.mod_lt _ (by decide))).1]
      omega

theorem decimal_digits_chars : ∀ (fuel n : Nat), ∀ c ∈ decimal_digits fuel n,
    c ≠ '[' ∧ c ≠ '-' := by
  intro fuel
  induction fuel with
  | zero => intro n c hc; cases hc
  | succ fuel ih =>
    intro n c hc
    rw [decimal_digits] at hc
    by_cases h10 : n < 10
    · rw [if_pos h10, List.mem_singleton] at hc
      rw [hc]
      exact (digit_char_spec n h10).2
    · rw [if_neg h10, List.mem_append, List.mem_singleton] at hc
      rcases hc with hc | hc
      · exact ih _ c hc
      · rw [hc]
        exact (digit_char_spec (n % 10) (Nat.mod_lt _ (by decide))).2

theorem decimal_digits_ne_nil (n : Nat) : decimal_digits (n + 1) n ≠ [] := by
  rw [decimal_digits]
  split
  · exact List.cons_ne_nil _ _
  · intro h
    have := congrArg List.length h
    simp at this

theorem decimal_digits_inj (n m : Nat)
    (h : decimal_digits (n + 1) n = decimal_digits (m + 1) m) : n = m := by
  have h1 := decimal_digits_value (n + 1) n (Nat.lt_succ_self n)
  have h2 := decimal_digits_value (m + 1) m (Nat.lt_succ_self m)
  rw [h] at h1
  exact h1.symm.trans h2

theorem sprintf_d_no_bracket (i : Int) : '[' ∉ (sprintf_d i).data := by
  unfold sprintf_d
  intro hc
  split at hc
  · rcases List.mem_cons.1 hc with h | h
    · exact absurd h (by decide)
    · exact (decimal_digits_chars _ _ _ h).1 rfl
  · exact (decimal_digits_chars _ _ _ hc).1 rfl

theorem sprintf_d_inj (i j : Int) (h : sprintf_d i = sprintf_d j) : i = j := by
  unfold sprintf_d at h
  have hd := congrArg String.data h
  by_cases hi : i < 0 <;> by_cases hj : j < 0
  · rw [if_pos hi, if_pos hj] at hd
    have := decimal_digits_inj _ _ (List.tail_eq_of_cons_eq hd)
    omega
  · rw [if_pos hi, if_neg hj] at hd
    exfalso
    have hmem : '-' ∈ decimal_digits (j.natAbs + 1) j.natAbs := by
      have h2 : '-' ∈ ('-' :: decimal_digits (i.natAbs + 1) i.natAbs) := List.mem_cons_self _ _
      have h3 : ('-' :: decimal_digits (i.natAbs + 1) i.natAbs) =
          decimal_digits (j.natAbs + 1) j.natAbs := hd
      rw [h3] at h2
      exact h2
    exact (decimal_digits_chars _ _ _ hmem).2 rfl
  · rw [if_neg hi, if_pos hj] at hd
    exfalso
    have hmem : '-' ∈ decimal_digits (i.natAbs + 1) i.natAbs := by
      have h2 : '-' ∈ ('-' :: decimal_digits (j.natAbs + 1) j.natAbs) := List.mem_cons_self _ _
      have h3 : decimal_digits (i.natAbs + 1) i.natAbs =
          ('-' :: decimal_digits (j.natAbs + 1) j.natAbs) := hd
      rw [← h3] at h2
      exact h2
    exact (decimal_digits_chars _ _ _ hmem).2 rfl
  · rw [if_neg hi, if_neg hj] at hd
    have := decimal_digits_inj _ _ hd
    omega

theorem append_cons_last_inj {α : Type} (a : α) : ∀ (l1 l2 r1 r2 : List α),
    a ∉ r1 → a ∉ r2 → l1 ++ a :: r1 = l2 ++ a :: r2 → l1 = l2 ∧ r1 = r2 := by
  intro l1
  induction l1 with
  | nil =>
    intro l2 r1 r2 h1 h2 h
    cases l2 with
    | nil =>
      simp only [List.nil_append, List.cons.injEq, true_and] at h
      exact ⟨rfl, h⟩
    | cons b l2 =>
      exfalso
      simp only [List.nil_append, List.cons_append, List.cons.injEq] at h
      apply h1
      rw [h.2]
      simp
  | cons c l1 ih =>
    intro l2 r1 r2 h1 h2 h
    cases l2 with
    | nil =>
      exfalso
      simp only [List.nil_append, List.cons_append, List.cons.injEq] at h
      apply h2
      rw [← h.2]
      simp
    | cons b l2 =>
      simp only [List.cons_append, List.cons.injEq] at h
      obtain ⟨i1, i2⟩ := ih l2 r1 r2 h1 h2 h.2
      exact ⟨by rw [h.1, i1], i2⟩

/-- C38: `deg_fcurve_id_name` gives different F-curves different names: when
the names of two F-curves are equal, their RNA paths are equal and their array
indices are equal (whatever brackets and digits the paths contain). -/
theorem fcurve_id_name_unique (fcu1 fcu2 : FCurve)
    (h : deg_fcurve_id_name fcu1 = deg_fcurve_id_name fcu2) :
    fcu1.rna_path = fcu2.rna_path ∧ fcu1.array_index = fcu2.array_index := by
  unfold deg_fcurve_id_name at h
  have hd := congrArg String.data h
  simp only [String.data_append, List.singleton_append, List.cons_append] at hd
  have hn : ∀ i : Int, '[' ∉ (sprintf_d i).data ++ [']'] := by
    intro i hm
    rcases List.mem_append.1 hm with h1 | h1
    · exact sprintf_d_no_bracket i h1
    · exact absurd (List.mem_singleton.1 h1) (by decide)
  obtain ⟨h1, h2⟩ := append_cons_last_inj '[' _ _ _ _ (hn _) (hn _) hd
  refine ⟨String.ext h1, sprintf_d_inj _ _ (String.ext ?_)⟩
  exact List.append_cancel_right h2

/-- Witness for `fcurve_id_name_unique`: the name of the second element of
`location` is `location[1]`, a path that ends in a bracketed number keeps it in
front of the index, and two F-curves with the name `location[1]` agree. -/
theorem fcurve_id_name_unique_witness :
    deg_fcurve_id_name { rna_path := "location", array_index := 1 } = "location[1]" ∧
      deg_fcurve_id_name { rna_path := "pose.bones[2].scale", array_index := -10 } =
        "pose.bones[2].scale[-10]" ∧
      deg_fcurve_id_name { rna_path := "location", array_index := 1 } =
        deg_fcurve_id_name { rna_path := "location", array_index := 1 } ∧
      (({ rna_path := "location", array_index := 1 } : FCurve).rna_path = "location" ∧
        ({ rna_path := "location", array_index := 1 } : FCurve).array_index = 1) :=
  ⟨by decide, by decide, rfl,
    fcurve_id_name_unique { rna_path := "location", array_index := 1 }
      { rna_path := "location", array_index := 1 } rfl⟩

/-! ### Flushing: what is reached -/

theorem example_two_tags_unflagged (n : Nat) : ¬ needs_update example_two_tags n := by
  match n with
  | 0 => decide
  | 1 => decide
  | n + 2 =>
    have hd : example_two_tags.node (n + 2) = default :=
      node_default_of_le _ _ (by simp [example_two_tags, example_chain2])
    unfold needs_update
    rw [hd, default_node_eq]
    simp

/-- C35: on a graph whose outlinks point to nodes of the graph, when every
operation node that carries `NEEDS_UPDATE` at the start is an entry tag,
`DEG_graph_flush_updates` returns, and afterwards every operation node that is
reachable from an entry-tagged operation through one or more operation
relations carries `NEEDS_UPDATE`. -/
theorem flush_reaches_all (bmain : Main) (g : Depsgraph) (hv : outlinks_valid g)
    (htags : ∀ n, (g.node n).type = DEPSNODE_TYPE_OPERATION → needs_update g n →
      n ∈ g.entry_tags) :
    ∃ bmain' g', DEG_graph_flush_updates bmain (some g) = some (bmain', some g') ∧
      ∀ e ∈ g.entry_tags, ∀ n, Relation.TransGen (op_edge g) e n → needs_update g' n := by
  obtain ⟨bmain', g', h1, _, _, _, _, h6⟩ := flush_updates_spec bmain g hv
  refine ⟨bmain', g', by simp [DEG_graph_flush_updates, h1], ?_⟩
  intro e he n hen
  have hq : ∀ b, Relation.ReflTransGen (op_edge g) e b →
      b ∈ g.entry_tags ∨ flush_reached g b := by
    intro b hb
    induction hb with
    | refl => exact Or.inl he
    | tail hab hbc ih =>
      rename_i b c
      obtain ⟨_, tc, r, hr, hto⟩ := hbc
      by_cases hc : needs_update g c
      · exact Or.inl (htags c tc hc)
      · have hedge : flush_edge g b c := ⟨⟨r, hr, hto⟩, hc⟩
        rcases ih with h | ⟨e', he', hp⟩
        · exact Or.inr ⟨b, h, Relation.TransGen.single hedge⟩
        · exact Or.inr ⟨e', he', Relation.TransGen.tail hp hedge⟩
  rw [Relation.TransGen.tail'_iff] at hen
  obtain ⟨b, heb, _, _, r, hr, hto⟩ := hen
  rw [h6]
  by_cases hn : needs_update g n
  · exact Or.inl hn
  · right
    have hedge : flush_edge g b n := ⟨⟨r, hr, hto⟩, hn⟩
    rcases hq b heb with h | ⟨e', he', hp⟩
    · exact ⟨b, h, Relation.TransGen.single hedge⟩
    · exact ⟨e', he', Relation.TransGen.tail hp hedge⟩

/-- Witness for `flush_reaches_all`: the chain `0 -> 1` with both operations
entry-tagged and no flag set; operation `1` is reachable from the entry tag `0`
and carries `NEEDS_UPDATE` after the flush. -/
theorem flush_reaches_all_witness :
    outlinks_valid example_two_tags ∧
      (∀ n, (example_two_tags.node n).type = DEPSNODE_TYPE_OPERATION →
        needs_update example_two_tags n → n ∈ example_two_tags.entry_tags) ∧
      (0 ∈ example_two_tags.entry_tags ∧ Relation.TransGen (op_edge example_two_tags) 0 1) ∧
      ∃ bmain' g', DEG_graph_flush_updates {} (some example_two_tags) =
          some (bmain', some g') ∧ needs_update g' 1 :=
  ⟨by decide, fun n _ h => absurd h (example_two_tags_unflagged n),
    ⟨by decide, Relation.TransGen.single (by decide : op_edge example_two_tags 0 1)⟩,
    match flush_reaches_all {} example_two_tags (by decide)
      (fun n _ h => absurd h (example_two_tags_unflagged n)) with
    | ⟨bmain', g', h1, h2⟩ =>
      ⟨bmain', g', h1, h2 0 (by decide) 1
        (Relation.TransGen.single (by decide : op_edge example_two_tags 0 1))⟩⟩

/-! ### Flushing: the queue -/

theorem flush_outlinks_pushes : ∀ (rels : List Nat) (bmain : Main) (g : Depsgraph)
    (queue : List Nat), (∀ r ∈ rels, (g.rel r).to_ < g.nodes.length) →
    ∃ P, (flush_outlinks rels bmain g queue).2.2 = queue ++ P ∧ P.Nodup ∧
      (∀ x ∈ P, ¬ needs_update g x ∧ needs_update (flush_outlinks rels bmain g queue).2.1 x ∧
        ∃ r ∈ rels, (g.rel r).to_ = x) ∧
      (∀ m, needs_update g m → needs_update (flush_outlinks rels bmain g queue).2.1 m) ∧
      ∀ m, needs_update (flush_outlinks rels bmain g queue).2.1 m → needs_update g m ∨ m ∈ P := by
  intro rels
  induction rels with
  | nil =>
    intro bmain g queue _
    refine ⟨[], by simp [flush_outlinks], List.nodup_nil, ?_, fun _ h => h, fun _ h => Or.inl h⟩
    intro x hx
    cases hx
  | cons r rels ih =>
    intro bmain g queue hlt
    have hr := hlt r (List.mem_cons_self _ _)
    rw [flush_outlinks]
    dsimp only
    by_cases hflag : (g.node (g.rel r).to_).flag &&& DEPSOP_FLAG_NEEDS_UPDATE = 0
    · rw [if_pos hflag]
      have hset := needs_update_set g (g.rel r).to_
      have hrel : ∀ q, (g.modifyNode (g.rel r).to_ fun n =>
          { n with flag := n.flag ||| DEPSOP_FLAG_NEEDS_UPDATE }).rel q = g.rel q := fun _ => rfl
      have hlen : (g.modifyNode (g.rel r).to_ fun n =>
          { n with flag := n.flag ||| DEPSOP_FLAG_NEEDS_UPDATE }).nodes.length =
            g.nodes.length := List.length_modify _ _ _
      obtain ⟨P1, e1, n1, p1, m1, s1⟩ := ih
        (deg_editors_id_update
          (if GS (bmain.getID (g.node (g.id_node_of (g.rel r).to_)).id).name = ID_OB then
            bmain.modifyID (g.node (g.id_node_of (g.rel r).to_)).id fun i =>
              { i with recalc := i.recalc |||
                flush_recalc_bit (g.node (g.node (g.rel r).to_).owner).type }
          else bmain) (g.node (g.id_node_of (g.rel r).to_)).id)
        (g.modifyNode (g.rel r).to_ fun n =>
          { n with flag := n.flag ||| DEPSOP_FLAG_NEEDS_UPDATE })
        (queue ++ [(g.rel r).to_])
        (fun r' hr' => by rw [hrel, hlen]; exact hlt r' (List.mem_cons_of_mem _ hr'))
      have ht1 : needs_update (g.modifyNode (g.rel r).to_ fun n =>
          { n with flag := n.flag ||| DEPSOP_FLAG_NEEDS_UPDATE }) (g.rel r).to_ :=
        (hset _).2 (Or.inr ⟨rfl, hr⟩)
      refine ⟨(g.rel r).to_ :: P1, ?_, ?_, ?_, ?_, ?_⟩
      · rw [e1]
        simp
      · rw [List.nodup_cons]
        exact ⟨fun h => (p1 _ h).1 ht1, n1⟩
      · intro x hx
        rcases List.mem_cons.1 hx with h | h
        · rw [h]
          exact ⟨fun hc => hc hflag, m1 _ ht1, r, List.mem_cons_self _ _, rfl⟩
        · obtain ⟨a, b, r', hr', c⟩ := p1 x h
          refine ⟨fun hc => a ((hset x).2 (Or.inl hc)), b, r', List.mem_cons_of_mem _ hr', ?_⟩
          rw [hrel] at c
          exact c
      · intro m hm
        exact m1 m ((hset m).2 (Or.inl hm))
      · intro m hm
        rcases s1 m hm with h | h
        · rcases (hset m).1 h with h2 | h2
          · exact Or.inl h2
          · exact Or.inr (List.mem_cons.2 (Or.inl h2.1.symm))
        · exact Or.inr (List.mem_cons_of_mem _ h)
    · rw [if_neg hflag]
      obtain ⟨P1, e1, n1, p1, m1, s1⟩ := ih bmain g queue
        (fun r' hr' => hlt r' (List.mem_cons_of_mem _ hr'))
      refine ⟨P1, e1, n1, ?_, m1, s1⟩
      intro x hx
      obtain ⟨a, b, r', hr', c⟩ := p1 x hx
      exact ⟨a, b, r', List.mem_cons_of_mem _ hr', c⟩

theorem flush_dequeued_spec (g0 : Depsgraph) (hv : outlinks_valid g0) :
    ∀ (fuel : Nat) (bmain : Main) (g : Depsgraph) (queue : List Nat), flags_only g0 g →
    ∃ L, flush_dequeued fuel bmain g queue ++ (flush_loop fuel bmain g queue).2.2 =
        queue ++ L ∧ L.Nodup ∧
      (∀ x ∈ L, ¬ needs_update g x ∧
        ∃ n r, n < g0.nodes.length ∧ r ∈ (g0.node n).outlinks ∧ (g0.rel r).to_ = x) ∧
      (∀ x ∈ L, needs_update (flush_loop fuel bmain g queue).2.1 x) ∧
      (∀ m, needs_update g m → needs_update (flush_loop fuel bmain g queue).2.1 m) ∧
      ∀ m, needs_update (flush_loop fuel bmain g queue).2.1 m → needs_update g m ∨ m ∈ L := by
  intro fuel
  induction fuel with
  | zero =>
    intro bmain g queue _
    refine ⟨[], by simp [flush_dequeued, flush_loop], List.nodup_nil, ?_, ?_,
      fun _ h => h, fun _ h => Or.inl h⟩
    · intro x hx
      cases hx
    · intro x hx
      cases hx
  | succ fuel ih =>
    intro bmain g queue hfo
    cases queue with
    | nil =>
      refine ⟨[], by simp [flush_dequeued, flush_loop], List.nodup_nil, ?_, ?_,
        fun _ h => h, fun _ h => Or.inl h⟩
      · intro x hx
        cases hx
      · intro x hx
        cases hx
    | cons node q =>
      rw [flush_dequeued, flush_loop]
      have hout : (g.node node).outlinks = (g0.node node).outlinks :=
        flags_only_outlinks hfo node
      have hnode : ∀ r ∈ (g.node node).outlinks, node < g0.nodes.length := by
        intro r hr
        rw [hout] at hr
        by_contra hge
        rw [node_default_of_le g0 node (Nat.le_of_not_lt hge), default_node_eq] at hr
        cases hr
      have hvalid : ∀ r ∈ (g.node node).outlinks, (g.rel r).to_ < g.nodes.length := by
        intro r hr
        rw [flags_only_rel hfo r, flags_only_length hfo]
        exact hv node (hnode r hr) r (hout ▸ hr)
      obtain ⟨P, e, nd, p, m, s⟩ := flush_outlinks_pushes (g.node node).outlinks
        (lib_id_recalc_data_tag (lib_id_recalc_tag bmain (g.node (g.id_node_of node)).id)
          (g.node (g.id_node_of node)).id) g q hvalid
      have hfo1 := flags_only_trans hfo (flush_outlinks_flags_only (g.node node).outlinks
        (lib_id_recalc_data_tag (lib_id_recalc_tag bmain (g.node (g.id_node_of node)).id)
          (g.node (g.id_node_of node)).id) g q)
      obtain ⟨L1, e1, nd1, p1, f1, m1, s1⟩ := ih _ _ _ hfo1
      refine ⟨P ++ L1, ?_, ?_, ?_, ?_, ?_, ?_⟩
      · rw [List.cons_append, e1, e]
        simp
      · rw [List.nodup_append]
        refine ⟨nd, nd1, ?_⟩
        intro x hxP hxL
        exact (p1 x hxL).1 (p x hxP).2.1
      · intro x hx
        rcases List.mem_append.1 hx with h | h
        · obtain ⟨a, _, r, hr, c⟩ := p x h
          refine ⟨a, node, r, hnode r hr, hout ▸ hr, ?_⟩
          rw [← flags_only_rel hfo r]
          exact c
        · obtain ⟨a, b⟩ := p1 x h
          exact ⟨fun hc => a (m x hc), b⟩
      · intro x hx
        rcases List.mem_append.1 hx with h | h
        · exact m1 x (p x h).2.1
        · exact f1 x h
      · intro x hx
        exact m1 x (m x hx)
      · intro x hx
        rcases s1 x hx with h | h
        · rcases s x h with h2 | h2
          · exact Or.inl h2
          · exact Or.inr (List.mem_append.2 (Or.inl h2))
        · exact Or.inr (List.mem_append.2 (Or.inr h))

theorem flush_loop_exact : ∀ (fuel : Nat) (bmain : Main) (g : Depsgraph) (queue : List Nat),
    (flush_loop fuel bmain g queue).2.2 = [] →
    flush_loop (flush_dequeued fuel bmain g queue).length bmain g queue =
      flush_loop fuel bmain g queue := by
  intro fuel
  induction fuel with
  | zero =>
    intro bmain g queue _
    rfl
  | succ fuel ih =>
    intro bmain g queue h
    cases queue with
    | nil => rfl
    | cons node q =>
      rw [flush_loop] at h
      rw [flush_dequeued, List.length_cons, flush_loop, flush_loop]
      exact ih _ _ _ h

theorem flush_queued_exact (bmain : Main) (g : Depsgraph) (hv : outlinks_valid g) :
    (flush_run bmain g).2.2 = [] ∧
      flush_loop (flush_queued bmain g).length (flush_seed g.entry_tags bmain g []).1 g
        (flush_seed g.entry_tags bmain g []).2 = flush_run bmain g ∧
      ∃ L, flush_queued bmain g = g.entry_tags ++ L ∧ L.Nodup ∧
        (∀ x ∈ L, ¬ needs_update g x ∧
          ∃ n r, n < g.nodes.length ∧ r ∈ (g.node n).outlinks ∧ (g.rel r).to_ = x) ∧
        ∀ x, x ∈ L ↔ ¬ needs_update g x ∧ flush_reached g x := by
  obtain ⟨hinv, hq⟩ := flush_run_inv bmain g hv
  have hrun : flush_loop (flush_fuel g) (flush_seed g.entry_tags bmain g []).1 g
      (flush_seed g.entry_tags bmain g []).2 = flush_run bmain g := rfl
  refine ⟨hq, ?_, ?_⟩
  · rw [← hrun]
    exact flush_loop_exact _ _ _ _ (by rw [hrun]; exact hq)
  · obtain ⟨L, e, nd, p, f, _, s⟩ := flush_dequeued_spec g hv (flush_fuel g)
      (flush_seed g.entry_tags bmain g []).1 g (flush_seed g.entry_tags bmain g []).2
      (flags_only_refl g)
    rw [hrun] at f s
    rw [hrun, hq, List.append_nil] at e
    have hs : (flush_seed g.entry_tags bmain g []).2 = g.entry_tags := by
      rw [flush_seed_queue]
      rfl
    refine ⟨L, ?_, nd, p, ?_⟩
    · show flush_dequeued (flush_fuel g) (flush_seed g.entry_tags bmain g []).1 g
        (flush_seed g.entry_tags bmain g []).2 = g.entry_tags ++ L
      rw [e, hs]
    · intro x
      constructor
      · intro hx
        refine ⟨(p x hx).1, ?_⟩
        rcases hinv.sound x (f x hx) with h | h
        · exact absurd h (p x hx).1
        · exact h
      · intro hx
        rcases s x (flush_reached_of_closed g _ hinv x hx.2) with h | h
        · exact absurd h hx.1
        · exact h

theorem flush_queued_spec (bmain : Main) (g : Depsgraph) (hv : outlinks_valid g) :
    (flush_run bmain g).2.2 = [] ∧
      flush_loop (flush_queued bmain g).length (flush_seed g.entry_tags bmain g []).1 g
        (flush_seed g.entry_tags bmain g []).2 = flush_run bmain g ∧
      ∃ L, flush_queued bmain g = g.entry_tags ++ L ∧ L.Nodup ∧
        ∀ x ∈ L, ¬ needs_update g x ∧
          ∃ n r, n < g.nodes.length ∧ r ∈ (g.node n).outlinks ∧ (g.rel r).to_ = x := by
  obtain ⟨h1, h2, L, e, nd, p, _⟩ := flush_queued_exact bmain g hv
  exact ⟨h1, h2, L, e, nd, p⟩

theorem valid_of_outlinks_to_operations (g : Depsgraph) (ht : outlinks_to_operations g) :
    outlinks_valid g := by
  intro n hn r hr
  exact type_operation_lt g _ (ht n hn r hr)

/-- C34: on a graph whose outlinks end at operation nodes, cycles or not, the
loop of `DEG_graph_flush_updates` has emptied the queue after a number of
iterations (one node is taken from the queue in each) that is at most the
number of entry tags plus the number of operation nodes, and the function
returns. -/
theorem flush_terminates_within (bmain : Main) (g : Depsgraph)
    (ht : outlinks_to_operations g) :
    ∃ k, k ≤ g.entry_tags.length + operation_count g ∧
      (flush_loop k (flush_seed g.entry_tags bmain g []).1 g
        (flush_seed g.entry_tags bmain g []).2).2.2 = [] ∧
      flush_loop k (flush_seed g.entry_tags bmain g []).1 g
        (flush_seed g.entry_tags bmain g []).2 = flush_run bmain g ∧
      (DEG_graph_flush_updates bmain (some g)).isSome = true := by
  obtain ⟨h1, h2, L, e, nd, p⟩ := flush_queued_spec bmain g
    (valid_of_outlinks_to_operations g ht)
  refine ⟨(flush_queued bmain g).length, ?_, by rw [h2]; exact h1, h2, ?_⟩
  · rw [e, List.length_append]
    have hsub : L ⊆ (List.range g.nodes.length).filter fun n =>
        decide ((g.node n).type = DEPSNODE_TYPE_OPERATION) := by
      intro x hx
      obtain ⟨_, n, r, hn, hr, hto⟩ := p x hx
      have hty := ht n hn r hr
      rw [hto] at hty
      rw [List.mem_filter, List.mem_range]
      exact ⟨type_operation_lt g x hty, decide_eq_true hty⟩
    have := (List.subperm_of_subset nd hsub).length_le
    unfold operation_count
    omega
  · simp [DEG_graph_flush_updates, flush_updates, h1]

/-- Witness for `flush_terminates_within`: two operations on a cycle with
operation `0` as entry tag; the queue is empty after three iterations, the
number of entry tags plus the number of operations. -/
theorem flush_terminates_within_witness :
    outlinks_to_operations example_tagged_cycle ∧
      example_tagged_cycle.entry_tags.length + operation_count example_tagged_cycle = 3 ∧
      (flush_loop 2 (flush_seed example_tagged_cycle.entry_tags {} example_tagged_cycle []).1
        example_tagged_cycle
        (flush_seed example_tagged_cycle.entry_tags {} example_tagged_cycle []).2).2.2 ≠ [] ∧
      ∃ k, k ≤ example_tagged_cycle.entry_tags.length + operation_count example_tagged_cycle ∧
        (flush_loop k (flush_seed example_tagged_cycle.entry_tags {} example_tagged_cycle []).1
          example_tagged_cycle
          (flush_seed example_tagged_cycle.entry_tags {} example_tagged_cycle []).2).2.2 = [] :=
  ⟨by decide, by decide, by decide,
    match flush_terminates_within {} example_tagged_cycle (by decide) with
    | ⟨k, h1, h2, _⟩ => ⟨k, h1, h2⟩⟩

/-! ### Flushing: the legacy recalc bits -/

theorem GS_object_lt (bmain : Main) (id : Nat) (h : GS (bmain.getID id).name = ID_OB) :
    id < bmain.ids.length := by
  by_contra hge
  have hd : bmain.getID id = default := by
    unfold Main.getID
    simp [List.getElem?_eq_none (Nat.le_of_not_lt hge)]
  rw [hd] at h
  revert h
  decide

/-- C36: what `DEG_graph_flush_updates` does at one relation `r` of the loop
over the outlinks of a dequeued node (the loop does this at every relation in
turn).  A target that carries `NEEDS_UPDATE` changes nothing.  A target
without it is queued, and when its datablock is an object the `recalc` field
of that object, and nothing else in any datablock, is ORed with one bit:
`OB_RECALC_TIME` when the component that owns the target is an animation
component, `OB_RECALC_OB` when it is a transform component, `OB_RECALC_DATA`
for every other component type; when the datablock is not an object no
datablock is changed. -/
theorem flush_sets_legacy_recalc (r : Nat) (rels : List Nat) (bmain : Main) (g : Depsgraph)
    (queue : List Nat) :
    flush_outlinks (r :: rels) bmain g queue =
        flush_outlinks rels (flush_outlinks [r] bmain g queue).1
          (flush_outlinks [r] bmain g queue).2.1 (flush_outlinks [r] bmain g queue).2.2 ∧
      (needs_update g (g.rel r).to_ → flush_outlinks [r] bmain g queue = (bmain, g, queue)) ∧
      (¬ needs_update g (g.rel r).to_ →
        (flush_outlinks [r] bmain g queue).2.2 = queue ++ [(g.rel r).to_] ∧
        ((g.rel r).to_ < g.nodes.length →
          needs_update (flush_outlinks [r] bmain g queue).2.1 (g.rel r).to_) ∧
        (GS (bmain.getID (g.node (g.id_node_of (g.rel r).to_)).id).name = ID_OB →
          (∀ j, j ≠ (g.node (g.id_node_of (g.rel r).to_)).id →
            (flush_outlinks [r] bmain g queue).1.getID j = bmain.getID j) ∧
          ((g.node (g.node (g.rel r).to_).owner).type = DEPSNODE_TYPE_ANIMATION →
            (flush_outlinks [r] bmain g queue).1.getID (g.node (g.id_node_of (g.rel r).to_)).id =
              { bmain.getID (g.node (g.id_node_of (g.rel r).to_)).id with
                recalc := (bmain.getID (g.node (g.id_node_of (g.rel r).to_)).id).recalc |||
                  OB_RECALC_TIME }) ∧
          ((g.node (g.node (g.rel r).to_).owner).type = DEPSNODE_TYPE_TRANSFORM →
            (flush_outlinks [r] bmain g queue).1.getID (g.node (g.id_node_of (g.rel r).to_)).id =
              { bmain.getID (g.node (g.id_node_of (g.rel r).to_)).id with
                recalc := (bmain.getID (g.node (g.id_node_of (g.rel r).to_)).id).recalc |||
                  OB_RECALC_OB }) ∧
          ((g.node (g.node (g.rel r).to_).owner).type ≠ DEPSNODE_TYPE_ANIMATION →
            (g.node (g.node (g.rel r).to_).owner).type ≠ DEPSNODE_TYPE_TRANSFORM →
            (flush_outlinks [r] bmain g queue).1.getID (g.node (g.id_node_of (g.rel r).to_)).id =
              { bmain.getID (g.node (g.id_node_of (g.rel r).to_)).id with
                recalc := (bmain.getID (g.node (g.id_node_of (g.rel r).to_)).id).recalc |||
                  OB_RECALC_DATA })) ∧
        (GS (bmain.getID (g.node (g.id_node_of (g.rel r).to_)).id).name ≠ ID_OB →
          ∀ j, (flush_outlinks [r] bmain g queue).1.getID j = bmain.getID j)) := by
  have hed : ∀ (b : Main) (i j : Nat), (deg_editors_id_update b i).getID j = b.getID j :=
    fun _ _ _ => rfl
  refine ⟨?_, ?_, ?_⟩
  · rw [flush_outlinks, flush_outlinks]
    dsimp only
    split <;> rfl
  · intro h
    rw [flush_outlinks]
    dsimp only
    rw [if_neg h]
    rfl
  · intro h
    have hflag : (g.node (g.rel r).to_).flag &&& DEPSOP_FLAG_NEEDS_UPDATE = 0 := by
      unfold needs_update at h
      exact not_not.1 h
    have hstep : flush_outlinks [r] bmain g queue =
        (deg_editors_id_update
          (if GS (bmain.getID (g.node (g.id_node_of (g.rel r).to_)).id).name = ID_OB then
            bmain.modifyID (g.node (g.id_node_of (g.rel r).to_)).id fun i =>
              { i with recalc := i.recalc |||
                flush_recalc_bit (g.node (g.node (g.rel r).to_).owner).type }
          else bmain) (g.node (g.id_node_of (g.rel r).to_)).id,
          g.modifyNode (g.rel r).to_ fun n =>
            { n with flag := n.flag ||| DEPSOP_FLAG_NEEDS_UPDATE },
          queue ++ [(g.rel r).to_]) := by
      rw [flush_outlinks]
      dsimp only
      rw [if_pos hflag]
      rfl
    rw [hstep]
    refine ⟨rfl, ?_, ?_, ?_⟩
    · intro hlt
      exact (needs_update_set g _ _).2 (Or.inr ⟨rfl, hlt⟩)
    · intro hob
      have hlt := GS_object_lt bmain _ hob
      dsimp only
      rw [if_pos hob]
      refine ⟨?_, ?_, ?_, ?_⟩
      · intro j hj
        rw [hed, getID_modifyID, if_neg (fun hc => hj hc.1.symm)]
      · intro hty
        rw [hed, getID_modifyID, if_pos ⟨rfl, hlt⟩, hty]
        rfl
      · intro hty
        rw [hed, getID_modifyID, if_pos ⟨rfl, hlt⟩, hty]
        rfl
      · intro h1 h2
        rw [hed, getID_modifyID, if_pos ⟨rfl, hlt⟩]
        unfold flush_recalc_bit
        rw [if_neg h1, if_neg h2]
    · intro hob j
      dsimp only
      rw [if_neg hob, hed]

/-- Witness for `flush_sets_legacy_recalc`: the object `OBCube` owns a
transform component with the operations `A -> B`; at the relation `A -> B`
the flush queues `B` and gives the object `OB_RECALC_OB`. -/
theorem flush_sets_legacy_recalc_witness :
    ¬ needs_update example_object_chain (example_object_chain.rel 0).to_ ∧
      GS (({ ids := [{ name := "OBCube" }] } : Main).getID
        (example_object_chain.node
          (example_object_chain.id_node_of (example_object_chain.rel 0).to_)).id).name = ID_OB ∧
      (example_object_chain.node (example_object_chain.node
        (example_object_chain.rel 0).to_).owner).type = DEPSNODE_TYPE_TRANSFORM ∧
      (flush_outlinks [0] { ids := [{ name := "OBCube" }] } example_object_chain []).1.getID
          (example_object_chain.node
            (example_object_chain.id_node_of (example_object_chain.rel 0).to_)).id =
        { name := "OBCube", recalc := OB_RECALC_OB } :=
  ⟨by decide, by decide, by decide,
    ((((flush_sets_legacy_recalc 0 [] { ids := [{ name := "OBCube" }] } example_object_chain
      []).2.2 (by decide)).2.2.1 (by decide)).2.2.1 (by decide)).trans (by decide)⟩

/-! ### Queries of the node builder -/

theorem assoc_find_mem {κ : Type} [DecidableEq κ] (key : κ) (l : List (κ × Nat)) (v : Nat)
    (h : assoc_find key l = some v) : (key, v) ∈ l := by
  unfold assoc_find at h
  rw [Option.map_eq_some'] at h
  obtain ⟨e, he, hv⟩ := h
  have h1 := List.find?_some he
  have h2 := List.mem_of_find?_eq_some he
  have h3 : e.1 = key := by simpa using h1
  have h4 : e = (key, v) := by
    rw [← h3, ← hv]
  rw [← h4]
  exact h2

theorem node_modifyNode_operations (g : Depsgraph) (k : Nat) (f : DepsNode → DepsNode)
    (hf : ∀ x, (f x).operations = x.operations) (m : Nat) :
    ((g.modifyNode k f).node m).operations = (g.node m).operations := by
  rw [node_modifyNode]
  split
  · exact hf _
  · rfl

theorem node_modifyNode_components (g : Depsgraph) (k : Nat) (f : DepsNode → DepsNode)
    (hf : ∀ x, (f x).components = x.components) (m : Nat) :
    ((g.modifyNode k f).node m).components = (g.node m).components := by
  rw [node_modifyNode]
  split
  · exact hf _
  · rfl

theorem node_append_self (g : Depsgraph) (x : DepsNode) :
    ({ g with nodes := g.nodes ++ [x] } : Depsgraph).node g.nodes.length = x := by
  unfold Depsgraph.node
  simp

theorem add_component_has_operation (g : Depsgraph) (id_node : Nat) (type : eDepsNode_Type)
    (name : String) (opcode : Nat) (description : String) :
    ComponentDepsNode.has_operation (IDDepsNode.add_component g id_node type name).1
        (IDDepsNode.add_component g id_node type name).2 opcode description =
      match IDDepsNode.find_component g id_node type name with
      | some c => ComponentDepsNode.has_operation g c opcode description
      | none => none := by
  unfold IDDepsNode.add_component
  cases h : IDDepsNode.find_component g id_node type name with
  | some c => rfl
  | none =>
    dsimp only
    unfold ComponentDepsNode.has_operation
    rw [node_modifyNode]
    split
    · dsimp only
      rw [node_append_self]
      rfl
    · rw [node_append_self]
      rfl

theorem add_component_spec (g : Depsgraph) (id_node : Nat) (type : eDepsNode_Type)
    (name : String) :
    (id_node < g.nodes.length →
        IDDepsNode.find_component (IDDepsNode.add_component g id_node type name).1 id_node type
          name = some (IDDepsNode.add_component g id_node type name).2) ∧
      (IDDepsNode.add_component g id_node type name).1.id_hash = g.id_hash ∧
      (IDDepsNode.add_component g id_node type name).1.nodes.length =
        g.nodes.length +
          (if IDDepsNode.find_component g id_node type name = none then 1 else 0) ∧
      ∀ c, IDDepsNode.find_component g id_node type name = some c →
        IDDepsNode.add_component g id_node type name = (g, c) := by
  unfold IDDepsNode.add_component
  cases h : IDDepsNode.find_component g id_node type name with
  | some c =>
    dsimp only
    exact ⟨fun _ => h, rfl, by simp, fun c' hc => by rw [Option.some.inj hc]⟩
  | none =>
    dsimp only
    refine ⟨?_, rfl, by simp [Depsgraph.modifyNode], fun c hc => Option.noConfusion hc⟩
    intro hlt
    have hlt1 : id_node < ({ g with nodes := g.nodes ++ [{ name := name, type := type }] } :
        Depsgraph).nodes.length := by
      simp only [List.length_append, List.length_singleton]
      omega
    unfold IDDepsNode.find_component at h ⊢
    rw [node_modifyNode, if_pos ⟨rfl, hlt1⟩, node_append_lt g _ id_node hlt]
    dsimp only
    rw [assoc_find_append, h, assoc_find_singleton]
    rfl

theorem add_id_node_spec (g : Depsgraph) (id : Nat) (name : String) :
    (g.add_id_node id name).1.find_id_node id = some (g.add_id_node id name).2 ∧
      (id_hash_valid g → (g.add_id_node id name).2 < (g.add_id_node id name).1.nodes.length) ∧
      (g.add_id_node id name).1.nodes.length =
        g.nodes.length + (if g.find_id_node id = none then 1 else 0) ∧
      (∀ i, g.find_id_node id = some i → g.add_id_node id name = (g, i)) ∧
      (g.find_id_node id = none →
        (g.add_id_node id name).2 = g.nodes.length ∧
        ∀ type nm, IDDepsNode.find_component (g.add_id_node id name).1
          (g.add_id_node id name).2 type nm = none) := by
  unfold Depsgraph.add_id_node
  cases h : g.find_id_node id with
  | some i =>
    dsimp only
    refine ⟨h, ?_, by simp, fun j hj => by rw [Option.some.inj hj], fun hc => Option.noConfusion hc⟩
    intro hv
    unfold Depsgraph.find_id_node at h
    exact hv _ (assoc_find_mem _ _ _ h)
  | none =>
    dsimp only
    refine ⟨?_, fun _ => by simp, by simp, fun i hi => Option.noConfusion hi, ?_⟩
    · unfold Depsgraph.find_id_node at h ⊢
      dsimp only
      rw [assoc_find_append, h, assoc_find_singleton]
      rfl
    · intro _
      refine ⟨rfl, ?_⟩
      intro type nm
      unfold IDDepsNode.find_component
      have hn : ({ g with
          nodes := g.nodes ++ [{ name := name, type := DEPSNODE_TYPE_ID_REF, id := id }]
          id_hash := g.id_hash ++ [(id, g.nodes.length)] } : Depsgraph).node g.nodes.length =
          { name := name, type := DEPSNODE_TYPE_ID_REF, id := id } := by
        unfold Depsgraph.node
        simp
      rw [hn]
      rfl

theorem has_operation_set_owner (g : Depsgraph) (k i c opcode : Nat) (description : String) :
    ComponentDepsNode.has_operation (g.modifyNode k fun n => { n with owner := i }) c opcode
        description = ComponentDepsNode.has_operation g c opcode description := by
  unfold ComponentDepsNode.has_operation
  rw [node_modifyNode]
  split <;> rfl

theorem find_component_set_owner (g : Depsgraph) (k i n : Nat) (type : eDepsNode_Type)
    (name : String) :
    IDDepsNode.find_component (g.modifyNode k fun x => { x with owner := i }) n type name =
      IDDepsNode.find_component g n type name := by
  unfold IDDepsNode.find_component
  rw [node_modifyNode]
  split <;> rfl

/-- C37: `DepsgraphNodeBuilder::has_operation_node` returns true exactly when,
in the graph it is called on, the datablock has an ID node, that ID node holds
a component under (comp_type, comp_name), and that component holds an
operation under (opcode, description); the argument `optype` has no influence.
The call goes through `add_component_node`: afterwards the graph has an ID
node for the datablock with a component under (comp_type, comp_name), so when
the ID node was missing the call has added two nodes, and when only the
component was missing it has added one, although it returns false. -/
theorem has_operation_node_spec (idcode_to_name : Nat → String) (bmain : Main)
    (g : Depsgraph) (id : Nat) (comp_type : eDepsNode_Type) (comp_name : String)
    (optype opcode : Nat) (description : String) :
    ((DepsgraphNodeBuilder.has_operation_node idcode_to_name bmain g id comp_type comp_name
          optype opcode description).value = true ↔
        ∃ i c o, g.find_id_node id = some i ∧
          IDDepsNode.find_component g i comp_type comp_name = some c ∧
          ComponentDepsNode.has_operation g c opcode description = some o) ∧
      (∀ optype2, DepsgraphNodeBuilder.has_operation_node idcode_to_name bmain g id comp_type
          comp_name optype2 opcode description =
        DepsgraphNodeBuilder.has_operation_node idcode_to_name bmain g id comp_type comp_name
          optype opcode description) ∧
      (id_hash_valid g → ∃ i c,
        (DepsgraphNodeBuilder.has_operation_node idcode_to_name bmain g id comp_type comp_name
          optype opcode description).graph.find_id_node id = some i ∧
        IDDepsNode.find_component
          (DepsgraphNodeBuilder.has_operation_node idcode_to_name bmain g id comp_type comp_name
            optype opcode description).graph i comp_type comp_name = some c) ∧
      (g.find_id_node id = none →
        (DepsgraphNodeBuilder.has_operation_node idcode_to_name bmain g id comp_type comp_name
          optype opcode description).value = false ∧
        (DepsgraphNodeBuilder.has_operation_node idcode_to_name bmain g id comp_type comp_name
          optype opcode description).graph.nodes.length = g.nodes.length + 2) ∧
      (∀ i, g.find_id_node id = some i →
        IDDepsNode.find_component g i comp_type comp_name = none →
        (DepsgraphNodeBuilder.has_operation_node idcode_to_name bmain g id comp_type comp_name
          optype opcode description).value = false ∧
        (DepsgraphNodeBuilder.has_operation_node idcode_to_name bmain g id comp_type comp_name
          optype opcode description).graph.nodes.length = g.nodes.length + 1) := by
  have hval : (DepsgraphNodeBuilder.has_operation_node idcode_to_name bmain g id comp_type
      comp_name optype opcode description).value =
      (match IDDepsNode.find_component
          (g.add_id_node id ((bmain.getID id).name.drop 2 ++ "[" ++
            idcode_to_name (GS (bmain.getID id).name) ++ "]")).1
          (g.add_id_node id ((bmain.getID id).name.drop 2 ++ "[" ++
            idcode_to_name (GS (bmain.getID id).name) ++ "]")).2 comp_type comp_name with
        | some c => ComponentDepsNode.has_operation
          (g.add_id_node id ((bmain.getID id).name.drop 2 ++ "[" ++
            idcode_to_name (GS (bmain.getID id).name) ++ "]")).1 c opcode description
        | none => none).isSome := by
    unfold DepsgraphNodeBuilder.has_operation_node DepsgraphNodeBuilder.add_component_node
      DepsgraphNodeBuilder.add_id_node
    dsimp only
    rw [has_operation_set_owner, add_component_has_operation]
  have hgraph : (DepsgraphNodeBuilder.has_operation_node idcode_to_name bmain g id comp_type
      comp_name optype opcode description).graph =
      (IDDepsNode.add_component
        (g.add_id_node id ((bmain.getID id).name.drop 2 ++ "[" ++
          idcode_to_name (GS (bmain.getID id).name) ++ "]")).1
        (g.add_id_node id ((bmain.getID id).name.drop 2 ++ "[" ++
          idcode_to_name (GS (bmain.getID id).name) ++ "]")).2 comp_type comp_name).1.modifyNode
        (IDDepsNode.add_component
          (g.add_id_node id ((bmain.getID id).name.drop 2 ++ "[" ++
            idcode_to_name (GS (bmain.getID id).name) ++ "]")).1
          (g.add_id_node id ((bmain.getID id).name.drop 2 ++ "[" ++
            idcode_to_name (GS (bmain.getID id).name) ++ "]")).2 comp_type comp_name).2
        fun n => { n with owner :=
          (g.add_id_node id ((bmain.getID id).name.drop 2 ++ "[" ++
            idcode_to_name (GS (bmain.getID id).name) ++ "]")).2 } := rfl
  obtain ⟨a1, a2, a3, a4, a5⟩ := add_id_node_spec g id
    ((bmain.getID id).name.drop 2 ++ "[" ++ idcode_to_name (GS (bmain.getID id).name) ++ "]")
  obtain ⟨c1, c2, c3, _⟩ := add_component_spec
    (g.add_id_node id ((bmain.getID id).name.drop 2 ++ "[" ++
      idcode_to_name (GS (bmain.getID id).name) ++ "]")).1
    (g.add_id_node id ((bmain.getID id).name.drop 2 ++ "[" ++
      idcode_to_name (GS (bmain.getID id).name) ++ "]")).2 comp_type comp_name
  rw [hval, hgraph]
  generalize g.add_id_node id ((bmain.getID id).name.drop 2 ++ "[" ++
    idcode_to_name (GS (bmain.getID id).name) ++ "]") = A at a1 a2 a3 a4 a5 c1 c2 c3 ⊢
  refine ⟨?_, fun _ => rfl, ?_, ?_, ?_⟩
  · cases hfi : g.find_id_node id with
    | some i =>
      rw [a4 i hfi]
      dsimp only
      cases hfc : IDDepsNode.find_component g i comp_type comp_name with
      | some c =>
        dsimp only
        rw [Option.isSome_iff_exists]
        constructor
        · rintro ⟨o, ho⟩
          exact ⟨i, c, o, rfl, hfc, ho⟩
        · rintro ⟨i2, c2, o, h1, h2, h3⟩
          rw [← Option.some.inj h1, hfc] at h2
          rw [← Option.some.inj h2] at h3
          exact ⟨o, h3⟩
      | none =>
        dsimp only
        constructor
        · intro hc
          cases hc
        · rintro ⟨i2, c2, o, h1, h2, _⟩
          rw [← Option.some.inj h1, hfc] at h2
          cases h2
    | none =>
      rw [(a5 hfi).2]
      dsimp only
      constructor
      · intro hc
        cases hc
      · rintro ⟨i2, c2, o, h1, _, _⟩
        cases h1
  · intro hv
    refine ⟨A.2, (IDDepsNode.add_component A.1 A.2 comp_type comp_name).2, ?_, ?_⟩
    · show assoc_find id (IDDepsNode.add_component A.1 A.2 comp_type comp_name).1.id_hash =
        some A.2
      rw [c2]
      exact a1
    · rw [find_component_set_owner]
      exact c1 (a2 hv)
  · intro hfi
    rw [(a5 hfi).2]
    refine ⟨rfl, ?_⟩
    rw [hfi] at a3
    have hl : (IDDepsNode.add_component A.1 A.2 comp_type comp_name).1.nodes.length =
        A.1.nodes.length + 1 := by
      rw [c3, (a5 hfi).2, if_pos rfl]
    show ((IDDepsNode.add_component A.1 A.2 comp_type comp_name).1.nodes.modify _ _).length = _
    rw [List.length_modify, hl, a3, if_pos rfl]
  · intro i hfi hfc
    rw [a4 i hfi] at c3 ⊢
    dsimp only at c3 ⊢
    rw [hfc]
    refine ⟨rfl, ?_⟩
    show ((IDDepsNode.add_component g i comp_type comp_name).1.nodes.modify _ _).length = _
    rw [List.length_modify, c3, hfc, if_pos rfl]

/-- Witness for `has_operation_node_spec`: in `example_id_graph` the transform
component of datablock `0` holds the operation `(5, x)`, so the query for it
returns true; the query for datablock `1`, which has no ID node, returns false
and leaves an ID node and a transform component for it in the graph. -/
theorem has_operation_node_spec_witness :
    id_hash_valid example_id_graph ∧
      (DepsgraphNodeBuilder.has_operation_node (fun _ => "Object") example_object_main
        example_id_graph 0 DEPSNODE_TYPE_TRANSFORM "" 0 5 "x").value = true ∧
      example_id_graph.find_id_node 1 = none ∧
      ((DepsgraphNodeBuilder.has_operation_node (fun _ => "Object") example_object_main
          example_id_graph 1 DEPSNODE_TYPE_TRANSFORM "" 0 5 "x").value = false ∧
        (DepsgraphNodeBuilder.has_operation_node (fun _ => "Object") example_object_main
          example_id_graph 1 DEPSNODE_TYPE_TRANSFORM "" 0 5 "x").graph.nodes.length =
          example_id_graph.nodes.length + 2) ∧
      ∃ i c,
        (DepsgraphNodeBuilder.has_operation_node (fun _ => "Object") example_object_main
          example_id_graph 1 DEPSNODE_TYPE_TRANSFORM "" 0 5 "x").graph.find_id_node 1 = some i ∧
        IDDepsNode.find_component
          (DepsgraphNodeBuilder.has_operation_node (fun _ => "Object") example_object_main
            example_id_graph 1 DEPSNODE_TYPE_TRANSFORM "" 0 5 "x").graph i
          DEPSNODE_TYPE_TRANSFORM "" = some c :=
  ⟨by decide,
    (has_operation_node_spec (fun _ => "Object") example_object_main example_id_graph 0
      DEPSNODE_TYPE_TRANSFORM "" 0 5 "x").1.2 ⟨0, 1, 2, by decide, by decide, by decide⟩,
    by decide,
    (has_operation_node_spec (fun _ => "Object") example_object_main example_id_graph 1
      DEPSNODE_TYPE_TRANSFORM "" 0 5 "x").2.2.2.1 (by decide),
    (has_operation_node_spec (fun _ => "Object") example_object_main example_id_graph 1
      DEPSNODE_TYPE_TRANSFORM "" 0 5 "x").2.2.1 (by decide)⟩

/-! ### The layers at the end of the finalize pass -/

theorem example_layers_join_edge_lt (a b : Nat)
    (h : noncyclic_op_edge example_layers_join a b) : a < b := by
  have hlt : ∀ n, (example_layers_join.node n).type = DEPSNODE_TYPE_OPERATION → n < 12 :=
    fun n hn => type_operation_lt example_layers_join n hn
  have ha := hlt a h.1
  have hb := hlt b h.2.1
  have hdec : ∀ x < 12, ∀ y < 12, noncyclic_op_edge example_layers_join x y → x < y := by
    decide
  exact hdec a ha b hb h

/-- C31, evaluated where it fails.  In `example_layers_join` the relations have
no cycle and no flag.  The finalize pass takes `a` from the stack first: it
expands `a`, which leaves `b` waiting for `c`, and pops `a` at once, giving the
ID node of `a` the layers `2` that the ID node of `b` has at that moment.
Only later, when `c` has pushed `b`, is `b` finalized and its ID node given the
layer `4` of the ID node of `d`.  At the end the ID node of `b` has the layers
`6`, and the ID node of `a` has `3`: for the relation `a -> b` the layer `4` is
missing. -/
theorem finalize_layers_not_fully_flushed :
    links_consistent example_layers_join ∧ operations_typed example_layers_join ∧
      (∀ n, ¬ Relation.TransGen (noncyclic_op_edge example_layers_join) n n) ∧
      noncyclic_op_edge example_layers_join 5 8 ∧
      example_layers_join.id_node_of 5 = 3 ∧ example_layers_join.id_node_of 8 = 6 ∧
      finalize_order (finalize_run {} example_layers_join).trace = [5, 11, 8, 2] ∧
      ∃ bmain' g', deg_graph_build_finalize {} example_layers_join = some (bmain', g') ∧
        (g'.node 3).layers = 3 ∧ (g'.node 6).layers = 6 ∧
        (g'.node 3).layers &&& (g'.node 6).layers ≠ (g'.node 6).layers := by
  have hacyclic : ∀ n, ¬ Relation.TransGen (noncyclic_op_edge example_layers_join) n n := by
    have h : ∀ a b, Relation.TransGen (noncyclic_op_edge example_layers_join) a b → a < b := by
      intro a b hab
      induction hab with
      | single h => exact example_layers_join_edge_lt _ _ h
      | tail _ h ih => exact Nat.lt_trans ih (example_layers_join_edge_lt _ _ h)
    intro n hn
    exact Nat.lt_irrefl n (h n n hn)
  refine ⟨by decide, by decide, hacyclic, by decide, by decide, by decide, by decide,
    (finalize_run {} example_layers_join).bmain, (finalize_run {} example_layers_join).graph,
    by decide, by decide, by decide, by decide⟩

/-! ### The finalize pass on a graph without cycles -/

/-- Induction along a relation without cycles whose sources are bounded: a
property that holds for a node as soon as it holds for all its predecessors
holds for every node. -/
theorem acyclic_induction_up (R : Nat → Nat → Prop) (N : Nat) (hb : ∀ a b, R a b → a < N)
    (hacyclic : ∀ n, ¬ Relation.TransGen R n n) (P : Nat → Prop)
    (h : ∀ y, (∀ a, R a y → P a) → P y) : ∀ y, P y := by
  classical
  have hlt : ∀ a y, R a y →
      ((Finset.range N).filter fun w => Relation.TransGen R w a).card <
        ((Finset.range N).filter fun w => Relation.TransGen R w y).card := by
    intro a y hay
    apply Finset.card_lt_card
    rw [Finset.ssubset_iff_of_subset]
    · refine ⟨a, ?_, ?_⟩
      · rw [Finset.mem_filter, Finset.mem_range]
        exact ⟨hb a y hay, Relation.TransGen.single hay⟩
      · rw [Finset.mem_filter]
        intro hc
        exact hacyclic a hc.2
    · intro w hw
      rw [Finset.mem_filter] at hw ⊢
      exact ⟨hw.1, Relation.TransGen.tail hw.2 hay⟩
  have key : ∀ k y, ((Finset.range N).filter fun w => Relation.TransGen R w y).card < k →
      P y := by
    intro k
    induction k with
    | zero => intro y hy; exact absurd hy (Nat.not_lt_zero _)
    | succ k ih =>
      intro y hy
      apply h
      intro a hay
      exact ih a (Nat.lt_of_lt_of_le (hlt a y hay) (Nat.le_of_lt_succ hy))
  intro y
  exact key _ y (Nat.lt_succ_self _)

theorem finalize_expand_pushes : ∀ (rels : List Nat) (g : Depsgraph) (stack : List Nat)
    (af : Bool),
    (∀ x ∈ stack, x ∈ (finalize_expand rels g stack af).2.1) ∧
      ∀ b, ((finalize_expand rels g stack af).1.node b).num_links_pending = 0 →
        (g.node b).num_links_pending = 0 ∨ b ∈ (finalize_expand rels g stack af).2.1 := by
  intro rels
  induction rels with
  | nil =>
    intro g stack af
    exact ⟨fun x hx => hx, fun b hb => Or.inl hb⟩
  | cons r rels ih =>
    intro g stack af
    rw [finalize_expand]
    dsimp only
    split
    · obtain ⟨i1, i2⟩ := ih
        (if cyclic_unset g r = true then g.modifyNode (g.rel r).to_ DepsNode.decrement_pending
          else g)
        (if ((if cyclic_unset g r = true then
              g.modifyNode (g.rel r).to_ DepsNode.decrement_pending else g).node
            (g.rel r).to_).num_links_pending = 0 then (g.rel r).to_ :: stack else stack)
        (af || (cyclic_unset g r && decide ((g.node (g.rel r).to_).num_links_pending ≤ 0)))
      have hsub : ∀ x ∈ stack, x ∈ (if ((if cyclic_unset g r = true then
              g.modifyNode (g.rel r).to_ DepsNode.decrement_pending else g).node
            (g.rel r).to_).num_links_pending = 0 then (g.rel r).to_ :: stack else stack) := by
        intro x hx
        split_ifs <;> simp [hx]
      refine ⟨fun x hx => i1 x (hsub x hx), ?_⟩
      intro b hb
      rcases i2 b hb with h | h
      · by_cases hbt : b = (g.rel r).to_
        · right
          apply i1
          rw [hbt] at h
          rw [if_pos h, hbt]
          exact List.mem_cons_self _ _
        · left
          by_cases hc : cyclic_unset g r = true
          · rw [if_pos hc, node_modifyNode, if_neg (fun hx => hbt hx.1.symm)] at h
            exact h
          · rw [if_neg hc] at h
            exact h
      · exact Or.inr h
    · exact ih g stack af

theorem finalize_step_done (g0 : Depsgraph) (s : FinalizeState) (node : Nat) (rest : List Nat)
    (hinv : FinalizeInv g0 s.graph (node :: rest) s.trace)
    (hd : FinalizeDone g0 s.graph (node :: rest) s.trace) :
    FinalizeDone g0 (finalize_step s node rest).graph (finalize_step s node rest).stack
      (finalize_step s node rest).trace := by
  unfold finalize_step
  split
  · dsimp only
    obtain ⟨e1, e2⟩ := finalize_expand_pushes (s.graph.node node).outlinks s.graph
      (node :: rest) s.assert_failed
    obtain ⟨f1, _⟩ := finalize_expand_frame (s.graph.node node).outlinks s.graph (node :: rest)
      s.assert_failed
    constructor
    · intro n hn hp
      have hp2 : ((finalize_expand (s.graph.node node).outlinks s.graph (node :: rest)
          s.assert_failed).1.node n).num_links_pending = 0 := by
        rw [node_modifyNode] at hp
        split at hp
        · exact hp
        · exact hp
      rcases e2 n hp2 with h | h
      · rcases hd.pushed n hn h with h1 | h1
        · exact Or.inl (e1 n h1)
        · exact Or.inr (List.mem_append_left _ h1)
      · exact Or.inl h
    · intro a ha
      rcases List.mem_append.1 ha with h | h
      · rcases hd.popped a h with h1 | h1
        · exact Or.inl h1
        · right
          rw [node_modifyNode]
          split
          · exact Nat.one_ne_zero
          · rw [shape_done_done f1 a]
            exact h1
      · rw [List.mem_singleton] at h
        cases h
  · rename_i hcond
    dsimp only
    have hc : agree_on node_control s.graph
        (finalize_retag s.bmain
          (finalize_layers (s.graph.node node).outlinks s.graph (s.graph.id_node_of node))
          (s.graph.id_node_of node)).2 :=
      agree_on_trans (finalize_layers_control _ _ _) (finalize_retag_control _ _ _)
    constructor
    · intro n hn hp
      rw [control_pending hc n] at hp
      rcases hd.pushed n hn hp with h | h
      · rcases List.mem_cons.1 h with h1 | h1
        · right
          rw [h1]
          exact List.mem_append_right _ (List.mem_singleton_self _)
        · exact Or.inl h1
      · exact Or.inr (List.mem_append_left _ h)
    · intro a ha
      rw [control_done hc a]
      rcases List.mem_append.1 ha with h | h
      · exact hd.popped a h
      · rw [List.mem_singleton] at h
        have ha2 : a = node := by
          cases h
          rfl
        rw [ha2]
        by_cases hz : (s.graph.node node).done = 0
        · left
          have hlen : ¬ (s.graph.node node).outlinks.length ≠ 0 := fun hx => hcond ⟨hz, hx⟩
          rw [← shape_outlinks hinv.shape node]
          exact List.length_eq_zero.1 (not_not.1 hlen)
        · exact Or.inr hz

theorem finalize_loop_done (g0 : Depsgraph) (hl : links_consistent g0) :
    ∀ (fuel : Nat) (s : FinalizeState), FinalizeInv g0 s.graph s.stack s.trace →
      FinalizeDone g0 s.graph s.stack s.trace →
      FinalizeDone g0 (finalize_loop fuel s).graph (finalize_loop fuel s).stack
        (finalize_loop fuel s).trace := by
  intro fuel
  induction fuel with
  | zero => intro s _ h; exact h
  | succ fuel ih =>
    intro s hinv hd
    rw [finalize_loop]
    cases hs : s.stack with
    | nil => simpa [hs] using hd
    | cons node rest =>
      simp only
      rw [hs] at hinv hd
      exact ih _ (finalize_step_inv g0 hl s node rest hinv)
        (finalize_step_done g0 s node rest hinv hd)

theorem finalize_start_done (bmain : Main) (g : Depsgraph) (ho : operations_typed g) :
    FinalizeDone g (finalize_start bmain g).graph (finalize_start bmain g).stack
      (finalize_start bmain g).trace := by
  have hrange : ∀ n ∈ g.operations, n < g.nodes.length := fun n hn => (ho.1 n hn).1
  obtain ⟨_, i2, _⟩ := finalize_init_spec g g.operations bmain g [] (agree_on_refl _ _) hrange
  obtain ⟨_, j2⟩ := finalize_init_pushes g g.operations bmain g [] (agree_on_refl _ _) hrange
  constructor
  · intro n hn hp
    left
    have hmem : n ∈ g.operations := ho.2 n (type_operation_lt g n hn) hn
    have hp2 : ((finalize_init g.operations bmain g []).2.1.node n).num_links_pending = 0 := hp
    rw [(i2 n (Or.inl hmem)).2] at hp2
    exact j2 n hmem (by exact_mod_cast hp2)
  · intro a ha
    cases ha

theorem example_layers_join_acyclic (n : Nat) :
    ¬ Relation.TransGen (noncyclic_op_edge example_layers_join) n n := by
  have h : ∀ a b, Relation.TransGen (noncyclic_op_edge example_layers_join) a b → a < b := by
    intro a b hab
    induction hab with
    | single h => exact example_layers_join_edge_lt _ _ h
    | tail _ h ih => exact Nat.lt_trans ih (example_layers_join_edge_lt _ _ h)
  intro hn
  exact Nat.lt_irrefl n (h n n hn)

/-- C32: on a graph with consistent link lists whose operations list holds the
operation nodes and whose operation relations with `CYCLIC` unset contain no
cycle, `deg_graph_build_finalize` returns (its stack is empty at the end),
every operation node has been finalized at least once, and every operation
node is left with `num_links_pending` equal to zero. -/
theorem finalize_completes_on_acyclic (bmain : Main) (g : Depsgraph)
    (hl : links_consistent g) (ho : operations_typed g)
    (hacyclic : ∀ n, ¬ Relation.TransGen (noncyclic_op_edge g) n n) :
    ∃ bmain' g', deg_graph_build_finalize bmain g = some (bmain', g') ∧
      (∀ n, (g.node n).type = DEPSNODE_TYPE_OPERATION →
        FinalizeEvent.finalize n ∈ (finalize_run bmain g).trace ∧
          n ∈ finalize_order (finalize_run bmain g).trace) ∧
      ∀ n, (g.node n).type = DEPSNODE_TYPE_OPERATION → (g'.node n).num_links_pending = 0 := by
  have hstack := finalize_run_terminates bmain g
  have hinv : FinalizeInv g (finalize_run bmain g).graph (finalize_run bmain g).stack
      (finalize_run bmain g).trace := finalize_invariant bmain g hl ho (finalize_fuel g)
  have hd : FinalizeDone g (finalize_run bmain g).graph (finalize_run bmain g).stack
      (finalize_run bmain g).trace :=
    finalize_loop_done g hl (finalize_fuel g) _ (finalize_start_inv bmain g ho)
      (finalize_start_done bmain g ho)
  have hall : ∀ n, (g.node n).type = DEPSNODE_TYPE_OPERATION →
      FinalizeEvent.finalize n ∈ (finalize_run bmain g).trace ∧
        ((finalize_run bmain g).graph.node n).num_links_pending = 0 := by
    apply acyclic_induction_up (noncyclic_op_edge g) g.nodes.length
      (fun a b hab => type_operation_lt g a hab.1) hacyclic
    intro y ih hy
    have hylt := type_operation_lt g y hy
    obtain ⟨_, _, _, hin⟩ := hl y hylt
    have hzero : waiting g (finalize_run bmain g).graph y = 0 := by
      unfold waiting
      rw [List.countP_eq_zero]
      intro r hr hc
      rw [Bool.and_eq_true] at hc
      obtain ⟨hc1, hc2⟩ := hc
      have hcp := hc1
      unfold counts_as_pending at hc1
      rw [decide_eq_true_eq] at hc1
      obtain ⟨k1, _, k3⟩ := hin r hr
      have hedge : noncyclic_op_edge g (g.rel r).from_ y :=
        ⟨hc1.1, hy, r, k3, k1, hc1.2⟩
      have hfin := (ih _ hedge hc1.1).1
      rcases hd.popped _ hfin with h | h
      · rw [h] at k3
        cases k3
      · exact h (of_decide_eq_true hc2)
    have hp : ((finalize_run bmain g).graph.node y).num_links_pending = 0 := by
      rw [hinv.pending y hy, hzero]
      rfl
    refine ⟨?_, hp⟩
    rcases hd.pushed y hy hp with h | h
    · rw [hstack] at h
      cases h
    · exact h
  refine ⟨(finalize_run bmain g).bmain, (finalize_run bmain g).graph, ?_, ?_, ?_⟩
  · unfold deg_graph_build_finalize
    simp [hstack]
  · intro n hn
    refine ⟨(hall n hn).1, ?_⟩
    unfold finalize_order
    rw [List.mem_filterMap]
    exact ⟨_, (hall n hn).1, rfl⟩
  · intro n hn
    exact (hall n hn).2

/-- Witness for `finalize_completes_on_acyclic`: the graph
`example_layers_join`, in which `b` waits for both `a` and `c`. -/
theorem finalize_completes_on_acyclic_witness :
    links_consistent example_layers_join ∧ operations_typed example_layers_join ∧
      (∀ n, ¬ Relation.TransGen (noncyclic_op_edge example_layers_join) n n) ∧
      finalize_order (finalize_run {} example_layers_join).trace = [5, 11, 8, 2] ∧
      ∃ bmain' g', deg_graph_build_finalize {} example_layers_join = some (bmain', g') ∧
        (∀ n, (example_layers_join.node n).type = DEPSNODE_TYPE_OPERATION →
          FinalizeEvent.finalize n ∈ (finalize_run {} example_layers_join).trace ∧
            n ∈ finalize_order (finalize_run {} example_layers_join).trace) ∧
        ∀ n, (example_layers_join.node n).type = DEPSNODE_TYPE_OPERATION →
          (g'.node n).num_links_pending = 0 :=
  ⟨by decide, by decide, example_layers_join_acyclic, by decide,
    finalize_completes_on_acyclic {} example_layers_join (by decide) (by decide)
      example_layers_join_acyclic⟩

end DEG
